import Mathlib

/-!
# ECE365 DSA II: hash table, indexed binary heap and Dijkstra

A shallow embedding of `Program 3` (`hash.cpp`, `heap.cpp`, `graph.cpp`) and the
properties of it that are established here.

Conventions of the embedding.

* `std::string` is a finite sequence of bytes: `Key = List (Fin 256)`.
* `void *` is `Ptr = Option Nat`: `none` is `nullptr`, `some a` an address.  The heap
  stores `&data[i]` in its hash table; that pointer is modelled by the slot number `i`
  (so `getPos (&data[i]) = i`), a `Vertex *` by the position of the vertex in
  `vertexList` (vertices are allocated exactly when they are appended to that list).
* `int` is `Int`, `unsigned int` is `Nat`, with the reduction modulo `2 ^ 32` written
  where the source computes in unsigned arithmetic or converts to `unsigned`.
* The result `-1` of `findPos` is `none`.
* Member functions take the object as first argument and return the new object
  together with the returned value.
* Loops are functions by recursion on a fuel argument that bounds the iterations.
-/

namespace ECE365

/-- A `std::string`: a sequence of bytes. -/
abbrev Key := List (Fin 256)

/-- A `void *`: `none` is `nullptr`. -/
abbrev Ptr := Option Nat

/-! ## hash.h / hash.cpp -/

/-- The class `hashTable::hashItem`. -/
structure hashItem where
  key : Key := []
  isOccupied : Bool := false
  isDeleted : Bool := false
  pv : Ptr := none
  deriving DecidableEq

instance : Inhabited hashItem := ⟨{}⟩

/-- The class `hashTable`.  The field `loadFactor` is the constant `0.5`. -/
structure hashTable where
  capacity : Nat
  filled : Nat
  data : List hashItem
  deriving DecidableEq

/-- The array `primeNumbers` of `hash.cpp`. -/
def primeNumbers : List Nat :=
  [53, 97, 193, 389, 769, 1543, 3079, 6151, 12289, 24593, 49157, 98317,
   196613, 393241, 786433, 1572869, 3145739, 6291469, 12582917, 25165843,
   50331653, 100663319, 201326611, 402653189, 805306457, 1610612741]

/-- The value `static_cast<unsigned int>(size)` of an `int` expression whose exact value
is `size` (the conversion is the reduction modulo `2 ^ 32`, also after a wrap-around
of the signed expression). -/
def toUnsigned (size : Int) : Nat := (size % 4294967296).toNat

/-- The function `hashTable::getPrime`: the first prime of the table greater than
`static_cast<unsigned int>(size)`, the last one when there is none. -/
def getPrime (size : Int) : Nat :=
  match primeNumbers.find? (fun prime => decide (prime > toUnsigned size)) with
  | some prime => prime
  | none => 1610612741

namespace hashTable

/-- The constructor `hashTable::hashTable(int size)`. -/
def init (size : Int) : hashTable :=
  { capacity := getPrime size
    filled := 0
    data := List.replicate (getPrime size) default }

/-- The slot `data[i]`. -/
def slot (t : hashTable) (i : Nat) : hashItem := t.data.getD i default

/-- The function `hashTable::hash`: the polynomial rolling hash, computed in `unsigned int`
and reduced modulo `capacity` at every step. -/
def hash (t : hashTable) (key : Key) : Nat :=
  key.foldl (fun hash_value c => ((hash_value * 37 + c.val) % 4294967296) % t.capacity) 0

/-- The loop of `hashTable::findPos`, from index `hashIndex`; `fuel` bounds the number of
iterations (the loop ends at the latest when the probe is back at `startIdx`). -/
def findPosLoop (t : hashTable) (key : Key) (startIdx : Nat) : Nat → Nat → Option Nat
  | 0, _ => none
  | fuel + 1, hashIndex =>
    if (t.slot hashIndex).isOccupied || (t.slot hashIndex).isDeleted then
      if (t.slot hashIndex).isOccupied && !(t.slot hashIndex).isDeleted
          && (t.slot hashIndex).key == key then
        some hashIndex
      else if (hashIndex + 1) % t.capacity == startIdx then
        none
      else
        findPosLoop t key startIdx fuel ((hashIndex + 1) % t.capacity)
    else
      none

/-- The function `hashTable::findPos`; `none` is the result `-1`. -/
def findPos (t : hashTable) (key : Key) : Option Nat :=
  findPosLoop t key (t.hash key) t.capacity (t.hash key)

/-- The probe loop of `hashTable::insert`: returns the final `hashIndex` and
`firstDeletedIndex` (`none` is `-1`). -/
def probeLoop (t : hashTable) (key : Key) : Nat → Nat → Option Nat → Nat × Option Nat
  | 0, hashIndex, firstDeletedIndex => (hashIndex, firstDeletedIndex)
  | fuel + 1, hashIndex, firstDeletedIndex =>
    if (t.slot hashIndex).isOccupied then
      let firstDeletedIndex' :=
        if (t.slot hashIndex).isDeleted && firstDeletedIndex.isNone then some hashIndex
        else firstDeletedIndex
      if (hashIndex + 1) % t.capacity == t.hash key then
        ((hashIndex + 1) % t.capacity, firstDeletedIndex')
      else
        probeLoop t key fuel ((hashIndex + 1) % t.capacity) firstDeletedIndex'
    else
      (hashIndex, firstDeletedIndex)

/-- The part of `hashTable::insert` after the rehash check: probe for a slot and
store the entry there. -/
def place (t : hashTable) (key : Key) (pv : Ptr) : hashTable :=
  let r := probeLoop t key t.capacity (t.hash key) none
  let insertIndex := match r.2 with
    | some firstDeletedIndex => firstDeletedIndex
    | none => r.1
  { capacity := t.capacity
    filled := if r.2.isNone then t.filled + 1 else t.filled
    data := t.data.set insertIndex
      { key := key, isOccupied := true, isDeleted := false, pv := pv } }

/-- The call `insert(key, pv, true)`: `hashTable::insert` with `duringRehash = true`. -/
def insertDuringRehash (t : hashTable) (key : Key) (pv : Ptr) : hashTable × Nat :=
  if (t.findPos key).isSome then (t, 1) else (t.place key pv, 0)

/-- The function `hashTable::rehash`.  The argument of `getPrime` is `2 * oldCapacity`. -/
def rehash (t : hashTable) : hashTable × Bool :=
  let newCapacity := getPrime (2 * (t.capacity : Int))
  if newCapacity ≤ t.capacity then (t, false)
  else
    (t.data.foldl
      (fun acc item =>
        if item.isOccupied && !item.isDeleted then (acc.insertDuringRehash item.key item.pv).1
        else acc)
      { capacity := newCapacity, filled := 0, data := List.replicate newCapacity default },
     true)

/-- The function `hashTable::insert`: result `0` on success, `1` if the key exists, `2` if
rehashing fails.  `static_cast<int>(capacity * loadFactor)` is `capacity / 2`. -/
def insert (t : hashTable) (key : Key) (pv : Ptr) (duringRehash : Bool) : hashTable × Nat :=
  if (t.findPos key).isSome then (t, 1)
  else if !duringRehash && decide (t.filled ≥ t.capacity / 2) then
    if (t.rehash).2 then ((t.rehash).1.place key pv, 0) else (t, 2)
  else (t.place key pv, 0)

/-- The function `hashTable::contains`. -/
def contains (t : hashTable) (key : Key) : Bool := (t.findPos key).isSome

/-- The function `hashTable::getPointer`: the returned pointer and the value written to `*b`. -/
def getPointer (t : hashTable) (key : Key) : Ptr × Bool :=
  match t.findPos key with
  | some pos => ((t.slot pos).pv, true)
  | none => (none, false)

/-- The function `hashTable::setPointer`. -/
def setPointer (t : hashTable) (key : Key) (pv : Ptr) : hashTable × Nat :=
  match t.findPos key with
  | none => (t, 1)
  | some pos => ({ t with data := t.data.set pos { t.slot pos with pv := pv } }, 0)

/-- The function `hashTable::remove`. -/
def remove (t : hashTable) (key : Key) : hashTable × Bool :=
  match t.findPos key with
  | none => (t, false)
  | some pos => ({ t with data := t.data.set pos { t.slot pos with isDeleted := true } }, true)

/-! ### Specification of the hash table -/

/-- The invariant of the representation of a hash table: the storage has `capacity`
slots, a deleted slot is occupied, a live key is reached from its hash index through
occupied slots only, a key is live in one slot at most, and `filled` counts the occupied
slots. -/
structure HInv (t : hashTable) : Prop where
  cap_pos : 0 < t.capacity
  size : t.data.length = t.capacity
  del_occ : ∀ i, (t.slot i).isDeleted = true → (t.slot i).isOccupied = true
  chain : ∀ i, i < t.capacity → (t.slot i).isOccupied = true → (t.slot i).isDeleted = false →
    ∃ d, d < t.capacity ∧ (t.hash (t.slot i).key + d) % t.capacity = i ∧
      ∀ e, e < d → (t.slot ((t.hash (t.slot i).key + e) % t.capacity)).isOccupied = true
  uniq : ∀ i j, i < t.capacity → j < t.capacity →
    (t.slot i).isOccupied = true → (t.slot i).isDeleted = false →
    (t.slot j).isOccupied = true → (t.slot j).isDeleted = false →
    (t.slot i).key = (t.slot j).key → i = j
  filled_eq : t.filled = t.data.countP (fun it => it.isOccupied)

/-- The value stored for a key, if the key is in the table: the abstract content of the
table as a finite map. -/
def lookup (t : hashTable) (key : Key) : Option Ptr :=
  (t.findPos key).map (fun pos => (t.slot pos).pv)

/-- The slot `x` is reached by the probe that starts at index `h` through occupied slots. -/
def Reach (t : hashTable) (h x : Nat) : Prop :=
  ∃ d, d < t.capacity ∧ (h + d) % t.capacity = x ∧
    ∀ e, e < d → (t.slot ((h + e) % t.capacity)).isOccupied = true

/-- The index at which `place` stores the entry. -/
def insertIndex (t : hashTable) (key : Key) : Nat :=
  match (t.probeLoop key t.capacity (t.hash key) none).2 with
  | some firstDeletedIndex => firstDeletedIndex
  | none => (t.probeLoop key t.capacity (t.hash key) none).1

/-- The first live entry with the given key in a sequence of slots. -/
def liveLookup (l : List hashItem) (key : Key) : Option Ptr :=
  (l.find? (fun it => it.isOccupied && !it.isDeleted && it.key == key)).map (fun it => it.pv)

/-- The empty storage that `rehash` allocates. -/
def fresh (n : Nat) : hashTable :=
  { capacity := n, filled := 0, data := List.replicate n default }

/-- The body of the loop of `rehash`. -/
def rehashStep (acc : hashTable) (item : hashItem) : hashTable :=
  if item.isOccupied && !item.isDeleted then (acc.insertDuringRehash item.key item.pv).1
  else acc

/-- The invariant of a table between the public operations (with `duringRehash = false`):
the representation invariant, a capacity of the ladder, and at most `capacity / 2`
occupied slots. -/
structure PInv (t : hashTable) : Prop where
  inv : HInv t
  prime : t.capacity ∈ primeNumbers
  load : t.filled ≤ t.capacity / 2

end hashTable

end ECE365

namespace ECE365

/-! ## heap.h / heap.cpp -/

/-- The class `heap::node`. -/
structure node where
  id : Key := []
  key : Int := 0
  pData : Ptr := none
  deriving DecidableEq

instance : Inhabited node := ⟨{}⟩

/-- The class `heap`.  The hash table `mapping` stores for an id the pointer `&data[i]`
to its node, which is the slot number `i`. -/
structure heap where
  currentSize : Nat
  capacity : Nat
  data : List node
  mapping : hashTable
  deriving DecidableEq

/-- The constant `INT_MIN` of `<climits>`. -/
def INT_MIN : Int := -2147483648

namespace heap

/-- The constructor `heap::heap(int capacity)`, for a capacity that is not negative. -/
def init (capacity : Nat) : heap :=
  { currentSize := 0
    capacity := capacity
    data := List.replicate (capacity + 1) default
    mapping := hashTable.init ((capacity : Int) * 2) }

/-- The node `data[i]`. -/
def slot (h : heap) (i : Nat) : node := h.data.getD i default

/-- The function `heap::getPos`: the offset of the node from `&data[0]`. -/
def getPos (pn : Nat) : Nat := pn

/-- The loop of `heap::percolateUp`: returns the heap and the final `posCur`. -/
def percolateUpLoop (tmp : node) : Nat → heap → Nat → heap × Nat
  | 0, h, posCur => (h, posCur)
  | fuel + 1, h, posCur =>
    if posCur > 1 ∧ tmp.key < (h.slot (posCur / 2)).key then
      percolateUpLoop tmp fuel
        { h with
          data := h.data.set posCur (h.slot (posCur / 2))
          mapping := (h.mapping.setPointer (h.slot (posCur / 2)).id (some posCur)).1 }
        (posCur / 2)
    else (h, posCur)

/-- The function `heap::percolateUp`. -/
def percolateUp (h : heap) (posCur : Nat) : heap :=
  let r := percolateUpLoop (h.slot posCur) posCur h posCur
  { r.1 with
    data := r.1.data.set r.2 (h.slot posCur)
    mapping := (r.1.mapping.setPointer (h.slot posCur).id (some r.2)).1 }

/-- The child that the loop of `heap::percolateDown` compares with: the right one if it
exists and has the smaller key. -/
def minChild (h : heap) (posCur : Nat) : Nat :=
  if posCur * 2 ≠ h.currentSize ∧ (h.slot (posCur * 2 + 1)).key < (h.slot (posCur * 2)).key then
    posCur * 2 + 1
  else posCur * 2

/-- The loop of `heap::percolateDown`: returns the heap and the final `posCur`. -/
def percolateDownLoop (tmp : node) : Nat → heap → Nat → heap × Nat
  | 0, h, posCur => (h, posCur)
  | fuel + 1, h, posCur =>
    if posCur * 2 ≤ h.currentSize then
      if tmp.key ≤ (h.slot (h.minChild posCur)).key then (h, posCur)
      else
        percolateDownLoop tmp fuel
          { h with
            data := h.data.set posCur (h.slot (h.minChild posCur))
            mapping :=
              (h.mapping.setPointer (h.slot (h.minChild posCur)).id (some posCur)).1 }
          (h.minChild posCur)
    else (h, posCur)

/-- The function `heap::percolateDown`. -/
def percolateDown (h : heap) (posCur : Nat) : heap :=
  let r := percolateDownLoop (h.slot posCur) h.currentSize h posCur
  { r.1 with
    data := r.1.data.set r.2 (h.slot posCur)
    mapping := (r.1.mapping.setPointer (h.slot posCur).id (some r.2)).1 }

/-- The function `heap::insert`: result `0` on success, `1` if the heap is full, `2` if the
id exists, `3` if the insertion into the hash table fails. -/
def insert (h : heap) (id : Key) (key : Int) (pv : Ptr) : heap × Nat :=
  if h.currentSize ≥ h.capacity then (h, 1)
  else if h.mapping.contains id then (h, 2)
  else
    let h1 : heap :=
      { h with
        currentSize := h.currentSize + 1
        data := h.data.set (h.currentSize + 1) { id := id, key := key, pData := pv }
        mapping := (h.mapping.insert id (some (h.currentSize + 1)) false).1 }
    if (h.mapping.insert id (some (h.currentSize + 1)) false).2 ≠ 0 then (h1, 3)
    else (h1.percolateUp h1.currentSize, 0)

/-- The function `heap::setKey`: result `0` on success, `1` if the id is not found. -/
def setKey (h : heap) (id : Key) (key : Int) : heap × Nat :=
  if !h.mapping.contains id then (h, 1)
  else
    match (h.mapping.getPointer id).1 with
    | none => (h, 1)
    | some pn =>
      let h1 : heap := { h with data := h.data.set pn { h.slot pn with key := key } }
      if key > (h.slot pn).key then (h1.percolateDown (getPos pn), 0)
      else (h1.percolateUp (getPos pn), 0)

/-- The function `heap::deleteMin`: the new heap, the result (`0` on success, `1` if the
heap is empty) and the node whose fields are written to `*pId`, `*pKey` and `*ppData`. -/
def deleteMin (h : heap) : heap × Nat × Option node :=
  if h.currentSize = 0 then (h, 1, none)
  else
    let h1 : heap := { h with mapping := (h.mapping.remove (h.slot 1).id).1 }
    let h2 : heap :=
      if h.currentSize > 1 then
        { h1 with
          data := h1.data.set 1 (h1.slot h.currentSize)
          mapping := (h1.mapping.setPointer (h1.slot h.currentSize).id (some 1)).1 }
      else h1
    let h3 : heap := { h2 with currentSize := h.currentSize - 1 }
    (h3.percolateDown 1, 0, some (h.slot 1))

/-- The function `heap::remove`: the new heap, the result (`0` on success, `1` if the id is
not found) and the values written to `*pKey` and `*ppData`. -/
def remove (h : heap) (id : Key) : heap × Nat × Option (Int × Ptr) :=
  if !h.mapping.contains id then (h, 1, none)
  else
    match (h.mapping.getPointer id).1 with
    | none => (h, 1, none)
    | some pn =>
      (((h.setKey id INT_MIN).1.deleteMin).1, 0, some ((h.slot pn).key, (h.slot pn).pData))

end heap

end ECE365

namespace ECE365

namespace heap

/-! ### Specification of the heap -/

/-- The nodes of the heap: the contents of the slots `1 .. currentSize`, in this order. -/
def nodes (h : heap) : List node :=
  (List.range h.currentSize).map (fun i => h.slot (i + 1))

/-- The ids of the nodes of the heap. -/
def ids (h : heap) : List Key := h.nodes.map (fun n => n.id)

/-- The heap-order property: the key of a slot is at least the key of its parent. -/
def Ordered (h : heap) : Prop :=
  ∀ i, 2 ≤ i → i ≤ h.currentSize → (h.slot (i / 2)).key ≤ (h.slot i).key

/-- The hash table maps the id of every slot `1 .. currentSize` to that slot. -/
def Indexed (h : heap) : Prop :=
  ∀ i, 1 ≤ i → i ≤ h.currentSize → h.mapping.lookup (h.slot i).id = some (some i)

/-- The hash table contains no other key than the ids of the slots `1 .. currentSize`. -/
def Onto (h : heap) : Prop :=
  ∀ x, h.mapping.lookup x ≠ none → ∃ i, 1 ≤ i ∧ i ≤ h.currentSize ∧ (h.slot i).id = x

/-- The invariant of the heap. -/
structure Inv (h : heap) : Prop where
  pinv : h.mapping.PInv
  size : h.data.length = h.capacity + 1
  bound : h.currentSize ≤ h.capacity
  ordered : h.Ordered
  indexed : h.Indexed
  onto : h.Onto

/-- The node `n` is in a slot `1 .. currentSize` other than `pos`. -/
def HoleMem (h : heap) (pos : Nat) (n : node) : Prop :=
  ∃ i, 1 ≤ i ∧ i ≤ h.currentSize ∧ i ≠ pos ∧ h.slot i = n

/-- The state of the heap during a percolation, as far as the hash table is concerned: the
slot `pos` is a hole, whose node `tmp` is held aside. -/
structure HoleBase (h : heap) (pos : Nat) (tmp : node) : Prop where
  pinv : h.mapping.PInv
  size : h.data.length = h.capacity + 1
  bound : h.currentSize ≤ h.capacity
  pos_ge : 1 ≤ pos
  pos_le : pos ≤ h.currentSize
  index : ∀ i, 1 ≤ i → i ≤ h.currentSize → i ≠ pos →
    h.mapping.lookup (h.slot i).id = some (some i)
  tmp_mapped : h.mapping.lookup tmp.id ≠ none
  tmp_fresh : ∀ i, 1 ≤ i → i ≤ h.currentSize → i ≠ pos → (h.slot i).id ≠ tmp.id
  onto : ∀ x, h.mapping.lookup x ≠ none →
    x = tmp.id ∨ ∃ i, 1 ≤ i ∧ i ≤ h.currentSize ∧ i ≠ pos ∧ (h.slot i).id = x

/-- The order of the keys during `percolateUp`, with the hole at `pos`. -/
structure UpOrd (h : heap) (pos : Nat) (tmp : node) : Prop where
  away : ∀ i, 2 ≤ i → i ≤ h.currentSize → i ≠ pos → i / 2 ≠ pos →
    (h.slot (i / 2)).key ≤ (h.slot i).key
  below : ∀ c, c ≤ h.currentSize → c / 2 = pos → tmp.key ≤ (h.slot c).key
  across : ∀ c, c ≤ h.currentSize → c / 2 = pos → 2 ≤ pos →
    (h.slot (pos / 2)).key ≤ (h.slot c).key

/-- The order of the keys during `percolateDown`, with the hole at `pos`. -/
structure DownOrd (h : heap) (pos : Nat) (tmp : node) : Prop where
  away : ∀ i, 2 ≤ i → i ≤ h.currentSize → i ≠ pos → i / 2 ≠ pos →
    (h.slot (i / 2)).key ≤ (h.slot i).key
  above : 2 ≤ pos → (h.slot (pos / 2)).key ≤ tmp.key
  across : ∀ c, c ≤ h.currentSize → c / 2 = pos → 2 ≤ pos →
    (h.slot (pos / 2)).key ≤ (h.slot c).key

/-- What a percolation does not change: the sizes of the heap and of its hash table, the
number of occupied slots of the hash table and the absence of deleted slots. -/
structure Frame (h h' : heap) : Prop where
  currentSize : h'.currentSize = h.currentSize
  capacity : h'.capacity = h.capacity
  length : h'.data.length = h.data.length
  mcap : h'.mapping.capacity = h.mapping.capacity
  mfilled : h'.mapping.filled = h.mapping.filled
  nodel : (∀ i, (h.mapping.slot i).isDeleted = false) →
    ∀ i, (h'.mapping.slot i).isDeleted = false

/-- The hash table of the heap cannot take a new key: it has the largest capacity and is
filled up to the load threshold, so that `rehash` fails. -/
def Full (h : heap) : Prop :=
  h.mapping.capacity = 1610612741 ∧ h.mapping.filled ≥ h.mapping.capacity / 2

/-- The part of the invariant of the heap that an `insert` returning `3` does not break:
every key of the hash table is the id of exactly one slot `1 .. currentSize`, and the hash
table maps it to this slot. -/
structure WInv (h : heap) : Prop where
  pinv : h.mapping.PInv
  size : h.data.length = h.capacity + 1
  bound : h.currentSize ≤ h.capacity
  mapped : ∀ x, h.mapping.lookup x ≠ none →
    ∃ i, h.mapping.lookup x = some (some i) ∧ 1 ≤ i ∧ i ≤ h.currentSize ∧ (h.slot i).id = x ∧
      ∀ j, 1 ≤ j → j ≤ h.currentSize → (h.slot j).id = x → j = i

/-- The state `WInv` during a percolation, with the hole at `pos` and the node `tmp` held
aside. -/
structure WHole (h : heap) (pos : Nat) (tmp : node) : Prop where
  pinv : h.mapping.PInv
  size : h.data.length = h.capacity + 1
  bound : h.currentSize ≤ h.capacity
  pos_ge : 1 ≤ pos
  pos_le : pos ≤ h.currentSize
  mapped : ∀ x, h.mapping.lookup x ≠ none →
    (x = tmp.id ∧ ∀ j, 1 ≤ j → j ≤ h.currentSize → j ≠ pos → (h.slot j).id ≠ x) ∨
    (x ≠ tmp.id ∧ ∃ i, h.mapping.lookup x = some (some i) ∧ 1 ≤ i ∧ i ≤ h.currentSize ∧
      i ≠ pos ∧ (h.slot i).id = x ∧
      ∀ j, 1 ≤ j → j ≤ h.currentSize → j ≠ pos → (h.slot j).id = x → j = i)

/-- What holds of every heap reached by public operations: the invariant, or, after an
`insert` has returned `3`, the weak invariant with a hash table that takes no new key. -/
def Sane (h : heap) : Prop := Inv h ∨ (WInv h ∧ Full h)

/-- One step of a percolation: the node of slot `q` is moved into the hole `pos`. -/
def move (h : heap) (pos q : Nat) : heap :=
  { h with
    data := h.data.set pos (h.slot q)
    mapping := (h.mapping.setPointer (h.slot q).id (some pos)).1 }

/-- The end of a percolation: the node `tmp` is stored in the hole `pos`. -/
def fill (h : heap) (pos : Nat) (tmp : node) : heap :=
  { h with
    data := h.data.set pos tmp
    mapping := (h.mapping.setPointer tmp.id (some pos)).1 }

/-- The state of `insert` after the node is appended and stored in the hash table. -/
def appended (h : heap) (id : Key) (key : Int) (pv : Ptr) : heap :=
  { h with
    currentSize := h.currentSize + 1
    data := h.data.set (h.currentSize + 1) { id := id, key := key, pData := pv }
    mapping := (h.mapping.insert id (some (h.currentSize + 1)) false).1 }

/-- The state of `setKey` after the key of the node in slot `pn` is replaced. -/
def keyed (h : heap) (pn : Nat) (key : Int) : heap :=
  { h with data := h.data.set pn { h.slot pn with key := key } }

/-- The state of `deleteMin` before the call of `percolateDown`. -/
def beheaded (h : heap) : heap :=
  let h1 : heap := { h with mapping := (h.mapping.remove (h.slot 1).id).1 }
  let h2 : heap :=
    if h.currentSize > 1 then
      { h1 with
        data := h1.data.set 1 (h1.slot h.currentSize)
        mapping := (h1.mapping.setPointer (h1.slot h.currentSize).id (some 1)).1 }
    else h1
  { h2 with currentSize := h.currentSize - 1 }

end heap

end ECE365

namespace ECE365

/-! ## Sequences of calls of the public operations -/

/-- A call of a public operation of `hashTable` that changes the table; `insert` is called
with `duringRehash = false`. -/
inductive TableCall
  | insert (key : Key) (pv : Ptr)
  | setPointer (key : Key) (pv : Ptr)
  | remove (key : Key)
  deriving DecidableEq

namespace TableCall

/-- The key that the call names. -/
def key : TableCall → Key
  | insert key _ => key
  | setPointer key _ => key
  | remove key => key

def isInsert : TableCall → Bool
  | insert _ _ => true
  | _ => false

def isSetPointer : TableCall → Bool
  | setPointer _ _ => true
  | _ => false

/-- The table after the call. -/
def run (c : TableCall) (t : hashTable) : hashTable :=
  match c with
  | insert key pv => (t.insert key pv false).1
  | setPointer key pv => (t.setPointer key pv).1
  | remove key => (t.remove key).1

/-- The value that the call returns, the `bool` of `remove` as `1` and `0`. -/
def result (c : TableCall) (t : hashTable) : Nat :=
  match c with
  | insert key pv => (t.insert key pv false).2
  | setPointer key pv => (t.setPointer key pv).2
  | remove key => if (t.remove key).2 then 1 else 0

/-- The call is an `insert` that returns `2`. -/
def returns2 (c : TableCall) (t : hashTable) : Bool :=
  c.isInsert && c.result t == 2

end TableCall

/-- The table after a sequence of calls. -/
def runCalls (t : hashTable) (cs : List TableCall) : hashTable :=
  cs.foldl (fun t c => c.run t) t

/-- The calls of a sequence, each with the value it returns. -/
def trace : hashTable → List TableCall → List (TableCall × Nat)
  | _, [] => []
  | t, c :: cs => (c, c.result t) :: trace (c.run t) cs

/-- No `insert` of the sequence returns `2`. -/
def noneReturns2 : hashTable → List TableCall → Bool
  | _, [] => true
  | t, c :: cs => !c.returns2 t && noneReturns2 (c.run t) cs

/-- The last call of the sequence that names the key `k`. -/
def lastNaming (k : Key) (cs : List TableCall) : Option TableCall :=
  (cs.filter (fun c => c.key == k)).getLast?

/-- The effect of one call, with the value it returned, on the value that is expected for
the key `k`: a successful `insert` or `setPointer` (result `0`) of `k` gives its value, a
`remove` of `k` makes `k` absent. -/
def expectedStep (k : Key) (cur : Option Ptr) : TableCall × Nat → Option Ptr
  | (TableCall.insert key pv, r) => if key = k ∧ r = 0 then some pv else cur
  | (TableCall.setPointer key pv, r) => if key = k ∧ r = 0 then some pv else cur
  | (TableCall.remove key, _) => if key = k then none else cur

/-- The value expected for the key `k` after a sequence of calls on a new table: the value
given by the most recent successful `insert` or `setPointer` of `k` since `k` was last
absent, `none` if `k` is absent. -/
def expected (k : Key) (tr : List (TableCall × Nat)) : Option Ptr :=
  tr.foldl (expectedStep k) none

/-- A call of a public operation of `heap`. -/
inductive HeapCall
  | insert (id : Key) (key : Int) (pv : Ptr)
  | setKey (id : Key) (key : Int)
  | deleteMin
  | remove (id : Key)
  deriving DecidableEq

namespace HeapCall

/-- The heap after the call. -/
def run (c : HeapCall) (h : heap) : heap :=
  match c with
  | insert id key pv => (h.insert id key pv).1
  | setKey id key => (h.setKey id key).1
  | deleteMin => (h.deleteMin).1
  | remove id => (h.remove id).1

/-- The call is an `insert` that returns `3`. -/
def returns3 (c : HeapCall) (h : heap) : Bool :=
  match c with
  | insert id key pv => (h.insert id key pv).2 == 3
  | _ => false

end HeapCall

/-- The heap after a sequence of calls. -/
def runHeapCalls (h : heap) (cs : List HeapCall) : heap :=
  cs.foldl (fun h c => c.run h) h

/-- No `insert` of the sequence returns `3`. -/
def noneReturns3 : heap → List HeapCall → Bool
  | _, [] => true
  | h, c :: cs => !c.returns3 h && noneReturns3 (c.run h) cs

/-- The id of four bytes that is the number `j` in base 256. -/
def idOf (j : Nat) : Key :=
  [⟨j % 256, Nat.mod_lt _ (by decide)⟩, ⟨j / 256 % 256, Nat.mod_lt _ (by decide)⟩,
   ⟨j / 65536 % 256, Nat.mod_lt _ (by decide)⟩, ⟨j / 16777216 % 256, Nat.mod_lt _ (by decide)⟩]

/-- The calls `insert(idOf 0, 0)`, ..., `insert(idOf (n - 1), 0)`. -/
def manyInserts (n : Nat) : List HeapCall :=
  (List.range n).map (fun j => HeapCall.insert (idOf j) 0 none)

/-- The calls `manyInserts n` followed by `insert(idOf n, -1)`. -/
def failingCalls (n : Nat) : List HeapCall :=
  manyInserts n ++ [HeapCall.insert (idOf n) (-1) none]

namespace heap

/-- A heap reached from `heap(capacity)` by public operations none of which returned `3`
(the failure of the insertion into the hash table). -/
def Reachable (h : heap) : Prop :=
  ∃ (capacity : Nat) (cs : List HeapCall),
    noneReturns3 (init capacity) cs = true ∧ runHeapCalls (init capacity) cs = h

/-- Calling `deleteMin` until it returns `1`: the nodes returned by the successful calls, in
the order of the calls; `none` if `fuel` calls do not empty the heap. -/
def drain : Nat → heap → Option (List node)
  | 0, _ => none
  | fuel + 1, h =>
    if (h.deleteMin).2.1 = 0 then
      match (h.deleteMin).2.2, drain fuel (h.deleteMin).1 with
      | some n, some l => some (n :: l)
      | _, _ => none
    else some []

end heap

/-- The state of the heap after the calls `manyInserts n`, for a heap whose hash table has
the largest capacity from the start. -/
structure ManyState (capacity : Nat) (n : Nat) (h : heap) : Prop where
  inv : h.Inv
  size : h.currentSize = n
  cap : h.capacity = capacity
  mcap : h.mapping.capacity = 1610612741
  mfilled : h.mapping.filled = n
  nodel : ∀ i, (h.mapping.slot i).isDeleted = false
  ids : ∀ x, x ∈ h.ids → ∃ j, j < n ∧ x = idOf j
  keys : ∀ m, m ∈ h.nodes → m.key = 0

end ECE365

namespace ECE365

/-! ## graph.h / graph.cpp -/

/-- The constant `INT32_MAX`. -/
def INT32_MAX : Int := 2147483647

/-- The value of an `int` expression whose exact value is `x`, after a wrap-around. -/
def wrapInt (x : Int) : Int := (x + 2147483648) % 4294967296 - 2147483648

/-- The struct `Graph::Edge`; the pointer `destination` is the position of the vertex in
`vertexList`. -/
structure Edge where
  weight : Int
  destination : Nat
  deriving DecidableEq

/-- The struct `Graph::Vertex`; the pointer `previous` is `none` or the position of the
vertex in `vertexList`. -/
structure Vertex where
  id : Key := []
  distance : Int := INT32_MAX
  known : Bool := false
  previous : Option Nat := none
  adjList : List Edge := []
  deriving DecidableEq

instance : Inhabited Vertex := ⟨{}⟩

/-- The class `Graph`. -/
structure Graph where
  vertices : hashTable
  vertexList : List Vertex
  deriving DecidableEq

/-- A line of the input file: the arguments of a call of `insertEdge`. -/
structure Triple where
  sourceId : Key
  destId : Key
  weight : Int
  deriving DecidableEq

namespace Graph

/-- The graph of the constructor before `loadGraph` reads the file: no vertex, and the hash
table `vertices(100000)`. -/
def init : Graph :=
  { vertices := hashTable.init 100000, vertexList := [] }

/-- The vertex `*v` for the pointer `v`. -/
def vertex (vs : List Vertex) (v : Nat) : Vertex := vs.getD v default

/-- The function `Graph::getOrCreateVertex`; the new vertex is allocated at the end of
`vertexList`. -/
def getOrCreateVertex (g : Graph) (name : Key) : Graph × Ptr :=
  if (g.vertices.getPointer name).2 then (g, (g.vertices.getPointer name).1)
  else
    ({ vertices := (g.vertices.insert name (some g.vertexList.length) false).1
       vertexList := g.vertexList ++ [{ id := name }] },
     some g.vertexList.length)

/-- The function `Graph::insertEdge`. -/
def insertEdge (g : Graph) (sourceId destId : Key) (weight : Int) : Graph :=
  let r1 := g.getOrCreateVertex sourceId
  let r2 := r1.1.getOrCreateVertex destId
  match r1.2, r2.2 with
  | some v1, some v2 =>
    { r2.1 with
      vertexList := r2.1.vertexList.set v1
        { vertex r2.1.vertexList v1 with
          adjList := (vertex r2.1.vertexList v1).adjList ++
            [{ weight := weight, destination := v2 }] } }
  | _, _ => r2.1

/-- The loop of `Graph::loadGraph` over the lines of the file. -/
def loadGraph (g : Graph) (lines : List Triple) : Graph :=
  lines.foldl (fun g t => g.insertEdge t.sourceId t.destId t.weight) g

/-- The graph that the constructor `Graph::Graph` builds from the lines of the file. -/
def build (lines : List Triple) : Graph := init.loadGraph lines

/-- The function `Graph::isValidVertex`. -/
def isValidVertex (g : Graph) (vertexId : Key) : Bool := g.vertices.contains vertexId

/-- The body of the loop over the edges of `u` in `Graph::dijkstra`, on the vertices and
the heap. -/
def relaxEdge (u : Nat) (st : List Vertex × heap) (edge : Edge) : List Vertex × heap :=
  if !(vertex st.1 edge.destination).known &&
      decide (wrapInt ((vertex st.1 u).distance + edge.weight)
        < (vertex st.1 edge.destination).distance) then
    let vs := st.1.set edge.destination
      { vertex st.1 edge.destination with
        distance := wrapInt ((vertex st.1 u).distance + edge.weight)
        previous := some u }
    if (st.2.insert (vertex vs edge.destination).id (vertex vs edge.destination).distance
        (some edge.destination)).2 = 2 then
      (vs, ((st.2.insert (vertex vs edge.destination).id (vertex vs edge.destination).distance
        (some edge.destination)).1.setKey (vertex vs edge.destination).id
          (vertex vs edge.destination).distance).1)
    else
      (vs, (st.2.insert (vertex vs edge.destination).id (vertex vs edge.destination).distance
        (some edge.destination)).1)
  else st

/-- The main loop of `Graph::dijkstra`; `none` if `fuel` iterations do not empty the heap. -/
def dijkstraLoop : Nat → List Vertex × heap → Option (List Vertex)
  | 0, _ => none
  | fuel + 1, st =>
    if st.2.currentSize > 0 then
      if (st.2.deleteMin).2.1 ≠ 0 then some st.1
      else
        match (st.2.deleteMin).2.2 with
        | none => some st.1
        | some n =>
          match n.pData with
          | none => dijkstraLoop fuel (st.1, (st.2.deleteMin).1)
          | some u =>
            if (vertex st.1 u).known then dijkstraLoop fuel (st.1, (st.2.deleteMin).1)
            else
              dijkstraLoop fuel
                ((vertex st.1 u).adjList.foldl (relaxEdge u)
                  (st.1.set u { vertex st.1 u with known := true }, (st.2.deleteMin).1))
    else some st.1

/-- The vertices after the first loop of `Graph::dijkstra`. -/
def resetAll (vs : List Vertex) : List Vertex :=
  vs.map (fun v => { v with distance := INT32_MAX, known := false, previous := none })

/-- The function `Graph::dijkstra`; `none` if `fuel` iterations of the main loop do not
empty the heap. -/
def dijkstra (g : Graph) (startVertex : Key) (fuel : Nat) : Option Graph :=
  match (g.vertices.getPointer startVertex).1 with
  | none => some g
  | some source =>
    let vs := (resetAll g.vertexList).set source
      { vertex (resetAll g.vertexList) source with distance := 0 }
    if ((heap.init vs.length).insert (vertex vs source).id (vertex vs source).distance
        (some source)).2 ≠ 0 then
      some { g with vertexList := vs }
    else
      (dijkstraLoop fuel
        (vs, ((heap.init vs.length).insert (vertex vs source).id (vertex vs source).distance
          (some source)).1)).map
        (fun vs' => { g with vertexList := vs' })

end Graph

end ECE365

namespace ECE365

/-! ### Specification of the graph and of the shortest paths -/

/-- A directed walk from `s` in a graph with weighted edges `E u c v` (an edge from `u` to `v`
of weight `c`): its last vertex, its total weight, and its vertices, the last one first. -/
inductive Walk {α : Type} (E : α → Int → α → Prop) (s : α) : α → Int → List α → Prop
  | nil : Walk E s s 0 [s]
  | snoc {u : α} {w : Int} {p : List α} (c : Int) (v : α) :
      Walk E s u w p → E u c v → Walk E s v (w + c) (v :: p)

/-- The vertex `v` is reachable from `s` by a directed path. -/
def Reachable {α : Type} (E : α → Int → α → Prop) (s v : α) : Prop :=
  ∃ w p, Walk E s v w p

/-- The number `d` is the minimum total weight over all directed paths from `s` to `v`: it
is the weight of a path without repeated vertex, and no directed walk from `s` to `v` has
a smaller weight. -/
def IsMinDist {α : Type} (E : α → Int → α → Prop) (s v : α) (d : Int) : Prop :=
  (∃ p, Walk E s v d p ∧ p.Nodup) ∧ ∀ w p, Walk E s v w p → d ≤ w

/-- The edges of the graph given by the lines of the file, on the names of the vertices. -/
def lineEdge (lines : List Triple) (a : Key) (c : Int) (b : Key) : Prop :=
  ({ sourceId := a, destId := b, weight := c } : Triple) ∈ lines

/-- The name is the source or the destination of a line. -/
def IsName (lines : List Triple) (a : Key) : Prop :=
  ∃ t, t ∈ lines ∧ (t.sourceId = a ∨ t.destId = a)

/-- The name of eight letters `a` .. `p` whose positions in the alphabet are the digits of
the number `j` in base 16, the lowest first. -/
def nameOf (j : Nat) : Key :=
  [⟨97 + j % 16, by omega⟩, ⟨97 + j / 16 % 16, by omega⟩, ⟨97 + j / 256 % 16, by omega⟩,
   ⟨97 + j / 4096 % 16, by omega⟩, ⟨97 + j / 65536 % 16, by omega⟩,
   ⟨97 + j / 1048576 % 16, by omega⟩, ⟨97 + j / 16777216 % 16, by omega⟩,
   ⟨97 + j / 268435456 % 16, by omega⟩]

/-- The lines `nameOf j, nameOf j, 0` for `j < n`: `n` vertices, each with a loop. -/
def selfLoops (n : Nat) : List Triple :=
  (List.range n).map (fun j => { sourceId := nameOf j, destId := nameOf j, weight := 0 })

/-- The lines `selfLoops n` followed by a path of two edges of weight `1` from `nameOf 0`
through the new name `nameOf n` to the new name `nameOf (n + 1)`. -/
def longLines (n : Nat) : List Triple :=
  selfLoops n ++ [{ sourceId := nameOf 0, destId := nameOf n, weight := 1 },
    { sourceId := nameOf n, destId := nameOf (n + 1), weight := 1 }]

/-- The number of edges of weight `1` that lead to the name `x` in `longLines n`. -/
def longRank (n : Nat) (x : Key) : Int :=
  if x = nameOf n then 1 else if x = nameOf (n + 1) then 2 else 0

namespace Graph

/-- The edges of the graph as it is stored: the entries of the adjacency lists. -/
def edge (g : Graph) (u : Nat) (c : Int) (v : Nat) : Prop :=
  ({ weight := c, destination := v } : Edge) ∈ (vertex g.vertexList u).adjList

/-- The stored graph is well formed: the ids of the vertices are distinct, the edges lead to
vertices of the graph, and the hash table maps exactly the ids to their vertices. -/
structure WF (g : Graph) : Prop where
  ids_inj : ∀ i j, i < g.vertexList.length → j < g.vertexList.length →
    (vertex g.vertexList i).id = (vertex g.vertexList j).id → i = j
  dest_lt : ∀ i, i < g.vertexList.length → ∀ e, e ∈ (vertex g.vertexList i).adjList →
    e.destination < g.vertexList.length
  table : g.vertices.PInv
  lookup_id : ∀ i, i < g.vertexList.length →
    g.vertices.lookup (vertex g.vertexList i).id = some (some i)
  lookup_onto : ∀ x, g.vertices.lookup x ≠ none →
    ∃ i, i < g.vertexList.length ∧ (vertex g.vertexList i).id = x

/-- What `dijkstra` from the vertex `s` needs of the stored graph: the edges lead to vertices
of the graph, and the vertices that are reachable from `s` have distinct ids. -/
structure Sound (g : Graph) (s : Nat) : Prop where
  ids_inj : ∀ i j, i < g.vertexList.length → j < g.vertexList.length →
    Reachable g.edge s i → Reachable g.edge s j →
    (vertex g.vertexList i).id = (vertex g.vertexList j).id → i = j
  dest_lt : ∀ i, i < g.vertexList.length → ∀ e, e ∈ (vertex g.vertexList i).adjList →
    e.destination < g.vertexList.length

/-- The vertex is in the heap of `dijkstra`: not yet known, with a distance below the
sentinel. -/
def queued (v : Vertex) : Bool := !v.known && decide (v.distance < INT32_MAX)

/-- The distance of the vertex is the sentinel. -/
def unreached (v : Vertex) : Bool := decide (v.distance = INT32_MAX)

/-- The vertex is not yet known. -/
def unknown (v : Vertex) : Bool := !v.known

/-- The vertex after `dijkstra` found a shorter path to it, of weight `d` through `u`. -/
def improved (x : Vertex) (d : Int) (u : Nat) : Vertex :=
  { x with distance := d, previous := some u }

/-- The invariant of the main loop of `dijkstra`, but for the relaxation of the edges. -/
structure CoreInv (g : Graph) (s : Nat) (st : List Vertex × heap) : Prop where
  len : st.1.length = g.vertexList.length
  ids : ∀ i, (vertex st.1 i).id = (vertex g.vertexList i).id
  adj : ∀ i, (vertex st.1 i).adjList = (vertex g.vertexList i).adjList
  hinv : st.2.Inv
  hcap : st.2.capacity = g.vertexList.length
  hsize : st.2.currentSize = st.1.countP queued
  hfill : st.2.mapping.filled + st.1.countP unreached ≤ g.vertexList.length
  nodes : ∀ nd, nd ∈ st.2.nodes ↔
    ∃ v, v < g.vertexList.length ∧ (vertex st.1 v).known = false ∧
      (vertex st.1 v).distance < INT32_MAX ∧
      nd = { id := (vertex st.1 v).id, key := (vertex st.1 v).distance, pData := some v }
  mono : ∀ x y, x < g.vertexList.length → y < g.vertexList.length →
    (vertex st.1 x).known = true → (vertex st.1 y).known = false →
    (vertex st.1 x).distance ≤ (vertex st.1 y).distance
  upper : ∀ v, v < g.vertexList.length → (vertex st.1 v).distance ≠ INT32_MAX →
    ∃ p, Walk g.edge s v (vertex st.1 v).distance p ∧ p.Nodup ∧
      ∀ x, x ∈ p → x = v ∨ (vertex st.1 x).known = true
  le_max : ∀ v, v < g.vertexList.length → (vertex st.1 v).distance ≤ INT32_MAX
  known_fin : ∀ v, v < g.vertexList.length → (vertex st.1 v).known = true →
    (vertex st.1 v).distance < INT32_MAX
  src_lt : s < g.vertexList.length
  src : (vertex st.1 s).distance ≤ 0

/-- The invariant of the main loop of `dijkstra`. -/
structure DInv (g : Graph) (s : Nat) (st : List Vertex × heap) : Prop where
  core : CoreInv g s st
  relaxed : ∀ u, u < g.vertexList.length → (vertex st.1 u).known = true →
    ∀ e, e ∈ (vertex g.vertexList u).adjList →
      (vertex st.1 e.destination).distance ≤ (vertex st.1 u).distance + e.weight

/-- The invariant of the loop over the edges of the vertex `u`, of which the edges `done`
are relaxed. -/
structure RInv (g : Graph) (s : Nat) (u : Nat) (done : List Edge)
    (st : List Vertex × heap) : Prop where
  core : CoreInv g s st
  u_lt : u < g.vertexList.length
  u_known : (vertex st.1 u).known = true
  before : ∀ x, x < g.vertexList.length → (vertex st.1 x).known = true →
    (vertex st.1 x).distance ≤ (vertex st.1 u).distance
  relaxed : ∀ x, x < g.vertexList.length → (vertex st.1 x).known = true → x ≠ u →
    ∀ e, e ∈ (vertex g.vertexList x).adjList →
      (vertex st.1 e.destination).distance ≤ (vertex st.1 x).distance + e.weight
  relaxed_u : ∀ e, e ∈ done →
    (vertex st.1 e.destination).distance ≤ (vertex st.1 u).distance + e.weight

/-- The hypotheses on the weights under which `dijkstra` from the vertex `s` is correct: no
weight is negative, and the weight of every path from `s` without repeated vertex is below
`INT32_MAX`. -/
structure Weights (g : Graph) (s : Nat) : Prop where
  nonneg : ∀ u c v, g.edge u c v → 0 ≤ c
  bounded : ∀ v w p, Walk g.edge s v w p → p.Nodup → w < INT32_MAX

/-- The graph stored after the lines `lines` are read: it is well formed, its hash table
has at most as many occupied slots as there are vertices, its vertices are the names of the
lines and its edges are the lines. -/
structure BInv (lines : List Triple) (g : Graph) : Prop where
  wf : g.WF
  filled : g.vertices.filled ≤ g.vertexList.length
  names : ∀ i, i < g.vertexList.length → IsName lines (vertex g.vertexList i).id
  all_names : ∀ a, IsName lines a → ∃ i, i < g.vertexList.length ∧ (vertex g.vertexList i).id = a
  edges : ∀ i c j, g.edge i c j ↔
    (i < g.vertexList.length ∧ j < g.vertexList.length ∧
      lineEdge lines (vertex g.vertexList i).id c (vertex g.vertexList j).id)

/-- The end of `insertEdge`: the new edge is appended to the adjacency list of `*v1`. -/
def addEdge (g : Graph) (v1 v2 : Nat) (weight : Int) : Graph :=
  { vertices := g.vertices
    vertexList := g.vertexList.set v1
      { vertex g.vertexList v1 with
        adjList := (vertex g.vertexList v1).adjList ++
          [{ weight := weight, destination := v2 }] } }

/-- The graph after `getOrCreateVertex` created a vertex that the hash table did not
accept: the vertex is in `vertexList` only. -/
def push (g : Graph) (a : Key) : Graph :=
  { vertices := g.vertices, vertexList := g.vertexList ++ [{ id := a }] }

/-- The graph `g` stored for the lines `longLines n`, when the hash table did not accept
the names `nameOf n` and `nameOf (n + 1)`: the vertex `nameOf 0` is at `a0`, the vertices
`nameOf n`, `nameOf n` again and `nameOf (n + 1)` are at `n0`, `n0 + 1` and `n0 + 2`, and
the edges are loops, the edge from `a0` to `n0` and the edge from `n0 + 1` to `n0 + 2`. -/
structure LongGraph (n : Nat) (g : Graph) (a0 n0 : Nat) : Prop where
  lt : a0 < n0
  le : n0 ≤ n
  len : g.vertexList.length = n0 + 3
  ptr : (g.vertices.getPointer (nameOf 0)).1 = some a0
  valid : g.isValidVertex (nameOf 0) = true
  id_a : (vertex g.vertexList a0).id = nameOf 0
  id_x : (vertex g.vertexList n0).id = nameOf n
  id_y : (vertex g.vertexList (n0 + 2)).id = nameOf (n + 1)
  edges : ∀ j c k, g.edge j c k →
    (k = j ∧ j < n0 ∧ c = 0) ∨ (j = a0 ∧ c = 1 ∧ k = n0) ∨ (j = n0 + 1 ∧ c = 1 ∧ k = n0 + 2)

/-- The position in `vertexList` of the vertex with the given name. -/
def indexOf (g : Graph) (a : Key) : Nat :=
  ((g.vertices.getPointer a).1).getD 0

end Graph

end ECE365

namespace ECE365

namespace hashTable

/-- The number of live items of the table: the slots that are occupied and not deleted. -/
def liveCount (t : hashTable) : Nat :=
  t.data.countP (fun it => it.isOccupied && !it.isDeleted)

end hashTable

namespace heap

/-- Every slot `1 .. currentSize` holds a payload with the property `P`. -/
def Marked (P : Ptr → Prop) (h : heap) : Prop :=
  ∀ i, 1 ≤ i → i ≤ h.currentSize → P (h.slot i).pData

/-- During a percolation with the hole at `pos`: every other slot `1 .. currentSize` holds
a payload with the property `P`. -/
def HoleMarked (P : Ptr → Prop) (h : heap) (pos : Nat) : Prop :=
  ∀ i, 1 ≤ i → i ≤ h.currentSize → i ≠ pos → P (h.slot i).pData

end heap

namespace Graph

/-! ### Graph::formatPath and Graph::outputPaths -/

/-- The first loop of `Graph::formatPath`: the ids of the vertices from `current` along the
`previous` pointers are pushed on `pathStack`, whose top is the head of the list; `none` if
`fuel` iterations do not reach a null pointer. -/
def pathStackLoop (vs : List Vertex) : Nat → Option Nat → List Key → Option (List Key)
  | _, none, pathStack => some pathStack
  | 0, some _, _ => none
  | fuel + 1, some current, pathStack =>
    pathStackLoop vs fuel (vertex vs current).previous ((vertex vs current).id :: pathStack)

/-- The second part of `Graph::formatPath`: the ids are popped from the stack and joined,
with the two characters `", "` between them. -/
def joinPath : List Key → Key
  | [] => []
  | top :: rest => rest.foldl (fun path id => path ++ ([44, 32] ++ id)) top

/-- The function `Graph::formatPath` for the vertex `*v`; `none` if `fuel` iterations of
the first loop do not reach a null pointer. -/
def formatPath (vs : List Vertex) (v : Nat) (fuel : Nat) : Option Key :=
  (pathStackLoop vs fuel (some v) []).map joinPath

/-- The number of edges of the graph. -/
def edgeCount (g : Graph) : Nat := (g.vertexList.map (fun v => v.adjList.length)).sum

/-- The number of edges that leave the vertices that are not yet known: a bound on the
number of calls of `insert` that the main loop of `dijkstra` can still make. -/
def work (vs : List Vertex) : Nat :=
  (vs.map (fun v => if v.known then 0 else v.adjList.length)).sum

/-- The chain of `previous` pointers from the vertex `v` to the vertex `s`: its vertices,
`v` first, none of them twice. -/
inductive Chain (vs : List Vertex) (s : Nat) : Nat → List Nat → Prop
  | src : Chain vs s s [s]
  | link {u v : Nat} {p : List Nat} :
      Chain vs s u p → (vertex vs v).previous = some u → v ∉ p → Chain vs s v (v :: p)

/-- The vertex is the source or has a predecessor. -/
def Linked (vs : List Vertex) (s : Nat) (v : Nat) : Prop :=
  v = s ∨ (vertex vs v).previous ≠ none

/-- What holds of the vertices during and after `dijkstra` from the vertex `s`, whatever
the weights: the source has distance `0` and no predecessor, and the predecessor `u` of a
vertex `v` is a known vertex with an edge to `v` along which the distance of `v` was
computed, and with a chain of predecessors back to the source. -/
structure TreeInv (g : Graph) (s : Nat) (vs : List Vertex) : Prop where
  len : vs.length = g.vertexList.length
  ids : ∀ i, (vertex vs i).id = (vertex g.vertexList i).id
  adj : ∀ i, (vertex vs i).adjList = (vertex g.vertexList i).adjList
  src_lt : s < g.vertexList.length
  src_prev : (vertex vs s).previous = none
  src_dist : (vertex vs s).distance = 0
  le_max : ∀ v, (vertex vs v).distance ≤ INT32_MAX
  prev : ∀ v u, (vertex vs v).previous = some u →
    v < g.vertexList.length ∧ u < g.vertexList.length ∧ (vertex vs u).known = true ∧
    (vertex vs v).distance < INT32_MAX ∧
    (∃ e, e ∈ (vertex g.vertexList u).adjList ∧ e.destination = v ∧
      (vertex vs v).distance = wrapInt ((vertex vs u).distance + e.weight)) ∧
    ∃ p, Chain vs s u p ∧ v ∉ p ∧ ∀ x, x ∈ p → (vertex vs x).known = true
  fin : ∀ v, (vertex vs v).distance ≠ INT32_MAX → Linked vs s v
  known_linked : ∀ v, (vertex vs v).known = true → Linked vs s v

/-- No addition `u->distance + edge.weight` of the run overflowed: `dijkstra` computes this
sum once for every edge of every vertex `u` that it marks as known, with the distance that
`u` has from then on. -/
def NoOverflow (vs : List Vertex) : Prop :=
  ∀ u, u < vs.length → ∀ e, e ∈ (vertex vs u).adjList → (vertex vs u).known = true →
    wrapInt ((vertex vs u).distance + e.weight) = (vertex vs u).distance + e.weight

instance (vs : List Vertex) : Decidable (NoOverflow vs) := by
  unfold NoOverflow; infer_instance

/-- The invariant of the main loop of `dijkstra` on every graph: `TreeInv`, and every node
of the heap points to a vertex that is the source or has a predecessor. -/
structure LoopInv (g : Graph) (s : Nat) (st : List Vertex × heap) : Prop where
  tree : TreeInv g s st.1
  sane : st.2.Sane
  marked : st.2.Marked (fun p => ∃ u, p = some u ∧ u < g.vertexList.length ∧ Linked st.1 s u)

/-- What holds of every graph that the constructor stores: the pointers of the hash table
and of the edges lead to vertices of `vertexList`, and the hash table finds a vertex under
its own id. -/
structure Stored (g : Graph) : Prop where
  table : g.vertices.PInv
  ptr : ∀ k p, g.vertices.lookup k = some p →
    ∃ v, p = some v ∧ v < g.vertexList.length ∧ (vertex g.vertexList v).id = k
  dest_lt : ∀ i e, e ∈ (vertex g.vertexList i).adjList → e.destination < g.vertexList.length

end Graph

end ECE365

namespace ECE365

/-- The exact value of the polynomial of the bytes `b_0 ... b_{n-1}` of the key with the
multiplier `37`: the sum of the `b_i * 37 ^ (n - 1 - i)`. -/
def polynomial (key : Key) : Nat :=
  ((List.range key.length).map
    (fun i => (key.getD i 0).val * 37 ^ (key.length - 1 - i))).sum

end ECE365

namespace ECE365

/-! ## Program 4: main.cpp

The strings are sequences of bytes (`Key`).  The global arrays `memo_table` and
`choice_table` are functions of the two indices; an access outside
`[0, MAX_A] × [0, MAX_B]` is outside the arrays, and the functions below have no result
(`none`) when the program makes one.  The characters `'A'` and `'B'` are the bytes `65` and
`66`. -/

namespace Merge

/-- The constant `MAX_A`. -/
def MAX_A : Nat := 1000

/-- The constant `MAX_B`. -/
def MAX_B : Nat := 1000

/-- The global arrays `memo_table[MAX_A + 1][MAX_B + 1]` and
`choice_table[MAX_A + 1][MAX_B + 1]`. -/
structure Tables where
  memo_table : Nat → Nat → Int
  choice_table : Nat → Nat → Fin 256

namespace Tables

/-- The arrays after `memset(memo_table, -1, ...)` and `memset(choice_table, 0, ...)`. -/
def cleared : Tables :=
  { memo_table := fun _ _ => -1
    choice_table := fun _ _ => 0 }

/-- The assignment `memo_table[i][j] = v`. -/
def setMemo (T : Tables) (i j : Nat) (v : Int) : Tables :=
  { T with memo_table := fun a b => if a = i ∧ b = j then v else T.memo_table a b }

/-- The assignment `choice_table[i][j] = c`. -/
def setChoice (T : Tables) (i j : Nat) (c : Fin 256) : Tables :=
  { T with choice_table := fun a b => if a = i ∧ b = j then c else T.choice_table a b }

end Tables

/-- The function `toupper` of the C library in the default `"C"` locale (the program sets
no locale): the letters `a .. z` go to `A .. Z`, every other byte is returned as it is. -/
def toupper (c : Fin 256) : Fin 256 :=
  if h : 97 ≤ c.val ∧ c.val ≤ 122 then ⟨c.val - 32, by omega⟩ else c

/-- The function `recurse`: the arrays after the call and the returned value.  `fuel`
bounds the depth of the recursion. -/
def recurse (A B C : Key) : Nat → Tables → Nat → Nat → Option (Tables × Int)
  | 0, _, _, _ => none
  | fuel + 1, T, i, j =>
    if i > MAX_A ∨ j > MAX_B then none
    else if T.memo_table i j ≠ -1 then some (T, T.memo_table i j)
    else if i = A.length ∧ j = B.length then some (T.setMemo i j 1, 1)
    else if i + j ≥ C.length then some (T.setMemo i j 0, 0)
    else
      match (if i < A.length ∧ A.getD i 0 = C.getD (i + j) 0 then recurse A B C fuel T (i + 1) j
        else some (T, 0)) with
      | none => none
      | some (T1, r1) =>
        if r1 ≠ 0 then some ((T1.setChoice i j 65).setMemo i j 1, 1)
        else
          match (if j < B.length ∧ B.getD j 0 = C.getD (i + j) 0 then
            recurse A B C fuel T1 i (j + 1) else some (T1, 0)) with
          | none => none
          | some (T2, r2) =>
            if r2 ≠ 0 then some ((T2.setChoice i j 66).setMemo i j 1, 1)
            else some (T2.setMemo i j 0, 0)

/-- The loop of `isValidMerge` that builds `merged` from the recorded choices, from the
indices `i` and `j`.  The second list records, for every character appended to `merged`,
whether the branch that takes it from `A` appended it; `fuel` bounds the iterations. -/
def mergeLoop (A B : Key) (T : Tables) : Nat → Nat → Nat → Key → List Bool →
    Option (Key × List Bool)
  | 0, _, _, _, _ => none
  | fuel + 1, i, j, merged, taken =>
    if i < A.length ∨ j < B.length then
      if i > MAX_A ∨ j > MAX_B then none
      else if i < A.length ∧ T.choice_table i j = 65 then
        mergeLoop A B T fuel (i + 1) j (merged ++ [toupper (A.getD i 0)]) (taken ++ [true])
      else if j < B.length ∧ T.choice_table i j = 66 then
        mergeLoop A B T fuel i (j + 1) (merged ++ [B.getD j 0]) (taken ++ [false])
      else some (merged, taken)
    else some (merged, taken)

/-- The function `isValidMerge` together with the record of the branches of its loop: the
returned value, the string `merged` after the call, and for every character of the new
`merged` whether it was taken from `A` (the empty record when the function returns
`false`). -/
def isValidMergeTaken (A B C merged : Key) (fuel : Nat) : Option (Bool × Key × List Bool) :=
  if A.length + B.length ≠ C.length then some (false, merged, [])
  else
    match recurse A B C fuel Tables.cleared 0 0 with
    | none => none
    | some (T, r) =>
      if r ≠ 0 then
        match mergeLoop A B T fuel 0 0 [] [] with
        | none => none
        | some (m, taken) => some (true, m, taken)
      else some (false, merged, [])

/-- The function `isValidMerge`: the returned value and the string `merged` after the
call. -/
def isValidMerge (A B C merged : Key) (fuel : Nat) : Option (Bool × Key) :=
  (isValidMergeTaken A B C merged fuel).map (fun r => (r.1, r.2.1))

/-! ### Specification of a merge -/

/-- For a marking `sel` of the positions of `C`, the characters of `C` at the positions
marked `b`, in order. -/
def pick (b : Bool) : List Bool → Key → Key
  | s :: sel, c :: C => if s = b then c :: pick b sel C else pick b sel C
  | _, _ => []

/-- The marking `sel` splits the positions of `C` into the positions marked `true`, which
spell `A`, and the positions marked `false`, which spell `B`. -/
def IsInterleaving (sel : List Bool) (A B C : Key) : Prop :=
  sel.length = C.length ∧ pick true sel C = A ∧ pick false sel C = B

instance (sel : List Bool) (A B C : Key) : Decidable (IsInterleaving sel A B C) := by
  unfold IsInterleaving
  infer_instance

/-- The positions marked `true`, in increasing order, the first position being `t`. -/
def positionsFrom : Nat → List Bool → List Nat
  | _, [] => []
  | t, true :: sel => t :: positionsFrom (t + 1) sel
  | t, false :: sel => positionsFrom (t + 1) sel

/-- The positions `p_1 < p_2 < ...` of `C` that the marking `sel` takes from `A`. -/
def positions (sel : List Bool) : List Nat := positionsFrom 0 sel

/-- The marking `sel` merges the rest of `A` from index `i` and the rest of `B` from index
`j` into the rest of `C` from index `i + j`. -/
def ValidPath (A B C : Key) : Nat → Nat → List Bool → Prop
  | i, j, [] => i = A.length ∧ j = B.length
  | i, j, true :: sel => i < A.length ∧ A[i]? = C[i + j]? ∧ ValidPath A B C (i + 1) j sel
  | i, j, false :: sel => j < B.length ∧ B[j]? = C[i + j]? ∧ ValidPath A B C i (j + 1) sel

/-- The rest of `C` from index `i + j` is a merge of the rests of `A` from `i` and of `B`
from `j`. -/
def Feasible (A B C : Key) (i j : Nat) : Prop := ∃ sel, ValidPath A B C i j sel

/-- A valid path that takes the character of `A` wherever a merge can go on after that. -/
def GreedyPath (A B C : Key) : Nat → Nat → List Bool → Prop
  | i, j, [] => i = A.length ∧ j = B.length
  | i, j, true :: sel => i < A.length ∧ A[i]? = C[i + j]? ∧ GreedyPath A B C (i + 1) j sel
  | i, j, false :: sel => j < B.length ∧ B[j]? = C[i + j]? ∧
      ¬ (i < A.length ∧ A[i]? = C[i + j]? ∧ Feasible A B C (i + 1) j) ∧
      GreedyPath A B C i (j + 1) sel

/-- What the arrays record about the indices `(i, j)`: nothing (`-1`), that there is no
merge from there (`0`), or that there is one (`1`) together with a first step that a merge
can take, the step in `A` whenever a merge can go on after it. -/
def Entry (A B C : Key) (T : Tables) (i j : Nat) : Prop :=
  T.memo_table i j = -1 ∨
  (T.memo_table i j = 0 ∧ ¬ Feasible A B C i j) ∨
  (T.memo_table i j = 1 ∧ Feasible A B C i j ∧
    ((i = A.length ∧ j = B.length) ∨
     (T.choice_table i j = 65 ∧ i < A.length ∧ A[i]? = C[i + j]? ∧
       T.memo_table (i + 1) j = 1) ∨
     (T.choice_table i j = 66 ∧ j < B.length ∧ B[j]? = C[i + j]? ∧
       T.memo_table i (j + 1) = 1 ∧
       ¬ (i < A.length ∧ A[i]? = C[i + j]? ∧ Feasible A B C (i + 1) j))))

/-- The invariant of the arrays during `recurse`. -/
def TInv (A B C : Key) (T : Tables) : Prop :=
  ∀ i j, i ≤ A.length → j ≤ B.length → Entry A B C T i j

/-- The string `merged` for the marking `sel` of the string `C`: the characters marked
`true` in upper case. -/
def decorate : List Bool → Key → Key
  | s :: sel, c :: C => (if s then toupper c else c) :: decorate sel C
  | _, _ => []

end Merge

end ECE365

namespace ECE365

/-! ## The calls of `insert` and the skipped vertices of `Graph::dijkstra` -/

/-- What happens in `Graph::dijkstra` that its result does not show: a call of
`minHeap.insert` for the vertex `v` returned `status`, or `deleteMin` returned the vertex
`u` that was known already, so that the branch `if (u->known) continue` was taken. -/
inductive Event where
  | insert (v : Nat) (status : Nat)
  | skip (u : Nat)
  deriving DecidableEq

namespace Graph

/-- The call of `minHeap.insert` in the body of the loop over the edges of `u`, if the body
makes one: the vertex and the returned value. -/
def relaxEvents (u : Nat) (st : List Vertex × heap) (edge : Edge) : List Event :=
  if !(vertex st.1 edge.destination).known &&
      decide (wrapInt ((vertex st.1 u).distance + edge.weight)
        < (vertex st.1 edge.destination).distance) then
    let vs := st.1.set edge.destination
      { vertex st.1 edge.destination with
        distance := wrapInt ((vertex st.1 u).distance + edge.weight)
        previous := some u }
    [Event.insert edge.destination
      (st.2.insert (vertex vs edge.destination).id (vertex vs edge.destination).distance
        (some edge.destination)).2]
  else []

/-- The body of the loop over the edges of `u` in `Graph::dijkstra`, with the record of the
calls of `insert`. -/
def relaxEdgeLog (u : Nat) (p : (List Vertex × heap) × List Event) (edge : Edge) :
    (List Vertex × heap) × List Event :=
  (relaxEdge u p.1 edge, p.2 ++ relaxEvents u p.1 edge)

/-- The main loop of `Graph::dijkstra`, with the record of the calls of `insert` and of the
skipped vertices; `none` if `fuel` iterations do not empty the heap. -/
def dijkstraLoopLog : Nat → (List Vertex × heap) × List Event →
    Option (List Vertex × List Event)
  | 0, _ => none
  | fuel + 1, p =>
    if p.1.2.currentSize > 0 then
      if (p.1.2.deleteMin).2.1 ≠ 0 then some (p.1.1, p.2)
      else
        match (p.1.2.deleteMin).2.2 with
        | none => some (p.1.1, p.2)
        | some n =>
          match n.pData with
          | none => dijkstraLoopLog fuel ((p.1.1, (p.1.2.deleteMin).1), p.2)
          | some u =>
            if (vertex p.1.1 u).known then
              dijkstraLoopLog fuel ((p.1.1, (p.1.2.deleteMin).1), p.2 ++ [Event.skip u])
            else
              dijkstraLoopLog fuel
                ((vertex p.1.1 u).adjList.foldl (relaxEdgeLog u)
                  ((p.1.1.set u { vertex p.1.1 u with known := true }, (p.1.2.deleteMin).1),
                    p.2))
    else some (p.1.1, p.2)

/-- The function `Graph::dijkstra`, with the record of the calls of `insert` and of the
skipped vertices; `none` if `fuel` iterations of the main loop do not empty the heap. -/
def dijkstraLog (g : Graph) (startVertex : Key) (fuel : Nat) : Option (Graph × List Event) :=
  match (g.vertices.getPointer startVertex).1 with
  | none => some (g, [])
  | some source =>
    let vs := (resetAll g.vertexList).set source
      { vertex (resetAll g.vertexList) source with distance := 0 }
    if ((heap.init vs.length).insert (vertex vs source).id (vertex vs source).distance
        (some source)).2 ≠ 0 then
      some ({ g with vertexList := vs },
        [Event.insert source ((heap.init vs.length).insert (vertex vs source).id
          (vertex vs source).distance (some source)).2])
    else
      (dijkstraLoopLog fuel
        ((vs, ((heap.init vs.length).insert (vertex vs source).id (vertex vs source).distance
          (some source)).1),
          [Event.insert source ((heap.init vs.length).insert (vertex vs source).id
            (vertex vs source).distance (some source)).2])).map
        (fun r => ({ g with vertexList := r.1 }, r.2))

/-- The part of the invariant of the main loop of `dijkstra` that holds for all weights,
in a graph whose vertices have distinct ids: the nodes of the heap are the vertices that
are not known and have a distance below the sentinel. -/
structure QInv (g : Graph) (st : List Vertex × heap) : Prop where
  len : st.1.length = g.vertexList.length
  ids : ∀ i, (vertex st.1 i).id = (vertex g.vertexList i).id
  adj : ∀ i, (vertex st.1 i).adjList = (vertex g.vertexList i).adjList
  hinv : st.2.Inv
  hcap : st.2.capacity = g.vertexList.length
  hsize : st.2.currentSize = st.1.countP queued
  hfill : st.2.mapping.filled + st.1.countP unreached ≤ g.vertexList.length
  nodes : ∀ nd, nd ∈ st.2.nodes ↔
    ∃ v, v < g.vertexList.length ∧ (vertex st.1 v).known = false ∧
      (vertex st.1 v).distance < INT32_MAX ∧
      nd = { id := (vertex st.1 v).id, key := (vertex st.1 v).distance, pData := some v }
  le_max : ∀ v, v < g.vertexList.length → (vertex st.1 v).distance ≤ INT32_MAX

/-- Every entry of the record is a call of `insert` that returned `0` or `2`: no call of
`insert` failed, and no vertex was skipped. -/
def Calm (log : List Event) : Prop :=
  ∀ e, e ∈ log → ∃ v, e = Event.insert v 0 ∨ e = Event.insert v 2

end Graph

end ECE365

namespace ECE365

/-! ### A graph with more vertices than the hash table of the heap takes -/

/-- The lines `nameOf 0, nameOf (3 + j), 100` for `j < n`. -/
def fillerLines (n : Nat) : List Triple :=
  (List.range n).map (fun j => { sourceId := nameOf 0, destId := nameOf (3 + j), weight := 100 })

/-- The lines of a graph in which the vertex `nameOf 2` is reached from `nameOf 0` by an
edge of weight `5` and by a path of weight `2` through `nameOf 1`, and in which `nameOf 0`
has `n` more neighbours at the distance `100`, which come before `nameOf 2` in its
adjacency list. -/
def starLines (n : Nat) : List Triple :=
  [{ sourceId := nameOf 0, destId := nameOf 1, weight := 1 },
   { sourceId := nameOf 1, destId := nameOf 2, weight := 1 }] ++ fillerLines n ++
  [{ sourceId := nameOf 0, destId := nameOf 2, weight := 5 }]

/-- The edges of weight `100` to the vertices `3 + j` for `j < n`. -/
def fillerEdges (n : Nat) : List Edge :=
  (List.range n).map (fun j => { weight := 100, destination := 3 + j })

/-- The node of the heap of `dijkstra` for the vertex `i`, with the key `key`. -/
def starNode (i : Nat) (key : Int) : node := { id := nameOf i, key := key, pData := some i }

namespace Graph

/-- The graph while the lines `starLines` are read, after `k` of the lines
`fillerLines`: the vertex `i` has the name `nameOf i`. -/
structure StarPart (k : Nat) (g : Graph) : Prop where
  len : g.vertexList.length = k + 3
  ids : ∀ i, i < k + 3 → (vertex g.vertexList i).id = nameOf i
  adj_c : (vertex g.vertexList 0).adjList = [{ weight := 1, destination := 1 }] ++ fillerEdges k
  adj_y : (vertex g.vertexList 1).adjList = [{ weight := 1, destination := 2 }]
  adj_v : (vertex g.vertexList 2).adjList = []

/-- The graph stored for the lines `starLines n`. -/
structure StarGraph (n : Nat) (g : Graph) : Prop where
  len : g.vertexList.length = n + 3
  ptr : (g.vertices.getPointer (nameOf 0)).1 = some 0
  ids : ∀ i, i < n + 3 → (vertex g.vertexList i).id = nameOf i
  adj_c : (vertex g.vertexList 0).adjList =
    [{ weight := 1, destination := 1 }] ++ fillerEdges n ++ [{ weight := 5, destination := 2 }]
  adj_y : (vertex g.vertexList 1).adjList = [{ weight := 1, destination := 2 }]
  adj_v : (vertex g.vertexList 2).adjList = []

/-- The graph while the lines are read and before the hash table of the graph is full:
the graph is well formed. -/
structure StarRoom (k : Nat) (g : Graph) : Prop where
  part : StarPart k g
  wf : g.WF
  filled : g.vertices.filled ≤ g.vertexList.length

/-- The graph while the lines are read and after the hash table of the graph is full: the
hash table holds the first `805306370` names and takes no other. -/
structure StarFull (k : Nat) (g : Graph) : Prop where
  part : StarPart k g
  pinv : g.vertices.PInv
  stored : ∀ i, i < 805306370 → g.vertices.lookup (nameOf i) = some (some i)
  others : ∀ i, 805306370 ≤ i → i < 4294967296 → g.vertices.lookup (nameOf i) = none

/-- The state of `dijkstra` from the vertex `0` on the graph of `starLines n` before the
main loop. -/
structure StartState (n : Nat) (st : List Vertex × heap) : Prop where
  len : st.1.length = n + 3
  ids : ∀ i, i < n + 3 → (vertex st.1 i).id = nameOf i
  adj_c : (vertex st.1 0).adjList =
    [{ weight := 1, destination := 1 }] ++ fillerEdges n ++ [{ weight := 5, destination := 2 }]
  adj_y : (vertex st.1 1).adjList = [{ weight := 1, destination := 2 }]
  adj_v : (vertex st.1 2).adjList = []
  known : ∀ i, (vertex st.1 i).known = false
  dist_c : (vertex st.1 0).distance = 0
  dist : ∀ i, i ≠ 0 → (vertex st.1 i).distance = INT32_MAX
  inv : st.2.Inv
  cap : st.2.capacity = n + 3
  size : st.2.currentSize = 1
  mcap : st.2.mapping.capacity = 1610612741
  absent : st.2.mapping.lookup (nameOf 2) = none
  root : st.2.slot 1 = starNode 0 0
  filled : st.2.mapping.filled ≤ 1

/-- The state of `dijkstra` from the vertex `0` on the graph of `starLines n`, in the loop
over the edges of the vertex `0`, after the edge to the vertex `1` and `k` of the edges of
weight `100`: the nodes of these vertices are in the slots `1 .. k + 1` of the heap, in this
order, whether the hash table of the heap took their ids or not. -/
structure FillState (n k : Nat) (st : List Vertex × heap) : Prop where
  len : st.1.length = n + 3
  ids : ∀ i, i < n + 3 → (vertex st.1 i).id = nameOf i
  dist_c : (vertex st.1 0).distance = 0
  known_y : (vertex st.1 1).known = false
  dist_y : (vertex st.1 1).distance = 1
  adj_y : (vertex st.1 1).adjList = [{ weight := 1, destination := 2 }]
  known_v : (vertex st.1 2).known = false
  dist_v : (vertex st.1 2).distance = INT32_MAX
  adj_v : (vertex st.1 2).adjList = []
  fresh : ∀ j, k ≤ j → j < n →
    (vertex st.1 (3 + j)).known = false ∧ (vertex st.1 (3 + j)).distance = INT32_MAX
  sane : st.2.Sane
  cap : st.2.capacity = n + 3
  size : st.2.currentSize = k + 1
  mcap : st.2.mapping.capacity = 1610612741
  absent : st.2.mapping.lookup (nameOf 2) = none
  root : st.2.slot 1 = starNode 1 1
  slots : ∀ j, j < k → st.2.slot (j + 2) = starNode (3 + j) 100

/-- The state of `dijkstra` on the graph of `starLines n` after the hash table of the heap
is full: the heap has `m` nodes, the node `root` in the slot `1` and the node `last` in the
slot `m`, and the vertices `1` and `2` are known or not and have the distances `dy` and
`dv`. -/
structure TailState (n m : Nat) (root last : node) (ky kv : Bool) (dy dv : Int)
    (st : List Vertex × heap) : Prop where
  len : st.1.length = n + 3
  known_y : (vertex st.1 1).known = ky
  dist_y : (vertex st.1 1).distance = dy
  adj_y : (vertex st.1 1).adjList = [{ weight := 1, destination := 2 }]
  id_v : (vertex st.1 2).id = nameOf 2
  known_v : (vertex st.1 2).known = kv
  dist_v : (vertex st.1 2).distance = dv
  adj_v : (vertex st.1 2).adjList = []
  weak : st.2.WInv
  full : st.2.Full
  cap : st.2.capacity = n + 3
  size : st.2.currentSize = m
  absent : st.2.mapping.lookup (nameOf 2) = none
  root : st.2.slot 1 = root
  slot2 : st.2.slot 2 = starNode 3 100
  slot3 : st.2.slot 3 = starNode 4 100
  last : st.2.slot m = last

end Graph

end ECE365

namespace ECE365

/-! ### The order of the vertices and of the adjacency lists -/

/-- The names of the lines in the order in which `insertEdge` meets them:
`s_1, d_1, s_2, d_2, ...`. -/
def flatNames (lines : List Triple) : List Key :=
  lines.flatMap (fun t => [t.sourceId, t.destId])

/-- The sequence `seen`, followed by the name `a` if it is not in `seen`. -/
def addName (seen : List Key) (a : Key) : List Key :=
  if a ∈ seen then seen else seen ++ [a]

/-- The distinct names of a sequence, each once, in the order of their first
occurrences. -/
def firstOccurrences (names : List Key) : List Key :=
  names.foldl addName []

/-- The pairs (destination, weight) of the lines whose source is `a`, in the order of the
lines. -/
def linesFrom (lines : List Triple) (a : Key) : List (Key × Int) :=
  (lines.filter (fun t => decide (t.sourceId = a))).map (fun t => (t.destId, t.weight))

namespace Graph

/-- The names of the vertices of `vertexList`, in order. -/
def ids (g : Graph) : List Key := g.vertexList.map (fun v => v.id)

/-- The adjacency list of the vertex `u`, as pairs of the name of the destination and the
weight. -/
def adjNames (g : Graph) (u : Nat) : List (Key × Int) :=
  (vertex g.vertexList u).adjList.map
    (fun e => ((vertex g.vertexList e.destination).id, e.weight))

/-- The graph stored after the lines `lines` are read, with the order of its vertices and of
its adjacency lists. -/
structure OInv (lines : List Triple) (g : Graph) : Prop where
  binv : BInv lines g
  order : g.ids = firstOccurrences (flatNames lines)
  adj : ∀ u, u < g.vertexList.length →
    g.adjNames u = linesFrom lines (vertex g.vertexList u).id

end Graph

end ECE365

namespace ECE365

namespace hashTable

/-! ### The probes of `findPos` and `insert`, with the indices they use -/

/-- The table on which `insert` with `duringRehash = false` goes on after the rehash check,
when the check did not make it return `2`: the table after `rehash()` if
`filled >= static_cast<int>(capacity * loadFactor)`, the table as it was otherwise. -/
def afterRehashCheck (t : hashTable) : hashTable :=
  if t.filled ≥ t.capacity / 2 then (t.rehash).1 else t

/-- The new table during `rehash`, after the loop over the old storage went through its
first `n` slots. -/
def rehashState (t : hashTable) (n : Nat) : hashTable :=
  (t.data.take n).foldl rehashStep (fresh (getPrime (2 * (t.capacity : Int))))

/-- The loop of `hashTable::findPos` with the record of the indices at which it reads
`data`, one for every evaluation of the condition of the loop. -/
def findPosLog (t : hashTable) (key : Key) (startIdx : Nat) : Nat → Nat → Option Nat × List Nat
  | 0, _ => (none, [])
  | fuel + 1, hashIndex =>
    if (t.slot hashIndex).isOccupied || (t.slot hashIndex).isDeleted then
      if (t.slot hashIndex).isOccupied && !(t.slot hashIndex).isDeleted
          && (t.slot hashIndex).key == key then
        (some hashIndex, [hashIndex])
      else if (hashIndex + 1) % t.capacity == startIdx then
        (none, [hashIndex])
      else
        ((findPosLog t key startIdx fuel ((hashIndex + 1) % t.capacity)).1,
          hashIndex :: (findPosLog t key startIdx fuel ((hashIndex + 1) % t.capacity)).2)
    else
      (none, [hashIndex])

/-- The probe loop of `hashTable::insert` with the record of the indices at which it reads
`data`, one for every evaluation of the condition of the loop, and of whether the loop was
left by the `break` after a full cycle. -/
def probeLog (t : hashTable) (key : Key) :
    Nat → Nat → Option Nat → (Nat × Option Nat) × List Nat × Bool
  | 0, hashIndex, firstDeletedIndex => ((hashIndex, firstDeletedIndex), [], false)
  | fuel + 1, hashIndex, firstDeletedIndex =>
    if (t.slot hashIndex).isOccupied then
      let firstDeletedIndex' :=
        if (t.slot hashIndex).isDeleted && firstDeletedIndex.isNone then some hashIndex
        else firstDeletedIndex
      if (hashIndex + 1) % t.capacity == t.hash key then
        (((hashIndex + 1) % t.capacity, firstDeletedIndex'), [hashIndex], true)
      else
        ((probeLog t key fuel ((hashIndex + 1) % t.capacity) firstDeletedIndex').1,
          hashIndex :: (probeLog t key fuel ((hashIndex + 1) % t.capacity)
            firstDeletedIndex').2.1,
          (probeLog t key fuel ((hashIndex + 1) % t.capacity) firstDeletedIndex').2.2)
    else
      ((hashIndex, firstDeletedIndex), [hashIndex], false)

/-- The probe of `findPos(key)` on the table `t` stays inside the storage: the record is
the one of `findPos`, the loop ends within `capacity` iterations (more fuel gives the same
run), and the indices that it reads and the index that it returns are indices of `data`. -/
structure SafeFind (t : hashTable) (key : Key) : Prop where
  result : (t.findPosLog key (t.hash key) t.capacity (t.hash key)).1 = t.findPos key
  ends : ∀ extra, t.findPosLog key (t.hash key) (t.capacity + extra) (t.hash key) =
    t.findPosLog key (t.hash key) t.capacity (t.hash key)
  reads : ∀ i, i ∈ (t.findPosLog key (t.hash key) t.capacity (t.hash key)).2 →
    i < t.data.length
  found : ∀ pos, t.findPos key = some pos → pos < t.data.length

/-- The probe of `insert(key)` on the table `t` stays inside the storage and ends at a slot
that was never occupied: the record is the one of the probe loop, the loop ends within
`capacity` iterations (more fuel gives the same run), the indices that it reads and the
index at which the entry is written are indices of `data`, the loop is not left by its
`break`, and the slot at which it stops is neither occupied nor deleted. -/
structure SafeProbe (t : hashTable) (key : Key) : Prop where
  result : (t.probeLog key t.capacity (t.hash key) none).1 =
    t.probeLoop key t.capacity (t.hash key) none
  ends : ∀ extra, t.probeLog key (t.capacity + extra) (t.hash key) none =
    t.probeLog key t.capacity (t.hash key) none
  reads : ∀ i, i ∈ (t.probeLog key t.capacity (t.hash key) none).2.1 → i < t.data.length
  no_break : (t.probeLog key t.capacity (t.hash key) none).2.2 = false
  free : (t.slot (t.probeLoop key t.capacity (t.hash key) none).1).isOccupied = false ∧
    (t.slot (t.probeLoop key t.capacity (t.hash key) none).1).isDeleted = false
  write : t.insertIndex key < t.data.length

end hashTable

namespace Graph

/-- The chain of `previous` pointers from the vertex `v`: the vertices `v`, `v->previous`,
`v->previous->previous`, ..., none of them twice, up to a vertex whose `previous` is the
null pointer. -/
inductive PrevChain (vs : List Vertex) : Nat → List Nat → Prop
  | last {v : Nat} : (vertex vs v).previous = none → PrevChain vs v [v]
  | link {u v : Nat} {p : List Nat} :
      PrevChain vs u p → (vertex vs v).previous = some u → v ∉ p → PrevChain vs v (v :: p)

end Graph

end ECE365

namespace ECE365

namespace hashTable

/-! ## The hash table: representation invariant and lookup -/

theorem slot_default (t : hashTable) (i : Nat) (h : t.data.length ≤ i) :
    t.slot i = default := by
  unfold slot
  exact List.getD_eq_default _ _ h

theorem slot_set (t : hashTable) (i j : Nat) (a : hashItem) (hi : i < t.data.length) :
    ({ t with data := t.data.set i a } : hashTable).slot j = if j = i then a else t.slot j := by
  unfold slot
  simp only [List.getD_eq_getElem?_getD, List.getElem?_set]
  by_cases h : i = j
  · subst h; simp [hi]
  · have h' : ¬ j = i := fun e => h e.symm
    simp [h, h']

theorem hash_congr (t t' : hashTable) (h : t'.capacity = t.capacity) (key : Key) :
    t'.hash key = t.hash key := by
  unfold hash; rw [h]

theorem hash_lt (t : hashTable) (hc : 0 < t.capacity) (key : Key) : t.hash key < t.capacity := by
  unfold hash
  have : ∀ (l : Key) (a : Nat), a < t.capacity →
      l.foldl (fun hash_value c => ((hash_value * 37 + c.val) % 4294967296) % t.capacity) a
        < t.capacity := by
    intro l
    induction l with
    | nil => intro a ha; simpa using ha
    | cons c l ih =>
      intro a _
      simp only [List.foldl_cons]
      exact ih _ (Nat.mod_lt _ hc)
  exact this key 0 hc

theorem add_mod_ne {c h m : Nat} (hh : h < c) (hm0 : 0 < m) (hm : m < c) : (h + m) % c ≠ h := by
  intro e
  by_cases hlt : h + m < c
  · rw [Nat.mod_eq_of_lt hlt] at e; omega
  · have h2 : h + m - c < c := by omega
    have : (h + m) % c = h + m - c := by
      rw [Nat.mod_eq_sub_mod (by omega), Nat.mod_eq_of_lt h2]
    omega

theorem add_mod_inj {c h d e : Nat} (hd : d < c) (he : e < c)
    (heq : (h + d) % c = (h + e) % c) : d = e := by
  have key : ∀ a b : Nat, a ≤ b → b < c → (h + a) % c = (h + b) % c → a = b := by
    intro a b hab hb hmod
    by_contra hne
    have hlt : a < b := lt_of_le_of_ne hab hne
    have h1 : (h + b) % c = ((h + a) % c + (b - a)) % c := by
      rw [Nat.mod_add_mod]; congr 1; omega
    have h2 := add_mod_ne (Nat.mod_lt (h + a) (by omega : 0 < c)) (by omega : 0 < b - a)
      (by omega : b - a < c)
    rw [← h1] at h2
    exact h2 hmod.symm
  rcases Nat.le_total d e with hle | hle
  · exact key d e hle he heq
  · exact (key e d hle hd heq.symm).symm

theorem offset_exists {c h i : Nat} (hh : h < c) (hi : i < c) : ∃ f, f < c ∧ (h + f) % c = i := by
  by_cases hle : h ≤ i
  · refine ⟨i - h, by omega, ?_⟩
    have : h + (i - h) = i := by omega
    rw [this, Nat.mod_eq_of_lt hi]
  · refine ⟨i + c - h, by omega, ?_⟩
    have : h + (i + c - h) = i + c := by omega
    rw [this, Nat.add_mod_right, Nat.mod_eq_of_lt hi]

theorem succ_mod (c h j : Nat) : ((h + j) % c + 1) % c = (h + (j + 1)) % c := by
  rw [Nat.mod_add_mod]; rfl

/-- Soundness of the probe of `findPos`: a returned index is a live slot holding the key. -/
theorem findPosLoop_sound (t : hashTable) (hc : 0 < t.capacity) (key : Key) (s : Nat) :
    ∀ (fuel idx r : Nat), idx < t.capacity → t.findPosLoop key s fuel idx = some r →
      r < t.capacity ∧ (t.slot r).isOccupied = true ∧ (t.slot r).isDeleted = false ∧
        (t.slot r).key = key := by
  intro fuel
  induction fuel with
  | zero => intro idx r _ h; simp [findPosLoop] at h
  | succ fuel ih =>
    intro idx r hidx h
    unfold findPosLoop at h
    split at h
    · split at h
      · rename_i hm
        simp only [Option.some.injEq] at h
        subst h
        simp only [Bool.and_eq_true, Bool.not_eq_true', beq_iff_eq] at hm
        exact ⟨hidx, hm.1.1, hm.1.2, hm.2⟩
      · split at h
        · exact absurd h (by simp)
        · exact ih _ r (Nat.mod_lt _ hc) h
    · exact absurd h (by simp)

/-- Completeness of the probe of `findPos`: a live slot holding the key that is reached
through occupied slots is found, or the key is found before. -/
theorem findPosLoop_complete (t : hashTable) (key : Key) (h : Nat) (hh : h < t.capacity) :
    ∀ (d fuel j : Nat), j + d < t.capacity → d < fuel →
      (∀ e, e < d → (t.slot ((h + (j + e)) % t.capacity)).isOccupied = true) →
      (t.slot ((h + (j + d)) % t.capacity)).isOccupied = true →
      (t.slot ((h + (j + d)) % t.capacity)).isDeleted = false →
      (t.slot ((h + (j + d)) % t.capacity)).key = key →
      ∃ r, t.findPosLoop key h fuel ((h + j) % t.capacity) = some r := by
  intro d
  induction d with
  | zero =>
    intro fuel j _ hf _ hocc hdel hkey
    obtain ⟨f, rfl⟩ : ∃ f, fuel = f + 1 := ⟨fuel - 1, by omega⟩
    simp only [Nat.add_zero] at hocc hdel hkey
    refine ⟨(h + j) % t.capacity, ?_⟩
    unfold findPosLoop
    simp [hocc, hdel, hkey]
  | succ d ih =>
    intro fuel j hj hf hpath hocc hdel hkey
    obtain ⟨f, rfl⟩ : ∃ f, fuel = f + 1 := ⟨fuel - 1, by omega⟩
    have h0 : (t.slot ((h + j) % t.capacity)).isOccupied = true := by
      have := hpath 0 (by omega)
      simpa using this
    unfold findPosLoop
    simp only [h0, Bool.true_or, if_true]
    split
    · exact ⟨_, rfl⟩
    · have hne : ¬ (((h + j) % t.capacity + 1) % t.capacity == h) = true := by
        rw [succ_mod, beq_iff_eq]
        exact add_mod_ne hh (by omega) (by omega)
      rw [if_neg hne, succ_mod]
      apply ih f (j + 1) (by omega) (by omega)
      · intro e he
        have := hpath (e + 1) (by omega)
        rwa [show j + (e + 1) = j + 1 + e by omega] at this
      · rwa [show j + 1 + d = j + (d + 1) by omega]
      · rwa [show j + 1 + d = j + (d + 1) by omega]
      · rwa [show j + 1 + d = j + (d + 1) by omega]

/-- In a table that satisfies the invariant, `findPos` returns the slot in which the key
is live. -/
theorem findPos_eq_some_iff {t : hashTable} (hI : HInv t) (key : Key) (i : Nat) :
    t.findPos key = some i ↔
      i < t.capacity ∧ (t.slot i).isOccupied = true ∧ (t.slot i).isDeleted = false ∧
        (t.slot i).key = key := by
  have hh := hash_lt t hI.cap_pos key
  constructor
  · intro h
    exact findPosLoop_sound t hI.cap_pos key _ _ _ _ hh h
  · rintro ⟨hi, hocc, hdel, hkey⟩
    obtain ⟨d, hd, hidx, hpath⟩ := hI.chain i hi hocc hdel
    rw [hkey] at hidx hpath
    have hc := findPosLoop_complete t key (t.hash key) hh d t.capacity 0 (by omega) hd
      (by intro e he; simpa using hpath e he)
      (by simpa [hidx] using hocc) (by simpa [hidx] using hdel) (by simpa [hidx] using hkey)
    obtain ⟨r, hr⟩ := hc
    have hr' : t.findPos key = some r := by
      unfold findPos
      simpa [Nat.mod_eq_of_lt hh] using hr
    obtain ⟨hr1, hr2, hr3, hr4⟩ := findPosLoop_sound t hI.cap_pos key _ _ _ _ hh hr'
    have : r = i := hI.uniq r i hr1 hi hr2 hr3 hocc hdel (by rw [hr4, hkey])
    rw [hr', this]

theorem findPos_eq_none_iff {t : hashTable} (hI : HInv t) (key : Key) :
    t.findPos key = none ↔
      ∀ i, i < t.capacity → (t.slot i).isOccupied = true → (t.slot i).isDeleted = false →
        (t.slot i).key ≠ key := by
  constructor
  · intro h i hi hocc hdel hkey
    have := (findPos_eq_some_iff hI key i).2 ⟨hi, hocc, hdel, hkey⟩
    rw [h] at this
    exact absurd this (by simp)
  · intro h
    cases hf : t.findPos key with
    | none => rfl
    | some r =>
      obtain ⟨h1, h2, h3, h4⟩ := (findPos_eq_some_iff hI key r).1 hf
      exact absurd h4 (h r h1 h2 h3)

theorem lookup_eq_some_iff {t : hashTable} (hI : HInv t) (key : Key) (v : Ptr) :
    t.lookup key = some v ↔
      ∃ i, i < t.capacity ∧ (t.slot i).isOccupied = true ∧ (t.slot i).isDeleted = false ∧
        (t.slot i).key = key ∧ (t.slot i).pv = v := by
  unfold lookup
  constructor
  · intro h
    cases hf : t.findPos key with
    | none => rw [hf] at h; simp at h
    | some r =>
      rw [hf] at h
      simp only [Option.map_some', Option.some.injEq] at h
      obtain ⟨h1, h2, h3, h4⟩ := (findPos_eq_some_iff hI key r).1 hf
      exact ⟨r, h1, h2, h3, h4, h⟩
  · rintro ⟨i, h1, h2, h3, h4, h5⟩
    rw [(findPos_eq_some_iff hI key i).2 ⟨h1, h2, h3, h4⟩]
    simp [h5]

theorem lookup_eq_none_iff {t : hashTable} (hI : HInv t) (key : Key) :
    t.lookup key = none ↔
      ∀ i, i < t.capacity → (t.slot i).isOccupied = true → (t.slot i).isDeleted = false →
        (t.slot i).key ≠ key := by
  unfold lookup
  rw [Option.map_eq_none', findPos_eq_none_iff hI]

/-- Two tables that satisfy the invariant and have the same live entries have the same
content. -/
theorem lookup_congr {t t' : hashTable} (hI : HInv t) (hI' : HInv t') (key : Key)
    (h : ∀ v, (∃ i, i < t'.capacity ∧ (t'.slot i).isOccupied = true ∧
          (t'.slot i).isDeleted = false ∧ (t'.slot i).key = key ∧ (t'.slot i).pv = v) ↔
        (∃ i, i < t.capacity ∧ (t.slot i).isOccupied = true ∧
          (t.slot i).isDeleted = false ∧ (t.slot i).key = key ∧ (t.slot i).pv = v)) :
    t'.lookup key = t.lookup key := by
  apply Option.ext
  intro v
  rw [Option.mem_def, Option.mem_def, lookup_eq_some_iff hI', lookup_eq_some_iff hI]
  exact h v

theorem contains_eq_lookup (t : hashTable) (key : Key) :
    t.contains key = (t.lookup key).isSome := by
  unfold contains lookup
  cases t.findPos key <;> rfl

theorem getPointer_eq_lookup (t : hashTable) (key : Key) :
    t.getPointer key = match t.lookup key with
      | some v => (v, true)
      | none => (none, false) := by
  unfold getPointer lookup
  cases t.findPos key <;> rfl

end hashTable

end ECE365

namespace ECE365

namespace hashTable

/-! ## The hash table: storing an entry -/

theorem Reach.lt {t : hashTable} {h x : Nat} (hr : Reach t h x) : x < t.capacity := by
  obtain ⟨d, hd, rfl, _⟩ := hr
  exact Nat.mod_lt _ (by omega)

/-- The probe loop of `insert` stops at a slot that is not occupied, when there is one, and
the deleted slot it remembers is one it went through. -/
theorem probeLoop_spec (t : hashTable) (key : Key) (hh : t.hash key < t.capacity) :
    ∀ (fuel j : Nat) (fd : Option Nat) (f : Nat), j ≤ f → f < t.capacity → f - j < fuel →
      (t.slot ((t.hash key + f) % t.capacity)).isOccupied = false →
      (∀ e, e < j → (t.slot ((t.hash key + e) % t.capacity)).isOccupied = true) →
      (∀ x, fd = some x → Reach t (t.hash key) x ∧ (t.slot x).isOccupied = true ∧
        (t.slot x).isDeleted = true) →
      Reach t (t.hash key) (t.probeLoop key fuel ((t.hash key + j) % t.capacity) fd).1 ∧
      (t.slot (t.probeLoop key fuel ((t.hash key + j) % t.capacity) fd).1).isOccupied = false ∧
      (∀ x, (t.probeLoop key fuel ((t.hash key + j) % t.capacity) fd).2 = some x →
        Reach t (t.hash key) x ∧ (t.slot x).isOccupied = true ∧
          (t.slot x).isDeleted = true) := by
  intro fuel
  induction fuel with
  | zero => intro j fd f _ _ h; omega
  | succ fuel ih =>
    intro j fd f hjf hf hfuel hfree hpath hfd
    have hreach : Reach t (t.hash key) ((t.hash key + j) % t.capacity) :=
      ⟨j, by omega, rfl, hpath⟩
    unfold probeLoop
    by_cases hocc : (t.slot ((t.hash key + j) % t.capacity)).isOccupied = true
    · have hjne : j ≠ f := by
        intro e; subst e; rw [hocc] at hfree; exact absurd hfree (by simp)
      have hne : ¬ (((t.hash key + j) % t.capacity + 1) % t.capacity == t.hash key) = true := by
        rw [succ_mod, beq_iff_eq]
        exact add_mod_ne hh (by omega) (by omega)
      simp only [hocc, if_true, if_neg hne]
      rw [succ_mod]
      apply ih (j + 1) _ f (by omega) hf (by omega) hfree
      · intro e he
        by_cases hej : e = j
        · subst hej; exact hocc
        · exact hpath e (by omega)
      · intro x hx
        split at hx
        · rename_i hdel
          simp only [Option.some.injEq] at hx
          subst hx
          simp only [Bool.and_eq_true] at hdel
          exact ⟨hreach, hocc, hdel.1⟩
        · exact hfd x hx
    · have hocc' : (t.slot ((t.hash key + j) % t.capacity)).isOccupied = false := by
        simpa using hocc
      rw [if_neg hocc]
      exact ⟨hreach, hocc', hfd⟩

/-- A table with fewer occupied slots than slots has a slot that is not occupied. -/
theorem exists_free {t : hashTable} (hI : HInv t) (hlt : t.filled < t.capacity) :
    ∃ i, i < t.capacity ∧ (t.slot i).isOccupied = false := by
  by_contra hcon
  have hall : ∀ a ∈ t.data, (fun it : hashItem => it.isOccupied) a = true := by
    intro a ha
    obtain ⟨n, hn, rfl⟩ := List.getElem_of_mem ha
    by_contra hf
    apply hcon
    refine ⟨n, by rw [← hI.size]; exact hn, ?_⟩
    unfold slot
    rw [List.getD_eq_getElem _ _ hn]
    simpa using hf
  have := List.countP_eq_length.2 hall
  rw [← hI.filled_eq, hI.size] at this
  omega

theorem place_data (t : hashTable) (key : Key) (pv : Ptr) :
    (t.place key pv).data = t.data.set (t.insertIndex key)
      { key := key, isOccupied := true, isDeleted := false, pv := pv } := rfl

theorem place_capacity (t : hashTable) (key : Key) (pv : Ptr) :
    (t.place key pv).capacity = t.capacity := rfl

theorem place_eq (t : hashTable) (key : Key) (pv : Ptr) :
    t.place key pv =
      { capacity := t.capacity
        filled := if (t.probeLoop key t.capacity (t.hash key) none).2.isNone then t.filled + 1
          else t.filled
        data := t.data.set (t.insertIndex key)
          { key := key, isOccupied := true, isDeleted := false, pv := pv } } := rfl

/-- Where `place` stores the entry: in a slot reached from the hash index through occupied
slots; `filled` grows exactly when that slot was not occupied. -/
theorem insertIndex_spec {t : hashTable} (hI : HInv t) (hlt : t.filled < t.capacity)
    (key : Key) (pv : Ptr) :
    Reach t (t.hash key) (t.insertIndex key) ∧
    (t.place key pv).filled =
      (if (t.slot (t.insertIndex key)).isOccupied then t.filled else t.filled + 1) ∧
    ((t.slot (t.insertIndex key)).isOccupied = true →
      (t.slot (t.insertIndex key)).isDeleted = true) := by
  have hh := hash_lt t hI.cap_pos key
  obtain ⟨i, hi, hfree⟩ := exists_free hI hlt
  obtain ⟨f, hf, hfi⟩ := offset_exists hh hi
  have hspec := probeLoop_spec t key hh t.capacity 0 none f (by omega) hf (by omega)
    (by rw [hfi]; exact hfree) (by intro e he; omega) (by intro x hx; simp at hx)
  simp only [Nat.add_zero, Nat.mod_eq_of_lt hh] at hspec
  obtain ⟨h1, h2, h3⟩ := hspec
  rw [place_eq]
  unfold insertIndex
  cases hfd : (t.probeLoop key t.capacity (t.hash key) none).2 with
  | none =>
    simp only [Option.isNone_none, if_true]
    refine ⟨h1, ?_, ?_⟩
    · rw [h2]; simp
    · intro h; rw [h2] at h; exact absurd h (by simp)
  | some x =>
    obtain ⟨hx1, hx2, hx3⟩ := h3 x hfd
    simp only [Option.isNone_some, Bool.false_eq_true, if_false]
    refine ⟨hx1, ?_, fun _ => hx3⟩
    rw [hx2]; simp

theorem place_slot {t : hashTable} (hI : HInv t) (hlt : t.filled < t.capacity)
    (key : Key) (pv : Ptr) (j : Nat) :
    (t.place key pv).slot j =
      if j = t.insertIndex key then
        { key := key, isOccupied := true, isDeleted := false, pv := pv }
      else t.slot j := by
  have hr := (insertIndex_spec hI hlt key pv).1.lt
  rw [place_eq]
  exact slot_set _ _ _ _ (by rw [hI.size]; exact hr)

theorem countP_set_occupied (l : List hashItem) (i : Nat) (a : hashItem) (hi : i < l.length)
    (ha : a.isOccupied = true) :
    (l.set i a).countP (fun it => it.isOccupied) =
      if (l.getD i default).isOccupied then l.countP (fun it => it.isOccupied)
      else l.countP (fun it => it.isOccupied) + 1 := by
  rw [List.countP_set _ _ _ _ hi, List.getD_eq_getElem _ _ hi]
  by_cases h : l[i].isOccupied = true
  · have hpos : 0 < l.countP (fun it => it.isOccupied) :=
      List.countP_pos_iff.2 ⟨l[i], List.getElem_mem hi, h⟩
    simp only [h, ha, if_true]
    omega
  · simp only [h, ha, if_true, if_false]
    simp

theorem countP_set_same (l : List hashItem) (i : Nat) (a : hashItem) (hi : i < l.length)
    (ha : a.isOccupied = (l.getD i default).isOccupied) :
    (l.set i a).countP (fun it => it.isOccupied) = l.countP (fun it => it.isOccupied) := by
  rw [List.countP_set _ _ _ _ hi]
  rw [List.getD_eq_getElem _ _ hi] at ha
  by_cases h : l[i].isOccupied = true
  · have hpos : 0 < l.countP (fun it => it.isOccupied) :=
      List.countP_pos_iff.2 ⟨l[i], List.getElem_mem hi, h⟩
    rw [ha]
    simp only [h, if_true]
    omega
  · rw [ha]
    simp only [h, if_false]
    simp

/-- Storing an absent key keeps the invariant. -/
theorem place_inv {t : hashTable} (hI : HInv t) (hlt : t.filled < t.capacity)
    (key : Key) (pv : Ptr) (habs : t.findPos key = none) : HInv (t.place key pv) := by
  obtain ⟨hreach, hfill, _⟩ := insertIndex_spec hI hlt key pv
  have hins := hreach.lt
  have hslot := place_slot hI hlt key pv
  have hcap : (t.place key pv).capacity = t.capacity := rfl
  have hhash : ∀ k, (t.place key pv).hash k = t.hash k := hash_congr _ _ hcap
  have hmono : ∀ x, (t.slot x).isOccupied = true → ((t.place key pv).slot x).isOccupied = true := by
    intro x hx
    rw [hslot]
    split
    · rfl
    · exact hx
  have habs' := (findPos_eq_none_iff hI key).1 habs
  refine ⟨?_, ?_, ?_, ?_, ?_, ?_⟩
  · exact hI.cap_pos
  · rw [place_data, List.length_set]; exact hI.size
  · intro i hd
    rw [hslot] at hd ⊢
    split
    · rfl
    · rename_i hne
      rw [if_neg hne] at hd
      exact hI.del_occ i hd
  · intro i hi hocc hdel
    rw [hcap] at hi ⊢
    rw [hhash]
    rw [hslot] at hocc hdel ⊢
    by_cases hie : i = t.insertIndex key
    · rw [if_pos hie]
      obtain ⟨d, hd, hidx, hpath⟩ := hreach
      refine ⟨d, hd, by rw [hie]; exact hidx, ?_⟩
      intro e he
      exact hmono _ (hpath e he)
    · rw [if_neg hie] at hocc hdel ⊢
      obtain ⟨d, hd, hidx, hpath⟩ := hI.chain i hi hocc hdel
      refine ⟨d, hd, hidx, ?_⟩
      intro e he
      exact hmono _ (hpath e he)
  · intro i j hi hj hocci hdeli hoccj hdelj hkey
    rw [hcap] at hi hj
    rw [hslot] at hocci hdeli hkey
    rw [hslot] at hoccj hdelj hkey
    by_cases hie : i = t.insertIndex key
    · by_cases hje : j = t.insertIndex key
      · rw [hie, hje]
      · rw [if_neg hje] at hoccj hdelj hkey
        rw [if_pos hie] at hkey
        exact absurd hkey.symm (habs' j hj hoccj hdelj)
    · rw [if_neg hie] at hocci hdeli hkey
      by_cases hje : j = t.insertIndex key
      · rw [if_pos hje] at hkey
        exact absurd hkey (habs' i hi hocci hdeli)
      · rw [if_neg hje] at hoccj hdelj hkey
        exact hI.uniq i j hi hj hocci hdeli hoccj hdelj hkey
  · rw [hfill, place_data,
      countP_set_occupied _ _ _ (by rw [hI.size]; exact hins) rfl, ← hI.filled_eq]
    rfl

/-- The content of the table after an absent key is stored. -/
theorem lookup_place {t : hashTable} (hI : HInv t) (hlt : t.filled < t.capacity)
    (key : Key) (pv : Ptr) (habs : t.findPos key = none) (k : Key) :
    (t.place key pv).lookup k = if k = key then some pv else t.lookup k := by
  have hI' := place_inv hI hlt key pv habs
  have hslot := place_slot hI hlt key pv
  have hins := (insertIndex_spec hI hlt key pv).1.lt
  have habs' := (findPos_eq_none_iff hI key).1 habs
  have hcap : (t.place key pv).capacity = t.capacity := rfl
  by_cases hk : k = key
  · rw [if_pos hk, lookup_eq_some_iff hI']
    refine ⟨t.insertIndex key, hins, ?_, ?_, ?_, ?_⟩ <;> rw [hslot, if_pos rfl]
    exact hk.symm
  · rw [if_neg hk]
    apply lookup_congr hI hI'
    intro v
    constructor
    · rintro ⟨i, hi, h1, h2, h3, h4⟩
      rw [hslot] at h1 h2 h3 h4
      by_cases hie : i = t.insertIndex key
      · rw [if_pos hie] at h3
        exact absurd h3.symm hk
      · rw [if_neg hie] at h1 h2 h3 h4
        exact ⟨i, hi, h1, h2, h3, h4⟩
    · rintro ⟨i, hi, h1, h2, h3, h4⟩
      have hie : i ≠ t.insertIndex key := by
        intro e
        subst e
        have := (insertIndex_spec hI hlt key pv).2.2 h1
        rw [h2] at this
        exact absurd this (by simp)
      refine ⟨i, hi, ?_, ?_, ?_, ?_⟩ <;> rw [hslot, if_neg hie] <;> assumption

end hashTable

end ECE365

namespace ECE365

namespace hashTable

/-! ## The hash table: `remove`, `setPointer`, `rehash` and `insert` -/

theorem remove_of_none {t : hashTable} {key : Key} (h : t.findPos key = none) :
    t.remove key = (t, false) := by
  unfold remove; rw [h]

theorem remove_of_some {t : hashTable} {key : Key} {pos : Nat} (h : t.findPos key = some pos) :
    t.remove key =
      ({ t with data := t.data.set pos { t.slot pos with isDeleted := true } }, true) := by
  unfold remove; rw [h]

theorem setPointer_of_none {t : hashTable} {key : Key} {pv : Ptr} (h : t.findPos key = none) :
    t.setPointer key pv = (t, 1) := by
  unfold setPointer; rw [h]

theorem setPointer_of_some {t : hashTable} {key : Key} {pv : Ptr} {pos : Nat}
    (h : t.findPos key = some pos) :
    t.setPointer key pv =
      ({ t with data := t.data.set pos { t.slot pos with pv := pv } }, 0) := by
  unfold setPointer; rw [h]

/-- Replacing a slot by an item with the same key and the same occupancy, which is live
only if the old one is, keeps the invariant. -/
theorem set_inv {t : hashTable} (hI : HInv t) (pos : Nat) (a : hashItem) (hpos : pos < t.capacity)
    (hkey : a.key = (t.slot pos).key) (hocc : a.isOccupied = (t.slot pos).isOccupied)
    (hdel : a.isDeleted = false → (t.slot pos).isDeleted = false)
    (hdo : a.isDeleted = true → a.isOccupied = true) :
    HInv { t with data := t.data.set pos a } := by
  have hlen : pos < t.data.length := by rw [hI.size]; exact hpos
  have hslot := fun j => slot_set t pos j a hlen
  have hhash : ∀ k, ({ t with data := t.data.set pos a } : hashTable).hash k = t.hash k :=
    hash_congr _ _ rfl
  have hoccAll : ∀ j, (({ t with data := t.data.set pos a } : hashTable).slot j).isOccupied
      = (t.slot j).isOccupied := by
    intro j
    rw [hslot]
    split
    · rename_i h; rw [h, hocc]
    · rfl
  have hkeyAll : ∀ j, (({ t with data := t.data.set pos a } : hashTable).slot j).key
      = (t.slot j).key := by
    intro j
    rw [hslot]
    split
    · rename_i h; rw [h, hkey]
    · rfl
  have hdelAll : ∀ j, (({ t with data := t.data.set pos a } : hashTable).slot j).isDeleted = false →
      (t.slot j).isDeleted = false := by
    intro j
    rw [hslot]
    split
    · rename_i h; rw [h]; exact hdel
    · exact id
  refine ⟨hI.cap_pos, ?_, ?_, ?_, ?_, ?_⟩
  · show (t.data.set pos a).length = t.capacity
    rw [List.length_set]; exact hI.size
  · intro i hd
    rw [hoccAll]
    rw [hslot] at hd
    by_cases hi : i = pos
    · rw [if_pos hi] at hd
      rw [hi, ← hocc]; exact hdo hd
    · rw [if_neg hi] at hd
      exact hI.del_occ i hd
  · intro i hi ho hd
    rw [hoccAll] at ho
    rw [hkeyAll, hhash]
    obtain ⟨d, hd1, hd2, hd3⟩ := hI.chain i hi ho (hdelAll i hd)
    refine ⟨d, hd1, hd2, ?_⟩
    intro e he
    rw [hoccAll]
    exact hd3 e he
  · intro i j hi hj h1 h2 h3 h4 h5
    rw [hoccAll] at h1 h3
    rw [hkeyAll, hkeyAll] at h5
    exact hI.uniq i j hi hj h1 (hdelAll i h2) h3 (hdelAll j h4) h5
  · show t.filled = (t.data.set pos a).countP (fun it => it.isOccupied)
    rw [countP_set_same _ _ _ hlen hocc]
    exact hI.filled_eq

theorem remove_inv {t : hashTable} (hI : HInv t) (key : Key) : HInv (t.remove key).1 := by
  cases h : t.findPos key with
  | none => rw [remove_of_none h]; exact hI
  | some pos =>
    rw [remove_of_some h]
    obtain ⟨h1, h2, _, _⟩ := (findPos_eq_some_iff hI key pos).1 h
    exact set_inv hI pos _ h1 rfl rfl (by intro h; exact absurd h (by simp)) (fun _ => h2)

theorem setPointer_inv {t : hashTable} (hI : HInv t) (key : Key) (pv : Ptr) :
    HInv (t.setPointer key pv).1 := by
  cases h : t.findPos key with
  | none => rw [setPointer_of_none h]; exact hI
  | some pos =>
    rw [setPointer_of_some h]
    obtain ⟨h1, _, _, _⟩ := (findPos_eq_some_iff hI key pos).1 h
    exact set_inv hI pos _ h1 rfl rfl (fun h => h) (fun h => hI.del_occ pos h)

theorem remove_capacity (t : hashTable) (key : Key) : (t.remove key).1.capacity = t.capacity := by
  unfold remove; split <;> rfl

theorem remove_filled (t : hashTable) (key : Key) : (t.remove key).1.filled = t.filled := by
  unfold remove; split <;> rfl

theorem setPointer_capacity (t : hashTable) (key : Key) (pv : Ptr) :
    (t.setPointer key pv).1.capacity = t.capacity := by
  unfold setPointer; split <;> rfl

theorem setPointer_filled (t : hashTable) (key : Key) (pv : Ptr) :
    (t.setPointer key pv).1.filled = t.filled := by
  unfold setPointer; split <;> rfl

/-- The content of the table after `remove`. -/
theorem lookup_remove {t : hashTable} (hI : HInv t) (key : Key) (k : Key) :
    (t.remove key).1.lookup k = if k = key then none else t.lookup k := by
  have hI' := remove_inv hI key
  cases h : t.findPos key with
  | none =>
    rw [remove_of_none h]
    split
    · rename_i hk
      rw [hk]; unfold lookup; rw [h]; rfl
    · rfl
  | some pos =>
    rw [remove_of_some h] at hI' ⊢
    obtain ⟨h1, h2, h3, h4⟩ := (findPos_eq_some_iff hI key pos).1 h
    have hlen : pos < t.data.length := by rw [hI.size]; exact h1
    have hslot := fun j => slot_set t pos j { t.slot pos with isDeleted := true } hlen
    by_cases hk : k = key
    · rw [if_pos hk, lookup_eq_none_iff hI']
      intro i hi ho hd hkey
      rw [hslot] at ho hd hkey
      by_cases hip : i = pos
      · rw [if_pos hip] at hd
        exact absurd hd (by simp)
      · rw [if_neg hip] at ho hd hkey
        exact hip (hI.uniq i pos hi h1 ho hd h2 h3 (by rw [hkey, h4, hk]))
    · rw [if_neg hk]
      apply lookup_congr hI hI'
      intro v
      constructor
      · rintro ⟨i, hi, ho, hd, hkey, hv⟩
        rw [hslot] at ho hd hkey hv
        by_cases hip : i = pos
        · rw [if_pos hip] at hd
          exact absurd hd (by simp)
        · rw [if_neg hip] at ho hd hkey hv
          exact ⟨i, hi, ho, hd, hkey, hv⟩
      · rintro ⟨i, hi, ho, hd, hkey, hv⟩
        have hip : i ≠ pos := by
          intro e; subst e; rw [h4] at hkey; exact hk hkey.symm
        refine ⟨i, hi, ?_, ?_, ?_, ?_⟩ <;> rw [hslot, if_neg hip] <;> assumption

/-- The content of the table after `setPointer`. -/
theorem lookup_setPointer {t : hashTable} (hI : HInv t) (key : Key) (pv : Ptr) (k : Key) :
    (t.setPointer key pv).1.lookup k =
      if k = key ∧ (t.lookup key).isSome then some pv else t.lookup k := by
  have hI' := setPointer_inv hI key pv
  cases h : t.findPos key with
  | none =>
    have hl : t.lookup key = none := by unfold lookup; rw [h]; rfl
    rw [setPointer_of_none h, hl]
    simp
  | some pos =>
    have hl : (t.lookup key).isSome = true := by unfold lookup; rw [h]; rfl
    rw [setPointer_of_some h] at hI' ⊢
    obtain ⟨h1, h2, h3, h4⟩ := (findPos_eq_some_iff hI key pos).1 h
    have hlen : pos < t.data.length := by rw [hI.size]; exact h1
    have hslot := fun j => slot_set t pos j { t.slot pos with pv := pv } hlen
    by_cases hk : k = key
    · rw [if_pos ⟨hk, hl⟩, lookup_eq_some_iff hI']
      refine ⟨pos, h1, ?_, ?_, ?_, ?_⟩ <;> rw [hslot, if_pos rfl]
      · exact h2
      · exact h3
      · show (t.slot pos).key = k
        rw [h4, hk]
    · rw [if_neg (fun hh => hk hh.1)]
      apply lookup_congr hI hI'
      intro v
      constructor
      · rintro ⟨i, hi, ho, hd, hkey, hv⟩
        rw [hslot] at ho hd hkey hv
        by_cases hip : i = pos
        · rw [if_pos hip] at hkey
          have : (t.slot pos).key = k := hkey
          rw [h4] at this
          exact absurd this.symm hk
        · rw [if_neg hip] at ho hd hkey hv
          exact ⟨i, hi, ho, hd, hkey, hv⟩
      · rintro ⟨i, hi, ho, hd, hkey, hv⟩
        have hip : i ≠ pos := by
          intro e; subst e; rw [h4] at hkey; exact hk hkey.symm
        refine ⟨i, hi, ?_, ?_, ?_, ?_⟩ <;> rw [hslot, if_neg hip] <;> assumption

/-! ### Rehash -/

theorem fresh_slot (n i : Nat) : (fresh n).slot i = default := by
  unfold slot fresh
  simp only [List.getD_eq_getElem?_getD, List.getElem?_replicate]
  split <;> rfl

theorem fresh_inv (n : Nat) (hn : 0 < n) : HInv (fresh n) := by
  refine ⟨hn, by simp [fresh], ?_, ?_, ?_, ?_⟩
  · intro i h; rw [fresh_slot] at h; exact absurd h (by decide)
  · intro i _ h; rw [fresh_slot] at h; exact absurd h (by decide)
  · intro i j _ _ h; rw [fresh_slot] at h; exact absurd h (by decide)
  · show 0 = (List.replicate n default).countP (fun it : hashItem => it.isOccupied)
    rw [List.countP_replicate]
    rfl

theorem init_eq_fresh (size : Int) : init size = fresh (getPrime size) := rfl

theorem lookup_fresh (n : Nat) (hn : 0 < n) (k : Key) : (fresh n).lookup k = none := by
  rw [lookup_eq_none_iff (fresh_inv n hn)]
  intro i _ h
  rw [fresh_slot] at h
  exact absurd h (by decide)

theorem insertDuringRehash_spec {t : hashTable} (hI : HInv t) (hlt : t.filled < t.capacity)
    (key : Key) (pv : Ptr) :
    HInv (t.insertDuringRehash key pv).1 ∧
    (t.insertDuringRehash key pv).1.capacity = t.capacity ∧
    (t.insertDuringRehash key pv).1.filled ≤ t.filled + 1 ∧
    (∀ k, (t.insertDuringRehash key pv).1.lookup k =
      if k = key ∧ t.lookup key = none then some pv else t.lookup k) ∧
    ((∀ i, (t.slot i).isDeleted = false) →
      ∀ i, ((t.insertDuringRehash key pv).1.slot i).isDeleted = false) := by
  unfold insertDuringRehash
  cases h : t.findPos key with
  | some pos =>
    have hl : t.lookup key ≠ none := by unfold lookup; rw [h]; simp
    rw [Option.isSome_some, if_pos rfl]
    refine ⟨hI, rfl, Nat.le_succ _, ?_, fun h => h⟩
    intro k
    rw [if_neg (fun hh => hl hh.2)]
  | none =>
    have hl : t.lookup key = none := by unfold lookup; rw [h]; rfl
    rw [Option.isSome_none, if_neg (by decide)]
    refine ⟨place_inv hI hlt key pv h, rfl, ?_, ?_, ?_⟩
    · rw [(insertIndex_spec hI hlt key pv).2.1]
      split <;> omega
    · intro k
      rw [lookup_place hI hlt key pv h]
      by_cases hk : k = key
      · rw [if_pos hk, if_pos ⟨hk, hl⟩]
      · rw [if_neg hk, if_neg (fun hh => hk hh.1)]
    · intro hnd i
      rw [place_slot hI hlt key pv]
      split
      · rfl
      · exact hnd i

/-- The loop of `rehash` that stores the live entries of the old storage again. -/
theorem rehash_fold_spec (l : List hashItem) :
    ∀ (acc : hashTable), HInv acc →
      acc.filled + l.countP (fun it => it.isOccupied && !it.isDeleted) < acc.capacity →
      HInv (l.foldl rehashStep acc) ∧
      (l.foldl rehashStep acc).capacity = acc.capacity ∧
      (l.foldl rehashStep acc).filled
          ≤ acc.filled + l.countP (fun it => it.isOccupied && !it.isDeleted) ∧
      (∀ k, (l.foldl rehashStep acc).lookup k =
          match acc.lookup k with
          | some v => some v
          | none => liveLookup l k) ∧
      ((∀ i, (acc.slot i).isDeleted = false) →
        ∀ i, ((l.foldl rehashStep acc).slot i).isDeleted = false) := by
  induction l with
  | nil =>
    intro acc hI _
    refine ⟨hI, rfl, by simp, ?_, fun h => h⟩
    intro k
    simp only [List.foldl_nil, liveLookup, List.find?_nil, Option.map_none']
    cases acc.lookup k <;> rfl
  | cons item l ih =>
    intro acc hI hlt
    simp only [List.foldl_cons]
    by_cases hlive : (item.isOccupied && !item.isDeleted) = true
    · have hc : (item :: l).countP (fun it => it.isOccupied && !it.isDeleted)
          = l.countP (fun it => it.isOccupied && !it.isDeleted) + 1 := by
        rw [List.countP_cons]; simp [hlive]
      rw [hc] at hlt ⊢
      have hstep : rehashStep acc item = (acc.insertDuringRehash item.key item.pv).1 := by
        unfold rehashStep; rw [if_pos hlive]
      rw [hstep]
      obtain ⟨s1, s2, s3, s4, s5⟩ :=
        insertDuringRehash_spec hI (by omega) item.key item.pv
      obtain ⟨r1, r2, r3, r4, r5⟩ := ih _ s1 (by rw [s2]; omega)
      refine ⟨r1, by rw [r2, s2], by omega, ?_, fun h => r5 (s5 h)⟩
      intro k
      rw [r4, s4]
      by_cases hk : k = item.key
      · subst hk
        cases hacc : acc.lookup item.key with
        | some v => simp
        | none =>
          simp only [and_self, if_true]
          unfold liveLookup
          rw [List.find?_cons_of_pos]
          · rfl
          · simp only [Bool.and_eq_true, beq_iff_eq, and_true]
            simpa using hlive
      · rw [if_neg (fun hh => hk hh.1)]
        cases acc.lookup k with
        | some v => rfl
        | none =>
          show liveLookup l k = liveLookup (item :: l) k
          unfold liveLookup
          rw [List.find?_cons_of_neg]
          simp only [Bool.and_eq_true, beq_iff_eq, not_and]
          intro _ hkey
          exact hk hkey.symm
    · have hc : (item :: l).countP (fun it => it.isOccupied && !it.isDeleted)
          = l.countP (fun it => it.isOccupied && !it.isDeleted) := by
        rw [List.countP_cons]; simp [hlive]
      rw [hc] at hlt ⊢
      have hstep : rehashStep acc item = acc := by
        unfold rehashStep; rw [if_neg hlive]
      rw [hstep]
      obtain ⟨r1, r2, r3, r4, r5⟩ := ih acc hI hlt
      refine ⟨r1, r2, r3, ?_, r5⟩
      intro k
      rw [r4]
      cases acc.lookup k with
      | some v => rfl
      | none =>
        show liveLookup l k = liveLookup (item :: l) k
        unfold liveLookup
        rw [List.find?_cons_of_neg]
        simp only [Bool.and_eq_true, not_and]
        intro h1 h2
        exact absurd (by simp [h1, h2]) hlive

/-- The content of a table is the first live entry with the key in its storage. -/
theorem lookup_eq_liveLookup {t : hashTable} (hI : HInv t) (k : Key) :
    t.lookup k = liveLookup t.data k := by
  unfold liveLookup
  cases hf : t.data.find? (fun it => it.isOccupied && !it.isDeleted && it.key == k) with
  | none =>
    rw [Option.map_none', lookup_eq_none_iff hI]
    intro i hi ho hd hkey
    have hlen : i < t.data.length := by rw [hI.size]; exact hi
    have hmem : t.slot i ∈ t.data := by
      unfold slot
      rw [List.getD_eq_getElem _ _ hlen]
      exact List.getElem_mem hlen
    have := List.find?_eq_none.1 hf _ hmem
    simp [ho, hd, hkey] at this
  | some it =>
    rw [Option.map_some', lookup_eq_some_iff hI]
    have hp := List.find?_some hf
    have hmem := List.mem_of_find?_eq_some hf
    obtain ⟨n, hn, rfl⟩ := List.getElem_of_mem hmem
    simp only [Bool.and_eq_true, Bool.not_eq_true', beq_iff_eq] at hp
    have hs : t.slot n = t.data[n] := by
      unfold slot
      exact List.getD_eq_getElem _ _ hn
    refine ⟨n, by rw [← hI.size]; exact hn, ?_, ?_, ?_, ?_⟩ <;> rw [hs]
    · exact hp.1.1
    · exact hp.1.2
    · exact hp.2

theorem rehash_eq (t : hashTable) :
    t.rehash =
      if getPrime (2 * (t.capacity : Int)) ≤ t.capacity then (t, false)
      else
        (t.data.foldl rehashStep (fresh (getPrime (2 * (t.capacity : Int)))), true) := rfl

theorem countP_live_le (l : List hashItem) :
    l.countP (fun it => it.isOccupied && !it.isDeleted) ≤ l.countP (fun it => it.isOccupied) := by
  apply List.countP_mono_left
  intro x _ h
  simp only [Bool.and_eq_true] at h
  exact h.1

/-- A successful `rehash` keeps the invariant and the content, moves to a larger capacity,
does not increase `filled` and leaves no deleted slot. -/
theorem rehash_spec {t : hashTable} (hI : HInv t) (hok : (t.rehash).2 = true) :
    HInv (t.rehash).1 ∧
    (t.rehash).1.capacity = getPrime (2 * (t.capacity : Int)) ∧
    t.capacity < (t.rehash).1.capacity ∧
    (t.rehash).1.filled ≤ t.filled ∧
    (∀ k, (t.rehash).1.lookup k = t.lookup k) ∧
    (∀ i, ((t.rehash).1.slot i).isDeleted = false) := by
  rw [rehash_eq] at hok ⊢
  by_cases hle : getPrime (2 * (t.capacity : Int)) ≤ t.capacity
  · rw [if_pos hle] at hok
    exact absurd hok (by simp)
  · rw [if_neg hle]
    have hgt : t.capacity < getPrime (2 * (t.capacity : Int)) := by omega
    have hcnt : t.data.countP (fun it => it.isOccupied && !it.isDeleted) ≤ t.filled := by
      rw [hI.filled_eq]; exact countP_live_le _
    have hfl : t.filled ≤ t.capacity := by
      rw [hI.filled_eq, ← hI.size]; exact List.countP_le_length _
    obtain ⟨r1, r2, r3, r4, r5⟩ := rehash_fold_spec t.data (fresh (getPrime (2 * (t.capacity : Int))))
      (fresh_inv _ (by omega)) (by show 0 + _ < getPrime _; omega)
    refine ⟨r1, r2, by rw [r2]; exact hgt, ?_, ?_, ?_⟩
    · have : (fresh (getPrime (2 * (t.capacity : Int)))).filled = 0 := rfl
      simp only at r3 ⊢
      omega
    · intro k
      simp only at r4 ⊢
      rw [r4, lookup_fresh _ (by omega), lookup_eq_liveLookup hI]
    · exact r5 (fun i => by rw [fresh_slot]; rfl)

theorem rehash_of_fail {t : hashTable} (h : (t.rehash).2 = false) : (t.rehash).1 = t := by
  rw [rehash_eq] at h ⊢
  split
  · rfl
  · rename_i hle
    rw [if_neg hle] at h
    exact absurd h (by simp)

end hashTable

end ECE365

namespace ECE365

/-! ## The hash table between public operations -/

theorem getPrime_mem (size : Int) : getPrime size ∈ primeNumbers := by
  unfold getPrime
  split
  · rename_i p hp
    exact List.mem_of_find?_eq_some hp
  · decide

theorem primeNumbers_pos : ∀ p ∈ primeNumbers, 0 < p := by decide

/-- A successful step on the ladder of capacities leaves room for one more entry below
the load threshold of the new capacity. -/
theorem primeNumbers_step : ∀ p ∈ primeNumbers,
    p < getPrime (2 * (p : Int)) → p / 2 + 1 ≤ getPrime (2 * (p : Int)) / 2 := by
  decide

namespace hashTable

theorem init_pinv (size : Int) : PInv (init size) := by
  refine ⟨?_, getPrime_mem size, Nat.zero_le _⟩
  rw [init_eq_fresh]
  exact fresh_inv _ (primeNumbers_pos _ (getPrime_mem size))

theorem lookup_init (size : Int) (k : Key) : (init size).lookup k = none := by
  rw [init_eq_fresh]
  exact lookup_fresh _ (primeNumbers_pos _ (getPrime_mem size)) k

theorem PInv.filled_lt {t : hashTable} (hP : PInv t) : t.filled < t.capacity := by
  have h1 := hP.load
  have h2 := hP.inv.cap_pos
  have : t.capacity / 2 < t.capacity := Nat.div_lt_self h2 (by decide)
  omega

theorem insert_of_present {t : hashTable} {key : Key} (pv : Ptr) (b : Bool)
    (h : (t.findPos key).isSome = true) : t.insert key pv b = (t, 1) := by
  unfold insert; rw [if_pos h]

theorem insert_result (t : hashTable) (key : Key) (pv : Ptr) (b : Bool) :
    (t.insert key pv b).2 = 0 ∨ (t.insert key pv b).2 = 1 ∨ (t.insert key pv b).2 = 2 := by
  unfold insert
  split
  · exact Or.inr (Or.inl rfl)
  · split
    · split
      · exact Or.inl rfl
      · exact Or.inr (Or.inr rfl)
    · exact Or.inl rfl

/-- A call of `insert` that does not return `0` leaves the table as it is. -/
theorem insert_of_ne_zero {t : hashTable} {key : Key} {pv : Ptr} {b : Bool}
    (h : (t.insert key pv b).2 ≠ 0) : (t.insert key pv b).1 = t := by
  unfold insert at h ⊢
  split
  · rfl
  · rename_i h1
    rw [if_neg h1] at h
    split
    · rename_i h2
      rw [if_pos h2] at h
      split
      · rename_i h3
        rw [if_pos h3] at h
        exact absurd rfl h
      · rfl
    · rename_i h2
      rw [if_neg h2] at h
      exact absurd rfl h

/-- The result `1` of `insert` means that the key is in the table. -/
theorem insert_eq_one_iff (t : hashTable) (key : Key) (pv : Ptr) (b : Bool) :
    (t.insert key pv b).2 = 1 ↔ t.contains key = true := by
  unfold insert contains
  constructor
  · intro h
    by_contra hc
    rw [if_neg hc] at h
    split at h
    · split at h <;> simp at h
    · simp at h
  · intro h
    rw [if_pos h]

/-- A call of `insert` (with `duringRehash = false`) that returns `0` stores the key, which
was absent, and keeps the invariant. -/
theorem insert_ok {t : hashTable} (hP : PInv t) (key : Key) (pv : Ptr)
    (h : (t.insert key pv false).2 = 0) :
    PInv (t.insert key pv false).1 ∧ t.lookup key = none ∧
    ∀ k, (t.insert key pv false).1.lookup k = if k = key then some pv else t.lookup k := by
  unfold insert at h ⊢
  by_cases h1 : (t.findPos key).isSome = true
  · rw [if_pos h1] at h
    exact absurd h (by simp)
  · rw [if_neg h1] at h ⊢
    have habs : t.findPos key = none := by
      cases hf : t.findPos key with
      | none => rfl
      | some p => rw [hf] at h1; exact absurd rfl h1
    have hl : t.lookup key = none := by unfold lookup; rw [habs]; rfl
    by_cases h2 : (!false && decide (t.filled ≥ t.capacity / 2)) = true
    · rw [if_pos h2] at h ⊢
      by_cases h3 : (t.rehash).2 = true
      · rw [if_pos h3]
        obtain ⟨r1, r2, r3, r4, r5, _⟩ := rehash_spec hP.inv h3
        have hstep := primeNumbers_step t.capacity hP.prime (by rw [← r2]; exact r3)
        rw [← r2] at hstep
        have hload := hP.load
        have hdiv : (t.rehash).1.capacity / 2 < (t.rehash).1.capacity :=
          Nat.div_lt_self r1.cap_pos (by decide)
        have hlt : (t.rehash).1.filled < (t.rehash).1.capacity := by omega
        have habs' : (t.rehash).1.findPos key = none := by
          have := r5 key
          rw [hl] at this
          unfold lookup at this
          rwa [Option.map_eq_none'] at this
        refine ⟨⟨place_inv r1 hlt key pv habs', ?_, ?_⟩, hl, ?_⟩
        · rw [place_capacity, r2]; exact getPrime_mem _
        · rw [(insertIndex_spec r1 hlt key pv).2.1, place_capacity]
          split <;> omega
        · intro k
          show ((t.rehash).1.place key pv).lookup k = _
          rw [lookup_place r1 hlt key pv habs', r5]
      · rw [if_neg h3] at h
        exact absurd h (by simp)
    · rw [if_neg h2]
      have hlt := hP.filled_lt
      have hfl : t.filled < t.capacity / 2 := by
        simp only [Bool.not_false, Bool.true_and, decide_eq_true_eq, ge_iff_le, not_le] at h2
        exact h2
      refine ⟨⟨place_inv hP.inv hlt key pv habs, hP.prime, ?_⟩, hl, ?_⟩
      · rw [(insertIndex_spec hP.inv hlt key pv).2.1, place_capacity]
        split <;> omega
      · intro k
        exact lookup_place hP.inv hlt key pv habs k

theorem insert_pinv {t : hashTable} (hP : PInv t) (key : Key) (pv : Ptr) :
    PInv (t.insert key pv false).1 := by
  by_cases h : (t.insert key pv false).2 = 0
  · exact (insert_ok hP key pv h).1
  · rw [insert_of_ne_zero h]; exact hP

theorem remove_pinv {t : hashTable} (hP : PInv t) (key : Key) : PInv (t.remove key).1 :=
  ⟨remove_inv hP.inv key, by rw [remove_capacity]; exact hP.prime,
    by rw [remove_capacity, remove_filled]; exact hP.load⟩

theorem setPointer_pinv {t : hashTable} (hP : PInv t) (key : Key) (pv : Ptr) :
    PInv (t.setPointer key pv).1 :=
  ⟨setPointer_inv hP.inv key pv, by rw [setPointer_capacity]; exact hP.prime,
    by rw [setPointer_capacity, setPointer_filled]; exact hP.load⟩

theorem remove_result (t : hashTable) (key : Key) :
    (t.remove key).2 = t.contains key := by
  unfold remove contains
  cases t.findPos key <;> rfl

theorem setPointer_result (t : hashTable) (key : Key) (pv : Ptr) :
    (t.setPointer key pv).2 = if t.contains key then 0 else 1 := by
  unfold setPointer contains
  cases t.findPos key <;> rfl

end hashTable

end ECE365

namespace ECE365

namespace hashTable

theorem setPointer_nodel (t : hashTable) (key : Key) (pv : Ptr)
    (h : ∀ i, (t.slot i).isDeleted = false) :
    ∀ i, ((t.setPointer key pv).1.slot i).isDeleted = false := by
  intro i
  cases hf : t.findPos key with
  | none => rw [setPointer_of_none hf]; exact h i
  | some pos =>
    rw [setPointer_of_some hf]
    by_cases hlen : pos < t.data.length
    · rw [slot_set _ _ _ _ hlen]
      split
      · exact h pos
      · exact h i
    · have : t.data.set pos { t.slot pos with pv := pv } = t.data := by
        apply List.set_eq_of_length_le; omega
      rw [this]
      exact h i

/-- The content of the table after a call of `setPointer` for a key that is in it. -/
theorem lookup_setPointer_of_mapped {t : hashTable} (hI : HInv t) (key : Key) (pv : Ptr)
    (hm : t.lookup key ≠ none) (k : Key) :
    (t.setPointer key pv).1.lookup k = if k = key then some pv else t.lookup k := by
  rw [lookup_setPointer hI]
  have : (t.lookup key).isSome = true := by
    cases h : t.lookup key with
    | none => exact absurd h hm
    | some v => rfl
  simp [this]

theorem lookup_setPointer_of_absent {t : hashTable} (key : Key) (pv : Ptr)
    (hm : t.lookup key = none) : (t.setPointer key pv).1 = t := by
  unfold lookup at hm
  rw [Option.map_eq_none'] at hm
  rw [setPointer_of_none hm]

end hashTable

namespace heap

/-! ## The heap: one step of a percolation -/

theorem getD_set (d : List node) (i j : Nat) (a : node) (hi : i < d.length) :
    (d.set i a).getD j default = if j = i then a else d.getD j default := by
  simp only [List.getD_eq_getElem?_getD, List.getElem?_set]
  by_cases h : i = j
  · subst h; simp [hi]
  · have h' : ¬ j = i := fun e => h e.symm
    simp [h, h']

theorem Frame.refl (h : heap) : Frame h h := ⟨rfl, rfl, rfl, rfl, rfl, fun x => x⟩

theorem Frame.trans {h1 h2 h3 : heap} (a : Frame h1 h2) (b : Frame h2 h3) : Frame h1 h3 :=
  ⟨b.currentSize.trans a.currentSize, b.capacity.trans a.capacity, b.length.trans a.length,
    b.mcap.trans a.mcap, b.mfilled.trans a.mfilled, fun x => b.nodel (a.nodel x)⟩

theorem move_slot (h : heap) (pos q j : Nat) (hpos : pos < h.data.length) :
    (h.move pos q).slot j = if j = pos then h.slot q else h.slot j :=
  getD_set _ _ _ _ hpos

theorem fill_slot (h : heap) (pos j : Nat) (tmp : node) (hpos : pos < h.data.length) :
    (h.fill pos tmp).slot j = if j = pos then tmp else h.slot j :=
  getD_set _ _ _ _ hpos

theorem move_frame (h : heap) (pos q : Nat) : Frame h (h.move pos q) :=
  ⟨rfl, rfl, List.length_set _ _ _, hashTable.setPointer_capacity _ _ _,
    hashTable.setPointer_filled _ _ _, hashTable.setPointer_nodel _ _ _⟩

theorem fill_frame (h : heap) (pos : Nat) (tmp : node) : Frame h (h.fill pos tmp) :=
  ⟨rfl, rfl, List.length_set _ _ _, hashTable.setPointer_capacity _ _ _,
    hashTable.setPointer_filled _ _ _, hashTable.setPointer_nodel _ _ _⟩

theorem HoleBase.pos_lt {h : heap} {pos : Nat} {tmp : node} (hb : HoleBase h pos tmp) :
    pos < h.data.length := by
  have := hb.size; have := hb.bound; have := hb.pos_le; omega

/-- Two slots other than the hole that hold the same id are the same slot. -/
theorem HoleBase.inj_hole {h : heap} {pos : Nat} {tmp : node} (hb : HoleBase h pos tmp)
    {i j : Nat} (hi1 : 1 ≤ i) (hi2 : i ≤ h.currentSize) (hi3 : i ≠ pos)
    (hj1 : 1 ≤ j) (hj2 : j ≤ h.currentSize) (hj3 : j ≠ pos)
    (he : (h.slot i).id = (h.slot j).id) : i = j := by
  have h1 := hb.index i hi1 hi2 hi3
  have h2 := hb.index j hj1 hj2 hj3
  rw [he, h2] at h1
  simpa using h1.symm

/-- Moving the node of a slot `q` into the hole makes `q` the hole. -/
theorem HoleBase.move {h : heap} {pos : Nat} {tmp : node} (hb : HoleBase h pos tmp)
    (q : Nat) (hq1 : 1 ≤ q) (hq2 : q ≤ h.currentSize) (hq3 : q ≠ pos) :
    HoleBase (h.move pos q) q tmp ∧ ∀ n, HoleMem (h.move pos q) q n ↔ HoleMem h pos n := by
  have hslot := fun j => move_slot h pos q j hb.pos_lt
  have hmq : h.mapping.lookup (h.slot q).id ≠ none := by
    rw [hb.index q hq1 hq2 hq3]; simp
  have hlook : ∀ x, (h.move pos q).mapping.lookup x =
      if x = (h.slot q).id then some (some pos) else h.mapping.lookup x :=
    fun x => hashTable.lookup_setPointer_of_mapped hb.pinv.inv _ _ hmq x
  have hcs : (h.move pos q).currentSize = h.currentSize := rfl
  constructor
  · refine ⟨hashTable.setPointer_pinv hb.pinv _ _, ?_, hb.bound, hq1, hq2, ?_, ?_, ?_, ?_⟩
    · show (h.data.set pos (h.slot q)).length = h.capacity + 1
      rw [List.length_set]; exact hb.size
    · intro i hi1 hi2 hi3
      rw [hcs] at hi2
      rw [hslot, hlook]
      by_cases hip : i = pos
      · rw [if_pos hip, if_pos rfl, hip]
      · rw [if_neg hip]
        have hne : (h.slot i).id ≠ (h.slot q).id := fun e =>
          hi3 (hb.inj_hole hi1 hi2 hip hq1 hq2 hq3 e)
        rw [if_neg hne]
        exact hb.index i hi1 hi2 hip
    · rw [hlook, if_neg (fun e => hb.tmp_fresh q hq1 hq2 hq3 e.symm)]
      exact hb.tmp_mapped
    · intro i hi1 hi2 hi3
      rw [hcs] at hi2
      rw [hslot]
      by_cases hip : i = pos
      · rw [if_pos hip]; exact hb.tmp_fresh q hq1 hq2 hq3
      · rw [if_neg hip]; exact hb.tmp_fresh i hi1 hi2 hip
    · intro x hx
      rw [hlook] at hx
      by_cases hxq : x = (h.slot q).id
      · right
        refine ⟨pos, hb.pos_ge, hb.pos_le, fun e => hq3 e.symm, ?_⟩
        rw [hslot, if_pos rfl, hxq]
      · rw [if_neg hxq] at hx
        rcases hb.onto x hx with h1 | ⟨i, hi1, hi2, hi3, hi4⟩
        · exact Or.inl h1
        · right
          have hiq : i ≠ q := by
            intro e; subst e; exact hxq hi4.symm
          refine ⟨i, hi1, hi2, hiq, ?_⟩
          rw [hslot, if_neg hi3]; exact hi4
  · intro n
    constructor
    · rintro ⟨i, hi1, hi2, hi3, hi4⟩
      rw [hcs] at hi2
      rw [hslot] at hi4
      by_cases hip : i = pos
      · rw [if_pos hip] at hi4
        exact ⟨q, hq1, hq2, hq3, hi4⟩
      · rw [if_neg hip] at hi4
        exact ⟨i, hi1, hi2, hip, hi4⟩
    · rintro ⟨i, hi1, hi2, hi3, hi4⟩
      by_cases hiq : i = q
      · refine ⟨pos, hb.pos_ge, hb.pos_le, fun e => hq3 e.symm, ?_⟩
        rw [hslot, if_pos rfl, ← hiq]; exact hi4
      · refine ⟨i, hi1, hi2, hiq, ?_⟩
        rw [hslot, if_neg hi3]; exact hi4

/-- Storing the node held aside in the hole gives a heap whose hash table maps the ids of
the slots to the slots, and nothing else. -/
theorem HoleBase.fill_hole {h : heap} {pos : Nat} {tmp : node} (hb : HoleBase h pos tmp) :
    (h.fill pos tmp).mapping.PInv ∧ (h.fill pos tmp).data.length = (h.fill pos tmp).capacity + 1 ∧
    (h.fill pos tmp).currentSize ≤ (h.fill pos tmp).capacity ∧
    (h.fill pos tmp).Indexed ∧ (h.fill pos tmp).Onto ∧
    (∀ n, (∃ i, 1 ≤ i ∧ i ≤ (h.fill pos tmp).currentSize ∧ (h.fill pos tmp).slot i = n) ↔
      (n = tmp ∨ HoleMem h pos n)) := by
  have hslot := fun j => fill_slot h pos j tmp hb.pos_lt
  have hlook : ∀ x, (h.fill pos tmp).mapping.lookup x =
      if x = tmp.id then some (some pos) else h.mapping.lookup x :=
    fun x => hashTable.lookup_setPointer_of_mapped hb.pinv.inv _ _ hb.tmp_mapped x
  have hcs : (h.fill pos tmp).currentSize = h.currentSize := rfl
  refine ⟨hashTable.setPointer_pinv hb.pinv _ _, ?_, hb.bound, ?_, ?_, ?_⟩
  · show (h.data.set pos tmp).length = h.capacity + 1
    rw [List.length_set]; exact hb.size
  · intro i hi1 hi2
    rw [hcs] at hi2
    rw [hslot, hlook]
    by_cases hip : i = pos
    · rw [if_pos hip, if_pos rfl, hip]
    · rw [if_neg hip, if_neg (hb.tmp_fresh i hi1 hi2 hip)]
      exact hb.index i hi1 hi2 hip
  · intro x hx
    rw [hlook] at hx
    rw [hcs]
    by_cases hxt : x = tmp.id
    · refine ⟨pos, hb.pos_ge, hb.pos_le, ?_⟩
      rw [hslot, if_pos rfl, hxt]
    · rw [if_neg hxt] at hx
      rcases hb.onto x hx with h1 | ⟨i, hi1, hi2, hi3, hi4⟩
      · exact absurd h1 hxt
      · refine ⟨i, hi1, hi2, ?_⟩
        rw [hslot, if_neg hi3]; exact hi4
  · intro n
    rw [hcs]
    constructor
    · rintro ⟨i, hi1, hi2, hi3⟩
      rw [hslot] at hi3
      by_cases hip : i = pos
      · rw [if_pos hip] at hi3
        exact Or.inl hi3.symm
      · rw [if_neg hip] at hi3
        exact Or.inr ⟨i, hi1, hi2, hip, hi3⟩
    · rintro (h1 | ⟨i, hi1, hi2, hi3, hi4⟩)
      · refine ⟨pos, hb.pos_ge, hb.pos_le, ?_⟩
        rw [hslot, if_pos rfl, h1]
      · refine ⟨i, hi1, hi2, ?_⟩
        rw [hslot, if_neg hi3]; exact hi4

end heap

end ECE365

namespace ECE365

namespace heap

/-! ## The heap: `percolateUp` and `percolateDown` -/

theorem percolateUpLoop_succ (tmp : node) (fuel : Nat) (h : heap) (posCur : Nat) :
    percolateUpLoop tmp (fuel + 1) h posCur =
      if posCur > 1 ∧ tmp.key < (h.slot (posCur / 2)).key then
        percolateUpLoop tmp fuel (h.move posCur (posCur / 2)) (posCur / 2)
      else (h, posCur) := rfl

theorem percolateUp_eq (h : heap) (posCur : Nat) :
    h.percolateUp posCur =
      (percolateUpLoop (h.slot posCur) posCur h posCur).1.fill
        (percolateUpLoop (h.slot posCur) posCur h posCur).2 (h.slot posCur) := rfl

theorem percolateDownLoop_succ (tmp : node) (fuel : Nat) (h : heap) (posCur : Nat) :
    percolateDownLoop tmp (fuel + 1) h posCur =
      if posCur * 2 ≤ h.currentSize then
        if tmp.key ≤ (h.slot (h.minChild posCur)).key then (h, posCur)
        else percolateDownLoop tmp fuel (h.move posCur (h.minChild posCur)) (h.minChild posCur)
      else (h, posCur) := rfl

theorem percolateDown_eq (h : heap) (posCur : Nat) :
    h.percolateDown posCur =
      (percolateDownLoop (h.slot posCur) h.currentSize h posCur).1.fill
        (percolateDownLoop (h.slot posCur) h.currentSize h posCur).2 (h.slot posCur) := rfl

/-- One step up: the parent is moved into the hole. -/
theorem UpOrd.step_up {h : heap} {pos : Nat} {tmp : node} (hb : HoleBase h pos tmp)
    (ho : UpOrd h pos tmp) (hp : pos > 1) (hlt : tmp.key < (h.slot (pos / 2)).key) :
    UpOrd (h.move pos (pos / 2)) (pos / 2) tmp := by
  have hslot := fun j => move_slot h pos (pos / 2) j hb.pos_lt
  have hcs : (h.move pos (pos / 2)).currentSize = h.currentSize := rfl
  have hle := hb.pos_le
  refine ⟨?_, ?_, ?_⟩
  · intro i hi1 hi2 hi3 hi4
    rw [hcs] at hi2
    have hip : i ≠ pos := by intro e; subst e; exact hi4 rfl
    rw [hslot i, if_neg hip, hslot (i / 2)]
    by_cases hi5 : i / 2 = pos
    · rw [if_pos hi5]
      exact ho.across i hi2 hi5 (by omega)
    · rw [if_neg hi5]
      exact ho.away i hi1 hi2 hip hi5
  · intro c hc1 hc2
    rw [hcs] at hc1
    rw [hslot c]
    by_cases hcp : c = pos
    · rw [if_pos hcp]; exact le_of_lt hlt
    · rw [if_neg hcp]
      have := ho.away c (by omega) hc1 hcp (by omega)
      rw [hc2] at this
      exact le_trans (le_of_lt hlt) this
  · intro c hc1 hc2 hc3
    rw [hcs] at hc1
    have h1 : pos / 2 / 2 ≠ pos := by omega
    rw [hslot (pos / 2 / 2), if_neg h1, hslot c]
    have hpp := ho.away (pos / 2) hc3 (by omega) (by omega) h1
    by_cases hcp : c = pos
    · rw [if_pos hcp]; exact hpp
    · rw [if_neg hcp]
      have := ho.away c (by omega) hc1 hcp (by omega)
      rw [hc2] at this
      exact le_trans hpp this

/-- The end of `percolateUp`: the node held aside fits into the hole. -/
theorem UpOrd.fill_up {h : heap} {pos : Nat} {tmp : node} (hb : HoleBase h pos tmp)
    (ho : UpOrd h pos tmp) (hexit : ¬ (pos > 1 ∧ tmp.key < (h.slot (pos / 2)).key)) :
    (h.fill pos tmp).Ordered := by
  have hslot := fun j => fill_slot h pos j tmp hb.pos_lt
  intro i hi1 hi2
  have hi2' : i ≤ h.currentSize := hi2
  rw [hslot i, hslot (i / 2)]
  by_cases hip : i = pos
  · have h1 : i / 2 ≠ pos := by omega
    rw [if_pos hip, if_neg h1]
    subst hip
    have : ¬ tmp.key < (h.slot (i / 2)).key := fun hlt => hexit ⟨by omega, hlt⟩
    exact not_lt.1 this
  · rw [if_neg hip]
    by_cases hi5 : i / 2 = pos
    · rw [if_pos hi5]
      exact ho.below i hi2' hi5
    · rw [if_neg hi5]
      exact ho.away i hi1 hi2' hip hi5

/-- The loop of `percolateUp` moves the hole up to a slot into which the node held aside
fits. -/
theorem percolateUpLoop_spec (tmp : node) :
    ∀ (fuel : Nat) (h : heap) (pos : Nat), HoleBase h pos tmp → UpOrd h pos tmp → pos ≤ fuel →
      HoleBase (percolateUpLoop tmp fuel h pos).1 (percolateUpLoop tmp fuel h pos).2 tmp ∧
      UpOrd (percolateUpLoop tmp fuel h pos).1 (percolateUpLoop tmp fuel h pos).2 tmp ∧
      ¬ ((percolateUpLoop tmp fuel h pos).2 > 1 ∧
        tmp.key < ((percolateUpLoop tmp fuel h pos).1.slot
          ((percolateUpLoop tmp fuel h pos).2 / 2)).key) ∧
      Frame h (percolateUpLoop tmp fuel h pos).1 ∧
      (∀ n, HoleMem (percolateUpLoop tmp fuel h pos).1 (percolateUpLoop tmp fuel h pos).2 n ↔
        HoleMem h pos n) := by
  intro fuel
  induction fuel with
  | zero =>
    intro h pos hb _ hf
    have := hb.pos_ge
    omega
  | succ fuel ih =>
    intro h pos hb ho hf
    rw [percolateUpLoop_succ]
    by_cases hc : pos > 1 ∧ tmp.key < (h.slot (pos / 2)).key
    · rw [if_pos hc]
      have hle := hb.pos_le
      obtain ⟨hb', hm⟩ := hb.move (pos / 2) (by omega) (by omega) (by omega)
      have ho' := ho.step_up hb hc.1 hc.2
      obtain ⟨r1, r2, r3, r4, r5⟩ := ih _ _ hb' ho' (by omega)
      exact ⟨r1, r2, r3, (move_frame h pos (pos / 2)).trans r4, fun n => (r5 n).trans (hm n)⟩
    · rw [if_neg hc]
      exact ⟨hb, ho, hc, Frame.refl h, fun n => Iff.rfl⟩

/-- The child with which the loop of `percolateDown` compares is a child in the heap, and
its key is the least key of the children. -/
theorem minChild_spec (h : heap) (pos : Nat) (hc : pos * 2 ≤ h.currentSize) :
    (h.minChild pos = pos * 2 ∨ h.minChild pos = pos * 2 + 1) ∧
    h.minChild pos ≤ h.currentSize ∧
    ∀ c, c ≤ h.currentSize → c / 2 = pos → 1 ≤ pos →
      (h.slot (h.minChild pos)).key ≤ (h.slot c).key := by
  unfold minChild
  by_cases hcond : pos * 2 ≠ h.currentSize ∧
      (h.slot (pos * 2 + 1)).key < (h.slot (pos * 2)).key
  · rw [if_pos hcond]
    refine ⟨Or.inr rfl, by omega, ?_⟩
    intro c hc1 hc2 hp
    have : c = pos * 2 ∨ c = pos * 2 + 1 := by omega
    rcases this with e | e
    · rw [e]; exact le_of_lt hcond.2
    · rw [e]
  · rw [if_neg hcond]
    refine ⟨Or.inl rfl, hc, ?_⟩
    intro c hc1 hc2 hp
    have : c = pos * 2 ∨ c = pos * 2 + 1 := by omega
    rcases this with e | e
    · rw [e]
    · rw [e]
      have hne : pos * 2 ≠ h.currentSize := by omega
      have : ¬ (h.slot (pos * 2 + 1)).key < (h.slot (pos * 2)).key := fun hlt => hcond ⟨hne, hlt⟩
      exact not_lt.1 this

/-- One step down: the least child is moved into the hole. -/
theorem DownOrd.step_down {h : heap} {pos : Nat} {tmp : node} (hb : HoleBase h pos tmp)
    (ho : DownOrd h pos tmp) (hc : pos * 2 ≤ h.currentSize)
    (hgt : ¬ tmp.key ≤ (h.slot (h.minChild pos)).key) :
    DownOrd (h.move pos (h.minChild pos)) (h.minChild pos) tmp := by
  have hslot := fun j => move_slot h pos (h.minChild pos) j hb.pos_lt
  have hcs : (h.move pos (h.minChild pos)).currentSize = h.currentSize := rfl
  obtain ⟨hm1, hm2, hm3⟩ := minChild_spec h pos hc
  have hge := hb.pos_ge
  have hch : h.minChild pos / 2 = pos := by omega
  have hne : h.minChild pos ≠ pos := by omega
  refine ⟨?_, ?_, ?_⟩
  · intro i hi1 hi2 hi3 hi4
    rw [hcs] at hi2
    rw [hslot i, hslot (i / 2)]
    by_cases hip : i = pos
    · have h1 : i / 2 ≠ pos := by omega
      rw [if_pos hip, if_neg h1]
      subst hip
      exact ho.across _ hm2 hch hi1
    · rw [if_neg hip]
      by_cases hi5 : i / 2 = pos
      · rw [if_pos hi5]
        exact hm3 i hi2 hi5 hge
      · rw [if_neg hi5]
        exact ho.away i hi1 hi2 hip hi5
  · intro _
    rw [hch, hslot pos, if_pos rfl]
    exact le_of_lt (not_le.1 hgt)
  · intro c hc1 hc2 _
    rw [hcs] at hc1
    have hcp : c ≠ pos := by omega
    rw [hch, hslot pos, if_pos rfl, hslot c, if_neg hcp]
    have := ho.away c (by omega) hc1 hcp (by omega)
    rw [hc2] at this
    exact this

/-- The end of `percolateDown`: the node held aside fits into the hole. -/
theorem DownOrd.fill_down {h : heap} {pos : Nat} {tmp : node} (hb : HoleBase h pos tmp)
    (ho : DownOrd h pos tmp)
    (hexit : ¬ (pos * 2 ≤ h.currentSize ∧ ¬ tmp.key ≤ (h.slot (h.minChild pos)).key)) :
    (h.fill pos tmp).Ordered := by
  have hslot := fun j => fill_slot h pos j tmp hb.pos_lt
  have hge := hb.pos_ge
  intro i hi1 hi2
  have hi2' : i ≤ h.currentSize := hi2
  rw [hslot i, hslot (i / 2)]
  by_cases hip : i = pos
  · have h1 : i / 2 ≠ pos := by omega
    rw [if_pos hip, if_neg h1]
    subst hip
    exact ho.above hi1
  · rw [if_neg hip]
    by_cases hi5 : i / 2 = pos
    · rw [if_pos hi5]
      have hc : pos * 2 ≤ h.currentSize := by omega
      have h2 : tmp.key ≤ (h.slot (h.minChild pos)).key := by
        by_contra hcon
        exact hexit ⟨hc, hcon⟩
      exact le_trans h2 ((minChild_spec h pos hc).2.2 i hi2' hi5 hge)
    · rw [if_neg hi5]
      exact ho.away i hi1 hi2' hip hi5

/-- The loop of `percolateDown` moves the hole down to a slot into which the node held
aside fits. -/
theorem percolateDownLoop_spec (tmp : node) :
    ∀ (fuel : Nat) (h : heap) (pos : Nat), HoleBase h pos tmp → DownOrd h pos tmp →
      h.currentSize < pos + fuel →
      HoleBase (percolateDownLoop tmp fuel h pos).1 (percolateDownLoop tmp fuel h pos).2 tmp ∧
      DownOrd (percolateDownLoop tmp fuel h pos).1 (percolateDownLoop tmp fuel h pos).2 tmp ∧
      ¬ ((percolateDownLoop tmp fuel h pos).2 * 2 ≤ (percolateDownLoop tmp fuel h pos).1.currentSize ∧
        ¬ tmp.key ≤ ((percolateDownLoop tmp fuel h pos).1.slot
          ((percolateDownLoop tmp fuel h pos).1.minChild
            (percolateDownLoop tmp fuel h pos).2)).key) ∧
      Frame h (percolateDownLoop tmp fuel h pos).1 ∧
      (∀ n, HoleMem (percolateDownLoop tmp fuel h pos).1 (percolateDownLoop tmp fuel h pos).2 n ↔
        HoleMem h pos n) := by
  intro fuel
  induction fuel with
  | zero =>
    intro h pos hb _ hf
    have := hb.pos_le
    omega
  | succ fuel ih =>
    intro h pos hb ho hf
    rw [percolateDownLoop_succ]
    by_cases hc : pos * 2 ≤ h.currentSize
    · rw [if_pos hc]
      by_cases hk : tmp.key ≤ (h.slot (h.minChild pos)).key
      · rw [if_pos hk]
        exact ⟨hb, ho, fun hh => hh.2 hk, Frame.refl h, fun n => Iff.rfl⟩
      · rw [if_neg hk]
        obtain ⟨hm1, hm2, _⟩ := minChild_spec h pos hc
        have hge := hb.pos_ge
        obtain ⟨hb', hm⟩ := hb.move (h.minChild pos) (by omega) hm2 (by omega)
        have ho' := ho.step_down hb hc hk
        have hcs : (h.move pos (h.minChild pos)).currentSize = h.currentSize := rfl
        obtain ⟨r1, r2, r3, r4, r5⟩ := ih _ _ hb' ho' (by rw [hcs]; omega)
        exact ⟨r1, r2, r3, (move_frame h pos _).trans r4, fun n => (r5 n).trans (hm n)⟩
    · rw [if_neg hc]
      exact ⟨hb, ho, fun hh => hc hh.1, Frame.refl h, fun n => Iff.rfl⟩

/-- The node `n` is in a slot `1 .. currentSize`. -/
theorem mem_nodes_iff (h : heap) (n : node) :
    n ∈ h.nodes ↔ ∃ i, 1 ≤ i ∧ i ≤ h.currentSize ∧ h.slot i = n := by
  unfold nodes
  rw [List.mem_map]
  constructor
  · rintro ⟨a, ha, rfl⟩
    rw [List.mem_range] at ha
    exact ⟨a + 1, by omega, by omega, rfl⟩
  · rintro ⟨i, hi1, hi2, rfl⟩
    refine ⟨i - 1, by rw [List.mem_range]; omega, ?_⟩
    have : i - 1 + 1 = i := by omega
    rw [this]

/-- The function `percolateUp`, called in a state with a hole at `posCur` whose node fits
below, gives a heap that satisfies the invariant and has the same nodes. -/
theorem percolateUp_spec {h : heap} {pos : Nat} (hb : HoleBase h pos (h.slot pos))
    (ho : UpOrd h pos (h.slot pos)) :
    Inv (h.percolateUp pos) ∧ Frame h (h.percolateUp pos) ∧
    ∀ n, n ∈ (h.percolateUp pos).nodes ↔ n ∈ h.nodes := by
  obtain ⟨r1, r2, r3, r4, r5⟩ := percolateUpLoop_spec (h.slot pos) pos h pos hb ho (le_refl _)
  obtain ⟨f1, f2, f3, f4, f5, f6⟩ := r1.fill_hole
  rw [percolateUp_eq]
  refine ⟨⟨f1, f2, f3, r2.fill_up r1 r3, f4, f5⟩, r4.trans (fill_frame _ _ _), ?_⟩
  intro n
  rw [mem_nodes_iff, mem_nodes_iff, f6, r5]
  constructor
  · rintro (h1 | ⟨i, hi1, hi2, _, hi4⟩)
    · exact ⟨pos, hb.pos_ge, hb.pos_le, h1.symm⟩
    · exact ⟨i, hi1, hi2, hi4⟩
  · rintro ⟨i, hi1, hi2, hi3⟩
    by_cases hip : i = pos
    · left; rw [← hi3, hip]
    · right; exact ⟨i, hi1, hi2, hip, hi3⟩

/-- The function `percolateDown`, called in a state with a hole at `posCur` whose node fits
above, gives a heap that satisfies the invariant and has the same nodes. -/
theorem percolateDown_spec {h : heap} {pos : Nat} (hb : HoleBase h pos (h.slot pos))
    (ho : DownOrd h pos (h.slot pos)) :
    Inv (h.percolateDown pos) ∧ Frame h (h.percolateDown pos) ∧
    ∀ n, n ∈ (h.percolateDown pos).nodes ↔ n ∈ h.nodes := by
  have hge := hb.pos_ge
  obtain ⟨r1, r2, r3, r4, r5⟩ :=
    percolateDownLoop_spec (h.slot pos) h.currentSize h pos hb ho (by omega)
  obtain ⟨f1, f2, f3, f4, f5, f6⟩ := r1.fill_hole
  rw [percolateDown_eq]
  refine ⟨⟨f1, f2, f3, r2.fill_down r1 r3, f4, f5⟩, r4.trans (fill_frame _ _ _), ?_⟩
  intro n
  rw [mem_nodes_iff, mem_nodes_iff, f6, r5]
  constructor
  · rintro (h1 | ⟨i, hi1, hi2, _, hi4⟩)
    · exact ⟨pos, hb.pos_ge, hb.pos_le, h1.symm⟩
    · exact ⟨i, hi1, hi2, hi4⟩
  · rintro ⟨i, hi1, hi2, hi3⟩
    by_cases hip : i = pos
    · left; rw [← hi3, hip]
    · right; exact ⟨i, hi1, hi2, hip, hi3⟩

end heap

end ECE365

namespace ECE365

namespace heap

/-! ## The heap: the public operations keep the invariant -/

theorem Inv.inj {h : heap} (hI : Inv h) {i j : Nat} (hi1 : 1 ≤ i) (hi2 : i ≤ h.currentSize)
    (hj1 : 1 ≤ j) (hj2 : j ≤ h.currentSize) (he : (h.slot i).id = (h.slot j).id) : i = j := by
  have h1 := hI.indexed i hi1 hi2
  have h2 := hI.indexed j hj1 hj2
  rw [he, h2] at h1
  simpa using h1.symm

theorem Inv.contains_iff {h : heap} (hI : Inv h) (x : Key) :
    h.mapping.contains x = true ↔ ∃ i, 1 ≤ i ∧ i ≤ h.currentSize ∧ (h.slot i).id = x := by
  rw [hashTable.contains_eq_lookup]
  constructor
  · intro hc
    apply hI.onto
    intro hn
    rw [hn] at hc
    exact absurd hc (by simp)
  · rintro ⟨i, hi1, hi2, rfl⟩
    rw [hI.indexed i hi1 hi2]
    rfl

theorem Inv.getPointer {h : heap} (hI : Inv h) {i : Nat} (hi1 : 1 ≤ i) (hi2 : i ≤ h.currentSize) :
    h.mapping.getPointer (h.slot i).id = (some i, true) := by
  rw [hashTable.getPointer_eq_lookup, hI.indexed i hi1 hi2]

theorem Inv.lt_length {h : heap} (hI : Inv h) {i : Nat} (hi : i ≤ h.currentSize) :
    i < h.data.length := by
  have := hI.size; have := hI.bound; omega

/-- The root has the least key. -/
theorem Inv.root_le {h : heap} (hI : Inv h) :
    ∀ i, 1 ≤ i → i ≤ h.currentSize → (h.slot 1).key ≤ (h.slot i).key := by
  intro i
  induction i using Nat.strong_induction_on with
  | _ i ih =>
    intro hi1 hi2
    by_cases h1 : i = 1
    · rw [h1]
    · have := ih (i / 2) (by omega) (by omega) (by omega)
      exact le_trans this (hI.ordered i (by omega) hi2)

theorem Inv.nodes_nodup {h : heap} (hI : Inv h) : h.nodes.Nodup := by
  unfold nodes
  apply List.Nodup.map_on _ (List.nodup_range _)
  intro x hx y hy he
  rw [List.mem_range] at hx hy
  have := hI.inj (i := x + 1) (j := y + 1) (by omega) (by omega) (by omega) (by omega)
    (by rw [he])
  omega

theorem Inv.ids_nodup {h : heap} (hI : Inv h) : h.ids.Nodup := by
  unfold ids nodes
  rw [List.map_map]
  apply List.Nodup.map_on _ (List.nodup_range _)
  intro x hx y hy he
  rw [List.mem_range] at hx hy
  have := hI.inj (i := x + 1) (j := y + 1) (by omega) (by omega) (by omega) (by omega) he
  omega

theorem length_nodes (h : heap) : h.nodes.length = h.currentSize := by
  unfold nodes; simp

theorem mem_ids_iff (h : heap) (x : Key) :
    x ∈ h.ids ↔ ∃ i, 1 ≤ i ∧ i ≤ h.currentSize ∧ (h.slot i).id = x := by
  unfold ids
  rw [List.mem_map]
  constructor
  · rintro ⟨n, hn, rfl⟩
    obtain ⟨i, hi1, hi2, rfl⟩ := (mem_nodes_iff h n).1 hn
    exact ⟨i, hi1, hi2, rfl⟩
  · rintro ⟨i, hi1, hi2, rfl⟩
    exact ⟨h.slot i, (mem_nodes_iff h _).2 ⟨i, hi1, hi2, rfl⟩, rfl⟩

/-- In a heap that satisfies the invariant, the hash table contains exactly the ids of the
nodes. -/
theorem Inv.contains_iff_mem_ids {h : heap} (hI : Inv h) (x : Key) :
    h.mapping.contains x = true ↔ x ∈ h.ids := by
  rw [hI.contains_iff, mem_ids_iff]

theorem init_inv (capacity : Nat) : Inv (init capacity) := by
  refine ⟨hashTable.init_pinv _, by simp [init], Nat.zero_le _, ?_, ?_, ?_⟩
  · intro i _ hi2
    have : i ≤ 0 := hi2
    omega
  · intro i hi1 hi2
    have : i ≤ 0 := hi2
    omega
  · intro x hx
    exact absurd (hashTable.lookup_init _ x) hx

/-! ### insert -/

theorem insert_of_full {h : heap} (id : Key) (key : Int) (pv : Ptr)
    (hf : h.currentSize ≥ h.capacity) : h.insert id key pv = (h, 1) := by
  unfold insert; rw [if_pos hf]

theorem insert_of_dup {h : heap} (id : Key) (key : Int) (pv : Ptr)
    (hf : ¬ h.currentSize ≥ h.capacity) (hc : h.mapping.contains id = true) :
    h.insert id key pv = (h, 2) := by
  unfold insert; rw [if_neg hf, if_pos hc]

theorem insert_of_fail {h : heap} (id : Key) (key : Int) (pv : Ptr)
    (hf : ¬ h.currentSize ≥ h.capacity) (hc : ¬ h.mapping.contains id = true)
    (hm : (h.mapping.insert id (some (h.currentSize + 1)) false).2 ≠ 0) :
    h.insert id key pv = (h.appended id key pv, 3) := by
  unfold insert; rw [if_neg hf, if_neg hc]
  simp only [hm, if_true, ne_eq, not_false_eq_true]
  rfl

theorem insert_of_ok {h : heap} (id : Key) (key : Int) (pv : Ptr)
    (hf : ¬ h.currentSize ≥ h.capacity) (hc : ¬ h.mapping.contains id = true)
    (hm : (h.mapping.insert id (some (h.currentSize + 1)) false).2 = 0) :
    h.insert id key pv = ((h.appended id key pv).percolateUp (h.currentSize + 1), 0) := by
  unfold insert; rw [if_neg hf, if_neg hc]
  simp only [hm, ne_eq, not_true_eq_false, if_false]
  rfl

theorem insert_codes (h : heap) (id : Key) (key : Int) (pv : Ptr) :
    (h.insert id key pv).2 = 0 ∨ (h.insert id key pv).2 = 1 ∨ (h.insert id key pv).2 = 2 ∨
      (h.insert id key pv).2 = 3 := by
  by_cases hf : h.currentSize ≥ h.capacity
  · rw [insert_of_full id key pv hf]; simp
  · by_cases hc : h.mapping.contains id = true
    · rw [insert_of_dup id key pv hf hc]; simp
    · by_cases hm : (h.mapping.insert id (some (h.currentSize + 1)) false).2 = 0
      · rw [insert_of_ok id key pv hf hc hm]; simp
      · rw [insert_of_fail id key pv hf hc hm]; simp

/-- A successful `insert` adds the node and keeps the invariant. -/
theorem insert_success {h : heap} (hI : Inv h) (id : Key) (key : Int) (pv : Ptr)
    (h0 : (h.insert id key pv).2 = 0) :
    Inv (h.insert id key pv).1 ∧ (h.insert id key pv).1.currentSize = h.currentSize + 1 ∧
    (h.insert id key pv).1.capacity = h.capacity ∧
    h.currentSize < h.capacity ∧ h.mapping.contains id = false ∧
    (h.insert id key pv).1 = (h.appended id key pv).percolateUp (h.currentSize + 1) ∧
    (h.mapping.insert id (some (h.currentSize + 1)) false).2 = 0 ∧
    Frame (h.appended id key pv) (h.insert id key pv).1 ∧
    ∀ n, n ∈ (h.insert id key pv).1.nodes ↔
      (n = { id := id, key := key, pData := pv } ∨ n ∈ h.nodes) := by
  by_cases hf : h.currentSize ≥ h.capacity
  · rw [insert_of_full id key pv hf] at h0; exact absurd h0 (by simp)
  by_cases hc : h.mapping.contains id = true
  · rw [insert_of_dup id key pv hf hc] at h0; exact absurd h0 (by simp)
  by_cases hm : (h.mapping.insert id (some (h.currentSize + 1)) false).2 = 0
  swap
  · rw [insert_of_fail id key pv hf hc hm] at h0; exact absurd h0 (by simp)
  rw [insert_of_ok id key pv hf hc hm]
  obtain ⟨m1, m2, m3⟩ := hashTable.insert_ok hI.pinv id (some (h.currentSize + 1)) hm
  have hlen : h.currentSize + 1 < h.data.length := by have := hI.size; omega
  have hslot : ∀ j, (h.appended id key pv).slot j =
      if j = h.currentSize + 1 then { id := id, key := key, pData := pv } else h.slot j :=
    fun j => getD_set _ _ _ _ hlen
  have hcs : (h.appended id key pv).currentSize = h.currentSize + 1 := rfl
  have hlook : ∀ k, (h.appended id key pv).mapping.lookup k =
      if k = id then some (some (h.currentSize + 1)) else h.mapping.lookup k := m3
  have hfresh : ∀ i, 1 ≤ i → i ≤ h.currentSize → (h.slot i).id ≠ id := by
    intro i hi1 hi2 e
    have := hI.indexed i hi1 hi2
    rw [e, m2] at this
    exact absurd this (by simp)
  have htmp : (h.appended id key pv).slot (h.currentSize + 1)
      = { id := id, key := key, pData := pv } := by rw [hslot, if_pos rfl]
  have hb : HoleBase (h.appended id key pv) (h.currentSize + 1)
      ((h.appended id key pv).slot (h.currentSize + 1)) := by
    rw [htmp]
    refine ⟨m1, ?_, ?_, by omega, by rw [hcs], ?_, ?_, ?_, ?_⟩
    · show (h.data.set _ _).length = h.capacity + 1
      rw [List.length_set]; exact hI.size
    · show h.currentSize + 1 ≤ h.capacity
      omega
    · intro i hi1 hi2 hi3
      rw [hcs] at hi2
      rw [hslot, if_neg hi3, hlook, if_neg (hfresh i hi1 (by omega))]
      exact hI.indexed i hi1 (by omega)
    · rw [hlook, if_pos rfl]; simp
    · intro i hi1 hi2 hi3
      rw [hcs] at hi2
      rw [hslot, if_neg hi3]
      exact hfresh i hi1 (by omega)
    · intro x hx
      rw [hlook] at hx
      by_cases hxi : x = id
      · exact Or.inl hxi
      · rw [if_neg hxi] at hx
        obtain ⟨i, hi1, hi2, hi3⟩ := hI.onto x hx
        right
        refine ⟨i, hi1, by rw [hcs]; omega, by omega, ?_⟩
        rw [hslot, if_neg (by omega)]; exact hi3
  have ho : UpOrd (h.appended id key pv) (h.currentSize + 1)
      ((h.appended id key pv).slot (h.currentSize + 1)) := by
    refine ⟨?_, ?_, ?_⟩
    · intro i hi1 hi2 hi3 hi4
      rw [hcs] at hi2
      rw [hslot i, if_neg hi3, hslot (i / 2), if_neg hi4]
      exact hI.ordered i hi1 (by omega)
    · intro c hc1 hc2
      rw [hcs] at hc1
      omega
    · intro c hc1 hc2
      rw [hcs] at hc1
      omega
  obtain ⟨p1, p2, p3⟩ := percolateUp_spec hb ho
  refine ⟨p1, ?_, ?_, by omega, by simpa using hc, rfl, hm, p2, ?_⟩
  · show ((h.appended id key pv).percolateUp (h.currentSize + 1)).currentSize = _
    rw [p2.currentSize, hcs]
  · show ((h.appended id key pv).percolateUp (h.currentSize + 1)).capacity = _
    rw [p2.capacity]; rfl
  · intro n
    show n ∈ ((h.appended id key pv).percolateUp (h.currentSize + 1)).nodes ↔ _
    rw [p3, mem_nodes_iff, mem_nodes_iff, hcs]
    constructor
    · rintro ⟨i, hi1, hi2, hi3⟩
      rw [hslot] at hi3
      by_cases hic : i = h.currentSize + 1
      · rw [if_pos hic] at hi3; exact Or.inl hi3.symm
      · rw [if_neg hic] at hi3; exact Or.inr ⟨i, hi1, by omega, hi3⟩
    · rintro (h1 | ⟨i, hi1, hi2, hi3⟩)
      · exact ⟨h.currentSize + 1, by omega, le_refl _, by rw [hslot, if_pos rfl, h1]⟩
      · exact ⟨i, hi1, by omega, by rw [hslot, if_neg (by omega)]; exact hi3⟩

/-- A call of `insert` that returns `1` or `2` leaves the heap as it is. -/
theorem insert_of_one_or_two {h : heap} (id : Key) (key : Int) (pv : Ptr)
    (hr : (h.insert id key pv).2 = 1 ∨ (h.insert id key pv).2 = 2) :
    (h.insert id key pv).1 = h := by
  by_cases hf : h.currentSize ≥ h.capacity
  · rw [insert_of_full id key pv hf]
  by_cases hc : h.mapping.contains id = true
  · rw [insert_of_dup id key pv hf hc]
  by_cases hm : (h.mapping.insert id (some (h.currentSize + 1)) false).2 = 0
  · rw [insert_of_ok id key pv hf hc hm] at hr; simp at hr
  · rw [insert_of_fail id key pv hf hc hm] at hr; simp at hr

theorem insert_inv {h : heap} (hI : Inv h) (id : Key) (key : Int) (pv : Ptr)
    (h3 : (h.insert id key pv).2 ≠ 3) : Inv (h.insert id key pv).1 := by
  rcases insert_codes h id key pv with h0 | h1 | h2 | h3'
  · exact (insert_success hI id key pv h0).1
  · rw [insert_of_one_or_two id key pv (Or.inl h1)]; exact hI
  · rw [insert_of_one_or_two id key pv (Or.inr h2)]; exact hI
  · exact absurd h3' h3

end heap

end ECE365

namespace ECE365

namespace heap

/-! ### setKey -/

theorem setKey_of_absent {h : heap} (id : Key) (key : Int)
    (hc : h.mapping.contains id = false) : h.setKey id key = (h, 1) := by
  unfold setKey; rw [hc]; rfl

theorem setKey_at {h : heap} (hI : Inv h) {i : Nat} (hi1 : 1 ≤ i) (hi2 : i ≤ h.currentSize)
    (key : Int) :
    h.setKey (h.slot i).id key =
      if key > (h.slot i).key then ((h.keyed i key).percolateDown i, 0)
      else ((h.keyed i key).percolateUp i, 0) := by
  unfold setKey
  rw [(hI.contains_iff _).2 ⟨i, hi1, hi2, rfl⟩, hI.getPointer hi1 hi2]
  rfl

theorem keyed_slot {h : heap} (hI : Inv h) {i : Nat} (hi2 : i ≤ h.currentSize) (key : Int)
    (j : Nat) :
    (h.keyed i key).slot j = if j = i then { h.slot i with key := key } else h.slot j :=
  getD_set _ _ _ _ (hI.lt_length hi2)

theorem holeMem_iff {h : heap} (hI : Inv h) {i : Nat} (hi1 : 1 ≤ i) (hi2 : i ≤ h.currentSize)
    (n : node) : HoleMem h i n ↔ (n ∈ h.nodes ∧ n.id ≠ (h.slot i).id) := by
  rw [mem_nodes_iff]
  constructor
  · rintro ⟨j, hj1, hj2, hj3, rfl⟩
    exact ⟨⟨j, hj1, hj2, rfl⟩, fun e => hj3 (hI.inj hj1 hj2 hi1 hi2 e)⟩
  · rintro ⟨⟨j, hj1, hj2, rfl⟩, hne⟩
    exact ⟨j, hj1, hj2, fun e => hne (by rw [e]), rfl⟩

theorem keyed_holeBase {h : heap} (hI : Inv h) {i : Nat} (hi1 : 1 ≤ i)
    (hi2 : i ≤ h.currentSize) (key : Int) :
    HoleBase (h.keyed i key) i ((h.keyed i key).slot i) := by
  have hslot := keyed_slot hI hi2 key
  rw [hslot i, if_pos rfl]
  refine ⟨hI.pinv, ?_, hI.bound, hi1, hi2, ?_, ?_, ?_, ?_⟩
  · show (h.data.set _ _).length = h.capacity + 1
    rw [List.length_set]; exact hI.size
  · intro j hj1 hj2 hj3
    rw [hslot, if_neg hj3]
    exact hI.indexed j hj1 hj2
  · show h.mapping.lookup (h.slot i).id ≠ none
    rw [hI.indexed i hi1 hi2]; simp
  · intro j hj1 hj2 hj3
    rw [hslot, if_neg hj3]
    exact fun e => hj3 (hI.inj hj1 hj2 hi1 hi2 e)
  · intro x hx
    obtain ⟨j, hj1, hj2, hj3⟩ := hI.onto x hx
    by_cases hji : j = i
    · left; rw [← hj3, hji]
    · right
      exact ⟨j, hj1, hj2, hji, by rw [hslot, if_neg hji]; exact hj3⟩

theorem keyed_holeMem {h : heap} (hI : Inv h) {i : Nat} (hi2 : i ≤ h.currentSize) (key : Int)
    (n : node) : HoleMem (h.keyed i key) i n ↔ HoleMem h i n := by
  have hslot := keyed_slot hI hi2 key
  constructor
  · rintro ⟨j, hj1, hj2, hj3, hj4⟩
    rw [hslot, if_neg hj3] at hj4
    exact ⟨j, hj1, hj2, hj3, hj4⟩
  · rintro ⟨j, hj1, hj2, hj3, hj4⟩
    exact ⟨j, hj1, hj2, hj3, by rw [hslot, if_neg hj3]; exact hj4⟩

theorem mem_nodes_hole (h : heap) (i : Nat) (hi1 : 1 ≤ i) (hi2 : i ≤ h.currentSize) (n : node) :
    n ∈ h.nodes ↔ (n = h.slot i ∨ HoleMem h i n) := by
  rw [mem_nodes_iff]
  constructor
  · rintro ⟨j, hj1, hj2, hj3⟩
    by_cases hji : j = i
    · left; rw [← hj3, hji]
    · right; exact ⟨j, hj1, hj2, hji, hj3⟩
  · rintro (h1 | ⟨j, hj1, hj2, _, hj4⟩)
    · exact ⟨i, hi1, hi2, h1.symm⟩
    · exact ⟨j, hj1, hj2, hj4⟩

/-- The function `setKey`, for the id of the node in slot `i`: the key of that node is
replaced, the other nodes are kept, and the invariant holds again. -/
theorem setKey_spec {h : heap} (hI : Inv h) {i : Nat} (hi1 : 1 ≤ i) (hi2 : i ≤ h.currentSize)
    (key : Int) :
    (h.setKey (h.slot i).id key).2 = 0 ∧ Inv (h.setKey (h.slot i).id key).1 ∧
    Frame h (h.setKey (h.slot i).id key).1 ∧
    ∀ n, n ∈ (h.setKey (h.slot i).id key).1.nodes ↔
      (n = { h.slot i with key := key } ∨ (n ∈ h.nodes ∧ n.id ≠ (h.slot i).id)) := by
  have hslot := keyed_slot hI hi2 key
  have hb := keyed_holeBase hI hi1 hi2 key
  have htmp : (h.keyed i key).slot i = { h.slot i with key := key } := by
    rw [hslot, if_pos rfl]
  have hfr : Frame h (h.keyed i key) :=
    ⟨rfl, rfl, List.length_set _ _ _, rfl, rfl, fun x => x⟩
  have hnodes : ∀ n, n ∈ (h.keyed i key).nodes ↔
      (n = { h.slot i with key := key } ∨ (n ∈ h.nodes ∧ n.id ≠ (h.slot i).id)) := by
    intro n
    rw [mem_nodes_hole (h.keyed i key) i hi1 hi2, htmp, keyed_holeMem hI hi2,
      holeMem_iff hI hi1 hi2]
  have haway : ∀ j, 2 ≤ j → j ≤ (h.keyed i key).currentSize → j ≠ i → j / 2 ≠ i →
      ((h.keyed i key).slot (j / 2)).key ≤ ((h.keyed i key).slot j).key := by
    intro j hj1 hj2 hj3 hj4
    rw [hslot j, if_neg hj3, hslot (j / 2), if_neg hj4]
    exact hI.ordered j hj1 hj2
  have hacross : ∀ c, c ≤ (h.keyed i key).currentSize → c / 2 = i → 2 ≤ i →
      ((h.keyed i key).slot (i / 2)).key ≤ ((h.keyed i key).slot c).key := by
    intro c hc1 hc2 hc3
    have hc1' : c ≤ h.currentSize := hc1
    rw [hslot c, if_neg (by omega), hslot (i / 2), if_neg (by omega)]
    have h1 := hI.ordered i hc3 hi2
    have h2 := hI.ordered c (by omega) hc1'
    rw [hc2] at h2
    exact le_trans h1 h2
  rw [setKey_at hI hi1 hi2]
  by_cases hk : key > (h.slot i).key
  · rw [if_pos hk]
    have ho : DownOrd (h.keyed i key) i ((h.keyed i key).slot i) := by
      refine ⟨haway, ?_, hacross⟩
      intro h2
      rw [htmp, hslot (i / 2), if_neg (by omega)]
      exact le_trans (hI.ordered i h2 hi2) (le_of_lt hk)
    obtain ⟨p1, p2, p3⟩ := percolateDown_spec hb ho
    exact ⟨rfl, p1, hfr.trans p2, fun n => (p3 n).trans (hnodes n)⟩
  · rw [if_neg hk]
    have ho : UpOrd (h.keyed i key) i ((h.keyed i key).slot i) := by
      refine ⟨haway, ?_, hacross⟩
      intro c hc1 hc2
      have hc1' : c ≤ h.currentSize := hc1
      rw [htmp, hslot c, if_neg (by omega)]
      have h2 := hI.ordered c (by omega) hc1'
      rw [hc2] at h2
      exact le_trans (not_lt.1 hk) h2
    obtain ⟨p1, p2, p3⟩ := percolateUp_spec hb ho
    exact ⟨rfl, p1, hfr.trans p2, fun n => (p3 n).trans (hnodes n)⟩

theorem setKey_inv {h : heap} (hI : Inv h) (id : Key) (key : Int) :
    Inv (h.setKey id key).1 := by
  by_cases hc : h.mapping.contains id = true
  · obtain ⟨i, hi1, hi2, rfl⟩ := (hI.contains_iff id).1 hc
    exact (setKey_spec hI hi1 hi2 key).2.1
  · rw [setKey_of_absent id key (by simpa using hc)]; exact hI

/-! ### deleteMin -/

theorem deleteMin_of_empty {h : heap} (h0 : h.currentSize = 0) : h.deleteMin = (h, 1, none) := by
  unfold deleteMin; rw [if_pos h0]

theorem deleteMin_of_pos {h : heap} (h0 : h.currentSize ≠ 0) :
    h.deleteMin = (h.beheaded.percolateDown 1, 0, some (h.slot 1)) := by
  unfold deleteMin; rw [if_neg h0]; rfl

theorem beheaded_of_gt {h : heap} (h1 : h.currentSize > 1) :
    h.beheaded =
      { currentSize := h.currentSize - 1
        capacity := h.capacity
        data := h.data.set 1 (h.slot h.currentSize)
        mapping := ((h.mapping.remove (h.slot 1).id).1.setPointer
          (h.slot h.currentSize).id (some 1)).1 } := by
  unfold beheaded; simp only [h1, if_true]; rfl

theorem beheaded_of_one {h : heap} (h1 : ¬ h.currentSize > 1) :
    h.beheaded =
      { currentSize := h.currentSize - 1
        capacity := h.capacity
        data := h.data
        mapping := (h.mapping.remove (h.slot 1).id).1 } := by
  unfold beheaded; simp only [h1, if_false]

/-- The function `deleteMin` on a heap that is not empty: the root, which has the least key,
is returned and removed, the other nodes are kept, and the invariant holds again. -/
theorem deleteMin_spec {h : heap} (hI : Inv h) (h0 : h.currentSize ≠ 0) :
    (h.deleteMin).2.1 = 0 ∧ (h.deleteMin).2.2 = some (h.slot 1) ∧
    Inv (h.deleteMin).1 ∧ (h.deleteMin).1.currentSize = h.currentSize - 1 ∧
    (h.deleteMin).1.capacity = h.capacity ∧
    ∀ n, n ∈ (h.deleteMin).1.nodes ↔ (n ∈ h.nodes ∧ n.id ≠ (h.slot 1).id) := by
  rw [deleteMin_of_pos h0]
  refine ⟨rfl, rfl, ?_⟩
  have hr1 : h.mapping.lookup (h.slot 1).id = some (some 1) := hI.indexed 1 (le_refl _) (by omega)
  have hrem : ∀ k, (h.mapping.remove (h.slot 1).id).1.lookup k =
      if k = (h.slot 1).id then none else h.mapping.lookup k :=
    fun k => hashTable.lookup_remove hI.pinv.inv _ k
  have hPrem := hashTable.remove_pinv hI.pinv (h.slot 1).id
  by_cases h1 : h.currentSize > 1
  · -- the last node is moved to the root
    have hlen : 1 < h.data.length := hI.lt_length (by omega)
    have hB := beheaded_of_gt h1
    have hcs : h.beheaded.currentSize = h.currentSize - 1 := by rw [hB]
    have hslot : ∀ j, h.beheaded.slot j = if j = 1 then h.slot h.currentSize else h.slot j := by
      intro j; rw [hB]; exact getD_set _ _ _ _ hlen
    have hlast : (h.slot h.currentSize).id ≠ (h.slot 1).id := fun e => by
      have := hI.inj (by omega) (le_refl _) (le_refl _) (by omega) e
      omega
    have hml : (h.mapping.remove (h.slot 1).id).1.lookup (h.slot h.currentSize).id ≠ none := by
      rw [hrem, if_neg hlast, hI.indexed _ (by omega) (le_refl _)]; simp
    have hlook : ∀ k, h.beheaded.mapping.lookup k =
        if k = (h.slot h.currentSize).id then some (some 1)
        else if k = (h.slot 1).id then none else h.mapping.lookup k := by
      intro k
      rw [hB]
      show ((h.mapping.remove (h.slot 1).id).1.setPointer _ _).1.lookup k = _
      rw [hashTable.lookup_setPointer_of_mapped hPrem.inv _ _ hml, hrem]
    have htmp : h.beheaded.slot 1 = h.slot h.currentSize := by rw [hslot, if_pos rfl]
    have hb : HoleBase h.beheaded 1 (h.beheaded.slot 1) := by
      rw [htmp]
      refine ⟨?_, ?_, ?_, le_refl _, by rw [hcs]; omega, ?_, ?_, ?_, ?_⟩
      · rw [hB]; exact hashTable.setPointer_pinv hPrem _ _
      · rw [hB]
        show (h.data.set _ _).length = h.capacity + 1
        rw [List.length_set]; exact hI.size
      · rw [hB]
        show h.currentSize - 1 ≤ h.capacity
        have := hI.bound; omega
      · intro j hj1 hj2 hj3
        rw [hcs] at hj2
        rw [hslot, if_neg hj3, hlook]
        have e1 : (h.slot j).id ≠ (h.slot h.currentSize).id := fun e => by
          have := hI.inj hj1 (by omega) (by omega) (le_refl _) e
          omega
        have e2 : (h.slot j).id ≠ (h.slot 1).id := fun e =>
          hj3 (hI.inj hj1 (by omega) (le_refl _) (by omega) e)
        rw [if_neg e1, if_neg e2]
        exact hI.indexed j hj1 (by omega)
      · rw [hlook, if_pos rfl]; simp
      · intro j hj1 hj2 hj3
        rw [hcs] at hj2
        rw [hslot, if_neg hj3]
        intro e
        have := hI.inj hj1 (by omega) (by omega) (le_refl _) e
        omega
      · intro x hx
        rw [hlook] at hx
        by_cases hx1 : x = (h.slot h.currentSize).id
        · exact Or.inl hx1
        · rw [if_neg hx1] at hx
          by_cases hx2 : x = (h.slot 1).id
          · rw [if_pos hx2] at hx; exact absurd rfl hx
          · rw [if_neg hx2] at hx
            obtain ⟨j, hj1, hj2, hj3⟩ := hI.onto x hx
            have hj4 : j ≠ 1 := by intro e; subst e; exact hx2 hj3.symm
            have hj5 : j ≠ h.currentSize := by intro e; subst e; exact hx1 hj3.symm
            right
            exact ⟨j, hj1, by rw [hcs]; omega, hj4, by rw [hslot, if_neg hj4]; exact hj3⟩
    have ho : DownOrd h.beheaded 1 (h.beheaded.slot 1) := by
      refine ⟨?_, fun h2 => absurd h2 (by omega), fun _ _ _ h2 => absurd h2 (by omega)⟩
      intro j hj1 hj2 hj3 hj4
      rw [hcs] at hj2
      rw [hslot j, if_neg hj3, hslot (j / 2), if_neg hj4]
      exact hI.ordered j hj1 (by omega)
    obtain ⟨p1, p2, p3⟩ := percolateDown_spec hb ho
    refine ⟨p1, by rw [p2.currentSize, hcs], by rw [p2.capacity, hB], ?_⟩
    intro n
    show n ∈ (h.beheaded.percolateDown 1).nodes ↔ _
    rw [p3, mem_nodes_iff, mem_nodes_iff, hcs]
    constructor
    · rintro ⟨j, hj1, hj2, hj3⟩
      rw [hslot] at hj3
      by_cases hj4 : j = 1
      · rw [if_pos hj4] at hj3
        rw [← hj3]
        exact ⟨⟨h.currentSize, by omega, le_refl _, rfl⟩, hlast⟩
      · rw [if_neg hj4] at hj3
        rw [← hj3]
        exact ⟨⟨j, hj1, by omega, rfl⟩, fun e =>
          hj4 (hI.inj hj1 (by omega) (le_refl _) (by omega) e)⟩
    · rintro ⟨⟨j, hj1, hj2, rfl⟩, hne⟩
      have hj4 : j ≠ 1 := by intro e; subst e; exact hne rfl
      by_cases hj5 : j = h.currentSize
      · exact ⟨1, le_refl _, by omega, by rw [hslot, if_pos rfl, hj5]⟩
      · exact ⟨j, hj1, by omega, by rw [hslot, if_neg hj4]⟩
  · -- the heap had one node
    have hcs1 : h.currentSize = 1 := by omega
    have hB := beheaded_of_one h1
    have hcs : h.beheaded.currentSize = 0 := by rw [hB]; show h.currentSize - 1 = 0; omega
    have hloop : percolateDownLoop (h.beheaded.slot 1) h.beheaded.currentSize h.beheaded 1
        = (h.beheaded, 1) := by rw [hcs]; rfl
    have hmap : h.beheaded.mapping = (h.mapping.remove (h.slot 1).id).1 := by rw [hB]
    have hsl : h.beheaded.slot 1 = h.slot 1 := by rw [hB]; rfl
    have hnone : h.beheaded.mapping.lookup (h.slot 1).id = none := by
      rw [hmap, hrem, if_pos rfl]
    have hfill : (h.beheaded.percolateDown 1).mapping = (h.mapping.remove (h.slot 1).id).1 := by
      rw [percolateDown_eq, hloop, hsl]
      show (h.beheaded.mapping.setPointer (h.slot 1).id (some 1)).1 = _
      rw [hashTable.lookup_setPointer_of_absent _ _ hnone, hmap]
    have hcs' : (h.beheaded.percolateDown 1).currentSize = 0 := by
      rw [percolateDown_eq, hloop]; exact hcs
    have hcap' : (h.beheaded.percolateDown 1).capacity = h.capacity := by
      rw [percolateDown_eq, hloop, hB]; rfl
    have hlen' : (h.beheaded.percolateDown 1).data.length = h.data.length := by
      rw [percolateDown_eq, hloop]
      show (h.beheaded.data.set _ _).length = _
      rw [List.length_set, hB]
    refine ⟨⟨?_, ?_, ?_, ?_, ?_, ?_⟩, by rw [hcs', hcs1], hcap', ?_⟩
    · rw [hfill]; exact hPrem
    · rw [hlen', hcap']; exact hI.size
    · rw [hcs']; exact Nat.zero_le _
    · intro j hj1 hj2; rw [hcs'] at hj2; omega
    · intro j hj1 hj2; rw [hcs'] at hj2; omega
    · intro x hx
      rw [hfill, hrem] at hx
      by_cases hx2 : x = (h.slot 1).id
      · rw [if_pos hx2] at hx; exact absurd rfl hx
      · rw [if_neg hx2] at hx
        obtain ⟨j, hj1, hj2, hj3⟩ := hI.onto x hx
        have : j = 1 := by omega
        subst this
        exact absurd hj3.symm hx2
    · intro n
      show n ∈ (h.beheaded.percolateDown 1).nodes ↔ _
      rw [mem_nodes_iff, mem_nodes_iff, hcs']
      constructor
      · rintro ⟨j, hj1, hj2, _⟩; omega
      · rintro ⟨⟨j, hj1, hj2, rfl⟩, hne⟩
        have : j = 1 := by omega
        subst this
        exact absurd rfl hne

theorem deleteMin_inv {h : heap} (hI : Inv h) : Inv (h.deleteMin).1 := by
  by_cases h0 : h.currentSize = 0
  · rw [deleteMin_of_empty h0]; exact hI
  · exact (deleteMin_spec hI h0).2.2.1

/-! ### remove -/

theorem remove_of_absent {h : heap} (id : Key) (hc : h.mapping.contains id = false) :
    h.remove id = (h, 1, none) := by
  unfold remove; rw [hc]; rfl

theorem remove_at {h : heap} (hI : Inv h) {i : Nat} (hi1 : 1 ≤ i) (hi2 : i ≤ h.currentSize) :
    h.remove (h.slot i).id =
      (((h.setKey (h.slot i).id INT_MIN).1.deleteMin).1, 0,
        some ((h.slot i).key, (h.slot i).pData)) := by
  unfold remove
  rw [(hI.contains_iff _).2 ⟨i, hi1, hi2, rfl⟩, hI.getPointer hi1 hi2]
  rfl

theorem remove_keeps_inv {h : heap} (hI : Inv h) (id : Key) : Inv (h.remove id).1 := by
  by_cases hc : h.mapping.contains id = true
  · obtain ⟨i, hi1, hi2, rfl⟩ := (hI.contains_iff id).1 hc
    rw [remove_at hI hi1 hi2]
    exact deleteMin_inv (setKey_inv hI _ _)
  · rw [remove_of_absent id (by simpa using hc)]; exact hI

end heap

end ECE365

namespace ECE365

/-! ## The hash table as a finite map -/

theorem runCalls_cons (t : hashTable) (c : TableCall) (cs : List TableCall) :
    runCalls t (c :: cs) = runCalls (c.run t) cs := rfl

theorem TableCall.run_pinv {t : hashTable} (hP : t.PInv) (c : TableCall) : (c.run t).PInv := by
  cases c with
  | insert key pv => exact hashTable.insert_pinv hP key pv
  | setPointer key pv => exact hashTable.setPointer_pinv hP key pv
  | remove key => exact hashTable.remove_pinv hP key

/-- The content of the table after one call, in terms of the value the call returns. -/
theorem TableCall.run_lookup {t : hashTable} (hP : t.PInv) (c : TableCall) (k : Key) :
    (c.run t).lookup k = expectedStep k (t.lookup k) (c, c.result t) := by
  cases c with
  | insert key pv =>
    show (t.insert key pv false).1.lookup k =
      if key = k ∧ (t.insert key pv false).2 = 0 then some pv else t.lookup k
    by_cases h0 : (t.insert key pv false).2 = 0
    · rw [(hashTable.insert_ok hP key pv h0).2.2 k]
      by_cases hk : k = key
      · rw [if_pos hk, if_pos ⟨hk.symm, h0⟩]
      · rw [if_neg hk, if_neg (fun hh => hk hh.1.symm)]
    · rw [hashTable.insert_of_ne_zero h0, if_neg (fun hh => h0 hh.2)]
  | setPointer key pv =>
    show (t.setPointer key pv).1.lookup k =
      if key = k ∧ (t.setPointer key pv).2 = 0 then some pv else t.lookup k
    rw [hashTable.lookup_setPointer hP.inv, hashTable.setPointer_result,
      hashTable.contains_eq_lookup]
    by_cases hk : k = key
    · subst hk
      cases h : (t.lookup k).isSome <;> simp
    · have hk' : ¬ key = k := fun e => hk e.symm
      simp [hk, hk']
  | remove key =>
    show (t.remove key).1.lookup k = if key = k then none else t.lookup k
    rw [hashTable.lookup_remove hP.inv]
    by_cases hk : k = key
    · rw [if_pos hk, if_pos hk.symm]
    · rw [if_neg hk, if_neg (fun e => hk e.symm)]

/-- The table refines the finite map that the trace of the calls describes. -/
theorem runCalls_lookup (k : Key) :
    ∀ (cs : List TableCall) (t : hashTable), t.PInv →
      (runCalls t cs).PInv ∧
      (runCalls t cs).lookup k = (trace t cs).foldl (expectedStep k) (t.lookup k) := by
  intro cs
  induction cs with
  | nil => intro t hP; exact ⟨hP, rfl⟩
  | cons c cs ih =>
    intro t hP
    obtain ⟨h1, h2⟩ := ih (c.run t) (c.run_pinv hP)
    rw [runCalls_cons]
    refine ⟨h1, ?_⟩
    rw [h2, c.run_lookup hP k]
    rfl

theorem lastNaming_cons (k : Key) (c : TableCall) (cs : List TableCall) :
    lastNaming k (c :: cs) =
      match lastNaming k cs with
      | some x => some x
      | none => if c.key = k then some c else none := by
  unfold lastNaming
  rw [List.filter_cons]
  by_cases hk : c.key = k
  · have : (c.key == k) = true := by simpa using hk
    rw [if_pos this, List.getLast?_cons, if_pos hk]
    cases (List.filter (fun c => c.key == k) cs).getLast? <;> rfl
  · have : ¬ (c.key == k) = true := by simpa using hk
    rw [if_neg this, if_neg hk]
    cases (List.filter (fun c => c.key == k) cs).getLast? <;> rfl

theorem lastNaming_key {k : Key} {cs : List TableCall} {c : TableCall}
    (h : lastNaming k cs = some c) : c.key = k := by
  unfold lastNaming at h
  have := List.mem_of_getLast?_eq_some h
  rw [List.mem_filter] at this
  simpa using this.2

theorem lastNaming_mem {k : Key} {cs : List TableCall} {c : TableCall}
    (h : lastNaming k cs = some c) : c ∈ cs := by
  unfold lastNaming at h
  have := List.mem_of_getLast?_eq_some h
  rw [List.mem_filter] at this
  exact this.1

/-- Membership after a sequence of `insert` and `remove` calls none of which returns `2`. -/
theorem runCalls_contains (k : Key) :
    ∀ (cs : List TableCall) (t : hashTable), t.PInv →
      (∀ c ∈ cs, c.isSetPointer = false) → noneReturns2 t cs = true →
      (runCalls t cs).contains k =
        match lastNaming k cs with
        | some c => c.isInsert
        | none => t.contains k := by
  intro cs
  induction cs with
  | nil => intro t _ _ _; rfl
  | cons c cs ih =>
    intro t hP hops h2
    have h2' : c.returns2 t = false ∧ noneReturns2 (c.run t) cs = true := by
      simpa [noneReturns2] using h2
    rw [runCalls_cons, ih (c.run t) (c.run_pinv hP)
      (fun c' hc' => hops c' (List.mem_cons_of_mem _ hc')) h2'.2, lastNaming_cons]
    cases hl : lastNaming k cs with
    | some x => rfl
    | none =>
      show (c.run t).contains k = _
      rw [hashTable.contains_eq_lookup, c.run_lookup hP k, hashTable.contains_eq_lookup]
      cases c with
      | insert key pv =>
        have hr : ¬ (t.insert key pv false).2 = 2 := by
          have := h2'.1
          simpa [TableCall.returns2, TableCall.isInsert, TableCall.result] using this
        show (if key = k ∧ (t.insert key pv false).2 = 0 then some pv else t.lookup k).isSome = _
        by_cases hk : key = k
        · simp only [TableCall.key, hk, if_true, true_and]
          rcases hashTable.insert_result t k pv false with h0 | h1 | h2
          · rw [if_pos h0]; rfl
          · have hc := (hashTable.insert_eq_one_iff t k pv false).1 h1
            rw [hashTable.contains_eq_lookup] at hc
            rw [if_neg (by omega), hc]; rfl
          · rw [hk] at hr; exact absurd h2 hr
        · simp only [TableCall.key, hk, false_and, if_false]
      | setPointer key pv =>
        have := hops (TableCall.setPointer key pv) (List.mem_cons_self _ _)
        simp [TableCall.isSetPointer] at this
      | remove key =>
        show (if key = k then none else t.lookup k).isSome = _
        by_cases hk : key = k
        · simp only [TableCall.key, hk, if_true]; rfl
        · simp only [TableCall.key, hk, if_false]

theorem contains_init (size : Int) (k : Key) : (hashTable.init size).contains k = false := by
  rw [hashTable.contains_eq_lookup, hashTable.lookup_init]; rfl

end ECE365

namespace ECE365

/-! ## The heap after a sequence of calls -/

theorem runHeapCalls_cons (h : heap) (c : HeapCall) (cs : List HeapCall) :
    runHeapCalls h (c :: cs) = runHeapCalls (c.run h) cs := rfl

theorem runHeapCalls_append (h : heap) (cs cs' : List HeapCall) :
    runHeapCalls h (cs ++ cs') = runHeapCalls (runHeapCalls h cs) cs' := by
  unfold runHeapCalls; rw [List.foldl_append]

theorem noneReturns3_append (cs cs' : List HeapCall) :
    ∀ h, noneReturns3 h (cs ++ cs') =
      (noneReturns3 h cs && noneReturns3 (runHeapCalls h cs) cs') := by
  induction cs with
  | nil => intro h; rfl
  | cons c cs ih =>
    intro h
    show (!c.returns3 h && noneReturns3 (c.run h) (cs ++ cs')) = _
    rw [ih, runHeapCalls_cons]
    show _ = ((!c.returns3 h && noneReturns3 (c.run h) cs) && _)
    rw [Bool.and_assoc]

theorem HeapCall.run_inv {h : heap} (hI : h.Inv) (c : HeapCall) (h3 : c.returns3 h = false) :
    (c.run h).Inv := by
  cases c with
  | insert id key pv =>
    apply heap.insert_inv hI
    simpa [HeapCall.returns3] using h3
  | setKey id key => exact heap.setKey_inv hI id key
  | deleteMin => exact heap.deleteMin_inv hI
  | remove id => exact heap.remove_keeps_inv hI id

theorem runHeapCalls_inv :
    ∀ (cs : List HeapCall) (h : heap), h.Inv → noneReturns3 h cs = true →
      (runHeapCalls h cs).Inv := by
  intro cs
  induction cs with
  | nil => intro h hI _; exact hI
  | cons c cs ih =>
    intro h hI h3
    have h3' : c.returns3 h = false ∧ noneReturns3 (c.run h) cs = true := by
      simpa [noneReturns3] using h3
    exact ih (c.run h) (c.run_inv hI h3'.1) h3'.2

namespace heap

/-- A heap reached by public operations none of which returned `3` satisfies the
invariant. -/
theorem Reachable.inv {h : heap} (hr : h.Reachable) : h.Inv := by
  obtain ⟨capacity, cs, h3, rfl⟩ := hr
  exact runHeapCalls_inv cs _ (init_inv capacity) h3

theorem Reachable.init (capacity : Nat) : (heap.init capacity).Reachable :=
  ⟨capacity, [], rfl, rfl⟩

theorem Reachable.step_call {h : heap} (hr : h.Reachable) (c : HeapCall)
    (h3 : c.returns3 h = false) : (c.run h).Reachable := by
  obtain ⟨capacity, cs, hn, rfl⟩ := hr
  refine ⟨capacity, cs ++ [c], ?_, ?_⟩
  · rw [noneReturns3_append, hn]
    simp [noneReturns3, h3]
  · rw [runHeapCalls_append]; rfl

theorem nodes_of_zero {h : heap} (h0 : h.currentSize = 0) : h.nodes = [] := by
  unfold nodes; rw [h0]; rfl

theorem Inv.eq_root_of_id {h : heap} (hI : Inv h) {n : node}
    (hn : n ∈ h.nodes) (hid : n.id = (h.slot 1).id) : n = h.slot 1 := by
  obtain ⟨i, hi1, hi2, rfl⟩ := (mem_nodes_iff h n).1 hn
  have := hI.inj hi1 hi2 (le_refl _) (by omega) hid
  rw [this]

/-- Calling `deleteMin` until the heap is empty returns the nodes of the heap, each once,
with keys in non-decreasing order. -/
theorem drain_spec :
    ∀ (n : Nat) (h : heap), h.Inv → h.currentSize = n → ∀ fuel, n < fuel →
      ∃ l, drain fuel h = some l ∧ l.length = n ∧
        (l.map (fun x => x.key)).Sorted (fun a b => a ≤ b) ∧ l.Perm h.nodes := by
  intro n
  induction n with
  | zero =>
    intro h hI h0 fuel hf
    obtain ⟨f, rfl⟩ : ∃ f, fuel = f + 1 := ⟨fuel - 1, by omega⟩
    refine ⟨[], ?_, rfl, List.sorted_nil, ?_⟩
    · unfold drain
      rw [deleteMin_of_empty h0]
      simp
    · rw [nodes_of_zero h0]
  | succ n ih =>
    intro h hI hn fuel hf
    obtain ⟨f, rfl⟩ : ∃ f, fuel = f + 1 := ⟨fuel - 1, by omega⟩
    have h0 : h.currentSize ≠ 0 := by omega
    obtain ⟨d1, d2, d3, d4, _, d6⟩ := deleteMin_spec hI h0
    obtain ⟨l, hl1, hl2, hl3, hl4⟩ := ih (h.deleteMin).1 d3 (by rw [d4]; omega) f (by omega)
    have hmem : ∀ a, a ∈ l ↔ (a ∈ h.nodes ∧ a.id ≠ (h.slot 1).id) := by
      intro a
      rw [hl4.mem_iff, d6]
    refine ⟨h.slot 1 :: l, ?_, by simp [hl2], ?_, ?_⟩
    · unfold drain
      rw [if_pos d1, d2, hl1]
    · rw [List.map_cons, List.sorted_cons]
      refine ⟨?_, hl3⟩
      intro b hb
      rw [List.mem_map] at hb
      obtain ⟨a, ha, rfl⟩ := hb
      obtain ⟨i, hi1, hi2, rfl⟩ := (mem_nodes_iff h a).1 ((hmem a).1 ha).1
      exact hI.root_le i hi1 hi2
    · rw [List.perm_ext_iff_of_nodup _ hI.nodes_nodup]
      · intro a
        rw [List.mem_cons, hmem]
        constructor
        · rintro (h1 | h1)
          · rw [h1]; exact (mem_nodes_iff h _).2 ⟨1, le_refl _, by omega, rfl⟩
          · exact h1.1
        · intro ha
          by_cases hid : a.id = (h.slot 1).id
          · exact Or.inl (hI.eq_root_of_id ha hid)
          · exact Or.inr ⟨ha, hid⟩
      · rw [List.nodup_cons]
        refine ⟨?_, hl4.nodup_iff.2 d3.nodes_nodup⟩
        intro hc
        exact ((hmem _).1 hc).2 rfl

/-- The call `remove(id)` for the id of the node in slot `i` returns `0` and writes the key
and the payload of that node. -/
theorem remove_result_at {h : heap} (hI : Inv h) {i : Nat} (hi1 : 1 ≤ i)
    (hi2 : i ≤ h.currentSize) :
    (h.remove (h.slot i).id).2 = (0, some ((h.slot i).key, (h.slot i).pData)) := by
  rw [remove_at hI hi1 hi2]

theorem insert_of_mem_ids {h : heap} (hI : Inv h) {id : Key} (hid : id ∈ h.ids) (key : Int)
    (pv : Ptr) :
    h.insert id key pv = (h, if h.currentSize ≥ h.capacity then 1 else 2) := by
  by_cases hf : h.currentSize ≥ h.capacity
  · rw [insert_of_full id key pv hf, if_pos hf]
  · rw [insert_of_dup id key pv hf ((hI.contains_iff_mem_ids id).2 hid), if_neg hf]

end heap

end ECE365

namespace ECE365

/-! ## The heap after a failure of the insertion into the hash table -/

namespace hashTable

/-- An `insert` of an absent key below the load threshold, in a table without deleted
slots, takes a new slot and does not rehash. -/
theorem insert_below {t : hashTable} (hP : PInv t) (key : Key) (pv : Ptr)
    (habs : t.contains key = false) (hlt : t.filled < t.capacity / 2)
    (hnd : ∀ i, (t.slot i).isDeleted = false) :
    (t.insert key pv false).2 = 0 ∧ (t.insert key pv false).1.capacity = t.capacity ∧
    (t.insert key pv false).1.filled = t.filled + 1 ∧
    ∀ i, ((t.insert key pv false).1.slot i).isDeleted = false := by
  have hf : ¬ (t.findPos key).isSome = true := by
    unfold contains at habs; rw [habs]; simp
  have hc : ¬ (!false && decide (t.filled ≥ t.capacity / 2)) = true := by
    simp only [Bool.not_false, Bool.true_and, decide_eq_true_eq, ge_iff_le, not_le]
    exact hlt
  have he : t.insert key pv false = (t.place key pv, 0) := by
    unfold insert; rw [if_neg hf, if_neg hc]
  rw [he]
  have hfl := hP.filled_lt
  obtain ⟨_, s2, s3⟩ := insertIndex_spec hP.inv hfl key pv
  refine ⟨rfl, rfl, ?_, ?_⟩
  · show (t.place key pv).filled = t.filled + 1
    rw [s2]
    by_cases ho : (t.slot (t.insertIndex key)).isOccupied = true
    · have := s3 ho
      rw [hnd] at this
      exact absurd this (by simp)
    · rw [if_neg ho]
  · intro i
    show ((t.place key pv).slot i).isDeleted = false
    rw [place_slot hP.inv hfl]
    split
    · rfl
    · exact hnd i

/-- An `insert` of an absent key at the load threshold of the largest capacity returns `2`
and leaves the table as it is. -/
theorem insert_at_top {t : hashTable} (key : Key) (pv : Ptr) (hcap : t.capacity = 1610612741)
    (habs : t.contains key = false) (hfull : t.filled ≥ t.capacity / 2) :
    t.insert key pv false = (t, 2) := by
  have hf : ¬ (t.findPos key).isSome = true := by
    unfold contains at habs; rw [habs]; simp
  have hc : (!false && decide (t.filled ≥ t.capacity / 2)) = true := by
    simp only [Bool.not_false, Bool.true_and, decide_eq_true_eq]
    exact hfull
  have hr : (t.rehash).2 = false := by
    rw [rehash_eq, hcap]
    have : getPrime (2 * ((1610612741 : Nat) : Int)) ≤ 1610612741 := by decide
    rw [if_pos this]
  unfold insert
  rw [if_neg hf, if_pos hc, hr]
  rfl

end hashTable

theorem idOf_inj {i j : Nat} (hi : i < 4294967296) (hj : j < 4294967296)
    (h : idOf i = idOf j) : i = j := by
  unfold idOf at h
  simp only [List.cons.injEq, Fin.mk.injEq, and_true] at h
  omega

theorem manyInserts_succ (n : Nat) :
    manyInserts (n + 1) = manyInserts n ++ [HeapCall.insert (idOf n) 0 none] := by
  unfold manyInserts
  rw [List.range_succ, List.map_append]
  rfl

theorem manyState_init (capacity : Nat) (hc : getPrime ((capacity : Int) * 2) = 1610612741) :
    ManyState capacity 0 (heap.init capacity) := by
  have h0 : (heap.init capacity).nodes = [] := heap.nodes_of_zero rfl
  refine ⟨heap.init_inv capacity, rfl, rfl, hc, rfl, ?_, ?_, ?_⟩
  · intro i
    show ((hashTable.init _).slot i).isDeleted = false
    rw [hashTable.init_eq_fresh, hashTable.fresh_slot]
    rfl
  · intro x hx
    unfold heap.ids at hx
    rw [h0] at hx
    simp at hx
  · intro m hm
    rw [h0] at hm
    simp at hm

theorem manyState_absent {capacity n : Nat} {h : heap} (hs : ManyState capacity n h)
    (hn : n < 4294967296) : h.mapping.contains (idOf n) = false := by
  cases hc : h.mapping.contains (idOf n) with
  | false => rfl
  | true =>
    obtain ⟨j, hj, he⟩ := hs.ids _ ((hs.inv.contains_iff_mem_ids _).1 hc)
    have := idOf_inj hn (by omega) he
    omega

theorem manyState_step {capacity n : Nat} {h : heap} (hs : ManyState capacity n h)
    (hn : n < 805306370) (hcap : n < capacity) :
    (h.insert (idOf n) 0 none).2 = 0 ∧
    ManyState capacity (n + 1) (h.insert (idOf n) 0 none).1 := by
  have habs := manyState_absent hs (by omega)
  have hlt : h.mapping.filled < h.mapping.capacity / 2 := by
    rw [hs.mfilled, hs.mcap]; omega
  obtain ⟨b1, b2, b3, b4⟩ := hashTable.insert_below hs.inv.pinv (idOf n)
    (some (h.currentSize + 1)) habs hlt hs.nodel
  have hf : ¬ h.currentSize ≥ h.capacity := by rw [hs.size, hs.cap]; omega
  have h0 : (h.insert (idOf n) 0 none).2 = 0 := by
    rw [heap.insert_of_ok (idOf n) 0 none hf (by rw [habs]; simp) b1]
  obtain ⟨i1, i2, i3, _, _, _, _, i8, i9⟩ := heap.insert_success hs.inv (idOf n) 0 none h0
  refine ⟨h0, i1, by rw [i2, hs.size], by rw [i3, hs.cap], ?_, ?_, ?_, ?_, ?_⟩
  · rw [i8.mcap]
    show (h.mapping.insert _ _ false).1.capacity = _
    rw [b2, hs.mcap]
  · rw [i8.mfilled]
    show (h.mapping.insert _ _ false).1.filled = _
    rw [b3, hs.mfilled]
  · exact i8.nodel b4
  · intro x hx
    unfold heap.ids at hx
    rw [List.mem_map] at hx
    obtain ⟨m, hm, rfl⟩ := hx
    rcases (i9 m).1 hm with h1 | h1
    · exact ⟨n, by omega, by rw [h1]⟩
    · obtain ⟨j, hj, he⟩ := hs.ids m.id (List.mem_map.2 ⟨m, h1, rfl⟩)
      exact ⟨j, by omega, he⟩
  · intro m hm
    rcases (i9 m).1 hm with h1 | h1
    · rw [h1]
    · exact hs.keys m h1

theorem manyState_run (capacity : Nat) (hc : getPrime ((capacity : Int) * 2) = 1610612741) :
    ∀ n, n ≤ 805306370 → n ≤ capacity →
      noneReturns3 (heap.init capacity) (manyInserts n) = true ∧
      ManyState capacity n (runHeapCalls (heap.init capacity) (manyInserts n)) := by
  intro n
  induction n with
  | zero => intro _ _; exact ⟨rfl, manyState_init capacity hc⟩
  | succ n ih =>
    intro hn hcap
    obtain ⟨r1, r2⟩ := ih (by omega) (by omega)
    obtain ⟨s1, s2⟩ := manyState_step r2 (by omega) (by omega)
    rw [manyInserts_succ, noneReturns3_append, runHeapCalls_append, r1]
    refine ⟨?_, s2⟩
    show (!(HeapCall.insert (idOf n) 0 none).returns3 _ && true) = true
    simp only [HeapCall.returns3, s1, Bool.and_true, Bool.not_eq_true']
    rfl

/-- After the insertion into the hash table has failed, the heap is not in heap order: the
new node, of key `-1`, is below a parent of key `0`. -/
theorem manyState_fail {capacity n : Nat} {h : heap} (hs : ManyState capacity n h)
    (hn1 : 805306370 ≤ n) (hn2 : n < 4294967296) (hcap : n < capacity) :
    (h.insert (idOf n) (-1) none).2 = 3 ∧ ¬ (h.insert (idOf n) (-1) none).1.Ordered := by
  have habs := manyState_absent hs hn2
  have hf : ¬ h.currentSize ≥ h.capacity := by rw [hs.size, hs.cap]; omega
  have htop := hashTable.insert_at_top (t := h.mapping) (idOf n)
    (some (h.currentSize + 1)) hs.mcap habs (by rw [hs.mfilled, hs.mcap]; omega)
  have hins : h.insert (idOf n) (-1) none = (h.appended (idOf n) (-1) none, 3) :=
    heap.insert_of_fail _ _ _ hf (by rw [habs]; simp) (by rw [htop]; simp)
  rw [hins]
  refine ⟨rfl, ?_⟩
  intro ho
  have hlen : h.currentSize + 1 < h.data.length := by
    have := hs.inv.size; omega
  have hslot : ∀ j, (h.appended (idOf n) (-1) none).slot j =
      if j = h.currentSize + 1 then { id := idOf n, key := -1, pData := none } else h.slot j :=
    fun j => heap.getD_set _ _ _ _ hlen
  have hsz := hs.size
  have h1 := ho (h.currentSize + 1) (by omega) (le_refl _)
  rw [hslot (h.currentSize + 1), if_pos rfl, hslot, if_neg (by omega)] at h1
  have h2 := hs.keys (h.slot ((h.currentSize + 1) / 2))
    ((heap.mem_nodes_iff h _).2 ⟨(h.currentSize + 1) / 2, by omega, by omega, rfl⟩)
  rw [h2] at h1
  have h3 : (0 : Int) ≤ -1 := h1
  omega

theorem failingCalls_spec (capacity n : Nat)
    (hc : getPrime ((capacity : Int) * 2) = 1610612741) (hn : n = 805306370)
    (hcap : n < capacity) :
    noneReturns3 (heap.init capacity) (manyInserts n) = true ∧
    (runHeapCalls (heap.init capacity) (manyInserts n)).currentSize = n ∧
    ((runHeapCalls (heap.init capacity) (manyInserts n)).insert (idOf n) (-1) none).2 = 3 ∧
    ¬ (runHeapCalls (heap.init capacity) (failingCalls n)).Ordered := by
  obtain ⟨r1, hs⟩ := manyState_run capacity hc n (by omega) (by omega)
  obtain ⟨f1, f2⟩ := manyState_fail hs (by omega) (by omega) hcap
  refine ⟨r1, hs.size, f1, ?_⟩
  unfold failingCalls
  rw [runHeapCalls_append]
  exact f2

end ECE365

namespace ECE365

/-! ## Walks -/

theorem Walk.head_mem {α : Type} {E : α → Int → α → Prop} {s v : α} {w : Int} {p : List α}
    (h : Walk E s v w p) : v ∈ p := by
  cases h with
  | nil => exact List.mem_singleton_self _
  | snoc c v hw he => exact List.mem_cons_self _ _

theorem Walk.start_mem {α : Type} {E : α → Int → α → Prop} {s v : α} {w : Int} {p : List α}
    (h : Walk E s v w p) : s ∈ p := by
  induction h with
  | nil => exact List.mem_singleton_self _
  | snoc c v _ _ ih => exact List.mem_cons_of_mem _ ih

theorem Walk.weight_nonneg {α : Type} {E : α → Int → α → Prop} {s v : α} {w : Int}
    {p : List α} (h : Walk E s v w p) (hE : ∀ u c v, E u c v → 0 ≤ c) : 0 ≤ w := by
  induction h with
  | nil => exact le_refl _
  | snoc c v _ he ih => have := hE _ _ _ he; omega

/-- A walk through a vertex `x` has a part from the start to `x`, which is not heavier and
has no repeated vertex if the walk has none. -/
theorem Walk.initial_part {α : Type} {E : α → Int → α → Prop} {s v : α} {w : Int}
    {p : List α} (h : Walk E s v w p) (hE : ∀ u c v, E u c v → 0 ≤ c) :
    ∀ x, x ∈ p → ∃ w' p', Walk E s x w' p' ∧ w' ≤ w ∧ (∀ y, y ∈ p' → y ∈ p) ∧
      (p.Nodup → p'.Nodup) := by
  induction h with
  | nil =>
    intro x hx
    rw [List.mem_singleton] at hx
    subst hx
    exact ⟨0, [x], Walk.nil, le_refl _, fun y hy => hy, fun hn => hn⟩
  | @snoc u w p c v hw he ih =>
    intro x hx
    by_cases hxp : x ∈ p
    · obtain ⟨w', p', h1, h2, h3, h4⟩ := ih x hxp
      have := hE _ _ _ he
      exact ⟨w', p', h1, by omega, fun y hy => List.mem_cons_of_mem _ (h3 y hy),
        fun hn => h4 (List.nodup_cons.1 hn).2⟩
    · have hxv : x = v := by
        rcases List.mem_cons.1 hx with h1 | h1
        · exact h1
        · exact absurd h1 hxp
      subst hxv
      exact ⟨w + c, x :: p, Walk.snoc c x hw he, le_refl _, fun y hy => hy, fun hn => hn⟩

/-- A walk can be replaced by a path without repeated vertex that is not heavier. -/
theorem Walk.simplify {α : Type} {E : α → Int → α → Prop} {s v : α} {w : Int}
    {p : List α} (h : Walk E s v w p) (hE : ∀ u c v, E u c v → 0 ≤ c) :
    ∃ w' p', Walk E s v w' p' ∧ p'.Nodup ∧ w' ≤ w := by
  induction h with
  | nil => exact ⟨0, _, Walk.nil, List.nodup_singleton _, le_refl _⟩
  | @snoc u w p c v hw he ih =>
    obtain ⟨w1, p1, h1, h2, h3⟩ := ih
    have hc := hE _ _ _ he
    by_cases hv : v ∈ p1
    · obtain ⟨w2, p2, k1, k2, _, k4⟩ := h1.initial_part hE v hv
      exact ⟨w2, p2, k1, k4 h2, by omega⟩
    · exact ⟨w1 + c, v :: p1, Walk.snoc c v h1 he, List.nodup_cons.2 ⟨hv, h2⟩, by omega⟩

/-- The image of a walk under a map of graphs. -/
theorem Walk.map {α β : Type} {E : α → Int → α → Prop} {E' : β → Int → β → Prop} (f : α → β)
    (hf : ∀ u c v, E u c v → E' (f u) c (f v)) {s v : α} {w : Int} {p : List α}
    (h : Walk E s v w p) : Walk E' (f s) (f v) w (p.map f) := by
  induction h with
  | nil => exact Walk.nil
  | snoc c v _ he ih => exact Walk.snoc c (f v) ih (hf _ _ _ he)

theorem isMinDist_unique {α : Type} {E : α → Int → α → Prop} {s v : α} {d d' : Int}
    (h : IsMinDist E s v d) (h' : IsMinDist E s v d') : d = d' := by
  obtain ⟨⟨p, hp, _⟩, hmin⟩ := h
  obtain ⟨⟨p', hp', _⟩, hmin'⟩ := h'
  have := hmin _ _ hp'
  have := hmin' _ _ hp
  omega

namespace Graph

theorem vertex_set (vs : List Vertex) (i j : Nat) (a : Vertex) (hi : i < vs.length) :
    vertex (vs.set i a) j = if j = i then a else vertex vs j := by
  unfold vertex
  simp only [List.getD_eq_getElem?_getD, List.getElem?_set]
  by_cases h : i = j
  · subst h; simp [hi]
  · have h' : ¬ j = i := fun e => h e.symm
    simp [h, h']

theorem vertex_default (vs : List Vertex) (i : Nat) (hi : vs.length ≤ i) :
    vertex vs i = default := by
  unfold vertex
  exact List.getD_eq_default _ _ hi

/-- The vertices of a walk in a well-formed graph are vertices of the graph. -/
theorem WF.sound {g : Graph} (hg : g.WF) (s : Nat) : g.Sound s :=
  ⟨fun i j hi hj _ _ h => hg.ids_inj i j hi hj h, hg.dest_lt⟩

theorem walk_lt {g : Graph}
    (hg : ∀ i, i < g.vertexList.length → ∀ e, e ∈ (vertex g.vertexList i).adjList →
      e.destination < g.vertexList.length) {s v : Nat} {w : Int} {p : List Nat}
    (h : Walk g.edge s v w p) (hs : s < g.vertexList.length) :
    ∀ x, x ∈ p → x < g.vertexList.length := by
  induction h with
  | nil =>
    intro x hx
    rw [List.mem_singleton] at hx
    rw [hx]; exact hs
  | @snoc u w p c v hw he ih =>
    intro x hx
    rcases List.mem_cons.1 hx with h1 | h1
    · rw [h1]
      exact hg u (ih u hw.head_mem) _ he
    · exact ih x h1

end Graph

end ECE365

namespace ECE365

/-! ## The number of occupied slots of the hash table of a heap -/

theorem primeNumbers_top : ∀ p ∈ primeNumbers, getPrime (2 * (p : Int)) ≤ p → p = 1610612741 := by
  decide

theorem primeNumbers_le : ∀ p ∈ primeNumbers, p ≤ 1610612741 := by decide

namespace hashTable

/-- The result `2` of `insert` means that the table has the largest capacity and is filled
up to the load threshold. -/
theorem insert_eq_two {t : hashTable} (hP : PInv t) {key : Key} {pv : Ptr} {b : Bool}
    (h : (t.insert key pv b).2 = 2) :
    t.capacity = 1610612741 ∧ t.filled ≥ t.capacity / 2 := by
  unfold insert at h
  split at h
  · simp at h
  · split at h
    · rename_i hc
      split at h
      · simp at h
      · rename_i hr
        have hr' : (t.rehash).2 = false := by simpa using hr
        rw [rehash_eq] at hr'
        have hle : getPrime (2 * (t.capacity : Int)) ≤ t.capacity := by
          by_contra hcon
          rw [if_neg hcon] at hr'
          exact absurd hr' (by simp)
        simp only [Bool.and_eq_true, decide_eq_true_eq] at hc
        exact ⟨primeNumbers_top _ hP.prime hle, hc.2⟩
    · simp at h

/-- A call of `insert` takes one new slot at most. -/
theorem insert_filled_le {t : hashTable} (hP : PInv t) (key : Key) (pv : Ptr) :
    (t.insert key pv false).1.filled ≤ t.filled + 1 := by
  by_cases h0 : (t.insert key pv false).2 = 0
  swap
  · rw [insert_of_ne_zero h0]; omega
  unfold insert at h0 ⊢
  by_cases h1 : (t.findPos key).isSome = true
  · rw [if_pos h1]; exact Nat.le_succ _
  · rw [if_neg h1] at h0 ⊢
    by_cases h2 : (!false && decide (t.filled ≥ t.capacity / 2)) = true
    · rw [if_pos h2] at h0 ⊢
      by_cases h3 : (t.rehash).2 = true
      · rw [if_pos h3]
        obtain ⟨r1, r2, r3, r4, _, _⟩ := rehash_spec hP.inv h3
        have hfl : t.filled ≤ t.capacity := by
          rw [hP.inv.filled_eq, ← hP.inv.size]; exact List.countP_le_length _
        have hlt : (t.rehash).1.filled < (t.rehash).1.capacity := by omega
        show ((t.rehash).1.place key pv).filled ≤ _
        rw [(insertIndex_spec r1 hlt key pv).2.1]
        split <;> omega
      · rw [if_neg h3]; exact Nat.le_succ _
    · rw [if_neg h2]
      show (t.place key pv).filled ≤ _
      rw [(insertIndex_spec hP.inv hP.filled_lt key pv).2.1]
      split <;> omega

end hashTable

namespace heap

theorem percolateUpLoop_frame (tmp : node) :
    ∀ (fuel : Nat) (h : heap) (pos : Nat), Frame h (percolateUpLoop tmp fuel h pos).1 := by
  intro fuel
  induction fuel with
  | zero => intro h pos; exact Frame.refl h
  | succ fuel ih =>
    intro h pos
    rw [percolateUpLoop_succ]
    split
    · exact (move_frame h pos _).trans (ih _ _)
    · exact Frame.refl h

theorem percolateDownLoop_frame (tmp : node) :
    ∀ (fuel : Nat) (h : heap) (pos : Nat), Frame h (percolateDownLoop tmp fuel h pos).1 := by
  intro fuel
  induction fuel with
  | zero => intro h pos; exact Frame.refl h
  | succ fuel ih =>
    intro h pos
    rw [percolateDownLoop_succ]
    split
    · split
      · exact Frame.refl h
      · exact (move_frame h pos _).trans (ih _ _)
    · exact Frame.refl h

theorem percolateUp_frame (h : heap) (pos : Nat) : Frame h (h.percolateUp pos) := by
  rw [percolateUp_eq]
  exact (percolateUpLoop_frame _ _ _ _).trans (fill_frame _ _ _)

theorem percolateDown_frame (h : heap) (pos : Nat) : Frame h (h.percolateDown pos) := by
  rw [percolateDown_eq]
  exact (percolateDownLoop_frame _ _ _ _).trans (fill_frame _ _ _)

theorem beheaded_mfilled (h : heap) : h.beheaded.mapping.filled = h.mapping.filled := by
  by_cases h1 : h.currentSize > 1
  · rw [beheaded_of_gt h1]
    show ((h.mapping.remove _).1.setPointer _ _).1.filled = _
    rw [hashTable.setPointer_filled, hashTable.remove_filled]
  · rw [beheaded_of_one h1]
    show (h.mapping.remove _).1.filled = _
    rw [hashTable.remove_filled]

/-- The function `deleteMin` does not change the number of occupied slots of the hash
table. -/
theorem deleteMin_mfilled (h : heap) :
    (h.deleteMin).1.mapping.filled = h.mapping.filled := by
  by_cases h0 : h.currentSize = 0
  · rw [deleteMin_of_empty h0]
  · rw [deleteMin_of_pos h0]
    show (h.beheaded.percolateDown 1).mapping.filled = _
    rw [(percolateDown_frame _ _).mfilled, beheaded_mfilled]

/-- A successful `insert` takes one new slot of the hash table at most. -/
theorem insert_mfilled_le {h : heap} (hI : Inv h) (id : Key) (key : Int) (pv : Ptr)
    (h0 : (h.insert id key pv).2 = 0) :
    (h.insert id key pv).1.mapping.filled ≤ h.mapping.filled + 1 := by
  obtain ⟨_, _, _, _, _, _, _, i8, _⟩ := insert_success hI id key pv h0
  rw [i8.mfilled]
  exact hashTable.insert_filled_le hI.pinv id _

/-- In a heap whose hash table has less than `805306370` occupied slots, `insert` of a new
id into a heap that is not full returns `0`. -/
theorem insert_new_ok {h : heap} (hI : Inv h) (id : Key) (key : Int) (pv : Ptr)
    (hf : h.currentSize < h.capacity) (hc : h.mapping.contains id = false)
    (hfill : h.mapping.filled < 805306370) : (h.insert id key pv).2 = 0 := by
  have hm : (h.mapping.insert id (some (h.currentSize + 1)) false).2 = 0 := by
    rcases hashTable.insert_result h.mapping id (some (h.currentSize + 1)) false with r | r | r
    · exact r
    · have := (hashTable.insert_eq_one_iff _ _ _ _).1 r
      rw [hc] at this
      exact absurd this (by simp)
    · obtain ⟨e1, e2⟩ := hashTable.insert_eq_two hI.pinv r
      rw [e1] at e2
      omega
  rw [insert_of_ok id key pv (by omega) (by rw [hc]; simp) hm]

end heap

end ECE365

namespace ECE365

namespace Graph

/-! ## Dijkstra: the invariant of the main loop -/

theorem wrapInt_of_range {x : Int} (h0 : 0 ≤ x) (h1 : x < INT32_MAX) : wrapInt x = x := by
  unfold wrapInt
  unfold INT32_MAX at h1
  omega

theorem vertex_eq_getElem (vs : List Vertex) (i : Nat) (hi : i < vs.length) :
    vertex vs i = vs[i] := by
  unfold vertex
  exact List.getD_eq_getElem _ _ hi

theorem countP_set_vertex (p : Vertex → Bool) (vs : List Vertex) (i : Nat) (a : Vertex)
    (hi : i < vs.length) :
    (vs.set i a).countP p + (if p (vertex vs i) = true then 1 else 0) =
      vs.countP p + (if p a = true then 1 else 0) := by
  rw [List.countP_set _ _ _ _ hi, vertex_eq_getElem vs i hi]
  by_cases h : p vs[i] = true
  · have hpos : 0 < vs.countP p := List.countP_pos_iff.2 ⟨vs[i], List.getElem_mem hi, h⟩
    simp only [h, if_true]
    omega
  · have h' : p vs[i] = false := by simpa using h
    simp only [h', Bool.false_eq_true, if_false]
    omega

theorem countP_lt_of_not (p : Vertex → Bool) (vs : List Vertex) (i : Nat) (hi : i < vs.length)
    (h : p (vertex vs i) = false) : vs.countP p < vs.length := by
  have hle := List.countP_le_length p (l := vs)
  by_contra hcon
  have heq : vs.countP p = vs.length := by omega
  have := List.countP_eq_length.1 heq vs[i] (List.getElem_mem hi)
  rw [vertex_eq_getElem vs i hi, this] at h
  exact absurd h (by simp)

theorem countP_pos_of (p : Vertex → Bool) (vs : List Vertex) (i : Nat) (hi : i < vs.length)
    (h : p (vertex vs i) = true) : 0 < vs.countP p := by
  rw [vertex_eq_getElem vs i hi] at h
  exact List.countP_pos_iff.2 ⟨vs[i], List.getElem_mem hi, h⟩

/-- The lower bound: in a state of the main loop, the distance of a known vertex is at most
the weight of any walk to it, and a walk to a vertex that is not known is at least as heavy
as the distance of some vertex that is not known. -/
theorem DInv.lower {g : Graph} {s : Nat} {st : List Vertex × heap} (hg : g.Sound s)
    (hw : ∀ u c v, g.edge u c v → 0 ≤ c) (hD : DInv g s st)
    {v : Nat} {w : Int} {p : List Nat} (h : Walk g.edge s v w p) :
    ((vertex st.1 v).known = true → (vertex st.1 v).distance ≤ w) ∧
    ((vertex st.1 v).known = false →
      ∃ y, y < g.vertexList.length ∧ (vertex st.1 y).known = false ∧
        (vertex st.1 y).distance ≤ w) := by
  have hlt := walk_lt hg.dest_lt h hD.core.src_lt
  induction h with
  | nil =>
    exact ⟨fun _ => hD.core.src, fun hk => ⟨s, hD.core.src_lt, hk, hD.core.src⟩⟩
  | @snoc u w p c v hwalk he ih =>
    have hu : u < g.vertexList.length := hlt u (List.mem_cons_of_mem _ hwalk.head_mem)
    have hv : v < g.vertexList.length := hlt v (List.mem_cons_self _ _)
    have hc := hw _ _ _ he
    obtain ⟨ih1, ih2⟩ := ih (fun x hx => hlt x (List.mem_cons_of_mem _ hx))
    cases hku : (vertex st.1 u).known with
    | true =>
      have h1 := ih1 hku
      have h2 := hD.relaxed u hu hku _ he
      have h2' : (vertex st.1 v).distance ≤ (vertex st.1 u).distance + c := h2
      exact ⟨fun _ => by omega, fun hk => ⟨v, hv, hk, by omega⟩⟩
    | false =>
      obtain ⟨y, hy1, hy2, hy3⟩ := ih2 hku
      refine ⟨fun hk => ?_, fun _ => ⟨y, hy1, hy2, by omega⟩⟩
      have := hD.core.mono v y hv hy1 hk hy2
      omega

/-- The vertex of a node of the heap. -/
theorem CoreInv.reach_of_fin {g : Graph} {s : Nat} {st : List Vertex × heap}
    (hC : CoreInv g s st) {v : Nat} (hv : v < g.vertexList.length)
    (h : (vertex st.1 v).distance ≠ INT32_MAX) : Reachable g.edge s v := by
  obtain ⟨p, hp, _⟩ := hC.upper v hv h
  exact ⟨_, p, hp⟩

theorem countP_range (p : Vertex → Bool) (vs : List Vertex) :
    vs.countP p = (List.range vs.length).countP (fun i => p (vertex vs i)) := by
  have h : vs = (List.range vs.length).map (fun i => vertex vs i) := by
    apply List.ext_getElem
    · rw [List.length_map, List.length_range]
    · intro i h1 h2
      rw [List.getElem_map, List.getElem_range, vertex_eq_getElem vs i h1]
  conv_lhs => rw [h]
  rw [List.countP_map]
  rfl

/-- The hash table of the heap has room for a vertex that is reachable and not reached yet,
when at most `805306370` vertices are reachable from the source. -/
theorem CoreInv.heap_room {g : Graph} {s : Nat} {st : List Vertex × heap}
    (hC : CoreInv g s st)
    (hreach : ∀ l : List Nat, l.Nodup → (∀ v, v ∈ l → Reachable g.edge s v) →
      l.length ≤ 805306370)
    {v : Nat} (hr : Reachable g.edge s v)
    (hd : (vertex st.1 v).distance = INT32_MAX) : st.2.mapping.filled < 805306370 := by
  have h1 := hreach
    (v :: (List.range g.vertexList.length).filter (fun i => !unreached (vertex st.1 i)))
    (List.nodup_cons.2 ⟨by
      intro hmem
      have := (List.mem_filter.1 hmem).2
      unfold unreached at this
      rw [hd] at this
      simp at this, (List.nodup_range _).filter _⟩)
    (by
      intro x hx
      rcases List.mem_cons.1 hx with h | h
      · rw [h]; exact hr
      · obtain ⟨h2, h3⟩ := List.mem_filter.1 h
        apply hC.reach_of_fin (List.mem_range.1 h2)
        unfold unreached at h3
        simpa using h3)
  have h2 := hC.hfill
  rw [countP_range, hC.len] at h2
  have h3 := List.length_eq_countP_add_countP (fun i => unreached (vertex st.1 i))
    (List.range g.vertexList.length)
  rw [List.length_range] at h3
  rw [List.length_cons, ← List.countP_eq_length_filter] at h1
  have h4 : (List.range g.vertexList.length).countP (fun i => !unreached (vertex st.1 i)) =
      (List.range g.vertexList.length).countP
        (fun a => decide ¬ unreached (vertex st.1 a) = true) := by
    apply List.countP_congr
    intro x _
    simp
  omega

theorem CoreInv.node_of_id {g : Graph} {s : Nat} {st : List Vertex × heap} (hg : g.Sound s)
    (hC : CoreInv g s st) {nd : node} (hnd : nd ∈ st.2.nodes) {v : Nat}
    (hv : v < g.vertexList.length) (hr : Reachable g.edge s v)
    (hid : nd.id = (vertex st.1 v).id) :
    (vertex st.1 v).known = false ∧ (vertex st.1 v).distance < INT32_MAX ∧
    nd = { id := (vertex st.1 v).id, key := (vertex st.1 v).distance, pData := some v } := by
  obtain ⟨v', h1, h2, h3, h4⟩ := (hC.nodes nd).1 hnd
  have : v' = v := by
    apply hg.ids_inj v' v h1 hv (hC.reach_of_fin h1 (by omega)) hr
    rw [← hC.ids, ← hC.ids, ← hid, h4]
  subst this
  exact ⟨h2, h3, h4⟩

theorem CoreInv.queued_iff {g : Graph} {s : Nat} {st : List Vertex × heap} (hg : g.Sound s)
    (hC : CoreInv g s st) {v : Nat} (hv : v < g.vertexList.length)
    (hr : Reachable g.edge s v) :
    st.2.mapping.contains (vertex st.1 v).id = true ↔
      ((vertex st.1 v).known = false ∧ (vertex st.1 v).distance < INT32_MAX) := by
  rw [hC.hinv.contains_iff_mem_ids]
  unfold heap.ids
  rw [List.mem_map]
  constructor
  · rintro ⟨nd, hnd, hid⟩
    obtain ⟨h1, h2, _⟩ := hC.node_of_id hg hnd hv hr hid
    exact ⟨h1, h2⟩
  · rintro ⟨h1, h2⟩
    exact ⟨_, (hC.nodes _).2 ⟨v, hv, h1, h2, rfl⟩, rfl⟩

end Graph

end ECE365

namespace ECE365

namespace Graph

/-! ## Dijkstra: taking the next vertex from the heap -/

/-- An iteration of the main loop on a heap that is not empty: `deleteMin` returns the node
of a vertex `u` that is not known, with the least distance; after `u` is marked known, the
invariant of the loop over the edges of `u` holds. -/
theorem DInv.pop {g : Graph} {s : Nat} {vs : List Vertex} {hp : heap} (hg : g.Sound s)
    (hD : DInv g s (vs, hp)) (hpos : hp.currentSize ≠ 0) :
    (hp.deleteMin).2.1 = 0 ∧
    ∃ u, u < g.vertexList.length ∧ (vertex vs u).known = false ∧
      (hp.deleteMin).2.2 = some
        { id := (vertex vs u).id, key := (vertex vs u).distance, pData := some u } ∧
      RInv g s u [] (vs.set u { vertex vs u with known := true }, (hp.deleteMin).1) ∧
      (vs.set u { vertex vs u with known := true }).countP unknown + 1 = vs.countP unknown := by
  have hC := hD.core
  have hlen : vs.length = g.vertexList.length := hC.len
  obtain ⟨d1, d2, d3, d4, d5, d6⟩ := heap.deleteMin_spec hC.hinv hpos
  have hroot : hp.slot 1 ∈ hp.nodes :=
    (heap.mem_nodes_iff hp _).2 ⟨1, le_refl _, by omega, rfl⟩
  obtain ⟨u, hu1, hu2, hu3, hu4⟩ := (hC.nodes _).1 hroot
  dsimp only at d1 d2 d3 d4 d5 d6 hu2 hu3 hu4
  have hul : u < vs.length := by omega
  refine ⟨d1, u, hu1, hu2, by rw [d2, hu4], ?_, ?_⟩
  swap
  · have := countP_set_vertex unknown vs u { vertex vs u with known := true } hul
    have e1 : unknown (vertex vs u) = true := by unfold unknown; rw [hu2]; rfl
    have e2 : unknown { vertex vs u with known := true } = false := rfl
    rw [e1, e2] at this
    simpa using this
  have hvx : ∀ j, vertex (vs.set u { vertex vs u with known := true }) j =
      if j = u then { vertex vs u with known := true } else vertex vs j :=
    fun j => vertex_set vs u j _ hul
  have hid : ∀ j, (vertex (vs.set u { vertex vs u with known := true }) j).id
      = (vertex vs j).id := by
    intro j; rw [hvx]; split
    · rename_i h; rw [h]
    · rfl
  have hdist : ∀ j, (vertex (vs.set u { vertex vs u with known := true }) j).distance
      = (vertex vs j).distance := by
    intro j; rw [hvx]; split
    · rename_i h; rw [h]
    · rfl
  have hadj : ∀ j, (vertex (vs.set u { vertex vs u with known := true }) j).adjList
      = (vertex vs j).adjList := by
    intro j; rw [hvx]; split
    · rename_i h; rw [h]
    · rfl
  have hknown : ∀ j, (vertex (vs.set u { vertex vs u with known := true }) j).known
      = if j = u then true else (vertex vs j).known := by
    intro j; rw [hvx]; split <;> rfl
  have hmin : ∀ y, y < g.vertexList.length → (vertex vs y).known = false →
      (vertex vs u).distance ≤ (vertex vs y).distance := by
    intro y hy1 hy2
    by_cases hy3 : (vertex vs y).distance < INT32_MAX
    · have hmem : (⟨(vertex vs y).id, (vertex vs y).distance, some y⟩ : node) ∈ hp.nodes :=
        (hC.nodes _).2 ⟨y, hy1, hy2, hy3, rfl⟩
      obtain ⟨i, hi1, hi2, hi3⟩ := (heap.mem_nodes_iff hp _).1 hmem
      have := hC.hinv.root_le i hi1 hi2
      rw [hi3, hu4] at this
      exact this
    · have := hC.le_max y hy1
      dsimp only at this
      omega
  refine ⟨⟨?_, ?_, ?_, d3, ?_, ?_, ?_, ?_, ?_, ?_, ?_, ?_, hC.src_lt, ?_⟩, hu1, ?_, ?_, ?_, ?_⟩
  · show (vs.set u _).length = _
    rw [List.length_set]; exact hlen
  · intro i; show (vertex (vs.set u _) i).id = _
    rw [hid]; exact hC.ids i
  · intro i; show (vertex (vs.set u _) i).adjList = _
    rw [hadj]; exact hC.adj i
  · show (hp.deleteMin).1.capacity = _
    rw [d5]; exact hC.hcap
  · show (hp.deleteMin).1.currentSize = (vs.set u _).countP queued
    have := countP_set_vertex queued vs u { vertex vs u with known := true } hul
    have e1 : queued (vertex vs u) = true := by
      unfold queued; rw [hu2]; simpa using hu3
    have e2 : queued { vertex vs u with known := true } = false := rfl
    rw [e1, e2] at this
    have hs : hp.currentSize = vs.countP queued := hC.hsize
    rw [d4]
    simp only [if_true, Bool.false_eq_true, if_false] at this
    dsimp only
    omega
  · show (hp.deleteMin).1.mapping.filled + (vs.set u _).countP unreached ≤ _
    have := countP_set_vertex unreached vs u { vertex vs u with known := true } hul
    have e1 : unreached (vertex vs u) = false := by
      unfold unreached
      simp only [decide_eq_false_iff_not]
      omega
    have e2 : unreached { vertex vs u with known := true } = false := e1
    rw [e1, e2] at this
    have hf : hp.mapping.filled + vs.countP unreached ≤ g.vertexList.length := hC.hfill
    rw [heap.deleteMin_mfilled]
    simp only [Bool.false_eq_true, if_false] at this
    dsimp only
    omega
  · intro nd
    show nd ∈ (hp.deleteMin).1.nodes ↔ _
    rw [d6, hu4]
    constructor
    · rintro ⟨h1, h2⟩
      obtain ⟨v, hv1, hv2, hv3, hv4⟩ := (hC.nodes nd).1 h1
      have hvu : v ≠ u := by
        intro e; subst e; rw [hv4] at h2; exact h2 rfl
      refine ⟨v, hv1, ?_, ?_, ?_⟩
      · show (vertex (vs.set u _) v).known = false
        rw [hknown, if_neg hvu]; exact hv2
      · show (vertex (vs.set u _) v).distance < _
        rw [hdist]; exact hv3
      · show nd = ⟨(vertex (vs.set u _) v).id, (vertex (vs.set u _) v).distance, some v⟩
        rw [hid, hdist]; exact hv4
    · rintro ⟨v, hv1, hv2, hv3, hv4⟩
      have hv2' : (vertex (vs.set u { vertex vs u with known := true }) v).known = false := hv2
      have hv3' : (vertex (vs.set u { vertex vs u with known := true }) v).distance
          < INT32_MAX := hv3
      have hv4' : nd = ⟨(vertex (vs.set u { vertex vs u with known := true }) v).id,
          (vertex (vs.set u { vertex vs u with known := true }) v).distance, some v⟩ := hv4
      have hvu : v ≠ u := by
        intro e; rw [hknown, if_pos e] at hv2'; exact absurd hv2' (by simp)
      rw [hknown, if_neg hvu] at hv2'
      rw [hdist] at hv3'
      rw [hid, hdist] at hv4'
      refine ⟨(hC.nodes nd).2 ⟨v, hv1, hv2', hv3', hv4'⟩, ?_⟩
      rw [hv4']
      show (vertex vs v).id ≠ (vertex vs u).id
      intro e
      rw [hC.ids, hC.ids] at e
      exact hvu (hg.ids_inj v u hv1 hu1 (hC.reach_of_fin hv1 (by dsimp only; omega))
        (hC.reach_of_fin hu1 (by dsimp only; omega)) e)
  · intro x y hx hy hkx hky
    have hkx' : (vertex (vs.set u { vertex vs u with known := true }) x).known = true := hkx
    have hky' : (vertex (vs.set u { vertex vs u with known := true }) y).known = false := hky
    show (vertex (vs.set u _) x).distance ≤ (vertex (vs.set u _) y).distance
    rw [hdist, hdist]
    rw [hknown] at hkx' hky'
    have hyu : y ≠ u := by
      intro e; rw [if_pos e] at hky'; exact absurd hky' (by simp)
    rw [if_neg hyu] at hky'
    by_cases hxu : x = u
    · rw [hxu]; exact hmin y hy hky'
    · rw [if_neg hxu] at hkx'
      exact hC.mono x y hx hy hkx' hky'
  · intro v hv hdv
    have hdv' : (vertex (vs.set u { vertex vs u with known := true }) v).distance
        ≠ INT32_MAX := hdv
    rw [hdist] at hdv'
    obtain ⟨p, hp1, hp2, hp3⟩ := hC.upper v hv hdv'
    refine ⟨p, ?_, hp2, ?_⟩
    · show Walk g.edge s v (vertex (vs.set u _) v).distance p
      rw [hdist]; exact hp1
    · intro x hx
      rcases hp3 x hx with h1 | h1
      · exact Or.inl h1
      · right
        show (vertex (vs.set u _) x).known = true
        rw [hknown]
        split
        · rfl
        · exact h1
  · intro v hv
    show (vertex (vs.set u _) v).distance ≤ _
    rw [hdist]; exact hC.le_max v hv
  · intro v hv hk
    have hk' : (vertex (vs.set u { vertex vs u with known := true }) v).known = true := hk
    show (vertex (vs.set u _) v).distance < _
    rw [hdist]
    rw [hknown] at hk'
    by_cases hvu : v = u
    · rw [hvu]; exact hu3
    · rw [if_neg hvu] at hk'
      exact hC.known_fin v hv hk'
  · show (vertex (vs.set u _) s).distance ≤ 0
    rw [hdist]; exact hC.src
  · show (vertex (vs.set u _) u).known = true
    rw [hknown, if_pos rfl]
  · intro x hx hk
    have hk' : (vertex (vs.set u { vertex vs u with known := true }) x).known = true := hk
    show (vertex (vs.set u _) x).distance ≤ (vertex (vs.set u _) u).distance
    rw [hdist, hdist]
    rw [hknown] at hk'
    by_cases hxu : x = u
    · rw [hxu]
    · rw [if_neg hxu] at hk'
      exact hC.mono x u hx hu1 hk' hu2
  · intro x hx hk hxu e he
    have hk' : (vertex (vs.set u { vertex vs u with known := true }) x).known = true := hk
    show (vertex (vs.set u _) e.destination).distance ≤ (vertex (vs.set u _) x).distance + _
    rw [hdist, hdist]
    rw [hknown, if_neg hxu] at hk'
    exact hD.relaxed x hx hk' e he
  · intro e he
    simp at he

end Graph

end ECE365

namespace ECE365

namespace Graph

/-! ## Dijkstra: the relaxation of an edge -/

theorem improved_vertex (vs : List Vertex) (v u : Nat) (d : Int) (hv : v < vs.length) (j : Nat) :
    vertex (vs.set v (improved (vertex vs v) d u)) j =
      if j = v then improved (vertex vs v) d u else vertex vs j :=
  vertex_set vs v j _ hv

/-- The invariant of the loop over the edges of `u` after the distance of the destination
of an edge is improved, for any heap that holds the nodes of the new state. -/
theorem RInv.update {g : Graph} {s u : Nat} {done : List Edge} {vs : List Vertex} {hp : heap}
    (hg : g.Sound s) (hw : Weights g s) (hR : RInv g s u done (vs, hp)) (e : Edge)
    (he : e ∈ (vertex g.vertexList u).adjList)
    (hk : (vertex vs e.destination).known = false)
    (hlt : (vertex vs u).distance + e.weight < (vertex vs e.destination).distance)
    (hq : heap) (hI : hq.Inv) (hcap : hq.capacity = hp.capacity)
    (hcs : hq.currentSize = hp.currentSize +
      (if (vertex vs e.destination).distance < INT32_MAX then 0 else 1))
    (hfl : hq.mapping.filled ≤ hp.mapping.filled +
      (if (vertex vs e.destination).distance < INT32_MAX then 0 else 1))
    (hnodes : ∀ nd, nd ∈ hq.nodes ↔
      (nd = ⟨(vertex vs e.destination).id, (vertex vs u).distance + e.weight,
          some e.destination⟩ ∨
        (nd ∈ hp.nodes ∧ nd.id ≠ (vertex vs e.destination).id))) :
    RInv g s u (done ++ [e])
      (vs.set e.destination
        (improved (vertex vs e.destination) ((vertex vs u).distance + e.weight) u), hq) := by
  have hC := hR.core
  have hlen : vs.length = g.vertexList.length := hC.len
  have hu := hR.u_lt
  have huk : (vertex vs u).known = true := hR.u_known
  have hv : e.destination < g.vertexList.length := hg.dest_lt u hu e he
  have hvl : e.destination < vs.length := by omega
  have hvu : e.destination ≠ u := by
    intro h; rw [h, huk] at hk; exact absurd hk (by simp)
  have hedge : g.edge u e.weight e.destination := he
  have hc : 0 ≤ e.weight := hw.nonneg _ _ _ hedge
  have hvx := improved_vertex vs e.destination u ((vertex vs u).distance + e.weight) hvl
  generalize hvs : vs.set e.destination
    (improved (vertex vs e.destination) ((vertex vs u).distance + e.weight) u) = vs1 at hvx ⊢
  have hid : ∀ j, (vertex vs1 j).id = (vertex vs j).id := by
    intro j; rw [hvx]; split
    · rename_i h; rw [h]; rfl
    · rfl
  have hadj : ∀ j, (vertex vs1 j).adjList = (vertex vs j).adjList := by
    intro j; rw [hvx]; split
    · rename_i h; rw [h]; rfl
    · rfl
  have hknown : ∀ j, (vertex vs1 j).known = (vertex vs j).known := by
    intro j; rw [hvx]; split
    · rename_i h; rw [h]; rfl
    · rfl
  have hdist : ∀ j, (vertex vs1 j).distance =
      if j = e.destination then (vertex vs u).distance + e.weight
      else (vertex vs j).distance := by
    intro j; rw [hvx]; split <;> rfl
  have hdle : ∀ j, (vertex vs1 j).distance ≤ (vertex vs j).distance := by
    intro j; rw [hdist]; split
    · rename_i h; rw [h]; omega
    · exact le_refl _
  have hdk : ∀ j, (vertex vs j).known = true → (vertex vs1 j).distance = (vertex vs j).distance := by
    intro j hj; rw [hdist, if_neg]
    intro h; rw [h, hk] at hj; exact absurd hj (by simp)
  have hdu : (vertex vs1 u).distance = (vertex vs u).distance := hdk u huk
  have hmax : (vertex vs e.destination).distance ≤ INT32_MAX := hC.le_max _ hv
  have hufin : (vertex vs u).distance < INT32_MAX := hC.known_fin u hu huk
  obtain ⟨pu, hpu1, hpu2, hpu3⟩ := hC.upper u hu (by dsimp only; omega)
  dsimp only at hpu1 hpu3
  have hvpu : e.destination ∉ pu := by
    intro hmem
    rcases hpu3 _ hmem with h | h
    · exact hvu h
    · rw [hk] at h; exact absurd h (by simp)
  have hqueued : ∀ x, queued (vertex vs1 x) =
      if x = e.destination then true else queued (vertex vs x) := by
    intro x
    unfold queued
    rw [hknown, hdist]
    split
    · rename_i h; rw [h, hk]
      simp only [Bool.not_false, Bool.true_and, decide_eq_true_eq]
      omega
    · rfl
  have hunreached : ∀ x, unreached (vertex vs1 x) =
      if x = e.destination then false else unreached (vertex vs x) := by
    intro x
    unfold unreached
    rw [hdist]
    split
    · simp only [decide_eq_false_iff_not]
      omega
    · rfl
  have hcq := countP_set_vertex queued vs e.destination
    (improved (vertex vs e.destination) ((vertex vs u).distance + e.weight) u) hvl
  have hcu := countP_set_vertex unreached vs e.destination
    (improved (vertex vs e.destination) ((vertex vs u).distance + e.weight) u) hvl
  rw [hvs] at hcq hcu
  have hq1 := hqueued e.destination
  have hu1 := hunreached e.destination
  rw [hvx, if_pos rfl, if_pos rfl] at hq1 hu1
  rw [hq1] at hcq
  rw [hu1] at hcu
  have hsz : hp.currentSize = vs.countP queued := hC.hsize
  have hfill : hp.mapping.filled + vs.countP unreached ≤ g.vertexList.length := hC.hfill
  have hqv : queued (vertex vs e.destination) = true ↔
      (vertex vs e.destination).distance < INT32_MAX := by
    unfold queued; rw [hk]; simp
  have huv : unreached (vertex vs e.destination) = true ↔
      ¬ (vertex vs e.destination).distance < INT32_MAX := by
    unfold unreached; simp only [decide_eq_true_eq]; omega
  refine ⟨⟨?_, ?_, ?_, hI, ?_, ?_, ?_, ?_, ?_, ?_, ?_, ?_, hC.src_lt, ?_⟩, hu, ?_, ?_, ?_, ?_⟩
  · show vs1.length = _
    rw [← hvs, List.length_set]; exact hlen
  · intro i; show (vertex vs1 i).id = _
    rw [hid]; exact hC.ids i
  · intro i; show (vertex vs1 i).adjList = _
    rw [hadj]; exact hC.adj i
  · show hq.capacity = _
    rw [hcap]; exact hC.hcap
  · show hq.currentSize = vs1.countP queued
    rw [hcs]
    by_cases h : (vertex vs e.destination).distance < INT32_MAX
    · rw [if_pos h]; rw [if_pos (hqv.2 h)] at hcq
      simp only [if_true] at hcq; omega
    · rw [if_neg h]; rw [if_neg (fun x => h (hqv.1 x))] at hcq
      simp only [if_true] at hcq; omega
  · show hq.mapping.filled + vs1.countP unreached ≤ _
    by_cases h : (vertex vs e.destination).distance < INT32_MAX
    · rw [if_pos h] at hfl; rw [if_neg (fun x => huv.1 x h)] at hcu
      simp only [Bool.false_eq_true, if_false] at hcu; omega
    · rw [if_neg h] at hfl; rw [if_pos (huv.2 h)] at hcu
      simp only [Bool.false_eq_true, if_false] at hcu; omega
  · intro nd
    show nd ∈ hq.nodes ↔ ∃ v, v < g.vertexList.length ∧ (vertex vs1 v).known = false ∧
      (vertex vs1 v).distance < INT32_MAX ∧
      nd = ⟨(vertex vs1 v).id, (vertex vs1 v).distance, some v⟩
    rw [hnodes]
    constructor
    · rintro (h | ⟨h1, h2⟩)
      · refine ⟨e.destination, hv, ?_, ?_, ?_⟩
        · rw [hknown]; exact hk
        · rw [hdist, if_pos rfl]; omega
        · rw [hid, hdist, if_pos rfl]; exact h
      · obtain ⟨x, hx1, hx2, hx3, hx4⟩ := (hC.nodes nd).1 h1
        dsimp only at hx2 hx3 hx4
        have hxv : x ≠ e.destination := by
          intro h; rw [hx4, h] at h2; exact h2 rfl
        refine ⟨x, hx1, ?_, ?_, ?_⟩
        · rw [hknown]; exact hx2
        · rw [hdist, if_neg hxv]; exact hx3
        · rw [hid, hdist, if_neg hxv]; exact hx4
    · rintro ⟨x, hx1, hx2, hx3, hx4⟩
      by_cases hxv : x = e.destination
      · left
        rw [hx4, hid, hdist, if_pos hxv, hxv]
      · right
        rw [hknown] at hx2
        rw [hdist, if_neg hxv] at hx3
        rw [hid, hdist, if_neg hxv] at hx4
        refine ⟨(hC.nodes nd).2 ⟨x, hx1, hx2, hx3, hx4⟩, ?_⟩
        rw [hx4]
        show (vertex vs x).id ≠ (vertex vs e.destination).id
        intro h
        have h' := h
        rw [hC.ids, hC.ids] at h'
        exact hxv (hg.ids_inj x e.destination hx1 hv (hC.reach_of_fin hx1 (by dsimp only; omega))
          ⟨_, _, Walk.snoc _ _ hpu1 hedge⟩ h')
  · intro x y hx hy hkx hky
    show (vertex vs1 x).distance ≤ (vertex vs1 y).distance
    have hkx' : (vertex vs x).known = true := by rw [← hknown]; exact hkx
    have hky' : (vertex vs y).known = false := by rw [← hknown]; exact hky
    rw [hdk x hkx', hdist y]
    split
    · have := hR.before x hx hkx'
      dsimp only at this
      omega
    · exact hC.mono x y hx hy hkx' hky'
  · intro x hx hdx
    have hdx' : (vertex vs1 x).distance ≠ INT32_MAX := hdx
    show ∃ p, Walk g.edge s x (vertex vs1 x).distance p ∧ p.Nodup ∧
      ∀ y, y ∈ p → y = x ∨ (vertex vs1 y).known = true
    by_cases hxv : x = e.destination
    · refine ⟨e.destination :: pu, ?_, ?_, ?_⟩
      · rw [hdist, if_pos hxv, hxv]
        exact Walk.snoc _ _ hpu1 hedge
      · exact List.nodup_cons.2 ⟨hvpu, hpu2⟩
      · intro y hy
        rcases List.mem_cons.1 hy with h | h
        · left; rw [h, hxv]
        · right
          rw [hknown]
          rcases hpu3 y h with h' | h'
          · rw [h']; exact huk
          · exact h'
    · rw [hdist, if_neg hxv] at hdx'
      obtain ⟨p, hp1, hp2, hp3⟩ := hC.upper x hx hdx'
      refine ⟨p, ?_, hp2, ?_⟩
      · rw [hdist, if_neg hxv]; exact hp1
      · intro y hy
        rw [hknown]
        exact hp3 y hy
  · intro x hx
    show (vertex vs1 x).distance ≤ INT32_MAX
    have := hC.le_max x hx
    have := hdle x
    dsimp only at *
    omega
  · intro x hx hkx
    show (vertex vs1 x).distance < INT32_MAX
    have hkx' : (vertex vs x).known = true := by rw [← hknown]; exact hkx
    rw [hdk x hkx']
    exact hC.known_fin x hx hkx'
  · show (vertex vs1 s).distance ≤ 0
    have := hC.src
    have := hdle s
    dsimp only at *
    omega
  · show (vertex vs1 u).known = true
    rw [hknown]; exact huk
  · intro x hx hkx
    show (vertex vs1 x).distance ≤ (vertex vs1 u).distance
    have hkx' : (vertex vs x).known = true := by rw [← hknown]; exact hkx
    rw [hdk x hkx', hdu]
    exact hR.before x hx hkx'
  · intro x hx hkx hxu e' he'
    show (vertex vs1 e'.destination).distance ≤ (vertex vs1 x).distance + e'.weight
    have hkx' : (vertex vs x).known = true := by rw [← hknown]; exact hkx
    rw [hdk x hkx']
    have := hR.relaxed x hx hkx' hxu e' he'
    have := hdle e'.destination
    dsimp only at *
    omega
  · intro e' he'
    show (vertex vs1 e'.destination).distance ≤ (vertex vs1 u).distance + e'.weight
    rw [hdu]
    rcases List.mem_append.1 he' with h | h
    · have := hR.relaxed_u e' h
      have := hdle e'.destination
      dsimp only at *
      omega
    · rw [List.mem_singleton] at h
      rw [h, hdist, if_pos rfl]

end Graph

end ECE365

namespace ECE365

namespace Graph

theorem relaxEdge_skip (u : Nat) (vs : List Vertex) (hp : heap) (e : Edge)
    (h : ¬ ((vertex vs e.destination).known = false ∧
      wrapInt ((vertex vs u).distance + e.weight) < (vertex vs e.destination).distance)) :
    relaxEdge u (vs, hp) e = (vs, hp) := by
  unfold relaxEdge
  rw [if_neg]
  simpa using h

theorem relaxEdge_go (u : Nat) (vs : List Vertex) (hp : heap) (e : Edge)
    (hv : e.destination < vs.length) (hk : (vertex vs e.destination).known = false)
    (hlt : wrapInt ((vertex vs u).distance + e.weight) < (vertex vs e.destination).distance) :
    relaxEdge u (vs, hp) e =
      (vs.set e.destination (improved (vertex vs e.destination)
          (wrapInt ((vertex vs u).distance + e.weight)) u),
        if (hp.insert (vertex vs e.destination).id
            (wrapInt ((vertex vs u).distance + e.weight)) (some e.destination)).2 = 2 then
          ((hp.insert (vertex vs e.destination).id
            (wrapInt ((vertex vs u).distance + e.weight)) (some e.destination)).1.setKey
              (vertex vs e.destination).id (wrapInt ((vertex vs u).distance + e.weight))).1
        else
          (hp.insert (vertex vs e.destination).id
            (wrapInt ((vertex vs u).distance + e.weight)) (some e.destination)).1) := by
  have hx := improved_vertex vs e.destination u (wrapInt ((vertex vs u).distance + e.weight)) hv
    e.destination
  rw [if_pos rfl] at hx
  unfold relaxEdge
  rw [if_pos (by simp [hk, hlt])]
  unfold improved at hx ⊢
  dsimp only at hx ⊢
  simp only [hx]
  split <;> rfl

/-- The relaxation of an edge of `u` keeps the invariant of the loop over the edges of `u`
and the number of vertices that are not known, in a graph with at most `805306370` vertices
reachable from the source. -/
theorem RInv.relax {g : Graph} {s u : Nat} {done : List Edge} {vs : List Vertex} {hp : heap}
    (hg : g.Sound s) (hw : Weights g s)
    (hreach : ∀ l : List Nat, l.Nodup → (∀ v, v ∈ l → Reachable g.edge s v) →
      l.length ≤ 805306370)
    (hR : RInv g s u done (vs, hp)) (e : Edge) (he : e ∈ (vertex g.vertexList u).adjList) :
    RInv g s u (done ++ [e]) (relaxEdge u (vs, hp) e) ∧
    (relaxEdge u (vs, hp) e).1.countP unknown = vs.countP unknown := by
  have hC := hR.core
  have hlen : vs.length = g.vertexList.length := hC.len
  have hu := hR.u_lt
  have huk : (vertex vs u).known = true := hR.u_known
  have hv : e.destination < g.vertexList.length := hg.dest_lt u hu e he
  have hvl : e.destination < vs.length := by omega
  have hedge : g.edge u e.weight e.destination := he
  have hc : 0 ≤ e.weight := hw.nonneg _ _ _ hedge
  have hufin : (vertex vs u).distance < INT32_MAX := hC.known_fin u hu huk
  obtain ⟨pu, hpu1, hpu2, hpu3⟩ := hC.upper u hu (by dsimp only; omega)
  dsimp only at hpu1 hpu3
  have hdu0 : 0 ≤ (vertex vs u).distance := hpu1.weight_nonneg hw.nonneg
  have hskip : ∀ (_ : (vertex vs e.destination).distance ≤ (vertex vs u).distance + e.weight),
      RInv g s u (done ++ [e]) (vs, hp) := by
    intro hle
    refine ⟨hC, hu, huk, hR.before, hR.relaxed, ?_⟩
    intro e' he'
    rcases List.mem_append.1 he' with h | h
    · exact hR.relaxed_u e' h
    · rw [List.mem_singleton] at h
      rw [h]; exact hle
  by_cases hk : (vertex vs e.destination).known = true
  · rw [relaxEdge_skip u vs hp e (by rw [hk]; simp)]
    refine ⟨hskip ?_, rfl⟩
    have := hR.before e.destination hv hk
    dsimp only at this
    omega
  have hk' : (vertex vs e.destination).known = false := by simpa using hk
  have hvu : e.destination ≠ u := by
    intro h; rw [h, huk] at hk'; exact absurd hk' (by simp)
  have hvpu : e.destination ∉ pu := by
    intro hmem
    rcases hpu3 _ hmem with h | h
    · exact hvu h
    · exact hk h
  have hbound : (vertex vs u).distance + e.weight < INT32_MAX :=
    hw.bounded _ _ _ (Walk.snoc _ _ hpu1 hedge) (List.nodup_cons.2 ⟨hvpu, hpu2⟩)
  have hwrap : wrapInt ((vertex vs u).distance + e.weight) = (vertex vs u).distance + e.weight :=
    wrapInt_of_range (by omega) hbound
  by_cases hlt : (vertex vs u).distance + e.weight < (vertex vs e.destination).distance
  swap
  · rw [relaxEdge_skip u vs hp e (by rw [hwrap]; intro h; exact hlt h.2)]
    exact ⟨hskip (by omega), rfl⟩
  rw [relaxEdge_go u vs hp e hvl hk' (by rw [hwrap]; exact hlt), hwrap]
  dsimp only
  have hmax : (vertex vs e.destination).distance ≤ INT32_MAX := hC.le_max _ hv
  have hsz : hp.currentSize = vs.countP queued := hC.hsize
  have hfill : hp.mapping.filled + vs.countP unreached ≤ g.vertexList.length := hC.hfill
  have hcap : hp.capacity = g.vertexList.length := hC.hcap
  have hI : hp.Inv := hC.hinv
  have hnq : queued (vertex vs u) = false := by unfold queued; rw [huk]; rfl
  have hnf : ¬ hp.currentSize ≥ hp.capacity := by
    have := countP_lt_of_not queued vs u (by omega) hnq
    omega
  have hrv : Reachable g.edge s e.destination := ⟨_, _, Walk.snoc _ _ hpu1 hedge⟩
  have hcont := hC.queued_iff hg hv hrv
  have hroom : (vertex vs e.destination).distance = INT32_MAX → hp.mapping.filled < 805306370 :=
    fun h => hC.heap_room hreach hrv h
  dsimp only at hcont
  constructor
  swap
  · have := countP_set_vertex unknown vs e.destination
      (improved (vertex vs e.destination) ((vertex vs u).distance + e.weight) u) hvl
    have e1 : unknown (improved (vertex vs e.destination)
      ((vertex vs u).distance + e.weight) u) = unknown (vertex vs e.destination) := rfl
    rw [e1] at this
    omega
  apply RInv.update hg hw hR e he hk' hlt
  · -- the heap keeps its invariant
    by_cases hfin : (vertex vs e.destination).distance < INT32_MAX
    · have hc1 := hcont.2 ⟨hk', hfin⟩
      rw [heap.insert_of_dup _ _ _ hnf hc1, if_pos rfl]
      dsimp only
      obtain ⟨i, hi1, hi2, hi3⟩ := (heap.mem_nodes_iff hp _).1
        ((hC.nodes _).2 ⟨e.destination, hv, hk', hfin, rfl⟩)
      dsimp only at hi3
      have hid : (vertex vs e.destination).id = (hp.slot i).id := by rw [hi3]
      rw [hid]
      exact (heap.setKey_spec hI hi1 hi2 _).2.1
    · have hc1 : hp.mapping.contains (vertex vs e.destination).id = false := by
        by_contra h
        exact hfin (hcont.1 (by simpa using h)).2
      have h0 := heap.insert_new_ok hI (vertex vs e.destination).id
        ((vertex vs u).distance + e.weight) (some e.destination) (by omega) hc1
        (hroom (by omega))
      rw [if_neg (by rw [h0]; decide)]
      exact (heap.insert_success hI _ _ _ h0).1
  · by_cases hfin : (vertex vs e.destination).distance < INT32_MAX
    · have hc1 := hcont.2 ⟨hk', hfin⟩
      rw [heap.insert_of_dup _ _ _ hnf hc1, if_pos rfl]
      dsimp only
      obtain ⟨i, hi1, hi2, hi3⟩ := (heap.mem_nodes_iff hp _).1
        ((hC.nodes _).2 ⟨e.destination, hv, hk', hfin, rfl⟩)
      dsimp only at hi3
      have hid : (vertex vs e.destination).id = (hp.slot i).id := by rw [hi3]
      rw [hid]
      exact (heap.setKey_spec hI hi1 hi2 _).2.2.1.capacity
    · have hc1 : hp.mapping.contains (vertex vs e.destination).id = false := by
        by_contra h
        exact hfin (hcont.1 (by simpa using h)).2
      have h0 := heap.insert_new_ok hI (vertex vs e.destination).id
        ((vertex vs u).distance + e.weight) (some e.destination) (by omega) hc1
        (hroom (by omega))
      rw [if_neg (by rw [h0]; decide)]
      exact (heap.insert_success hI _ _ _ h0).2.2.1
  · by_cases hfin : (vertex vs e.destination).distance < INT32_MAX
    · have hc1 := hcont.2 ⟨hk', hfin⟩
      rw [heap.insert_of_dup _ _ _ hnf hc1, if_pos rfl, if_pos hfin]
      dsimp only
      obtain ⟨i, hi1, hi2, hi3⟩ := (heap.mem_nodes_iff hp _).1
        ((hC.nodes _).2 ⟨e.destination, hv, hk', hfin, rfl⟩)
      dsimp only at hi3
      have hid : (vertex vs e.destination).id = (hp.slot i).id := by rw [hi3]
      rw [hid]
      exact (heap.setKey_spec hI hi1 hi2 _).2.2.1.currentSize
    · have hc1 : hp.mapping.contains (vertex vs e.destination).id = false := by
        by_contra h
        exact hfin (hcont.1 (by simpa using h)).2
      have h0 := heap.insert_new_ok hI (vertex vs e.destination).id
        ((vertex vs u).distance + e.weight) (some e.destination) (by omega) hc1
        (hroom (by omega))
      rw [if_neg (by rw [h0]; decide), if_neg hfin]
      exact (heap.insert_success hI _ _ _ h0).2.1
  · by_cases hfin : (vertex vs e.destination).distance < INT32_MAX
    · have hc1 := hcont.2 ⟨hk', hfin⟩
      rw [heap.insert_of_dup _ _ _ hnf hc1, if_pos rfl, if_pos hfin]
      dsimp only
      obtain ⟨i, hi1, hi2, hi3⟩ := (heap.mem_nodes_iff hp _).1
        ((hC.nodes _).2 ⟨e.destination, hv, hk', hfin, rfl⟩)
      dsimp only at hi3
      have hid : (vertex vs e.destination).id = (hp.slot i).id := by rw [hi3]
      rw [hid]
      exact le_of_eq (heap.setKey_spec hI hi1 hi2 _).2.2.1.mfilled
    · have hc1 : hp.mapping.contains (vertex vs e.destination).id = false := by
        by_contra h
        exact hfin (hcont.1 (by simpa using h)).2
      have h0 := heap.insert_new_ok hI (vertex vs e.destination).id
        ((vertex vs u).distance + e.weight) (some e.destination) (by omega) hc1
        (hroom (by omega))
      rw [if_neg (by rw [h0]; decide), if_neg hfin]
      exact heap.insert_mfilled_le hI _ _ _ h0
  · intro nd
    by_cases hfin : (vertex vs e.destination).distance < INT32_MAX
    · have hc1 := hcont.2 ⟨hk', hfin⟩
      rw [heap.insert_of_dup _ _ _ hnf hc1, if_pos rfl]
      dsimp only
      obtain ⟨i, hi1, hi2, hi3⟩ := (heap.mem_nodes_iff hp _).1
        ((hC.nodes _).2 ⟨e.destination, hv, hk', hfin, rfl⟩)
      dsimp only at hi3
      have hid : (vertex vs e.destination).id = (hp.slot i).id := by rw [hi3]
      rw [hid, (heap.setKey_spec hI hi1 hi2 _).2.2.2 nd, hi3]
    · have hc1 : hp.mapping.contains (vertex vs e.destination).id = false := by
        by_contra h
        exact hfin (hcont.1 (by simpa using h)).2
      have h0 := heap.insert_new_ok hI (vertex vs e.destination).id
        ((vertex vs u).distance + e.weight) (some e.destination) (by omega) hc1
        (hroom (by omega))
      rw [if_neg (by rw [h0]; decide), (heap.insert_success hI _ _ _ h0).2.2.2.2.2.2.2.2 nd]
      constructor
      · rintro (h | h)
        · exact Or.inl h
        · refine Or.inr ⟨h, ?_⟩
          intro hidn
          exact hfin (hC.node_of_id hg h hv hrv hidn).2.1
      · rintro (h | ⟨h, _⟩)
        · exact Or.inl h
        · exact Or.inr h

end Graph

end ECE365

namespace ECE365

namespace Graph

/-! ## Dijkstra: the main loop -/

/-- The loop over the edges of `u` keeps its invariant and the number of vertices that are not
known. -/
theorem RInv.fold {g : Graph} {s u : Nat} (hg : g.Sound s) (hw : Weights g s)
    (hn : ∀ l : List Nat, l.Nodup → (∀ v, v ∈ l → Reachable g.edge s v) →
      l.length ≤ 805306370) (es : List Edge) :
    ∀ (done : List Edge) (st : List Vertex × heap), RInv g s u done st →
      (∀ e, e ∈ es → e ∈ (vertex g.vertexList u).adjList) →
      RInv g s u (done ++ es) (es.foldl (relaxEdge u) st) ∧
      (es.foldl (relaxEdge u) st).1.countP unknown = st.1.countP unknown := by
  induction es with
  | nil =>
    intro done st hR _
    rw [List.append_nil]
    exact ⟨hR, rfl⟩
  | cons e es ih =>
    intro done st hR hes
    obtain ⟨vs, hp⟩ := st
    obtain ⟨h1, h2⟩ := hR.relax hg hw hn e (hes e (List.mem_cons_self _ _))
    obtain ⟨h3, h4⟩ := ih (done ++ [e]) (relaxEdge u (vs, hp) e) h1
      (fun e' he' => hes e' (List.mem_cons_of_mem _ he'))
    rw [List.append_assoc, List.singleton_append] at h3
    rw [List.foldl_cons]
    exact ⟨h3, by rw [h4, h2]⟩

/-- After the loop over all the edges of `u`, the invariant of the main loop holds again. -/
theorem RInv.finish {g : Graph} {s u : Nat} {done : List Edge} {st : List Vertex × heap}
    (hdone : done = (vertex g.vertexList u).adjList) (hR : RInv g s u done st) :
    DInv g s st := by
  subst hdone
  refine ⟨hR.core, ?_⟩
  intro x hx hk e he
  by_cases hxu : x = u
  · rw [hxu] at he ⊢
    exact hR.relaxed_u e he
  · exact hR.relaxed x hx hk hxu e he

/-- The main loop of `dijkstra` ends when its fuel exceeds the number of vertices that are not
known, in a state with an empty heap that satisfies the invariant. -/
theorem dijkstraLoop_spec {g : Graph} {s : Nat} (hg : g.Sound s) (hw : Weights g s)
    (hn : ∀ l : List Nat, l.Nodup → (∀ v, v ∈ l → Reachable g.edge s v) →
      l.length ≤ 805306370) (fuel : Nat) :
    ∀ (st : List Vertex × heap), DInv g s st → st.1.countP unknown < fuel →
      ∃ vs hp, dijkstraLoop fuel st = some vs ∧ DInv g s (vs, hp) ∧ hp.currentSize = 0 := by
  induction fuel with
  | zero => intro st _ h; exact absurd h (Nat.not_lt_zero _)
  | succ fuel ih =>
    intro st hD hfuel
    obtain ⟨vs, hp⟩ := st
    unfold dijkstraLoop
    dsimp only
    by_cases hpos : hp.currentSize > 0
    swap
    · rw [if_neg hpos]
      exact ⟨vs, hp, rfl, hD, by omega⟩
    rw [if_pos hpos]
    obtain ⟨p1, u, hu, huk, p2, p3, p4⟩ := hD.pop hg (by omega)
    rw [if_neg (by rw [p1]; simp), p2]
    dsimp only
    rw [if_neg (by rw [huk]; simp)]
    have hadj : (vertex vs u).adjList = (vertex g.vertexList u).adjList := hD.core.adj u
    obtain ⟨f1, f2⟩ := RInv.fold hg hw hn (vertex vs u).adjList [] _ p3
      (fun _ h => by rw [← hadj]; exact h)
    apply ih _ (f1.finish (by rw [List.nil_append, hadj]))
    rw [f2]
    dsimp only at hfuel p4 ⊢
    omega

/-- In a state of the main loop with an empty heap, the distances are the minimum weights of
the paths from the source, and `INT32_MAX` for the vertices without such a path. -/
theorem DInv.final {g : Graph} {s : Nat} {vs : List Vertex} {hp : heap} (hg : g.Sound s)
    (hw : Weights g s) (hD : DInv g s (vs, hp)) (h0 : hp.currentSize = 0) (v : Nat)
    (hv : v < g.vertexList.length) :
    (Reachable g.edge s v → IsMinDist g.edge s v (vertex vs v).distance) ∧
    (¬ Reachable g.edge s v → (vertex vs v).distance = INT32_MAX) := by
  have hC := hD.core
  have hempty : ∀ y, y < g.vertexList.length → (vertex vs y).known = false →
      (vertex vs y).distance = INT32_MAX := by
    intro y hy hk
    by_contra hne
    have hle := hC.le_max y hy
    dsimp only at hle
    have hmem := (hC.nodes _).2 ⟨y, hy, hk, by dsimp only; omega, rfl⟩
    obtain ⟨i, hi1, hi2, _⟩ := (heap.mem_nodes_iff hp _).1 hmem
    omega
  constructor
  · rintro ⟨w, p, hwalk⟩
    obtain ⟨w1, p1, hw1, hnd1, _⟩ := hwalk.simplify hw.nonneg
    have hb := hw.bounded _ _ _ hw1 hnd1
    have hknown : (vertex vs v).known = true := by
      by_contra hk
      obtain ⟨y, hy1, hy2, hy3⟩ := (hD.lower hg hw.nonneg hw1).2 (by simpa using hk)
      have := hempty y hy1 hy2
      dsimp only at hy3
      omega
    have hfin := hC.known_fin v hv hknown
    obtain ⟨q, hq1, hq2, _⟩ := hC.upper v hv (by dsimp only at hfin ⊢; omega)
    refine ⟨⟨q, hq1, hq2⟩, ?_⟩
    intro w2 p2 hw2
    exact (hD.lower hg hw.nonneg hw2).1 hknown
  · intro hnr
    by_contra hne
    obtain ⟨q, hq1, _, _⟩ := hC.upper v hv hne
    exact hnr ⟨_, q, hq1⟩

end Graph

end ECE365

namespace ECE365

namespace Graph

/-! ## Dijkstra: the initial state and the result -/

theorem vertex_resetAll (vs : List Vertex) (i : Nat) :
    vertex (resetAll vs) i =
      { vertex vs i with distance := INT32_MAX, known := false, previous := none } := by
  unfold vertex resetAll
  rw [List.getD_eq_getElem?_getD, List.getD_eq_getElem?_getD, List.getElem?_map]
  cases vs[i]? <;> rfl

theorem countP_resetAll_queued (vs : List Vertex) : (resetAll vs).countP queued = 0 := by
  rw [List.countP_eq_zero]
  intro a ha
  unfold resetAll at ha
  obtain ⟨b, _, rfl⟩ := List.mem_map.1 ha
  simp [queued]

theorem heap_init_insert (n : Nat) (hn : 0 < n) (id : Key) (key : Int) (pv : Ptr) :
    ((heap.init n).insert id key pv).2 = 0 :=
  heap.insert_new_ok (heap.init_inv n) id key pv hn (contains_init _ _)
    (show 0 < 805306370 by decide)

/-- The state of `dijkstra` before the main loop satisfies the invariant of the loop. -/
theorem DInv.start {g : Graph} {s : Nat} (hs : s < g.vertexList.length) :
    DInv g s
      ((resetAll g.vertexList).set s { vertex (resetAll g.vertexList) s with distance := 0 },
        ((heap.init g.vertexList.length).insert (vertex g.vertexList s).id 0 (some s)).1) := by
  have hlenr : (resetAll g.vertexList).length = g.vertexList.length := by
    unfold resetAll; rw [List.length_map]
  have hsr : s < (resetAll g.vertexList).length := by omega
  have hvx : ∀ j, vertex ((resetAll g.vertexList).set s
      { vertex (resetAll g.vertexList) s with distance := 0 }) j =
      if j = s then { vertex (resetAll g.vertexList) s with distance := 0 }
      else vertex (resetAll g.vertexList) j := fun j => vertex_set _ s j _ hsr
  have hcq := countP_set_vertex queued (resetAll g.vertexList) s
    { vertex (resetAll g.vertexList) s with distance := 0 } hsr
  have hcu := countP_set_vertex unreached (resetAll g.vertexList) s
    { vertex (resetAll g.vertexList) s with distance := 0 } hsr
  have hule := List.countP_le_length unreached (l := resetAll g.vertexList)
  rw [countP_resetAll_queued] at hcq
  generalize hvs : (resetAll g.vertexList).set s
    { vertex (resetAll g.vertexList) s with distance := 0 } = vs1 at hvx hcq hcu ⊢
  have hid : ∀ j, (vertex vs1 j).id = (vertex g.vertexList j).id := by
    intro j; rw [hvx]; split
    · rename_i h; rw [h, vertex_resetAll]
    · rw [vertex_resetAll]
  have hadj : ∀ j, (vertex vs1 j).adjList = (vertex g.vertexList j).adjList := by
    intro j; rw [hvx]; split
    · rename_i h; rw [h, vertex_resetAll]
    · rw [vertex_resetAll]
  have hknown : ∀ j, (vertex vs1 j).known = false := by
    intro j; rw [hvx]; split
    · rw [vertex_resetAll]
    · rw [vertex_resetAll]
  have hdist : ∀ j, (vertex vs1 j).distance = if j = s then 0 else INT32_MAX := by
    intro j; rw [hvx]; split
    · rfl
    · rw [vertex_resetAll]
  have h0 := heap_init_insert g.vertexList.length (by omega) (vertex g.vertexList s).id 0 (some s)
  obtain ⟨i1, i2, i3, _, _, _, _, _, i9⟩ := heap.insert_success (heap.init_inv _) _ _ _ h0
  have ifl := heap.insert_mfilled_le (heap.init_inv _) _ _ _ h0
  generalize ((heap.init g.vertexList.length).insert (vertex g.vertexList s).id 0
    (some s)).1 = hp1 at i1 i2 i3 i9 ifl ⊢
  have e1 : queued (vertex (resetAll g.vertexList) s) = false := by
    rw [vertex_resetAll]; simp [queued]
  have e2 : queued ({ vertex (resetAll g.vertexList) s with distance := 0 } : Vertex) = true := by
    rw [vertex_resetAll]; simp [queued, INT32_MAX]
  have e3 : unreached (vertex (resetAll g.vertexList) s) = true := by
    rw [vertex_resetAll]; simp [unreached]
  have e4 : unreached ({ vertex (resetAll g.vertexList) s with distance := 0 } : Vertex)
      = false := by
    rw [vertex_resetAll]; simp [unreached, INT32_MAX]
  rw [e1, e2] at hcq
  rw [e3, e4] at hcu
  simp only [Bool.false_eq_true, if_false, if_true] at hcq hcu
  have hmax : (0 : Int) < INT32_MAX := by decide
  refine ⟨⟨?_, hid, hadj, i1, i3, ?_, ?_, ?_, ?_, ?_, ?_, ?_, hs, ?_⟩, ?_⟩
  · show vs1.length = _
    rw [← hvs, List.length_set]; exact hlenr
  · show hp1.currentSize = vs1.countP queued
    rw [i2]; show 0 + 1 = _; omega
  · show hp1.mapping.filled + vs1.countP unreached ≤ _
    have : (heap.init g.vertexList.length).mapping.filled = 0 := rfl
    omega
  · intro nd
    show nd ∈ hp1.nodes ↔ ∃ v, v < g.vertexList.length ∧ (vertex vs1 v).known = false ∧
      (vertex vs1 v).distance < INT32_MAX ∧
      nd = ⟨(vertex vs1 v).id, (vertex vs1 v).distance, some v⟩
    rw [i9, heap.nodes_of_zero rfl]
    constructor
    · rintro (h | h)
      · exact ⟨s, hs, hknown s, by rw [hdist, if_pos rfl]; exact hmax,
          by rw [hid, hdist, if_pos rfl]; exact h⟩
      · exact absurd h (List.not_mem_nil _)
    · rintro ⟨v, _, _, hv3, hv4⟩
      left
      have hvs' : v = s := by
        by_contra hne
        rw [hdist, if_neg hne] at hv3
        exact absurd hv3 (lt_irrefl _)
      rw [hv4, hid, hdist, if_pos hvs', hvs']
  · intro x y _ _ hkx _
    have := hknown x
    rw [this] at hkx
    exact absurd hkx (by simp)
  · intro v _ hdv
    have hdv' : (vertex vs1 v).distance ≠ INT32_MAX := hdv
    have hvs' : v = s := by
      by_contra hne
      rw [hdist, if_neg hne] at hdv'
      exact hdv' rfl
    refine ⟨[s], ?_, List.nodup_singleton _, ?_⟩
    · show Walk g.edge s v (vertex vs1 v).distance [s]
      rw [hdist, if_pos hvs', hvs']
      exact Walk.nil
    · intro x hx
      rw [List.mem_singleton] at hx
      left; rw [hx, hvs']
  · intro v _
    show (vertex vs1 v).distance ≤ INT32_MAX
    rw [hdist]; split
    · exact le_of_lt hmax
    · exact le_refl _
  · intro v _ hk
    have := hknown v
    rw [this] at hk
    exact absurd hk (by simp)
  · show (vertex vs1 s).distance ≤ 0
    rw [hdist, if_pos rfl]
  · intro u _ hk
    have := hknown u
    rw [this] at hk
    exact absurd hk (by simp)

end Graph

end ECE365

namespace ECE365

namespace Graph

/-- Any list of distinct vertices of the graph is at most as long as `vertexList`. -/
theorem length_le_of_lt {n : Nat} (l : List Nat) (hnd : l.Nodup) (hl : ∀ v, v ∈ l → v < n) :
    l.length ≤ n := by
  have h := (List.subperm_of_subset hnd (fun v hv => List.mem_range.2 (hl v hv))).length_le
  rw [List.length_range] at h
  exact h

/-- The function `dijkstra` from the vertex at position `s`, on a graph whose edges lead to
vertices of the graph and in which the vertices reachable from `s` are at most `805306370`
and have distinct ids, with weights that are not negative and paths from `s` lighter than
`INT32_MAX`: with more fuel than vertices it returns, it changes neither the ids nor the
adjacency lists, and the distance of every vertex is the minimum weight of the paths from
`s` to it, or `INT32_MAX` if there is none. -/
theorem dijkstra_sound {g : Graph} {s : Nat} (hg : g.Sound s)
    (hreach : ∀ l : List Nat, l.Nodup → (∀ v, v ∈ l → Reachable g.edge s v) →
      l.length ≤ 805306370)
    (hs : s < g.vertexList.length) (hw : Weights g s) (start : Key)
    (hptr : (g.vertices.getPointer start).1 = some s) (fuel : Nat)
    (hfuel : g.vertexList.length < fuel) :
    ∃ vs, g.dijkstra start fuel = some { g with vertexList := vs } ∧
      vs.length = g.vertexList.length ∧
      (∀ v, (vertex vs v).id = (vertex g.vertexList v).id) ∧
      (∀ v, (vertex vs v).adjList = (vertex g.vertexList v).adjList) ∧
      ∀ v, v < g.vertexList.length →
        (Reachable g.edge s v → IsMinDist g.edge s v (vertex vs v).distance) ∧
        (¬ Reachable g.edge s v → (vertex vs v).distance = INT32_MAX) := by
  have hstart := DInv.start hs (g := g)
  have hlenr : (resetAll g.vertexList).length = g.vertexList.length := by
    unfold resetAll; rw [List.length_map]
  have hvx := vertex_set (resetAll g.vertexList) s s
    { vertex (resetAll g.vertexList) s with distance := 0 } (by omega)
  rw [if_pos rfl] at hvx
  have hlen0 : ((resetAll g.vertexList).set s
      { vertex (resetAll g.vertexList) s with distance := 0 }).length = g.vertexList.length := by
    rw [List.length_set]; exact hlenr
  have hid0 : (vertex ((resetAll g.vertexList).set s
      { vertex (resetAll g.vertexList) s with distance := 0 }) s).id
      = (vertex g.vertexList s).id := by
    rw [hvx, vertex_resetAll]
  have hd0 : (vertex ((resetAll g.vertexList).set s
      { vertex (resetAll g.vertexList) s with distance := 0 }) s).distance = 0 := by
    rw [hvx]
  have hcount : ((resetAll g.vertexList).set s
      { vertex (resetAll g.vertexList) s with distance := 0 }).countP unknown < fuel := by
    have := List.countP_le_length unknown (l := (resetAll g.vertexList).set s
      { vertex (resetAll g.vertexList) s with distance := 0 })
    omega
  unfold dijkstra
  rw [hptr]
  dsimp only
  generalize hvs : (resetAll g.vertexList).set s
    { vertex (resetAll g.vertexList) s with distance := 0 } = vs0
    at hstart hlen0 hid0 hd0 hcount ⊢
  rw [hlen0, hid0, hd0,
    if_neg (by rw [heap_init_insert _ (by omega)]; simp)]
  obtain ⟨vs, hp, e1, e2, e3⟩ := dijkstraLoop_spec hg hw hreach fuel _ hstart hcount
  rw [e1]
  exact ⟨vs, rfl, e2.core.len, e2.core.ids, e2.core.adj, fun v hv => e2.final hg hw e3 v hv⟩

/-- The function `dijkstra` on a well-formed graph of at most `805306370` vertices, from the
vertex at position `s`, with weights that are not negative and paths from `s` lighter than
`INT32_MAX`: with more fuel than vertices it returns, it changes neither the ids nor the
adjacency lists, and the distance of every vertex is the minimum weight of the paths from
`s` to it, or `INT32_MAX` if there is none. -/
theorem dijkstra_spec {g : Graph} (hg : g.WF) (hn : g.vertexList.length ≤ 805306370) {s : Nat}
    (hs : s < g.vertexList.length) (hw : Weights g s) (fuel : Nat)
    (hfuel : g.vertexList.length < fuel) :
    ∃ vs, g.dijkstra (vertex g.vertexList s).id fuel = some { g with vertexList := vs } ∧
      vs.length = g.vertexList.length ∧
      (∀ v, (vertex vs v).id = (vertex g.vertexList v).id) ∧
      (∀ v, (vertex vs v).adjList = (vertex g.vertexList v).adjList) ∧
      ∀ v, v < g.vertexList.length →
        (Reachable g.edge s v → IsMinDist g.edge s v (vertex vs v).distance) ∧
        (¬ Reachable g.edge s v → (vertex vs v).distance = INT32_MAX) := by
  apply dijkstra_sound (hg.sound s) _ hs hw _ _ fuel hfuel
  · intro l hnd hl
    have := length_le_of_lt l hnd (n := g.vertexList.length) (by
      intro v hv
      obtain ⟨w, p, hwalk⟩ := hl v hv
      exact walk_lt hg.dest_lt hwalk hs v hwalk.head_mem)
    omega
  · rw [hashTable.getPointer_eq_lookup, hg.lookup_id s hs]

end Graph

end ECE365

namespace ECE365

namespace Graph

/-! ## The construction of the graph -/

theorem vertex_append_left (vs : List Vertex) (x : Vertex) (j : Nat) (hj : j < vs.length) :
    vertex (vs ++ [x]) j = vertex vs j := by
  unfold vertex
  rw [List.getD_eq_getElem?_getD, List.getD_eq_getElem?_getD, List.getElem?_append_left hj]

theorem vertex_append_length (vs : List Vertex) (x : Vertex) :
    vertex (vs ++ [x]) vs.length = x := by
  unfold vertex
  rw [List.getD_eq_getElem?_getD, List.getElem?_append_right (le_refl _)]
  simp

theorem names_nodup {g : Graph} (hg : g.WF) :
    ((List.range g.vertexList.length).map (fun i => (vertex g.vertexList i).id)).Nodup := by
  apply List.Nodup.map_on _ (List.nodup_range _)
  intro i hi j hj h
  exact hg.ids_inj i j (List.mem_range.1 hi) (List.mem_range.1 hj) h

/-- A graph whose vertices are distinct names among those of `L` has at most as many
vertices as any bound on the number of distinct names of `L`; a name that is not a vertex
counts too. -/
theorem room_of_new {g : Graph} (hg : g.WF) {L : List Triple} {bound : Nat}
    (hroom : ∀ ns : List Key, ns.Nodup → (∀ a, a ∈ ns → IsName L a) → ns.length ≤ bound)
    (hnames : ∀ i, i < g.vertexList.length → IsName L (vertex g.vertexList i).id)
    {a : Key} (ha : IsName L a)
    (hnew : ∀ i, i < g.vertexList.length → (vertex g.vertexList i).id ≠ a) :
    g.vertexList.length < bound := by
  have h := hroom (a :: (List.range g.vertexList.length).map (fun i => (vertex g.vertexList i).id))
    (List.nodup_cons.2 ⟨by
      intro hmem
      obtain ⟨i, hi, hia⟩ := List.mem_map.1 hmem
      exact hnew i (List.mem_range.1 hi) hia, names_nodup hg⟩)
    (by
      intro b hb
      rcases List.mem_cons.1 hb with h | h
      · rw [h]; exact ha
      · obtain ⟨i, hi, hib⟩ := List.mem_map.1 h
        rw [← hib]; exact hnames i (List.mem_range.1 hi))
  rw [List.length_cons, List.length_map, List.length_range] at h
  omega

theorem getOrCreateVertex_found {g : Graph} (hg : g.WF) {i : Nat}
    (hi : i < g.vertexList.length) :
    g.getOrCreateVertex (vertex g.vertexList i).id = (g, some i) := by
  unfold getOrCreateVertex
  rw [hashTable.getPointer_eq_lookup, hg.lookup_id i hi]
  rfl

/-- The function `getOrCreateVertex` for a name that is not a vertex yet, in a graph of less
than `805306370` vertices: the new vertex is appended and stored in the hash table. -/
theorem getOrCreateVertex_new {g : Graph} (hg : g.WF)
    (hf : g.vertices.filled ≤ g.vertexList.length) (hroom : g.vertexList.length < 805306370)
    {a : Key} (hnew : ∀ i, i < g.vertexList.length → (vertex g.vertexList i).id ≠ a) :
    (g.getOrCreateVertex a).2 = some g.vertexList.length ∧
    (g.getOrCreateVertex a).1.vertexList = g.vertexList ++ [{ id := a }] ∧
    (g.getOrCreateVertex a).1.WF ∧
    (g.getOrCreateVertex a).1.vertices.filled ≤ g.vertexList.length + 1 := by
  have hnone : g.vertices.lookup a = none := by
    by_contra h
    obtain ⟨i, hi1, hi2⟩ := hg.lookup_onto a h
    exact hnew i hi1 hi2
  have hcont : g.vertices.contains a = false := by
    rw [hashTable.contains_eq_lookup, hnone]; rfl
  have h0 : (g.vertices.insert a (some g.vertexList.length) false).2 = 0 := by
    rcases hashTable.insert_result g.vertices a (some g.vertexList.length) false with r | r | r
    · exact r
    · rw [hashTable.insert_eq_one_iff, hcont] at r
      exact absurd r (by simp)
    · obtain ⟨e1, e2⟩ := hashTable.insert_eq_two hg.table r
      rw [e1] at e2
      omega
  obtain ⟨k1, _, k3⟩ := hashTable.insert_ok hg.table a (some g.vertexList.length) h0
  have k4 := hashTable.insert_filled_le hg.table a (some g.vertexList.length)
  have he : g.getOrCreateVertex a =
      ({ vertices := (g.vertices.insert a (some g.vertexList.length) false).1
         vertexList := g.vertexList ++ [{ id := a }] }, some g.vertexList.length) := by
    unfold getOrCreateVertex
    rw [hashTable.getPointer_eq_lookup, hnone]
    rfl
  rw [he]
  refine ⟨rfl, rfl, ?_, by dsimp only; omega⟩
  have hvx : ∀ j, j < (g.vertexList ++ [({ id := a } : Vertex)]).length →
      (j < g.vertexList.length ∧
        vertex (g.vertexList ++ [({ id := a } : Vertex)]) j = vertex g.vertexList j) ∨
      (j = g.vertexList.length ∧
        vertex (g.vertexList ++ [({ id := a } : Vertex)]) j = { id := a }) := by
    intro j hj
    rw [List.length_append, List.length_singleton] at hj
    by_cases h : j < g.vertexList.length
    · exact Or.inl ⟨h, vertex_append_left _ _ j h⟩
    · have : j = g.vertexList.length := by omega
      right
      rw [this]
      exact ⟨rfl, vertex_append_length _ _⟩
  constructor
  · intro i j hi hj hid
    dsimp only at hi hj hid
    rcases hvx i hi with ⟨i1, i2⟩ | ⟨i1, i2⟩ <;> rcases hvx j hj with ⟨j1, j2⟩ | ⟨j1, j2⟩
    · rw [i2, j2] at hid
      exact hg.ids_inj i j i1 j1 hid
    · rw [i2, j2] at hid
      exact absurd hid (hnew i i1)
    · rw [i2, j2] at hid
      exact absurd hid.symm (hnew j j1)
    · rw [i1, j1]
  · intro i hi e he
    dsimp only at hi he ⊢
    rw [List.length_append, List.length_singleton]
    rcases hvx i hi with ⟨i1, i2⟩ | ⟨i1, i2⟩
    · rw [i2] at he
      have := hg.dest_lt i i1 e he
      omega
    · rw [i2] at he
      exact absurd he (List.not_mem_nil _)
  · exact k1
  · intro i hi
    dsimp only at hi ⊢
    rw [k3]
    rcases hvx i hi with ⟨i1, i2⟩ | ⟨i1, i2⟩
    · rw [i2, if_neg (hnew i i1)]
      exact hg.lookup_id i i1
    · rw [i2, if_pos rfl, i1]
  · intro x hx
    dsimp only at hx ⊢
    rw [k3] at hx
    by_cases hxa : x = a
    · refine ⟨g.vertexList.length, by rw [List.length_append, List.length_singleton]; omega, ?_⟩
      rw [vertex_append_length, hxa]
    · rw [if_neg hxa] at hx
      obtain ⟨i, hi1, hi2⟩ := hg.lookup_onto x hx
      refine ⟨i, by rw [List.length_append, List.length_singleton]; omega, ?_⟩
      rw [vertex_append_left _ _ i hi1]
      exact hi2

end Graph

end ECE365

namespace ECE365

theorem isName_append (ls : List Triple) (t : Triple) (a : Key) :
    IsName (ls ++ [t]) a ↔ (IsName ls a ∨ t.sourceId = a ∨ t.destId = a) := by
  unfold IsName
  constructor
  · rintro ⟨x, hx, h⟩
    rcases List.mem_append.1 hx with h1 | h1
    · exact Or.inl ⟨x, h1, h⟩
    · rw [List.mem_singleton] at h1
      rw [h1] at h
      exact Or.inr h
  · rintro (⟨x, hx, h⟩ | h)
    · exact ⟨x, List.mem_append_left _ hx, h⟩
    · exact ⟨t, List.mem_append_right _ (List.mem_singleton_self _), h⟩

theorem lineEdge_append (ls : List Triple) (t : Triple) (a b : Key) (c : Int) :
    lineEdge (ls ++ [t]) a c b ↔
      (lineEdge ls a c b ∨ (t.sourceId = a ∧ t.destId = b ∧ t.weight = c)) := by
  unfold lineEdge
  rw [List.mem_append, List.mem_singleton]
  constructor
  · rintro (h | h)
    · exact Or.inl h
    · right; rw [← h]; exact ⟨rfl, rfl, rfl⟩
  · rintro (h | ⟨h1, h2, h3⟩)
    · exact Or.inl h
    · right
      cases t
      dsimp only at h1 h2 h3
      rw [h1, h2, h3]

theorem lineEdge_isName {ls : List Triple} {a b : Key} {c : Int} (h : lineEdge ls a c b) :
    IsName ls a ∧ IsName ls b :=
  ⟨⟨_, h, Or.inl rfl⟩, ⟨_, h, Or.inr rfl⟩⟩

namespace Graph

/-- The function `getOrCreateVertex` for a name of `L`, in a graph whose vertices are names
of `L`, when `L` has at most `805306370` distinct names: it returns the vertex with this
name, which is new or not, and keeps the other vertices. -/
theorem getOrCreateVertex_spec {g : Graph} {L : List Triple}
    (hroom : ∀ ns : List Key, ns.Nodup → (∀ a, a ∈ ns → IsName L a) → ns.length ≤ 805306370)
    (hg : g.WF) (hf : g.vertices.filled ≤ g.vertexList.length)
    (hnames : ∀ i, i < g.vertexList.length → IsName L (vertex g.vertexList i).id)
    {a : Key} (ha : IsName L a) :
    ∃ i, (g.getOrCreateVertex a).2 = some i ∧
      i < (g.getOrCreateVertex a).1.vertexList.length ∧
      (vertex (g.getOrCreateVertex a).1.vertexList i).id = a ∧
      (g.getOrCreateVertex a).1.WF ∧
      (g.getOrCreateVertex a).1.vertices.filled ≤ (g.getOrCreateVertex a).1.vertexList.length ∧
      (∀ j, j < (g.getOrCreateVertex a).1.vertexList.length →
        IsName L (vertex (g.getOrCreateVertex a).1.vertexList j).id) ∧
      g.vertexList.length ≤ (g.getOrCreateVertex a).1.vertexList.length ∧
      (∀ j, j < g.vertexList.length →
        vertex (g.getOrCreateVertex a).1.vertexList j = vertex g.vertexList j) ∧
      (∀ j, g.vertexList.length ≤ j →
        (vertex (g.getOrCreateVertex a).1.vertexList j).adjList = []) := by
  by_cases h : ∃ i, i < g.vertexList.length ∧ (vertex g.vertexList i).id = a
  · obtain ⟨i, hi1, hi2⟩ := h
    rw [← hi2, getOrCreateVertex_found hg hi1]
    refine ⟨i, rfl, hi1, rfl, hg, hf, hnames, le_refl _, fun _ _ => rfl, ?_⟩
    intro j hj
    dsimp only
    rw [vertex_default _ _ hj]
    rfl
  · have hnew : ∀ i, i < g.vertexList.length → (vertex g.vertexList i).id ≠ a :=
      fun i hi hia => h ⟨i, hi, hia⟩
    have hlt := room_of_new hg hroom hnames ha hnew
    obtain ⟨n1, n2, n3, n4⟩ := getOrCreateVertex_new hg hf hlt hnew
    have hlen : (g.getOrCreateVertex a).1.vertexList.length = g.vertexList.length + 1 := by
      rw [n2, List.length_append, List.length_singleton]
    refine ⟨g.vertexList.length, n1, by omega, ?_, n3, by omega, ?_, by omega, ?_, ?_⟩
    · rw [n2, vertex_append_length]
    · intro j hj
      rw [n2]
      by_cases hjl : j < g.vertexList.length
      · rw [vertex_append_left _ _ j hjl]; exact hnames j hjl
      · have : j = g.vertexList.length := by omega
        rw [this, vertex_append_length]; exact ha
    · intro j hj
      rw [n2, vertex_append_left _ _ j hj]
    · intro j hj
      rw [n2]
      by_cases hjl : j = g.vertexList.length
      · rw [hjl, vertex_append_length]
      · rw [vertex_default _ _ (by rw [List.length_append, List.length_singleton]; omega)]
        rfl

theorem insertEdge_eq (g : Graph) (sourceId destId : Key) (weight : Int) (v1 v2 : Nat)
    (h1 : (g.getOrCreateVertex sourceId).2 = some v1)
    (h2 : ((g.getOrCreateVertex sourceId).1.getOrCreateVertex destId).2 = some v2) :
    g.insertEdge sourceId destId weight =
      ((g.getOrCreateVertex sourceId).1.getOrCreateVertex destId).1.addEdge v1 v2 weight := by
  unfold insertEdge addEdge
  dsimp only
  rw [h1, h2]

theorem addEdge_spec {g : Graph} (hg : g.WF) {v1 v2 : Nat} (h1 : v1 < g.vertexList.length)
    (h2 : v2 < g.vertexList.length) (weight : Int) :
    (g.addEdge v1 v2 weight).WF ∧
    (g.addEdge v1 v2 weight).vertices = g.vertices ∧
    (g.addEdge v1 v2 weight).vertexList.length = g.vertexList.length ∧
    (∀ j, (vertex (g.addEdge v1 v2 weight).vertexList j).id = (vertex g.vertexList j).id) ∧
    ∀ j c k, (g.addEdge v1 v2 weight).edge j c k ↔
      (g.edge j c k ∨ (j = v1 ∧ c = weight ∧ k = v2)) := by
  have hvx : ∀ j, vertex (g.addEdge v1 v2 weight).vertexList j =
      if j = v1 then { vertex g.vertexList v1 with
        adjList := (vertex g.vertexList v1).adjList ++
          [{ weight := weight, destination := v2 }] }
      else vertex g.vertexList j := fun j => vertex_set _ v1 j _ h1
  have hlen : (g.addEdge v1 v2 weight).vertexList.length = g.vertexList.length := by
    unfold addEdge; dsimp only; rw [List.length_set]
  have hid : ∀ j, (vertex (g.addEdge v1 v2 weight).vertexList j).id
      = (vertex g.vertexList j).id := by
    intro j; rw [hvx]; split
    · rename_i h; rw [h]
    · rfl
  have hadj : ∀ j, (vertex (g.addEdge v1 v2 weight).vertexList j).adjList =
      if j = v1 then (vertex g.vertexList v1).adjList ++
          [{ weight := weight, destination := v2 }]
      else (vertex g.vertexList j).adjList := by
    intro j; rw [hvx]; split <;> rfl
  refine ⟨⟨?_, ?_, hg.table, ?_, ?_⟩, rfl, hlen, hid, ?_⟩
  · intro i j hi hj h
    rw [hid, hid] at h
    rw [hlen] at hi hj
    exact hg.ids_inj i j hi hj h
  · intro i hi e he
    rw [hlen] at hi ⊢
    rw [hadj] at he
    split at he
    · rename_i hiv
      rcases List.mem_append.1 he with h | h
      · exact hg.dest_lt v1 h1 e h
      · rw [List.mem_singleton] at h
        rw [h]; exact h2
    · exact hg.dest_lt i hi e he
  · intro i hi
    rw [hlen] at hi
    rw [hid]
    exact hg.lookup_id i hi
  · intro x hx
    obtain ⟨i, hi1, hi2⟩ := hg.lookup_onto x hx
    exact ⟨i, by rw [hlen]; exact hi1, by rw [hid]; exact hi2⟩
  · intro j c k
    unfold edge
    rw [hadj]
    split
    · rename_i hj
      rw [List.mem_append, List.mem_singleton, hj]
      constructor
      · rintro (h | h)
        · exact Or.inl h
        · right
          injection h with e1 e2
          exact ⟨rfl, e1, e2⟩
      · rintro (h | ⟨_, e1, e2⟩)
        · exact Or.inl h
        · right; rw [e1, e2]
    · rename_i hj
      constructor
      · intro h; exact Or.inl h
      · rintro (h | ⟨e, _⟩)
        · exact h
        · exact absurd e hj

end Graph

end ECE365

namespace ECE365

namespace Graph

/-- The function `insertEdge` keeps the invariant of the construction of the graph, when
the lines have at most `805306370` distinct names. -/
theorem BInv.step {ls : List Triple} {g : Graph} (hB : BInv ls g) (t : Triple)
    (hroom : ∀ ns : List Key, ns.Nodup → (∀ a, a ∈ ns → IsName (ls ++ [t]) a) →
      ns.length ≤ 805306370) :
    BInv (ls ++ [t]) (g.insertEdge t.sourceId t.destId t.weight) := by
  have hnamesL : ∀ i, i < g.vertexList.length → IsName (ls ++ [t]) (vertex g.vertexList i).id :=
    fun i hi => (isName_append ls t _).2 (Or.inl (hB.names i hi))
  obtain ⟨v1, a1, a2, a3, a4, a5, a6, a7, a8, a9⟩ :=
    getOrCreateVertex_spec hroom hB.wf hB.filled hnamesL
      (a := t.sourceId) ((isName_append ls t _).2 (Or.inr (Or.inl rfl)))
  obtain ⟨v2, b1, b2, b3, b4, b5, b6, b7, b8, b9⟩ :=
    getOrCreateVertex_spec hroom a4 a5 a6
      (a := t.destId) ((isName_append ls t _).2 (Or.inr (Or.inr rfl)))
  rw [insertEdge_eq g _ _ _ _ _ a1 b1]
  generalize (g.getOrCreateVertex t.sourceId).1 = g1 at a2 a3 a4 a5 a6 a7 a8 a9 b1 b2 b3 b4 b5 b6 b7 b8 b9 ⊢
  generalize (g1.getOrCreateVertex t.destId).1 = g2 at b2 b3 b4 b5 b6 b7 b8 b9 ⊢
  have hv1 : v1 < g2.vertexList.length := by omega
  have hidv1 : (vertex g2.vertexList v1).id = t.sourceId := by rw [b8 v1 a2]; exact a3
  obtain ⟨c1, c2, c3, c4, c5⟩ := addEdge_spec b4 hv1 b2 t.weight
  generalize g2.addEdge v1 v2 t.weight = g3 at c1 c2 c3 c4 c5 ⊢
  have hold : ∀ j, j < g.vertexList.length → vertex g2.vertexList j = vertex g.vertexList j := by
    intro j hj
    rw [b8 j (by omega), a8 j hj]
  have hid3 : ∀ j, j < g.vertexList.length →
      (vertex g3.vertexList j).id = (vertex g.vertexList j).id := by
    intro j hj
    rw [c4, hold j hj]
  have hedge2 : ∀ j c k, g2.edge j c k ↔ g.edge j c k := by
    intro j c k
    unfold edge
    by_cases hj : j < g.vertexList.length
    · rw [hold j hj]
    · have e1 : (vertex g.vertexList j).adjList = [] := by
        rw [vertex_default _ _ (by omega)]; rfl
      have e2 : (vertex g2.vertexList j).adjList = [] := by
        by_cases hj1 : j < g1.vertexList.length
        · rw [b8 j hj1]; exact a9 j (by omega)
        · exact b9 j (by omega)
      rw [e1, e2]
  have hlt : ∀ j, j < g3.vertexList.length → IsName ls (vertex g3.vertexList j).id →
      j < g.vertexList.length := by
    intro j hj hn
    obtain ⟨i, hi1, hi2⟩ := hB.all_names _ hn
    have : i = j := c1.ids_inj i j (by omega) hj (by rw [hid3 i hi1]; exact hi2)
    omega
  refine ⟨c1, by rw [c2, c3]; exact b5, ?_, ?_, ?_⟩
  · intro j hj
    rw [c4]
    exact b6 j (by omega)
  · intro a ha
    rcases (isName_append ls t a).1 ha with h | h | h
    · obtain ⟨i, hi1, hi2⟩ := hB.all_names a h
      exact ⟨i, by omega, by rw [hid3 i hi1]; exact hi2⟩
    · exact ⟨v1, by omega, by rw [c4, hidv1]; exact h⟩
    · exact ⟨v2, by omega, by rw [c4, b3]; exact h⟩
  · intro j c k
    rw [c5, hedge2, hB.edges, lineEdge_append]
    constructor
    · rintro (⟨h1, h2, h3⟩ | ⟨h1, h2, h3⟩)
      · refine ⟨by omega, by omega, Or.inl ?_⟩
        rw [hid3 j h1, hid3 k h2]; exact h3
      · refine ⟨by omega, by omega, Or.inr ?_⟩
        rw [h1, h2, h3, c4, c4, hidv1, b3]
        exact ⟨rfl, rfl, rfl⟩
    · rintro ⟨h1, h2, h3 | ⟨h3, h4, h5⟩⟩
      · left
        obtain ⟨n1, n2⟩ := lineEdge_isName h3
        have hj := hlt j h1 n1
        have hk := hlt k h2 n2
        rw [hid3 j hj, hid3 k hk] at h3
        exact ⟨hj, hk, h3⟩
      · right
        refine ⟨?_, h5.symm, ?_⟩
        · exact c1.ids_inj j v1 h1 (by omega) (by rw [← h3, c4 v1, hidv1])
        · exact c1.ids_inj k v2 h2 (by omega) (by rw [← h4, c4 v2, b3])

theorem init_binv : BInv [] init := by
  have hl : init.vertexList.length = 0 := rfl
  refine ⟨⟨?_, ?_, hashTable.init_pinv _, ?_, ?_⟩, Nat.zero_le _, ?_, ?_, ?_⟩
  · intro i j hi; rw [hl] at hi; omega
  · intro i hi; rw [hl] at hi; omega
  · intro i hi; rw [hl] at hi; omega
  · intro x hx
    exact absurd (hashTable.lookup_init _ x) hx
  · intro i hi; rw [hl] at hi; omega
  · rintro a ⟨x, hx, _⟩
    exact absurd hx (List.not_mem_nil _)
  · intro i c j
    constructor
    · intro h
      exact absurd h (List.not_mem_nil _)
    · rintro ⟨h, _⟩
      rw [hl] at h; omega

theorem loadGraph_append (g : Graph) (ls : List Triple) (t : Triple) :
    g.loadGraph (ls ++ [t]) = (g.loadGraph ls).insertEdge t.sourceId t.destId t.weight := by
  unfold loadGraph
  rw [List.foldl_append]
  rfl

/-- The graph built from lines with at most `805306370` distinct names is well formed, its
vertices are the names of the lines and its edges are the lines. -/
theorem build_binv (lines : List Triple) :
    (∀ ns : List Key, ns.Nodup → (∀ a, a ∈ ns → IsName lines a) → ns.length ≤ 805306370) →
    BInv lines (build lines) := by
  induction lines using List.reverseRecOn with
  | nil => intro _; exact init_binv
  | append_singleton ls t ih =>
    intro hroom
    unfold build
    rw [loadGraph_append]
    apply BInv.step _ t hroom
    apply ih
    intro ns h1 h2
    exact hroom ns h1 (fun a ha => (isName_append ls t a).2 (Or.inl (h2 a ha)))

end Graph

end ECE365

namespace ECE365

namespace Graph

/-! ## The stored graph and the graph of the lines -/

theorem BInv.indexOf_id {lines : List Triple} {g : Graph} (hB : BInv lines g) {i : Nat}
    (hi : i < g.vertexList.length) : g.indexOf (vertex g.vertexList i).id = i := by
  unfold indexOf
  rw [hashTable.getPointer_eq_lookup, hB.wf.lookup_id i hi]
  rfl

theorem BInv.indexOf_spec {lines : List Triple} {g : Graph} (hB : BInv lines g) {a : Key}
    (ha : IsName lines a) :
    g.indexOf a < g.vertexList.length ∧ (vertex g.vertexList (g.indexOf a)).id = a := by
  obtain ⟨i, hi1, hi2⟩ := hB.all_names a ha
  rw [← hi2, hB.indexOf_id hi1]
  exact ⟨hi1, rfl⟩

theorem BInv.walk_names {lines : List Triple} {g : Graph} (hB : BInv lines g) {s v : Nat}
    {w : Int} {p : List Nat} (h : Walk g.edge s v w p) :
    Walk (lineEdge lines) (vertex g.vertexList s).id (vertex g.vertexList v).id w
      (p.map (fun i => (vertex g.vertexList i).id)) :=
  Walk.map (fun i => (vertex g.vertexList i).id)
    (fun u c v he => ((hB.edges u c v).1 he).2.2) h

theorem BInv.walk_index {lines : List Triple} {g : Graph} (hB : BInv lines g) {a b : Key}
    {w : Int} {p : List Key} (h : Walk (lineEdge lines) a b w p) :
    Walk g.edge (g.indexOf a) (g.indexOf b) w (p.map g.indexOf) := by
  apply Walk.map g.indexOf _ h
  intro x c y he
  obtain ⟨nx, ny⟩ := lineEdge_isName he
  obtain ⟨x1, x2⟩ := hB.indexOf_spec nx
  obtain ⟨y1, y2⟩ := hB.indexOf_spec ny
  exact (hB.edges _ c _).2 ⟨x1, y1, by rw [x2, y2]; exact he⟩

/-- The hypotheses on the weights of the lines give those on the weights of the stored
graph. -/
theorem BInv.weights {lines : List Triple} {g : Graph} (hB : BInv lines g) {s : Nat}
    (hs : s < g.vertexList.length) (hnonneg : ∀ t, t ∈ lines → 0 ≤ t.weight)
    (hbound : ∀ b w p, Walk (lineEdge lines) (vertex g.vertexList s).id b w p → p.Nodup →
      w < INT32_MAX) : Weights g s := by
  constructor
  · intro u c v he
    exact hnonneg _ ((hB.edges u c v).1 he).2.2
  · intro v w p hwalk hnd
    apply hbound _ _ _ (hB.walk_names hwalk)
    apply List.Nodup.map_on _ hnd
    intro i hi j hj h
    exact hB.wf.ids_inj i j (walk_lt hB.wf.dest_lt hwalk hs i hi) (walk_lt hB.wf.dest_lt hwalk hs j hj) h

theorem BInv.reachable_iff {lines : List Triple} {g : Graph} (hB : BInv lines g) {s v : Nat}
    (hs : s < g.vertexList.length) (hv : v < g.vertexList.length) :
    Reachable (lineEdge lines) (vertex g.vertexList s).id (vertex g.vertexList v).id ↔
      Reachable g.edge s v := by
  constructor
  · rintro ⟨w, p, h⟩
    have := hB.walk_index h
    rw [hB.indexOf_id hs, hB.indexOf_id hv] at this
    exact ⟨w, _, this⟩
  · rintro ⟨w, p, h⟩
    exact ⟨w, _, hB.walk_names h⟩

theorem BInv.isMinDist {lines : List Triple} {g : Graph} (hB : BInv lines g) {s v : Nat}
    (hs : s < g.vertexList.length) (hv : v < g.vertexList.length) {d : Int}
    (h : IsMinDist g.edge s v d) :
    IsMinDist (lineEdge lines) (vertex g.vertexList s).id (vertex g.vertexList v).id d := by
  obtain ⟨⟨p, hp1, hp2⟩, hmin⟩ := h
  constructor
  · refine ⟨_, hB.walk_names hp1, ?_⟩
    apply List.Nodup.map_on _ hp2
    intro i hi j hj h
    exact hB.wf.ids_inj i j (walk_lt hB.wf.dest_lt hp1 hs i hi) (walk_lt hB.wf.dest_lt hp1 hs j hj) h
  · intro w q hq
    have := hB.walk_index hq
    rw [hB.indexOf_id hs, hB.indexOf_id hv] at this
    exact hmin _ _ this

/-- The function `dijkstra` on the graph built from lines with at most `805306370` distinct
names, weights that are not negative and paths from the start lighter than `INT32_MAX`, for
a start vertex of the graph: with more fuel than vertices it returns a graph in which every
name has a vertex, the distance of every vertex that is reachable from the start is the
minimum weight of the paths to it, and the distance of every other vertex is `INT32_MAX`. -/
theorem dijkstra_of_few_names (lines : List Triple) (start : Key)
    (hcount : ∀ ns : List Key, ns.Nodup → (∀ a, a ∈ ns → IsName lines a) →
      ns.length ≤ 805306370)
    (hnonneg : ∀ t, t ∈ lines → 0 ≤ t.weight)
    (hbound : ∀ b w p, Walk (lineEdge lines) start b w p → p.Nodup → w < INT32_MAX)
    (hstart : (build lines).isValidVertex start = true)
    (fuel : Nat) (hfuel : (build lines).vertexList.length < fuel) :
    ∃ g, (build lines).dijkstra start fuel = some g ∧
      (∀ a, IsName lines a → ∃ v, v < g.vertexList.length ∧ (vertex g.vertexList v).id = a) ∧
      ∀ v, v < g.vertexList.length →
        (Reachable (lineEdge lines) start (vertex g.vertexList v).id →
          IsMinDist (lineEdge lines) start (vertex g.vertexList v).id
            (vertex g.vertexList v).distance) ∧
        (¬ Reachable (lineEdge lines) start (vertex g.vertexList v).id →
          (vertex g.vertexList v).distance = INT32_MAX) := by
  have hB := build_binv lines hcount
  have hlook : (build lines).vertices.lookup start ≠ none := by
    unfold isValidVertex at hstart
    rw [hashTable.contains_eq_lookup] at hstart
    intro h
    rw [h] at hstart
    exact absurd hstart (by simp)
  obtain ⟨s, hs, hid⟩ := hB.wf.lookup_onto start hlook
  have hn : (build lines).vertexList.length ≤ 805306370 := by
    have := hcount _ (names_nodup hB.wf) (by
      intro a ha
      obtain ⟨i, hi, hia⟩ := List.mem_map.1 ha
      rw [← hia]
      exact hB.names i (List.mem_range.1 hi))
    rw [List.length_map, List.length_range] at this
    exact this
  have hw : Weights (build lines) s := hB.weights hs hnonneg (by rw [hid]; exact hbound)
  obtain ⟨vs, d1, d2, d3, d4, d5⟩ := dijkstra_spec hB.wf hn hs hw fuel hfuel
  rw [hid] at d1
  refine ⟨_, d1, ?_, ?_⟩
  · intro a ha
    obtain ⟨i, hi1, hi2⟩ := hB.all_names a ha
    exact ⟨i, by dsimp only; omega, by dsimp only; rw [d3]; exact hi2⟩
  · intro v hv
    dsimp only at hv ⊢
    rw [d2] at hv
    rw [d3, ← hid]
    obtain ⟨e1, e2⟩ := d5 v hv
    constructor
    · intro hr
      exact hB.isMinDist hs hv (e1 ((hB.reachable_iff hs hv).1 hr))
    · intro hr
      exact e2 (fun h => hr ((hB.reachable_iff hs hv).2 h))

end Graph

end ECE365

namespace ECE365

/-! ## The hash table at its largest capacity -/

theorem countP_getD_range {α : Type} (p : α → Bool) (d : α) (l : List α) :
    l.countP p = (List.range l.length).countP (fun i => p (l.getD i d)) := by
  have h : l = (List.range l.length).map (fun i => l.getD i d) := by
    apply List.ext_getElem
    · rw [List.length_map, List.length_range]
    · intro i h1 h2
      rw [List.getElem_map, List.getElem_range, List.getD_eq_getElem _ _ h1]
  conv_lhs => rw [h]
  rw [List.countP_map]
  rfl

theorem primeNumbers_last : ∀ p ∈ primeNumbers, 1610612740 ≤ p → p = 1610612741 := by
  decide

namespace hashTable

/-- The table has at least as many occupied slots as it has keys. -/
theorem HInv.length_le_filled {t : hashTable} (hI : HInv t) (ks : List Key) (hnd : ks.Nodup)
    (hks : ∀ k, k ∈ ks → t.lookup k ≠ none) : ks.length ≤ t.filled := by
  have hpos : ∀ k, k ∈ ks → ∃ i, t.findPos k = some i := by
    intro k hk
    have := hks k hk
    unfold lookup at this
    cases h : t.findPos k with
    | none => rw [h] at this; exact absurd rfl this
    | some i => exact ⟨i, rfl⟩
  have hnd2 : (ks.map (fun k => (t.findPos k).getD 0)).Nodup := by
    apply List.Nodup.map_on _ hnd
    intro k hk k' hk' h
    obtain ⟨i, hi⟩ := hpos k hk
    obtain ⟨j, hj⟩ := hpos k' hk'
    rw [hi, hj] at h
    have hij : i = j := h
    have h1 := (findPos_eq_some_iff hI k i).1 hi
    have h2 := (findPos_eq_some_iff hI k' j).1 hj
    rw [← h1.2.2.2, ← h2.2.2.2, hij]
  have hsub : ks.map (fun k => (t.findPos k).getD 0) ⊆
      (List.range t.data.length).filter (fun i => (t.data.getD i default).isOccupied) := by
    intro x hx
    obtain ⟨k, hk, hkx⟩ := List.mem_map.1 hx
    obtain ⟨i, hi⟩ := hpos k hk
    rw [hi] at hkx
    have hix : i = x := hkx
    have h1 := (findPos_eq_some_iff hI k i).1 hi
    rw [← hix]
    exact List.mem_filter.2 ⟨List.mem_range.2 (by rw [hI.size]; exact h1.1), h1.2.1⟩
  have hle := (List.subperm_of_subset hnd2 hsub).length_le
  rw [List.length_map, ← List.countP_eq_length_filter,
    ← countP_getD_range (fun it => it.isOccupied) default t.data, ← hI.filled_eq] at hle
  exact hle

/-- A table with `805306370` keys has the largest capacity, and `insert` of a further key
returns `2` and leaves the table as it is. -/
theorem insert_of_many {t : hashTable} (hP : PInv t) (ks : List Key) (hnd : ks.Nodup)
    (hks : ∀ k, k ∈ ks → t.lookup k ≠ none) (hlen : ks.length = 805306370)
    (key : Key) (pv : Ptr) (hkey : t.lookup key = none) :
    t.insert key pv false = (t, 2) := by
  have h1 := hP.inv.length_le_filled ks hnd hks
  have h2 := hP.load
  have h3 : t.capacity = 1610612741 := primeNumbers_last _ hP.prime (by omega)
  apply insert_at_top key pv h3
  · rw [contains_eq_lookup, hkey]; rfl
  · omega

end hashTable

namespace Graph

/-- The function `getOrCreateVertex` for a name that is not in the hash table, when the hash
table has `805306370` keys: the new vertex is appended, and the hash table is as before. -/
theorem getOrCreateVertex_full {g : Graph} (hP : g.vertices.PInv) (ks : List Key)
    (hnd : ks.Nodup) (hks : ∀ k, k ∈ ks → g.vertices.lookup k ≠ none)
    (hlen : ks.length = 805306370) (a : Key) (ha : g.vertices.lookup a = none) :
    g.getOrCreateVertex a = (g.push a, some g.vertexList.length) := by
  unfold getOrCreateVertex
  rw [hashTable.getPointer_eq_lookup, ha, hashTable.insert_of_many hP ks hnd hks hlen _ _ ha]
  rfl

end Graph

end ECE365

namespace ECE365

/-! ## A graph with more names than the hash table can hold -/

theorem nameOf_inj {i j : Nat} (hi : i < 4294967296) (hj : j < 4294967296)
    (h : nameOf i = nameOf j) : i = j := by
  unfold nameOf at h
  simp only [List.cons.injEq, Fin.mk.injEq, and_true] at h
  omega

theorem isName_selfLoops (n : Nat) (a : Key) :
    IsName (selfLoops n) a ↔ ∃ j, j < n ∧ a = nameOf j := by
  unfold IsName selfLoops
  constructor
  · rintro ⟨t, ht, h⟩
    obtain ⟨j, hj, rfl⟩ := List.mem_map.1 ht
    refine ⟨j, List.mem_range.1 hj, ?_⟩
    rcases h with h | h <;> exact h.symm
  · rintro ⟨j, hj, rfl⟩
    exact ⟨_, List.mem_map.2 ⟨j, List.mem_range.2 hj, rfl⟩, Or.inl rfl⟩

theorem lineEdge_selfLoops {n : Nat} {a b : Key} {c : Int} (h : lineEdge (selfLoops n) a c b) :
    a = b ∧ c = 0 := by
  unfold lineEdge selfLoops at h
  obtain ⟨j, _, hj⟩ := List.mem_map.1 h
  injection hj with h1 h2 h3
  exact ⟨by rw [← h1, ← h2], h3.symm⟩

theorem nameOf_nodup (n : Nat) (hn : n ≤ 4294967296) : ((List.range n).map nameOf).Nodup := by
  apply List.Nodup.map_on _ (List.nodup_range _)
  intro i hi j hj h
  exact nameOf_inj (by have := List.mem_range.1 hi; omega) (by have := List.mem_range.1 hj; omega) h

/-- The lines `selfLoops n` have `n` distinct names. -/
theorem selfLoops_room (n : Nat) (ns : List Key) (hnd : ns.Nodup)
    (hns : ∀ a, a ∈ ns → IsName (selfLoops n) a) : ns.length ≤ n := by
  have hsub : ns ⊆ (List.range n).map nameOf := by
    intro a ha
    obtain ⟨j, hj, rfl⟩ := (isName_selfLoops n a).1 (hns a ha)
    exact List.mem_map.2 ⟨j, List.mem_range.2 hj, rfl⟩
  have := (List.subperm_of_subset hnd hsub).length_le
  rw [List.length_map, List.length_range] at this
  exact this

namespace Graph

theorem push_spec (g : Graph) (a : Key) :
    (g.push a).vertices = g.vertices ∧
    (g.push a).vertexList.length = g.vertexList.length + 1 ∧
    (∀ j, j < g.vertexList.length →
      (vertex (g.push a).vertexList j).id = (vertex g.vertexList j).id) ∧
    (vertex (g.push a).vertexList g.vertexList.length).id = a ∧
    ∀ j c k, (g.push a).edge j c k ↔ g.edge j c k := by
  refine ⟨rfl, by unfold push; dsimp only; rw [List.length_append, List.length_singleton],
    ?_, ?_, ?_⟩
  · intro j hj
    unfold push; dsimp only
    rw [vertex_append_left _ _ j hj]
  · unfold push; dsimp only
    rw [vertex_append_length]
  · intro j c k
    unfold edge push
    dsimp only
    by_cases hj : j < g.vertexList.length
    · rw [vertex_append_left _ _ j hj]
    · by_cases hj2 : j = g.vertexList.length
      · rw [hj2, vertex_append_length, vertex_default _ _ (le_refl _)]
        rfl
      · rw [vertex_default _ _ (by rw [List.length_append, List.length_singleton]; omega),
          vertex_default _ _ (by omega)]

theorem addEdge_edge (g : Graph) (v1 : Nat) (h1 : v1 < g.vertexList.length) (v2 : Nat)
    (weight : Int) :
    (g.addEdge v1 v2 weight).vertices = g.vertices ∧
    (g.addEdge v1 v2 weight).vertexList.length = g.vertexList.length ∧
    (∀ j, (vertex (g.addEdge v1 v2 weight).vertexList j).id = (vertex g.vertexList j).id) ∧
    ∀ j c k, (g.addEdge v1 v2 weight).edge j c k ↔
      (g.edge j c k ∨ (j = v1 ∧ c = weight ∧ k = v2)) := by
  have hvx : ∀ j, vertex (g.addEdge v1 v2 weight).vertexList j =
      if j = v1 then { vertex g.vertexList v1 with
        adjList := (vertex g.vertexList v1).adjList ++
          [{ weight := weight, destination := v2 }] }
      else vertex g.vertexList j := fun j => vertex_set _ v1 j _ h1
  have hadj : ∀ j, (vertex (g.addEdge v1 v2 weight).vertexList j).adjList =
      if j = v1 then (vertex g.vertexList v1).adjList ++
          [{ weight := weight, destination := v2 }]
      else (vertex g.vertexList j).adjList := by
    intro j; rw [hvx]; split <;> rfl
  refine ⟨rfl, by unfold addEdge; dsimp only; rw [List.length_set], ?_, ?_⟩
  · intro j; rw [hvx]; split
    · rename_i h; rw [h]
    · rfl
  · intro j c k
    unfold edge
    rw [hadj]
    split
    · rename_i hj
      rw [List.mem_append, List.mem_singleton, hj]
      constructor
      · rintro (h | h)
        · exact Or.inl h
        · right
          injection h with e1 e2
          exact ⟨rfl, e1, e2⟩
      · rintro (h | ⟨_, e1, e2⟩)
        · exact Or.inl h
        · right; rw [e1, e2]
    · rename_i hj
      constructor
      · intro h; exact Or.inl h
      · rintro (h | ⟨e, _⟩)
        · exact h
        · exact absurd e hj

end Graph

end ECE365

namespace ECE365

namespace Graph

theorem longLines_eq (n : Nat) :
    longLines n = (selfLoops n ++ [{ sourceId := nameOf 0, destId := nameOf n, weight := 1 }]) ++
      [{ sourceId := nameOf n, destId := nameOf (n + 1), weight := 1 }] := by
  unfold longLines
  rw [List.append_assoc]
  rfl

/-- The graph built from the lines `longLines 805306370`: the hash table is filled up by the
first `805306370` names, and the name `nameOf n` gets two vertices, at `n0` and at
`n0 + 1`. -/
theorem build_longLines_twice (n : Nat) (hn : n = 805306370) :
    ∃ a0 n0, LongGraph n (build (longLines n)) a0 n0 ∧
      (vertex (build (longLines n)).vertexList (n0 + 1)).id = nameOf n := by
  have hB : BInv (selfLoops n) (build (selfLoops n)) :=
    build_binv _ (fun ns h1 h2 => by have := selfLoops_room n ns h1 h2; omega)
  have hbuild : build (longLines n) =
      ((build (selfLoops n)).insertEdge (nameOf 0) (nameOf n) 1).insertEdge
        (nameOf n) (nameOf (n + 1)) 1 := by
    unfold build
    rw [longLines_eq, loadGraph_append, loadGraph_append]
  rw [hbuild]
  generalize build (selfLoops n) = g0 at hB
  obtain ⟨a0, ha0, hida⟩ := hB.all_names (nameOf 0) ((isName_selfLoops n _).2 ⟨0, by omega, rfl⟩)
  -- the keys of the hash table
  have hnd := nameOf_nodup n (by omega)
  have hks : ∀ k, k ∈ (List.range n).map nameOf → g0.vertices.lookup k ≠ none := by
    intro k hk
    obtain ⟨j, hj, rfl⟩ := List.mem_map.1 hk
    obtain ⟨i, hi1, hi2⟩ := hB.all_names (nameOf j)
      ((isName_selfLoops n _).2 ⟨j, List.mem_range.1 hj, rfl⟩)
    rw [← hi2, hB.wf.lookup_id i hi1]
    exact Option.some_ne_none _
  have hlen : ((List.range n).map nameOf).length = 805306370 := by
    rw [List.length_map, List.length_range, hn]
  have hnew : ∀ m, n ≤ m → m < 4294967296 → g0.vertices.lookup (nameOf m) = none := by
    intro m hm1 hm2
    by_contra h
    obtain ⟨i, hi1, hi2⟩ := hB.wf.lookup_onto _ h
    obtain ⟨j, hj1, hj2⟩ := (isName_selfLoops n _).1 (hB.names i hi1)
    rw [hi2] at hj2
    have := nameOf_inj hm2 (by omega) hj2
    omega
  have hn0 : g0.vertexList.length ≤ n := by
    have := selfLoops_room n _ (names_nodup hB.wf) (by
      intro a ha
      obtain ⟨i, hi, hia⟩ := List.mem_map.1 ha
      rw [← hia]
      exact hB.names i (List.mem_range.1 hi))
    rw [List.length_map, List.length_range] at this
    exact this
  -- the first line
  have c1 : g0.getOrCreateVertex (nameOf 0) = (g0, some a0) := by
    rw [← hida]; exact getOrCreateVertex_found hB.wf ha0
  have c2 := getOrCreateVertex_full hB.wf.table _ hnd hks hlen (nameOf n)
    (hnew n (le_refl _) (by omega))
  have e1 : g0.insertEdge (nameOf 0) (nameOf n) 1 = (g0.push (nameOf n)).addEdge a0
      g0.vertexList.length 1 := by
    rw [insertEdge_eq g0 (nameOf 0) (nameOf n) 1 a0 g0.vertexList.length
      (by rw [c1]) (by rw [c1]; dsimp only; rw [c2])]
    rw [c1]; dsimp only; rw [c2]
  obtain ⟨p1, p2, p3, p4, p5⟩ := push_spec g0 (nameOf n)
  obtain ⟨q1, q2, q3, q4⟩ := addEdge_edge (g0.push (nameOf n)) a0 (by omega)
    g0.vertexList.length 1
  rw [e1]
  generalize (g0.push (nameOf n)).addEdge a0 g0.vertexList.length 1 = g1 at q1 q2 q3 q4 ⊢
  -- the second line
  have hv1 : g1.vertices = g0.vertices := by rw [q1, p1]
  have hl1 : g1.vertexList.length = g0.vertexList.length + 1 := by rw [q2, p2]
  have c3 := getOrCreateVertex_full (g := g1) (by rw [hv1]; exact hB.wf.table) _ hnd
    (by rw [hv1]; exact hks) hlen (nameOf n) (by rw [hv1]; exact hnew n (le_refl _) (by omega))
  obtain ⟨r1, r2, r3, r4, r5⟩ := push_spec g1 (nameOf n)
  have c4 := getOrCreateVertex_full (g := g1.push (nameOf n))
    (by rw [r1, hv1]; exact hB.wf.table) _ hnd
    (by rw [r1, hv1]; exact hks) hlen (nameOf (n + 1))
    (by rw [r1, hv1]; exact hnew (n + 1) (by omega) (by omega))
  have e2 : g1.insertEdge (nameOf n) (nameOf (n + 1)) 1 =
      ((g1.push (nameOf n)).push (nameOf (n + 1))).addEdge g1.vertexList.length
        (g1.push (nameOf n)).vertexList.length 1 := by
    rw [insertEdge_eq g1 (nameOf n) (nameOf (n + 1)) 1 g1.vertexList.length
      (g1.push (nameOf n)).vertexList.length
      (by rw [c3]) (by rw [c3]; dsimp only; rw [c4])]
    rw [c3]; dsimp only; rw [c4]
  rw [e2]
  generalize g1.push (nameOf n) = g2 at r1 r2 r3 r4 r5 ⊢
  obtain ⟨s1, s2, s3, s4, s5⟩ := push_spec g2 (nameOf (n + 1))
  generalize g2.push (nameOf (n + 1)) = g3 at s1 s2 s3 s4 s5 ⊢
  obtain ⟨t1, t2, t3, t4⟩ := addEdge_edge g3 g1.vertexList.length (by omega)
    g2.vertexList.length 1
  generalize g3.addEdge g1.vertexList.length g2.vertexList.length 1 = g4 at t1 t2 t3 t4 ⊢
  have hv4 : g4.vertices = g0.vertices := by rw [t1, s1, r1, hv1]
  have hlook : g0.vertices.lookup (nameOf 0) = some (some a0) := by
    rw [← hida]; exact hB.wf.lookup_id a0 ha0
  refine ⟨a0, g0.vertexList.length, ⟨ha0, hn0, by omega, ?_, ?_, ?_, ?_, ?_, ?_⟩, ?_⟩
  · rw [hv4, hashTable.getPointer_eq_lookup, hlook]
  · unfold isValidVertex
    rw [hv4, hashTable.contains_eq_lookup, hlook]
    rfl
  · rw [t3, s3 a0 (by omega), r3 a0 (by omega), q3, p3 a0 ha0]
    exact hida
  · rw [t3, s3 _ (by omega), r3 _ (by omega), q3]
    exact p4
  · rw [t3]
    have : g0.vertexList.length + 2 = g2.vertexList.length := by omega
    rw [this]
    exact s4
  · intro j c k h
    rw [t4, s5, r5, q4, p5] at h
    rcases h with (h | h) | h
    · left
      obtain ⟨h1, h2, h3⟩ := (hB.edges j c k).1 h
      obtain ⟨h4, h5⟩ := lineEdge_selfLoops h3
      exact ⟨hB.wf.ids_inj k j h2 h1 h4.symm, h1, h5⟩
    · right; left; exact h
    · right; right
      obtain ⟨h1, h2, h3⟩ := h
      exact ⟨by omega, h2, by omega⟩
  · rw [t3, s3 _ (by omega)]
    have : g0.vertexList.length + 1 = g1.vertexList.length := by omega
    rw [this]
    exact r4

/-- The graph built from the lines `longLines 805306370`: the hash table is filled up by the
first `805306370` names, and the name `nameOf n` gets two vertices. -/
theorem build_longLines (n : Nat) (hn : n = 805306370) :
    ∃ a0 n0, LongGraph n (build (longLines n)) a0 n0 := by
  obtain ⟨a0, n0, h, _⟩ := build_longLines_twice n hn
  exact ⟨a0, n0, h⟩

end Graph

end ECE365

namespace ECE365

theorem lineEdge_longLines {n : Nat} {a b : Key} {c : Int} (h : lineEdge (longLines n) a c b) :
    (a = b ∧ c = 0) ∨ (a = nameOf 0 ∧ c = 1 ∧ b = nameOf n) ∨
      (a = nameOf n ∧ c = 1 ∧ b = nameOf (n + 1)) := by
  unfold lineEdge longLines at h
  rcases List.mem_append.1 h with h1 | h1
  · exact Or.inl (lineEdge_selfLoops h1)
  · right
    rcases List.mem_cons.1 h1 with h2 | h2
    · left
      injection h2 with e1 e2 e3
      exact ⟨e1, e3, e2⟩
    · right
      rw [List.mem_singleton] at h2
      injection h2 with e1 e2 e3
      exact ⟨e1, e3, e2⟩

theorem longRank_bounds (n : Nat) (x : Key) : 0 ≤ longRank n x ∧ longRank n x ≤ 2 := by
  unfold longRank
  split
  · omega
  · split <;> omega

theorem longRank_values {n : Nat} (h0 : 0 < n) (hn : n + 1 < 4294967296) :
    longRank n (nameOf 0) = 0 ∧ longRank n (nameOf n) = 1 ∧ longRank n (nameOf (n + 1)) = 2 := by
  have h1 : nameOf (n + 1) ≠ nameOf n := fun e => by
    have := nameOf_inj (by omega) (by omega) e
    omega
  have h2 : nameOf 0 ≠ nameOf n := fun e => by
    have := nameOf_inj (by omega) (by omega) e
    omega
  have h3 : nameOf 0 ≠ nameOf (n + 1) := fun e => by
    have := nameOf_inj (by omega) (by omega) e
    omega
  unfold longRank
  rw [if_neg h2, if_neg h3, if_pos rfl, if_neg h1, if_pos rfl]
  exact ⟨rfl, rfl, rfl⟩

/-- The weight of a walk in the graph of the lines `longLines n` is the number of edges of
weight `1` between its ends: at most `2`. -/
theorem walk_longLines {n : Nat} (h0 : 0 < n) (hn : n + 1 < 4294967296) {a b : Key} {w : Int}
    {p : List Key} (h : Walk (lineEdge (longLines n)) a b w p) :
    w = longRank n b - longRank n a := by
  obtain ⟨r1, r2, r3⟩ := longRank_values h0 hn
  induction h with
  | nil => omega
  | @snoc u w p c v hw he ih =>
    rcases lineEdge_longLines he with ⟨e1, e2⟩ | ⟨e1, e2, e3⟩ | ⟨e1, e2, e3⟩
    · rw [← e1, e2, ih]; omega
    · rw [e1] at ih
      rw [e3, e2, ih]; omega
    · rw [e1] at ih
      rw [e3, e2, ih]; omega

theorem reachable_longLines (n : Nat) :
    Reachable (lineEdge (longLines n)) (nameOf 0) (nameOf (n + 1)) := by
  refine ⟨0 + 1 + 1, _, Walk.snoc 1 (nameOf (n + 1)) (Walk.snoc 1 (nameOf n) Walk.nil ?_) ?_⟩
  · unfold lineEdge longLines
    exact List.mem_append_right _ (List.mem_cons_self _ _)
  · unfold lineEdge longLines
    exact List.mem_append_right _ (List.mem_cons_of_mem _ (List.mem_singleton_self _))

theorem weight_longLines (n : Nat) : ∀ t, t ∈ longLines n → 0 ≤ t.weight := by
  intro t ht
  unfold longLines at ht
  rcases List.mem_append.1 ht with h | h
  · unfold selfLoops at h
    obtain ⟨j, _, rfl⟩ := List.mem_map.1 h
    exact le_refl _
  · rcases List.mem_cons.1 h with h | h
    · rw [h]; exact Int.one_nonneg
    · rw [List.mem_singleton] at h
      rw [h]; exact Int.one_nonneg

namespace Graph

theorem LongGraph.walk {n : Nat} {g : Graph} {a0 n0 : Nat} (hL : LongGraph n g a0 n0)
    {v : Nat} {w : Int} {p : List Nat} (h : Walk g.edge a0 v w p) :
    (v = a0 ∧ w = 0) ∨ (v = n0 ∧ w = 1) := by
  have hlt := hL.lt
  induction h with
  | nil => exact Or.inl ⟨rfl, rfl⟩
  | @snoc u w p c v hw he ih =>
    rcases hL.edges _ _ _ he with ⟨e1, _, e3⟩ | ⟨e1, e2, e3⟩ | ⟨e1, e2, e3⟩
    · rw [e1, e3, add_zero]; exact ih
    · right
      rcases ih with ⟨_, i2⟩ | ⟨i1, _⟩
      · rw [i2, e2, e3]; exact ⟨rfl, rfl⟩
      · omega
    · rcases ih with ⟨i1, _⟩ | ⟨i1, _⟩ <;> omega

theorem LongGraph.is_sound {n : Nat} {g : Graph} {a0 n0 : Nat} (hL : LongGraph n g a0 n0)
    (h0 : 0 < n) (hn : n < 4294967296) : g.Sound a0 := by
  constructor
  · intro i j _ _ hi hj hid
    obtain ⟨w1, p1, hw1⟩ := hi
    obtain ⟨w2, p2, hw2⟩ := hj
    have hne : nameOf 0 ≠ nameOf n := fun e => by
      have := nameOf_inj (by omega) hn e
      omega
    rcases hL.walk hw1 with ⟨i1, _⟩ | ⟨i1, _⟩ <;> rcases hL.walk hw2 with ⟨j1, _⟩ | ⟨j1, _⟩
    · rw [i1, j1]
    · rw [i1, j1, hL.id_a, hL.id_x] at hid
      exact absurd hid hne
    · rw [i1, j1, hL.id_a, hL.id_x] at hid
      exact absurd hid.symm hne
    · rw [i1, j1]
  · intro i _ e he
    have hlt := hL.lt
    rw [hL.len]
    have hedge : g.edge i e.weight e.destination := he
    rcases hL.edges _ _ _ hedge with ⟨e1, e2, _⟩ | ⟨_, _, e3⟩ | ⟨_, _, e3⟩ <;> omega

theorem LongGraph.small_weights {n : Nat} {g : Graph} {a0 n0 : Nat} (hL : LongGraph n g a0 n0) :
    Weights g a0 := by
  constructor
  · intro u c v he
    rcases hL.edges _ _ _ he with ⟨_, _, e3⟩ | ⟨_, e2, _⟩ | ⟨_, e2, _⟩ <;> omega
  · intro v w p hw _
    have : (2 : Int) < INT32_MAX := by decide
    rcases hL.walk hw with ⟨_, h⟩ | ⟨_, h⟩ <;> omega

theorem LongGraph.few {n : Nat} {g : Graph} {a0 n0 : Nat} (hL : LongGraph n g a0 n0)
    (l : List Nat) (hnd : l.Nodup) (hl : ∀ v, v ∈ l → Reachable g.edge a0 v) :
    l.length ≤ 805306370 := by
  have hsub : l ⊆ [a0, n0] := by
    intro v hv
    obtain ⟨w, p, hw⟩ := hl v hv
    rcases hL.walk hw with ⟨h, _⟩ | ⟨h, _⟩
    · rw [h]; exact List.mem_cons_self _ _
    · rw [h]; exact List.mem_cons_of_mem _ (List.mem_singleton_self _)
  have := (List.subperm_of_subset hnd hsub).length_le
  have h2 : [a0, n0].length = 2 := rfl
  omega

end Graph

end ECE365

namespace ECE365

namespace Graph

/-- The function `dijkstra` on the graph built from the lines `longLines 805306370`, from the
vertex `nameOf 0`: the weights are not negative, every walk weighs at most `2` and the start
is a vertex of the graph, but the vertex `nameOf (n + 1)`, which the path of weight `2`
reaches, is left with the distance `INT32_MAX`. -/
theorem dijkstra_longLines (n : Nat) (hn : n = 805306370) (fuel : Nat) (hfuel : n + 3 < fuel) :
    (∀ t, t ∈ longLines n → 0 ≤ t.weight) ∧
    (∀ a b w p, Walk (lineEdge (longLines n)) a b w p → w < INT32_MAX) ∧
    (build (longLines n)).isValidVertex (nameOf 0) = true ∧
    ∃ g, (build (longLines n)).dijkstra (nameOf 0) fuel = some g ∧
      ∃ v, v < g.vertexList.length ∧ (vertex g.vertexList v).id = nameOf (n + 1) ∧
        Reachable (lineEdge (longLines n)) (nameOf 0) (vertex g.vertexList v).id ∧
        (vertex g.vertexList v).distance = INT32_MAX ∧
        ¬ IsMinDist (lineEdge (longLines n)) (nameOf 0) (vertex g.vertexList v).id
          (vertex g.vertexList v).distance := by
  obtain ⟨a0, n0, hL⟩ := build_longLines n hn
  have hlt := hL.lt
  have hle := hL.le
  have hS := hL.is_sound (by omega) (by omega)
  obtain ⟨vs, d1, d2, d3, _, d5⟩ := dijkstra_sound hS hL.few (by rw [hL.len]; omega)
    hL.small_weights (nameOf 0) hL.ptr fuel (by rw [hL.len]; omega)
  have hmax : (2 : Int) < INT32_MAX := by decide
  have hid : (vertex vs (n0 + 2)).id = nameOf (n + 1) := by rw [d3, hL.id_y]
  have hdist : (vertex vs (n0 + 2)).distance = INT32_MAX := by
    apply (d5 (n0 + 2) (by rw [hL.len]; omega)).2
    rintro ⟨w, p, hw⟩
    rcases hL.walk hw with ⟨h, _⟩ | ⟨h, _⟩ <;> omega
  refine ⟨weight_longLines n, ?_, hL.valid, _, d1, n0 + 2, ?_, hid, ?_, hdist, ?_⟩
  · intro a b w p h
    have h1 := walk_longLines (by omega) (by omega) h
    have h2 := longRank_bounds n a
    have h3 := longRank_bounds n b
    omega
  · show n0 + 2 < vs.length
    rw [d2, hL.len]; omega
  · show Reachable _ _ (vertex vs (n0 + 2)).id
    rw [hid]; exact reachable_longLines n
  · show ¬ IsMinDist _ _ (vertex vs (n0 + 2)).id (vertex vs (n0 + 2)).distance
    rw [hid, hdist]
    rintro ⟨_, hmin⟩
    obtain ⟨w, p, hw⟩ := reachable_longLines n
    have h1 := hmin w p hw
    have h2 := walk_longLines (by omega) (by omega) hw
    have h3 := longRank_bounds n (nameOf 0)
    have h4 := longRank_bounds n (nameOf (n + 1))
    omega

end Graph

end ECE365

namespace ECE365

/-! ## The heap after an `insert` that returned `3` -/

/-- The heap after the insertion into the hash table has failed: the new node is in the slot
`currentSize`, and the hash table is as before, without the id of the new node. -/
theorem manyState_ghost {capacity n : Nat} {h : heap} (hs : ManyState capacity n h)
    (hn1 : 805306370 ≤ n) (hn2 : n < 4294967296) (hcap : n < capacity) :
    (h.insert (idOf n) (-1) none).1 = h.appended (idOf n) (-1) none ∧
    (h.appended (idOf n) (-1) none).mapping = h.mapping ∧
    (h.appended (idOf n) (-1) none).currentSize = n + 1 ∧
    (h.appended (idOf n) (-1) none).data.length = h.data.length ∧
    ∀ j, (h.appended (idOf n) (-1) none).slot j =
      if j = n + 1 then { id := idOf n, key := -1, pData := none } else h.slot j := by
  have habs := manyState_absent hs hn2
  have hf : ¬ h.currentSize ≥ h.capacity := by rw [hs.size, hs.cap]; omega
  have htop := hashTable.insert_at_top (t := h.mapping) (idOf n)
    (some (h.currentSize + 1)) hs.mcap habs (by rw [hs.mfilled, hs.mcap]; omega)
  have hins : h.insert (idOf n) (-1) none = (h.appended (idOf n) (-1) none, 3) :=
    heap.insert_of_fail _ _ _ hf (by rw [habs]; simp) (by rw [htop]; simp)
  have hlen : h.currentSize + 1 < h.data.length := by
    have := hs.inv.size; omega
  have e : h.currentSize + 1 = n + 1 := by rw [hs.size]
  refine ⟨by rw [hins], ?_, e, List.length_set _ _ _, ?_⟩
  · show (h.mapping.insert _ _ false).1 = _
    rw [htop]
  · intro j
    rw [← e]
    exact heap.getD_set h.data (h.currentSize + 1) j
      { id := idOf n, key := -1, pData := none } hlen

/-- The node that an `insert` returning `3` left in the heap is not found by `remove` and
`setKey`, which return `1`. -/
theorem ghost_not_found {capacity n : Nat} {h : heap} (hs : ManyState capacity n h)
    (hn1 : 805306370 ≤ n) (hn2 : n < 4294967296) (hcap : n < capacity) (p : Int) :
    ({ id := idOf n, key := -1, pData := none } : node) ∈
      (h.insert (idOf n) (-1) none).1.nodes ∧
    idOf n ∈ (h.insert (idOf n) (-1) none).1.ids ∧
    ((h.insert (idOf n) (-1) none).1.remove (idOf n)).2 = (1, none) ∧
    ((h.insert (idOf n) (-1) none).1.setKey (idOf n) p).2 = 1 := by
  obtain ⟨g1, g2, g3, _, g4⟩ := manyState_ghost hs hn1 hn2 hcap
  have habs := manyState_absent hs hn2
  rw [g1]
  have hmem : ({ id := idOf n, key := -1, pData := none } : node) ∈
      (h.appended (idOf n) (-1) none).nodes :=
    (heap.mem_nodes_iff _ _).2 ⟨n + 1, by omega, by omega, by rw [g4, if_pos rfl]⟩
  refine ⟨hmem, List.mem_map.2 ⟨_, hmem, rfl⟩, ?_, ?_⟩
  · rw [heap.remove_of_absent _ (by rw [g2]; exact habs)]
  · rw [heap.setKey_of_absent _ _ (by rw [g2]; exact habs)]

/-- After an `insert` that returned `3`, `setKey` for the id of the root, with the key that
the root has, returns `0` and leaves the heap out of heap order. -/
theorem ghost_setKey {capacity n : Nat} {h : heap} (hs : ManyState capacity n h)
    (hn1 : 805306370 ≤ n) (hn2 : n < 4294967296) (hcap : n < capacity) :
    ((h.insert (idOf n) (-1) none).1.slot 1).id ∈ (h.insert (idOf n) (-1) none).1.ids ∧
    ((h.insert (idOf n) (-1) none).1.setKey
      ((h.insert (idOf n) (-1) none).1.slot 1).id 0).2 = 0 ∧
    ¬ ((h.insert (idOf n) (-1) none).1.setKey
      ((h.insert (idOf n) (-1) none).1.slot 1).id 0).1.Ordered := by
  obtain ⟨g1, g2, g3, g5, g4⟩ := manyState_ghost hs hn1 hn2 hcap
  rw [g1]
  generalize h.appended (idOf n) (-1) none = H at g2 g3 g4 g5
  have hI := hs.inv
  have hsz := hs.size
  have hsize := hI.size
  have hbound := hI.bound
  have h1 : H.slot 1 = h.slot 1 := by rw [g4, if_neg (by omega)]
  have hk : ∀ j, 1 ≤ j → j ≤ n → (h.slot j).key = 0 := fun j hj1 hj2 =>
    hs.keys _ ((heap.mem_nodes_iff h _).2 ⟨j, hj1, by omega, rfl⟩)
  have hcont : H.mapping.contains (H.slot 1).id = true := by
    rw [g2, h1]; exact (hI.contains_iff _).2 ⟨1, le_refl _, by omega, rfl⟩
  have hptr : H.mapping.getPointer (H.slot 1).id = (some 1, true) := by
    rw [g2, h1]; exact hI.getPointer (le_refl _) (by omega)
  have hkey1 : (H.slot 1).key = 0 := by rw [h1]; exact hk 1 (le_refl _) (by omega)
  have hset : H.setKey (H.slot 1).id 0 = ((H.keyed 1 0).percolateUp 1, 0) := by
    unfold heap.setKey
    rw [hcont, hptr]
    dsimp only
    rw [hkey1, if_neg (by decide)]
    rfl
  have hup : (H.keyed 1 0).percolateUp 1 = (H.keyed 1 0).fill 1 ((H.keyed 1 0).slot 1) := by
    rw [heap.percolateUp_eq, heap.percolateUpLoop_succ, if_neg (by omega)]
  have hlenK : 1 < (H.keyed 1 0).data.length := by
    show 1 < (H.data.set 1 _).length
    rw [List.length_set, g5]; omega
  have hslotK : ∀ j, j ≠ 1 → (H.keyed 1 0).slot j = H.slot j := by
    intro j hj
    have := heap.getD_set H.data 1 j { H.slot 1 with key := 0 } (by rw [g5]; omega)
    rw [if_neg hj] at this
    exact this
  have hslotR : ∀ j, j ≠ 1 → ((H.keyed 1 0).fill 1 ((H.keyed 1 0).slot 1)).slot j = H.slot j := by
    intro j hj
    rw [heap.fill_slot _ 1 j _ hlenK, if_neg hj, hslotK j hj]
  refine ⟨(heap.mem_ids_iff H _).2 ⟨1, le_refl _, by omega, rfl⟩, by rw [hset], ?_⟩
  rw [hset, hup]
  intro ho
  have hcs : ((H.keyed 1 0).fill 1 ((H.keyed 1 0).slot 1)).currentSize = n + 1 := g3
  have h2 := ho (n + 1) (by omega) (by rw [hcs])
  rw [hslotR _ (by omega), hslotR _ (by omega), g4, g4, if_pos rfl, if_neg (by omega),
    hk _ (by omega) (by omega)] at h2
  have h3 : (0 : Int) ≤ -1 := h2
  omega

theorem runHeapCalls_failingCalls (capacity n : Nat) :
    runHeapCalls (heap.init capacity) (failingCalls n) =
      ((runHeapCalls (heap.init capacity) (manyInserts n)).insert (idOf n) (-1) none).1 := by
  unfold failingCalls
  rw [runHeapCalls_append]
  rfl

/-- After the calls `failingCalls n`, the last of which returned `3`, the node of the last
call is in the heap, but `remove` for its id returns `1` and writes nothing. -/
theorem failingCalls_remove (capacity n : Nat)
    (hc : getPrime ((capacity : Int) * 2) = 1610612741) (hn : n = 805306370)
    (hcap : n < capacity) :
    ({ id := idOf n, key := -1, pData := none } : node) ∈
      (runHeapCalls (heap.init capacity) (failingCalls n)).nodes ∧
    idOf n ∈ (runHeapCalls (heap.init capacity) (failingCalls n)).ids ∧
    ((runHeapCalls (heap.init capacity) (failingCalls n)).remove (idOf n)).2 = (1, none) := by
  obtain ⟨_, hs⟩ := manyState_run capacity hc n (by omega) (by omega)
  obtain ⟨f1, f2, f3, _⟩ := ghost_not_found hs (by omega) (by omega) hcap 0
  rw [runHeapCalls_failingCalls]
  exact ⟨f1, f2, f3⟩

/-- After the calls `failingCalls n`, the last of which returned `3`, `setKey` for the id of
the root returns `0` and the heap-order property does not hold afterwards. -/
theorem failingCalls_setKey (capacity n : Nat)
    (hc : getPrime ((capacity : Int) * 2) = 1610612741) (hn : n = 805306370)
    (hcap : n < capacity) :
    ((runHeapCalls (heap.init capacity) (failingCalls n)).slot 1).id ∈
      (runHeapCalls (heap.init capacity) (failingCalls n)).ids ∧
    ((runHeapCalls (heap.init capacity) (failingCalls n)).setKey
      ((runHeapCalls (heap.init capacity) (failingCalls n)).slot 1).id 0).2 = 0 ∧
    ¬ ((runHeapCalls (heap.init capacity) (failingCalls n)).setKey
      ((runHeapCalls (heap.init capacity) (failingCalls n)).slot 1).id 0).1.Ordered := by
  obtain ⟨_, hs⟩ := manyState_run capacity hc n (by omega) (by omega)
  rw [runHeapCalls_failingCalls]
  exact ghost_setKey hs (by omega) (by omega) hcap

end ECE365

namespace ECE365

namespace heap

/-! ## The heap after an `insert` returned `3`: the weak invariant -/

theorem WHole.hole_lt {h : heap} {pos : Nat} {tmp : node} (hb : WHole h pos tmp) :
    pos < h.data.length := by
  have := hb.size; have := hb.bound; have := hb.pos_le; omega

theorem Inv.weak {h : heap} (hI : Inv h) : WInv h := by
  refine ⟨hI.pinv, hI.size, hI.bound, ?_⟩
  intro x hx
  obtain ⟨i, hi1, hi2, hi3⟩ := hI.onto x hx
  refine ⟨i, by rw [← hi3]; exact hI.indexed i hi1 hi2, hi1, hi2, hi3, ?_⟩
  intro j hj1 hj2 hj3
  exact hI.inj hj1 hj2 hi1 hi2 (by rw [hj3, hi3])

/-- A slot of the heap can be taken as the hole of a percolation. -/
theorem WInv.hole {h : heap} (hW : WInv h) {i : Nat} (hi1 : 1 ≤ i) (hi2 : i ≤ h.currentSize) :
    WHole h i (h.slot i) := by
  refine ⟨hW.pinv, hW.size, hW.bound, hi1, hi2, ?_⟩
  intro x hx
  obtain ⟨i0, m1, m2, m3, m4, m5⟩ := hW.mapped x hx
  by_cases hxi : x = (h.slot i).id
  · left
    refine ⟨hxi, ?_⟩
    intro j hj1 hj2 hj3 hj4
    have e1 := m5 j hj1 hj2 hj4
    have e2 := m5 i hi1 hi2 hxi.symm
    omega
  · right
    refine ⟨hxi, i0, m1, m2, m3, ?_, m4, fun j hj1 hj2 _ hj4 => m5 j hj1 hj2 hj4⟩
    intro e
    rw [e] at m4
    exact hxi m4.symm

/-- The content of the hole and the key and payload of the node held aside do not matter. -/
theorem WHole.retarget {h : heap} {pos : Nat} {tmp : node} (hb : WHole h pos tmp)
    (a tmp' : node) (hid : tmp'.id = tmp.id) :
    WHole { h with data := h.data.set pos a } pos tmp' := by
  have hslot : ∀ j, j ≠ pos →
      ({ h with data := h.data.set pos a } : heap).slot j = h.slot j := by
    intro j hj
    have := getD_set h.data pos j a hb.hole_lt
    rw [if_neg hj] at this
    exact this
  refine ⟨hb.pinv, by show (h.data.set pos a).length = _; rw [List.length_set]; exact hb.size,
    hb.bound, hb.pos_ge, hb.pos_le, ?_⟩
  intro x hx
  rw [hid]
  rcases hb.mapped x hx with ⟨c1, c2⟩ | ⟨c1, i, c2, c3, c4, c5, c6, c7⟩
  · left
    refine ⟨c1, ?_⟩
    intro j hj1 hj2 hj3
    rw [hslot j hj3]
    exact c2 j hj1 hj2 hj3
  · right
    refine ⟨c1, i, c2, c3, c4, c5, by rw [hslot i c5]; exact c6, ?_⟩
    intro j hj1 hj2 hj3 hj4
    rw [hslot j hj3] at hj4
    exact c7 j hj1 hj2 hj3 hj4

/-- One step of a percolation keeps the weak invariant: the node of slot `q` is moved into
the hole, and `q` is the new hole. -/
theorem WHole.move_hole {h : heap} {pos q : Nat} {tmp : node} (hb : WHole h pos tmp)
    (hq1 : 1 ≤ q) (hq2 : q ≤ h.currentSize) (hqp : q ≠ pos) :
    WHole (h.move pos q) q tmp := by
  have hslot := fun j => move_slot h pos q j hb.hole_lt
  have hlook : ∀ x, (h.move pos q).mapping.lookup x =
      if x = (h.slot q).id ∧ (h.mapping.lookup (h.slot q).id).isSome then some (some pos)
      else h.mapping.lookup x :=
    fun x => hashTable.lookup_setPointer hb.pinv.inv _ _ x
  refine ⟨hashTable.setPointer_pinv hb.pinv _ _,
    by show (h.data.set pos _).length = _; rw [List.length_set]; exact hb.size,
    hb.bound, hq1, hq2, ?_⟩
  intro x hx
  have hx0 : h.mapping.lookup x ≠ none := by
    rw [hlook] at hx
    split at hx
    · rename_i hc
      rw [hc.1]
      intro e
      rw [e] at hc
      exact absurd hc.2 (by simp)
    · exact hx
  rcases hb.mapped x hx0 with ⟨c1, c2⟩ | ⟨c1, i, c2, c3, c4, c5, c6, c7⟩
  · left
    refine ⟨c1, ?_⟩
    intro j hj1 hj2 hj3
    rw [hslot j]
    split
    · exact c2 q hq1 hq2 hqp
    · rename_i hjp
      exact c2 j hj1 hj2 hjp
  · right
    refine ⟨c1, ?_⟩
    by_cases hiq : i = q
    · have hxk : x = (h.slot q).id := by rw [← hiq, c6]
      refine ⟨pos, ?_, hb.pos_ge, hb.pos_le, fun e => hqp e.symm, ?_, ?_⟩
      · rw [hlook, if_pos ⟨hxk, by rw [← hxk, c2]; rfl⟩]
      · rw [hslot pos, if_pos rfl]; exact hxk.symm
      · intro j hj1 hj2 hj3 hj4
        by_contra hjp
        rw [hslot j, if_neg hjp] at hj4
        have := c7 j hj1 hj2 hjp hj4
        omega
    · have hxk : x ≠ (h.slot q).id := by
        intro e
        exact hiq (c7 q hq1 hq2 hqp e.symm).symm
      refine ⟨i, ?_, c3, c4, hiq, ?_, ?_⟩
      · rw [hlook, if_neg (fun hc => hxk hc.1)]; exact c2
      · rw [hslot i, if_neg c5]; exact c6
      · intro j hj1 hj2 hj3 hj4
        rw [hslot j] at hj4
        split at hj4
        · exact absurd hj4.symm hxk
        · rename_i hjp
          exact c7 j hj1 hj2 hjp hj4

/-- The end of a percolation gives the weak invariant back. -/
theorem WHole.fill_weak {h : heap} {pos : Nat} {tmp : node} (hb : WHole h pos tmp) :
    WInv (h.fill pos tmp) := by
  have hslot := fun j => fill_slot h pos j tmp hb.hole_lt
  have hlook : ∀ x, (h.fill pos tmp).mapping.lookup x =
      if x = tmp.id ∧ (h.mapping.lookup tmp.id).isSome then some (some pos)
      else h.mapping.lookup x :=
    fun x => hashTable.lookup_setPointer hb.pinv.inv _ _ x
  refine ⟨hashTable.setPointer_pinv hb.pinv _ _,
    by show (h.data.set pos _).length = _; rw [List.length_set]; exact hb.size,
    hb.bound, ?_⟩
  intro x hx
  have hx0 : h.mapping.lookup x ≠ none := by
    rw [hlook] at hx
    split at hx
    · rename_i hc
      rw [hc.1]
      intro e
      rw [e] at hc
      exact absurd hc.2 (by simp)
    · exact hx
  rcases hb.mapped x hx0 with ⟨c1, c2⟩ | ⟨c1, i, c2, c3, c4, c5, c6, c7⟩
  · refine ⟨pos, ?_, hb.pos_ge, hb.pos_le, ?_, ?_⟩
    · have hsome : (h.mapping.lookup tmp.id).isSome = true := by
        rw [← c1]
        cases hl : h.mapping.lookup x with
        | none => exact absurd hl hx0
        | some v => rfl
      rw [hlook, if_pos ⟨c1, hsome⟩]
    · rw [hslot pos, if_pos rfl]; exact c1.symm
    · intro j hj1 hj2 hj3
      by_contra hjp
      rw [hslot j, if_neg hjp] at hj3
      exact c2 j hj1 hj2 hjp hj3
  · refine ⟨i, ?_, c3, c4, ?_, ?_⟩
    · rw [hlook, if_neg (fun hc => c1 hc.1)]; exact c2
    · rw [hslot i, if_neg c5]; exact c6
    · intro j hj1 hj2 hj3
      rw [hslot j] at hj3
      split at hj3
      · exact absurd hj3.symm c1
      · rename_i hjp
        exact c7 j hj1 hj2 hjp hj3

end heap

end ECE365

namespace ECE365

namespace heap

theorem percolateUpLoop_weak (tmp : node) :
    ∀ (fuel : Nat) (h : heap) (pos : Nat), WHole h pos tmp →
      WHole (percolateUpLoop tmp fuel h pos).1 (percolateUpLoop tmp fuel h pos).2 tmp := by
  intro fuel
  induction fuel with
  | zero => intro h pos hb; exact hb
  | succ fuel ih =>
    intro h pos hb
    rw [percolateUpLoop_succ]
    split
    · rename_i hc
      have hle := hb.pos_le
      exact ih _ _ (hb.move_hole (by omega) (by omega) (by omega))
    · exact hb

theorem percolateDownLoop_weak (tmp : node) :
    ∀ (fuel : Nat) (h : heap) (pos : Nat), WHole h pos tmp →
      WHole (percolateDownLoop tmp fuel h pos).1 (percolateDownLoop tmp fuel h pos).2 tmp := by
  intro fuel
  induction fuel with
  | zero => intro h pos hb; exact hb
  | succ fuel ih =>
    intro h pos hb
    rw [percolateDownLoop_succ]
    split
    · rename_i hc
      split
      · exact hb
      · obtain ⟨m1, m2, _⟩ := minChild_spec h pos hc
        have hge := hb.pos_ge
        exact ih _ _ (hb.move_hole (by omega) m2 (by omega))
    · exact hb

theorem percolateUp_weak {h : heap} {pos : Nat} (hb : WHole h pos (h.slot pos)) :
    WInv (h.percolateUp pos) := by
  rw [percolateUp_eq]
  exact (percolateUpLoop_weak _ _ _ _ hb).fill_weak

theorem percolateDown_weak {h : heap} {pos : Nat} (hb : WHole h pos (h.slot pos)) :
    WInv (h.percolateDown pos) := by
  rw [percolateDown_eq]
  exact (percolateDownLoop_weak _ _ _ _ hb).fill_weak

/-- The slot that the hash table gives for an id that it contains. -/
theorem WInv.pointer_of {h : heap} (hW : WInv h) {id : Key}
    (hc : h.mapping.contains id = true) :
    ∃ i, h.mapping.getPointer id = (some i, true) ∧ 1 ≤ i ∧ i ≤ h.currentSize ∧
      (h.slot i).id = id ∧ ∀ j, 1 ≤ j → j ≤ h.currentSize → (h.slot j).id = id → j = i := by
  have hl : h.mapping.lookup id ≠ none := by
    rw [hashTable.contains_eq_lookup] at hc
    intro e
    rw [e] at hc
    exact absurd hc (by simp)
  obtain ⟨i, m1, m2, m3, m4, m5⟩ := hW.mapped id hl
  exact ⟨i, by rw [hashTable.getPointer_eq_lookup, m1], m2, m3, m4, m5⟩

theorem keyed_weak {h : heap} (hW : WInv h) {i : Nat} (hi1 : 1 ≤ i) (hi2 : i ≤ h.currentSize)
    (key : Int) : WHole (h.keyed i key) i ((h.keyed i key).slot i) := by
  have hlt : i < h.data.length := by
    have := hW.size; have := hW.bound; omega
  have hs : (h.keyed i key).slot i = { h.slot i with key := key } := by
    have := getD_set h.data i i { h.slot i with key := key } hlt
    rw [if_pos rfl] at this
    exact this
  rw [hs]
  exact (hW.hole hi1 hi2).retarget _ _ rfl

theorem setKey_weak {h : heap} (hW : WInv h) (id : Key) (key : Int) :
    WInv (h.setKey id key).1 := by
  by_cases hc : h.mapping.contains id = true
  · obtain ⟨i, g1, g2, g3, _, _⟩ := hW.pointer_of hc
    have he : h.setKey id key =
        if key > (h.slot i).key then ((h.keyed i key).percolateDown i, 0)
        else ((h.keyed i key).percolateUp i, 0) := by
      unfold setKey
      rw [hc, g1]
      rfl
    rw [he]
    split
    · exact percolateDown_weak (keyed_weak hW g2 g3 key)
    · exact percolateUp_weak (keyed_weak hW g2 g3 key)
  · rw [setKey_of_absent id key (by simpa using hc)]; exact hW

theorem setKey_frame (h : heap) (id : Key) (key : Int) : Frame h (h.setKey id key).1 := by
  unfold setKey
  split
  · exact Frame.refl h
  · split
    · exact Frame.refl h
    · rename_i pn _
      have hk : Frame h ({ h with data := h.data.set pn { h.slot pn with key := key } } : heap) :=
        ⟨rfl, rfl, List.length_set _ _ _, rfl, rfl, fun x => x⟩
      dsimp only
      split
      · exact hk.trans (percolateDown_frame _ _)
      · exact hk.trans (percolateUp_frame _ _)

end heap

end ECE365

namespace ECE365

namespace heap

theorem beheaded_weak_gt {h : heap} (hW : WInv h) (h1 : h.currentSize > 1) :
    WHole h.beheaded 1 (h.beheaded.slot 1) := by
  have hlt : 1 < h.data.length := by
    have := hW.size; have := hW.bound; omega
  have hslot : ∀ j, h.beheaded.slot j = if j = 1 then h.slot h.currentSize else h.slot j := by
    intro j
    rw [beheaded_of_gt h1]
    exact getD_set h.data 1 j _ hlt
  have hcs : h.beheaded.currentSize = h.currentSize - 1 := by rw [beheaded_of_gt h1]
  have hcap : h.beheaded.capacity = h.capacity := by rw [beheaded_of_gt h1]
  have hmap : h.beheaded.mapping = ((h.mapping.remove (h.slot 1).id).1.setPointer
      (h.slot h.currentSize).id (some 1)).1 := by rw [beheaded_of_gt h1]
  have hP1 := hashTable.remove_pinv hW.pinv (h.slot 1).id
  have hlook : ∀ x, h.beheaded.mapping.lookup x ≠ none →
      h.mapping.lookup x ≠ none ∧ x ≠ (h.slot 1).id ∧
      (x ≠ (h.slot h.currentSize).id → h.beheaded.mapping.lookup x = h.mapping.lookup x) := by
    intro x hx
    rw [hmap, hashTable.lookup_setPointer hP1.inv] at hx
    rw [hmap, hashTable.lookup_setPointer hP1.inv]
    have hr := hashTable.lookup_remove hW.pinv.inv (h.slot 1).id
    split at hx
    · rename_i hc
      have h2 : (h.mapping.remove (h.slot 1).id).1.lookup (h.slot h.currentSize).id ≠ none := by
        intro e; rw [e] at hc; exact absurd hc.2 (by simp)
      rw [hr] at h2
      split at h2
      · exact absurd rfl h2
      · rename_i hne
        rw [hc.1]
        exact ⟨h2, hne, fun e => absurd rfl e⟩
    · rename_i hc
      rw [hr] at hx
      split at hx
      · exact absurd rfl hx
      · rename_i hne
        refine ⟨hx, hne, fun _ => ?_⟩
        rw [if_neg hc, hr, if_neg hne]
  refine ⟨by rw [hmap]; exact hashTable.setPointer_pinv hP1 _ _,
    by rw [beheaded_of_gt h1]; show (h.data.set 1 _).length = _
       rw [List.length_set]; exact hW.size,
    by rw [hcs, hcap]; have := hW.bound; omega, le_refl _, by rw [hcs]; omega, ?_⟩
  intro x hx
  obtain ⟨l1, l2, l3⟩ := hlook x hx
  obtain ⟨i0, m1, m2, m3, m4, m5⟩ := hW.mapped x l1
  have hi01 : i0 ≠ 1 := by
    intro e
    rw [e] at m4
    exact l2 m4.symm
  rw [hslot 1, if_pos rfl, hcs]
  by_cases hxl : x = (h.slot h.currentSize).id
  · left
    refine ⟨hxl, ?_⟩
    intro j hj1 hj2 hj3 hj4
    rw [hslot j, if_neg hj3] at hj4
    have e1 := m5 j hj1 (by omega) hj4
    have e2 := m5 h.currentSize (by omega) (le_refl _) hxl.symm
    omega
  · right
    have hi0c : i0 ≠ h.currentSize := by
      intro e
      rw [e] at m4
      exact hxl m4.symm
    refine ⟨hxl, i0, by rw [l3 hxl]; exact m1, m2, by omega, hi01, ?_, ?_⟩
    · rw [hslot i0, if_neg hi01]; exact m4
    · intro j hj1 hj2 hj3 hj4
      rw [hslot j, if_neg hj3] at hj4
      exact m5 j hj1 (by omega) hj4

theorem deleteMin_weak {h : heap} (hW : WInv h) : WInv (h.deleteMin).1 := by
  by_cases h0 : h.currentSize = 0
  · rw [deleteMin_of_empty h0]; exact hW
  rw [deleteMin_of_pos h0]
  by_cases h1 : h.currentSize > 1
  · exact percolateDown_weak (beheaded_weak_gt hW h1)
  · -- the heap had one node: no key is left in the hash table
    have hcs : h.beheaded.currentSize = 0 := by rw [beheaded_of_one h1]; show _ - 1 = 0; omega
    have hnone : ∀ x, h.beheaded.mapping.lookup x = none := by
      intro x
      rw [beheaded_of_one h1]
      show (h.mapping.remove (h.slot 1).id).1.lookup x = none
      rw [hashTable.lookup_remove hW.pinv.inv]
      split
      · rfl
      · rename_i hne
        by_contra hx
        obtain ⟨i0, _, m2, m3, m4, _⟩ := hW.mapped x hx
        have : i0 = 1 := by omega
        rw [this] at m4
        exact hne m4.symm
    have hfr := percolateDown_frame h.beheaded 1
    have hmap : (h.beheaded.percolateDown 1).mapping = h.beheaded.mapping := by
      rw [percolateDown_eq, hcs]
      show (h.beheaded.mapping.setPointer _ _).1 = _
      exact hashTable.lookup_setPointer_of_absent _ _ (hnone _)
    refine ⟨?_, ?_, ?_, ?_⟩
    · rw [hmap, beheaded_of_one h1]
      exact hashTable.remove_pinv hW.pinv _
    · rw [hfr.length, hfr.capacity, beheaded_of_one h1]
      exact hW.size
    · rw [hfr.currentSize, hcs]
      exact Nat.zero_le _
    · intro x hx
      rw [hmap, hnone] at hx
      exact absurd rfl hx

theorem remove_weak {h : heap} (hW : WInv h) (id : Key) : WInv (h.remove id).1 := by
  unfold remove
  split
  · exact hW
  · split
    · exact hW
    · exact deleteMin_weak (setKey_weak hW _ _)

theorem appended_weak {h : heap} (hW : WInv h) (id : Key) (key : Int) (pv : Ptr)
    (hf : h.currentSize < h.capacity) (hc : h.mapping.contains id = false)
    (hm : (h.mapping.insert id (some (h.currentSize + 1)) false).1 = h.mapping) :
    WInv (h.appended id key pv) := by
  have hlt : h.currentSize + 1 < h.data.length := by
    have := hW.size; omega
  have hslot : ∀ j, (h.appended id key pv).slot j =
      if j = h.currentSize + 1 then { id := id, key := key, pData := pv } else h.slot j :=
    fun j => getD_set h.data _ j _ hlt
  have hmap : (h.appended id key pv).mapping = h.mapping := hm
  refine ⟨by rw [hmap]; exact hW.pinv,
    by show (h.data.set _ _).length = _; rw [List.length_set]; exact hW.size,
    by show h.currentSize + 1 ≤ h.capacity; omega, ?_⟩
  intro x hx
  rw [hmap] at hx ⊢
  obtain ⟨i0, m1, m2, m3, m4, m5⟩ := hW.mapped x hx
  refine ⟨i0, m1, m2, by show i0 ≤ h.currentSize + 1; omega, ?_, ?_⟩
  · rw [hslot i0, if_neg (by omega)]; exact m4
  · intro j hj1 hj2 hj3
    have hj2' : j ≤ h.currentSize + 1 := hj2
    rw [hslot j] at hj3
    split at hj3
    · exfalso
      have hx' : h.mapping.lookup id ≠ none := by
        have e : id = x := hj3
        rw [e]; exact hx
      rw [hashTable.contains_eq_lookup] at hc
      cases hl : h.mapping.lookup id with
      | none => exact hx' hl
      | some v => rw [hl] at hc; exact absurd hc (by simp)
    · exact m5 j hj1 (by omega) hj3

end heap

end ECE365

namespace ECE365

namespace heap

theorem Full.of_frame {h h' : heap} (hF : Full h) (hfr : Frame h h') : Full h' := by
  unfold Full at hF ⊢
  rw [hfr.mcap, hfr.mfilled]
  exact hF

theorem deleteMin_mcap (h : heap) :
    (h.deleteMin).1.mapping.capacity = h.mapping.capacity := by
  by_cases h0 : h.currentSize = 0
  · rw [deleteMin_of_empty h0]
  · rw [deleteMin_of_pos h0]
    show (h.beheaded.percolateDown 1).mapping.capacity = _
    rw [(percolateDown_frame _ _).mcap]
    by_cases h1 : h.currentSize > 1
    · rw [beheaded_of_gt h1]
      show ((h.mapping.remove _).1.setPointer _ _).1.capacity = _
      rw [hashTable.setPointer_capacity, hashTable.remove_capacity]
    · rw [beheaded_of_one h1]
      show (h.mapping.remove _).1.capacity = _
      rw [hashTable.remove_capacity]

theorem Full.deleteMin {h : heap} (hF : Full h) : Full (h.deleteMin).1 := by
  unfold Full at hF ⊢
  rw [deleteMin_mcap, deleteMin_mfilled]
  exact hF

theorem Full.remove {h : heap} (hF : Full h) (id : Key) : Full (h.remove id).1 := by
  unfold heap.remove
  split
  · exact hF
  · split
    · exact hF
    · exact (hF.of_frame (setKey_frame h id INT_MIN)).deleteMin

/-- The call of `insert` when the hash table takes no new key: the heap is unchanged, or the
node is left in the slot `currentSize` and `insert` returns `3`. -/
theorem insert_of_full_table {h : heap} (hW : WInv h) (hF : Full h) (id : Key) (key : Int)
    (pv : Ptr) : WInv (h.insert id key pv).1 ∧ Full (h.insert id key pv).1 := by
  by_cases hf : h.currentSize ≥ h.capacity
  · rw [insert_of_full id key pv hf]; exact ⟨hW, hF⟩
  by_cases hc : h.mapping.contains id = true
  · rw [insert_of_dup id key pv hf hc]; exact ⟨hW, hF⟩
  have habs : h.mapping.contains id = false := by simpa using hc
  have htop := hashTable.insert_at_top (t := h.mapping) id (some (h.currentSize + 1))
    hF.1 habs hF.2
  rw [insert_of_fail id key pv hf hc (by rw [htop]; simp)]
  have hmap : (h.appended id key pv).mapping = h.mapping := by
    show (h.mapping.insert _ _ false).1 = _
    rw [htop]
  refine ⟨appended_weak hW id key pv (by omega) habs (by rw [htop]), ?_⟩
  show (h.appended id key pv).mapping.capacity = 1610612741 ∧
    (h.appended id key pv).mapping.filled ≥ (h.appended id key pv).mapping.capacity / 2
  rw [hmap]
  exact hF

/-- The call of `insert` that returns `3` on a heap that satisfies the invariant. -/
theorem insert_of_three {h : heap} (hI : Inv h) (id : Key) (key : Int) (pv : Ptr)
    (h3 : (h.insert id key pv).2 = 3) :
    WInv (h.insert id key pv).1 ∧ Full (h.insert id key pv).1 := by
  by_cases hf : h.currentSize ≥ h.capacity
  · rw [insert_of_full id key pv hf] at h3; exact absurd h3 (by simp)
  by_cases hc : h.mapping.contains id = true
  · rw [insert_of_dup id key pv hf hc] at h3; exact absurd h3 (by simp)
  have habs : h.mapping.contains id = false := by simpa using hc
  by_cases hm : (h.mapping.insert id (some (h.currentSize + 1)) false).2 = 0
  · rw [insert_of_ok id key pv hf hc hm] at h3; exact absurd h3 (by simp)
  have h2 : (h.mapping.insert id (some (h.currentSize + 1)) false).2 = 2 := by
    rcases hashTable.insert_result h.mapping id (some (h.currentSize + 1)) false with r | r | r
    · exact absurd r hm
    · rw [hashTable.insert_eq_one_iff, habs] at r
      exact absurd r (by simp)
    · exact r
  have hfull : Full h := hashTable.insert_eq_two hI.pinv h2
  have hsame := hashTable.insert_of_ne_zero hm
  rw [insert_of_fail id key pv hf hc hm]
  have hmap : (h.appended id key pv).mapping = h.mapping := hsame
  refine ⟨appended_weak hI.weak id key pv (by omega) habs hsame, ?_⟩
  show (h.appended id key pv).mapping.capacity = 1610612741 ∧
    (h.appended id key pv).mapping.filled ≥ (h.appended id key pv).mapping.capacity / 2
  rw [hmap]
  exact hfull

theorem Sane.to_weak {h : heap} (hS : Sane h) : WInv h := by
  rcases hS with hI | ⟨hW, _⟩
  · exact hI.weak
  · exact hW

end heap

/-- Every public operation of the heap keeps `Sane`. -/
theorem HeapCall.run_sane {h : heap} (hS : h.Sane) (c : HeapCall) : (c.run h).Sane := by
  rcases hS with hI | ⟨hW, hF⟩
  · cases c with
    | insert id key pv =>
      by_cases h3 : (h.insert id key pv).2 = 3
      · exact Or.inr (heap.insert_of_three hI id key pv h3)
      · exact Or.inl (heap.insert_inv hI id key pv h3)
    | setKey id key => exact Or.inl (heap.setKey_inv hI id key)
    | deleteMin => exact Or.inl (heap.deleteMin_inv hI)
    | remove id => exact Or.inl (heap.remove_keeps_inv hI id)
  · right
    cases c with
    | insert id key pv => exact heap.insert_of_full_table hW hF id key pv
    | setKey id key =>
      exact ⟨heap.setKey_weak hW id key, hF.of_frame (heap.setKey_frame h id key)⟩
    | deleteMin => exact ⟨heap.deleteMin_weak hW, hF.deleteMin⟩
    | remove id => exact ⟨heap.remove_weak hW id, hF.remove id⟩

theorem runHeapCalls_sane : ∀ (cs : List HeapCall) (h : heap), h.Sane → (runHeapCalls h cs).Sane := by
  intro cs
  induction cs with
  | nil => intro h hS; exact hS
  | cons c cs ih =>
    intro h hS
    rw [runHeapCalls_cons]
    exact ih _ (HeapCall.run_sane hS c)

/-- The weak invariant holds in every heap reached from `heap(capacity)` by public
operations. -/
theorem reached_weak (capacity : Nat) (cs : List HeapCall) :
    (runHeapCalls (heap.init capacity) cs).WInv :=
  (runHeapCalls_sane cs _ (Or.inl (heap.init_inv capacity))).to_weak

namespace heap

/-- The call `remove(id, &k, &d)` for an id that the hash table of the heap contains
returns `0` and writes the key and the payload of the one node with this id. -/
theorem remove_outputs {h : heap} (hW : WInv h) {id : Key}
    (hc : h.mapping.contains id = true) {p : Int} {r : Ptr}
    (hn : ({ id := id, key := p, pData := r } : node) ∈ h.nodes) :
    (h.remove id).2 = (0, some (p, r)) := by
  obtain ⟨i, g1, g2, g3, g4, g5⟩ := hW.pointer_of hc
  obtain ⟨j, hj1, hj2, hj3⟩ := (mem_nodes_iff h _).1 hn
  have hji : j = i := g5 j hj1 hj2 (by rw [hj3])
  rw [hji] at hj3
  unfold heap.remove
  rw [hc, g1]
  dsimp only
  rw [hj3]
  rfl

end heap

end ECE365

namespace ECE365

namespace heap

/-! ### The capacity and the size of the heap under the public operations -/

theorem beheaded_capacity (h : heap) : h.beheaded.capacity = h.capacity := by
  by_cases h1 : h.currentSize > 1
  · rw [beheaded_of_gt h1]
  · rw [beheaded_of_one h1]

theorem beheaded_size (h : heap) : h.beheaded.currentSize = h.currentSize - 1 := by
  by_cases h1 : h.currentSize > 1
  · rw [beheaded_of_gt h1]
  · rw [beheaded_of_one h1]

theorem deleteMin_capacity (h : heap) : (h.deleteMin).1.capacity = h.capacity := by
  by_cases h0 : h.currentSize = 0
  · rw [deleteMin_of_empty h0]
  · rw [deleteMin_of_pos h0]
    show (h.beheaded.percolateDown 1).capacity = _
    rw [(percolateDown_frame _ _).capacity, beheaded_capacity]

theorem deleteMin_size (h : heap) : (h.deleteMin).1.currentSize = h.currentSize - 1 := by
  by_cases h0 : h.currentSize = 0
  · rw [deleteMin_of_empty h0, h0]
  · rw [deleteMin_of_pos h0]
    show (h.beheaded.percolateDown 1).currentSize = _
    rw [(percolateDown_frame _ _).currentSize, beheaded_size]

theorem insert_capacity (h : heap) (id : Key) (key : Int) (pv : Ptr) :
    (h.insert id key pv).1.capacity = h.capacity := by
  by_cases hf : h.currentSize ≥ h.capacity
  · rw [insert_of_full id key pv hf]
  · by_cases hc : h.mapping.contains id = true
    · rw [insert_of_dup id key pv hf hc]
    · by_cases hm : (h.mapping.insert id (some (h.currentSize + 1)) false).2 = 0
      · rw [insert_of_ok id key pv hf hc hm]
        show ((h.appended id key pv).percolateUp _).capacity = _
        rw [(percolateUp_frame _ _).capacity]
        rfl
      · rw [insert_of_fail id key pv hf hc hm]
        rfl

theorem remove_keeps_capacity (h : heap) (id : Key) : (h.remove id).1.capacity = h.capacity := by
  unfold remove
  split
  · rfl
  · split
    · rfl
    · show ((h.setKey id INT_MIN).1.deleteMin).1.capacity = _
      rw [deleteMin_capacity, (setKey_frame h id INT_MIN).capacity]

/-- The result `1` of `insert` means that the heap is full, and a full heap is left as it
is. -/
theorem insert_eq_one (h : heap) (id : Key) (key : Int) (pv : Ptr) :
    ((h.insert id key pv).2 = 1 ↔ h.currentSize ≥ h.capacity) ∧
    ((h.insert id key pv).2 = 1 → (h.insert id key pv).1 = h) := by
  by_cases hf : h.currentSize ≥ h.capacity
  · rw [insert_of_full id key pv hf]
    exact ⟨⟨fun _ => hf, fun _ => rfl⟩, fun _ => rfl⟩
  · by_cases hc : h.mapping.contains id = true
    · rw [insert_of_dup id key pv hf hc]
      exact ⟨⟨fun e => absurd (show (_ : Nat) = 1 from e) (by simp), fun e => absurd e hf⟩, fun e => absurd (show (_ : Nat) = 1 from e) (by simp)⟩
    · by_cases hm : (h.mapping.insert id (some (h.currentSize + 1)) false).2 = 0
      · rw [insert_of_ok id key pv hf hc hm]
        exact ⟨⟨fun e => absurd (show (_ : Nat) = 1 from e) (by simp), fun e => absurd e hf⟩,
          fun e => absurd (show (_ : Nat) = 1 from e) (by simp)⟩
      · rw [insert_of_fail id key pv hf hc hm]
        exact ⟨⟨fun e => absurd (show (_ : Nat) = 1 from e) (by simp), fun e => absurd e hf⟩,
          fun e => absurd (show (_ : Nat) = 1 from e) (by simp)⟩

/-- An id of the hash table of the heap is the id of a node of the heap. -/
theorem WInv.mem_ids_of_contains {h : heap} (hW : WInv h) {id : Key}
    (hc : h.mapping.contains id = true) : id ∈ h.ids := by
  obtain ⟨i, _, g2, g3, g4, _⟩ := hW.pointer_of hc
  exact (mem_ids_iff h id).2 ⟨i, g2, g3, g4⟩

end heap

theorem HeapCall.run_capacity (c : HeapCall) (h : heap) : (c.run h).capacity = h.capacity := by
  cases c with
  | insert id key pv => exact heap.insert_capacity h id key pv
  | setKey id key => exact (heap.setKey_frame h id key).capacity
  | deleteMin => exact heap.deleteMin_capacity h
  | remove id => exact heap.remove_keeps_capacity h id

theorem runHeapCalls_capacity :
    ∀ (cs : List HeapCall) (h : heap), (runHeapCalls h cs).capacity = h.capacity := by
  intro cs
  induction cs with
  | nil => intro h; rfl
  | cons c cs ih =>
    intro h
    rw [runHeapCalls_cons, ih, HeapCall.run_capacity]

theorem runCalls_pinv :
    ∀ (cs : List TableCall) (t : hashTable), t.PInv → (runCalls t cs).PInv := by
  intro cs
  induction cs with
  | nil => intro t hP; exact hP
  | cons c cs ih =>
    intro t hP
    rw [runCalls_cons]
    exact ih _ (TableCall.run_pinv hP c)

/-- The live items are among the occupied slots, which `filled` counts. -/
theorem hashTable.HInv.liveCount_le {t : hashTable} (hI : t.HInv) : t.liveCount ≤ t.filled := by
  rw [hI.filled_eq]
  unfold hashTable.liveCount
  apply List.countP_mono_left
  intro it _ h
  cases ho : it.isOccupied with
  | true => rfl
  | false => rw [ho] at h; exact absurd h (by simp)

end ECE365

namespace ECE365

namespace heap

/-! ### The payloads of the nodes under the operations of the heap -/

theorem HoleMarked.move_marked {P : Ptr → Prop} {h : heap} {pos q : Nat} (hm : HoleMarked P h pos)
    (hpos : pos < h.data.length) (hq1 : 1 ≤ q) (hq2 : q ≤ h.currentSize) (hne : q ≠ pos) :
    HoleMarked P (h.move pos q) q := by
  intro i hi1 hi2 hiq
  rw [move_slot h pos q i hpos]
  split
  · exact hm q hq1 hq2 hne
  · rename_i hip
    exact hm i hi1 hi2 hip

theorem HoleMarked.fill_marked {P : Ptr → Prop} {h : heap} {pos : Nat} {tmp : node}
    (hm : HoleMarked P h pos) (hpos : pos < h.data.length) (ht : P tmp.pData) :
    Marked P (h.fill pos tmp) := by
  intro i hi1 hi2
  rw [fill_slot h pos i tmp hpos]
  split
  · exact ht
  · rename_i hip
    exact hm i hi1 hi2 hip

theorem percolateUpLoop_marked {P : Ptr → Prop} (tmp : node) :
    ∀ (fuel : Nat) (h : heap) (pos : Nat), 1 ≤ pos → pos ≤ h.currentSize →
      h.currentSize < h.data.length → HoleMarked P h pos →
      HoleMarked P (percolateUpLoop tmp fuel h pos).1 (percolateUpLoop tmp fuel h pos).2 ∧
      (percolateUpLoop tmp fuel h pos).2 < (percolateUpLoop tmp fuel h pos).1.data.length := by
  intro fuel
  induction fuel with
  | zero => intro h pos _ h2 h3 hm; exact ⟨hm, by show pos < h.data.length; omega⟩
  | succ fuel ih =>
    intro h pos h1 h2 h3 hm
    rw [percolateUpLoop_succ]
    split
    · rename_i hc
      have hl : (h.move pos (pos / 2)).data.length = h.data.length := List.length_set _ _ _
      exact ih _ _ (by omega) (by show pos / 2 ≤ h.currentSize; omega)
        (by rw [hl]; exact h3)
        (hm.move_marked (by omega) (by omega) (by omega) (by omega))
    · exact ⟨hm, by show pos < h.data.length; omega⟩

theorem percolateDownLoop_marked {P : Ptr → Prop} (tmp : node) :
    ∀ (fuel : Nat) (h : heap) (pos : Nat), 1 ≤ pos → pos ≤ h.currentSize →
      h.currentSize < h.data.length → HoleMarked P h pos →
      HoleMarked P (percolateDownLoop tmp fuel h pos).1 (percolateDownLoop tmp fuel h pos).2 ∧
      (percolateDownLoop tmp fuel h pos).2 < (percolateDownLoop tmp fuel h pos).1.data.length := by
  intro fuel
  induction fuel with
  | zero => intro h pos _ h2 h3 hm; exact ⟨hm, by show pos < h.data.length; omega⟩
  | succ fuel ih =>
    intro h pos h1 h2 h3 hm
    rw [percolateDownLoop_succ]
    split
    · rename_i hc
      split
      · exact ⟨hm, by show pos < h.data.length; omega⟩
      · obtain ⟨m1, m2, _⟩ := minChild_spec h pos hc
        have hl : (h.move pos (h.minChild pos)).data.length = h.data.length :=
          List.length_set _ _ _
        exact ih _ _ (by omega) m2 (by rw [hl]; exact h3)
          (hm.move_marked (by omega) (by omega) m2 (by omega))
    · exact ⟨hm, by show pos < h.data.length; omega⟩

theorem Marked.to_hole {P : Ptr → Prop} {h : heap} (hm : Marked P h) (pos : Nat) :
    HoleMarked P h pos := fun i hi1 hi2 _ => hm i hi1 hi2

theorem percolateUp_marked {P : Ptr → Prop} {h : heap} {pos : Nat} (h1 : 1 ≤ pos)
    (h2 : pos ≤ h.currentSize) (h3 : h.currentSize < h.data.length) (hm : Marked P h) :
    Marked P (h.percolateUp pos) := by
  rw [percolateUp_eq]
  obtain ⟨a, b⟩ := percolateUpLoop_marked (h.slot pos) pos h pos h1 h2 h3 (hm.to_hole pos)
  exact a.fill_marked b (hm pos h1 h2)

theorem percolateDown_marked {P : Ptr → Prop} {h : heap} {pos : Nat} (h1 : 1 ≤ pos)
    (h2 : pos ≤ h.currentSize) (h3 : h.currentSize < h.data.length) (hm : Marked P h) :
    Marked P (h.percolateDown pos) := by
  rw [percolateDown_eq]
  obtain ⟨a, b⟩ := percolateDownLoop_marked (h.slot pos) h.currentSize h pos h1 h2 h3 (hm.to_hole pos)
  exact a.fill_marked b (hm pos h1 h2)

theorem appended_marked {P : Ptr → Prop} {h : heap} (hW : WInv h)
    (hf : ¬ h.currentSize ≥ h.capacity) (hm : Marked P h) (id : Key) (key : Int) {pv : Ptr}
    (hp : P pv) : Marked P (h.appended id key pv) := by
  intro i hi1 hi2
  have hs := hW.size
  have hi3 : i ≤ h.currentSize + 1 := hi2
  show P (((h.data.set (h.currentSize + 1) { id := id, key := key, pData := pv }).getD i
    default).pData)
  rw [getD_set _ _ _ _ (by omega)]
  split
  · exact hp
  · exact hm i hi1 (by omega)

theorem insert_marked {P : Ptr → Prop} {h : heap} (hW : WInv h) (hm : Marked P h) (id : Key)
    (key : Int) {pv : Ptr} (hp : P pv) : Marked P (h.insert id key pv).1 := by
  by_cases hf : h.currentSize ≥ h.capacity
  · rw [insert_of_full id key pv hf]; exact hm
  · by_cases hc : h.mapping.contains id = true
    · rw [insert_of_dup id key pv hf hc]; exact hm
    · have ha := appended_marked hW hf hm id key hp
      have hs := hW.size
      have hl : (h.appended id key pv).data.length = h.data.length := List.length_set _ _ _
      by_cases h0 : (h.mapping.insert id (some (h.currentSize + 1)) false).2 = 0
      · rw [insert_of_ok id key pv hf hc h0]
        exact percolateUp_marked (Nat.succ_le_succ (Nat.zero_le _)) (le_refl _)
          (by rw [hl]; show h.currentSize + 1 < _; omega) ha
      · rw [insert_of_fail id key pv hf hc h0]; exact ha

theorem keyed_marked {P : Ptr → Prop} {h : heap} (hm : Marked P h) (i : Nat) (key : Int) :
    Marked P (h.keyed i key) := by
  intro j hj1 hj2
  show P (((h.data.set i { h.slot i with key := key }).getD j default).pData)
  by_cases hi : i < h.data.length
  · rw [getD_set _ _ _ _ hi]
    split
    · rename_i hji
      rw [hji] at hj1 hj2
      exact hm i hj1 hj2
    · exact hm j hj1 hj2
  · rw [List.set_eq_of_length_le (not_lt.1 hi)]
    exact hm j hj1 hj2

theorem setKey_marked {P : Ptr → Prop} {h : heap} (hW : WInv h) (hm : Marked P h) (id : Key)
    (key : Int) : Marked P (h.setKey id key).1 := by
  by_cases hc : h.mapping.contains id = true
  · obtain ⟨i, g1, g2, g3, _, _⟩ := hW.pointer_of hc
    have he : h.setKey id key =
        if key > (h.slot i).key then ((h.keyed i key).percolateDown i, 0)
        else ((h.keyed i key).percolateUp i, 0) := by
      unfold setKey
      rw [hc, g1]
      rfl
    have hl : (h.keyed i key).data.length = h.data.length := List.length_set _ _ _
    have hlt : (h.keyed i key).currentSize < (h.keyed i key).data.length := by
      rw [hl]
      show h.currentSize < _
      have := hW.size; have := hW.bound; omega
    rw [he]
    split
    · exact percolateDown_marked g2 g3 hlt (keyed_marked hm i key)
    · exact percolateUp_marked g2 g3 hlt (keyed_marked hm i key)
  · rw [setKey_of_absent id key (by simpa using hc)]; exact hm

theorem deleteMin_marked {P : Ptr → Prop} {h : heap} (hW : WInv h) (hm : Marked P h) :
    Marked P (h.deleteMin).1 := by
  by_cases h0 : h.currentSize = 0
  · rw [deleteMin_of_empty h0]; exact hm
  rw [deleteMin_of_pos h0]
  have hs := hW.size
  have hb := hW.bound
  by_cases h1 : h.currentSize > 1
  · have hbm : Marked P h.beheaded := by
      rw [beheaded_of_gt h1]
      intro j hj1 hj2
      have hj3 : j ≤ h.currentSize - 1 := hj2
      show P (((h.data.set 1 (h.slot h.currentSize)).getD j default).pData)
      rw [getD_set _ _ _ _ (by omega)]
      split
      · exact hm _ (by omega) (le_refl _)
      · exact hm j hj1 (by omega)
    have hl : h.beheaded.data.length = h.data.length := by
      rw [beheaded_of_gt h1]; exact List.length_set _ _ _
    exact percolateDown_marked (le_refl _) (by rw [beheaded_size]; omega)
      (by rw [hl, beheaded_size]; omega) hbm
  · intro j hj1 hj2
    rw [(percolateDown_frame _ _).currentSize, beheaded_size] at hj2
    omega

/-- The node that `deleteMin` returns is the root. -/
theorem deleteMin_node {h : heap} {n : node} (hn : (h.deleteMin).2.2 = some n) :
    1 ≤ h.currentSize ∧ n = h.slot 1 := by
  by_cases h0 : h.currentSize = 0
  · rw [deleteMin_of_empty h0] at hn
    exact absurd hn (by simp)
  · rw [deleteMin_of_pos h0] at hn
    exact ⟨by omega, (Option.some.inj hn).symm⟩

end heap

end ECE365

namespace ECE365

namespace Graph

/-! ### The chains of predecessors -/

theorem Chain.congr {vs vs' : List Vertex} {s v : Nat} {p : List Nat} (h : Chain vs s v p)
    (hp : ∀ x, x ∈ p → (vertex vs' x).previous = (vertex vs x).previous) : Chain vs' s v p := by
  induction h with
  | src => exact Chain.src
  | link _ hprev hnot ih =>
    exact Chain.link (ih (fun x hx => hp x (List.mem_cons_of_mem _ hx)))
      (by rw [hp _ (List.mem_cons_self _ _)]; exact hprev) hnot

theorem Chain.src_mem {vs : List Vertex} {s v : Nat} {p : List Nat} (h : Chain vs s v p) :
    s ∈ p := by
  induction h with
  | src => exact List.mem_cons_self _ _
  | link _ _ _ ih => exact List.mem_cons_of_mem _ ih

theorem Chain.first_mem {vs : List Vertex} {s v : Nat} {p : List Nat} (h : Chain vs s v p) :
    v ∈ p := by
  cases h with
  | src => exact List.mem_cons_self _ _
  | link _ _ _ => exact List.mem_cons_self _ _

theorem Chain.nodup {vs : List Vertex} {s v : Nat} {p : List Nat} (h : Chain vs s v p) :
    p.Nodup := by
  induction h with
  | src => exact List.nodup_singleton _
  | link _ _ hnot ih => exact List.nodup_cons.2 ⟨hnot, ih⟩

/-- A vertex that is the source or has a predecessor has a chain of known predecessors back
to the source, once it is known itself. -/
theorem TreeInv.chain_of_linked {g : Graph} {s : Nat} {vs : List Vertex} (hT : TreeInv g s vs)
    {u : Nat} (hl : Linked vs s u) (hk : (vertex vs u).known = true) :
    ∃ p, Chain vs s u p ∧ ∀ x, x ∈ p → (vertex vs x).known = true := by
  rcases hl with e | hne
  · subst e
    refine ⟨[u], Chain.src, ?_⟩
    intro x hx
    rw [List.mem_singleton.1 hx]
    exact hk
  · cases hp : (vertex vs u).previous with
    | none => exact absurd hp hne
    | some y =>
      obtain ⟨_, _, _, _, _, p, hc, hnot, hall⟩ := hT.prev u y hp
      refine ⟨u :: p, Chain.link hc hp hnot, ?_⟩
      intro x hx
      rcases List.mem_cons.1 hx with e | hx
      · rw [e]; exact hk
      · exact hall x hx

/-- The vertices after the vertex `u` is marked as known. -/
theorem vertex_mark (vs : List Vertex) (u j : Nat) (hu : u < vs.length) :
    vertex (vs.set u { vertex vs u with known := true }) j =
      if j = u then { vertex vs u with known := true } else vertex vs j :=
  vertex_set vs u j _ hu

theorem Linked.mark_other {vs : List Vertex} {s v : Nat} {u : Nat} (hu : u < vs.length)
    (h : Linked vs s v) : Linked (vs.set u { vertex vs u with known := true }) s v := by
  rcases h with e | h
  · exact Or.inl e
  · refine Or.inr ?_
    rw [vertex_mark vs u v hu]
    split
    · rename_i hj; rw [hj] at h; exact h
    · exact h

/-- Marking as known a vertex that is the source or has a predecessor keeps `TreeInv`. -/
theorem TreeInv.mark {g : Graph} {s : Nat} {vs : List Vertex} (hT : TreeInv g s vs) {u : Nat}
    (hu : u < vs.length) (hl : Linked vs s u) :
    TreeInv g s (vs.set u { vertex vs u with known := true }) := by
  have hprev : ∀ j, (vertex (vs.set u { vertex vs u with known := true }) j).previous =
      (vertex vs j).previous := by
    intro j; rw [vertex_mark vs u _ hu]; split
    · rename_i hj; rw [hj]
    · rfl
  have hdist : ∀ j, (vertex (vs.set u { vertex vs u with known := true }) j).distance =
      (vertex vs j).distance := by
    intro j; rw [vertex_mark vs u _ hu]; split
    · rename_i hj; rw [hj]
    · rfl
  have hknown : ∀ j, (vertex vs j).known = true →
      (vertex (vs.set u { vertex vs u with known := true }) j).known = true := by
    intro j hj; rw [vertex_mark vs u _ hu]; split
    · rfl
    · exact hj
  have hknown' : ∀ j, (vertex (vs.set u { vertex vs u with known := true }) j).known = true →
      j = u ∨ (vertex vs j).known = true := by
    intro j hj; rw [vertex_mark vs u _ hu] at hj
    by_cases hju : j = u
    · exact Or.inl hju
    · rw [if_neg hju] at hj; exact Or.inr hj
  refine ⟨?_, ?_, ?_, hT.src_lt, ?_, ?_, ?_, ?_, ?_, ?_⟩
  · rw [List.length_set]; exact hT.len
  · intro i; rw [← hT.ids i, vertex_mark vs u _ hu]; split
    · rename_i hj; rw [hj]
    · rfl
  · intro i; rw [← hT.adj i, vertex_mark vs u _ hu]; split
    · rename_i hj; rw [hj]
    · rfl
  · rw [hprev]; exact hT.src_prev
  · rw [hdist]; exact hT.src_dist
  · intro v; rw [hdist]; exact hT.le_max v
  · intro v y hvy
    rw [hprev] at hvy
    obtain ⟨a1, a2, a3, a4, ⟨e, e1, e2, e3⟩, p, hc, hnot, hall⟩ := hT.prev v y hvy
    refine ⟨a1, a2, hknown y a3, by rw [hdist]; exact a4, ⟨e, e1, e2, ?_⟩, p,
      hc.congr (fun x _ => hprev x), hnot, fun x hx => hknown x (hall x hx)⟩
    rw [hdist, hdist]; exact e3
  · intro v hv
    rw [hdist] at hv
    exact (hT.fin v hv).mark_other hu
  · intro v hv
    rcases hknown' v hv with e | h
    · rw [e]; exact hl.mark_other hu
    · exact (hT.known_linked v h).mark_other hu

end Graph

end ECE365

namespace ECE365

namespace Graph

theorem Linked.improve_other {vs : List Vertex} {s x : Nat} (v u : Nat) (d : Int) (hv : v < vs.length)
    (h : Linked vs s x) : Linked (vs.set v (improved (vertex vs v) d u)) s x := by
  rcases h with e | h
  · exact Or.inl e
  · refine Or.inr ?_
    rw [improved_vertex vs v u d hv]
    split
    · exact fun e => absurd e (by simp [improved])
    · exact h

/-- The relaxation of an edge from a known vertex `u`, which is the source or has a
predecessor, to a vertex that is not known keeps `TreeInv`. -/
theorem TreeInv.improve {g : Graph} {s : Nat} {vs : List Vertex} (hT : TreeInv g s vs)
    {u : Nat} {e : Edge} (he : e ∈ (vertex g.vertexList u).adjList)
    (hu : u < g.vertexList.length) (huk : (vertex vs u).known = true) (hul : Linked vs s u)
    (hv : e.destination < g.vertexList.length)
    (hk : (vertex vs e.destination).known = false)
    (hlt : wrapInt ((vertex vs u).distance + e.weight) < (vertex vs e.destination).distance) :
    TreeInv g s (vs.set e.destination
      (improved (vertex vs e.destination) (wrapInt ((vertex vs u).distance + e.weight)) u)) := by
  have hvl : e.destination < vs.length := by rw [hT.len]; exact hv
  obtain ⟨pu, hcu, hpk⟩ := hT.chain_of_linked hul huk
  have hsk : (vertex vs s).known = true := hpk s hcu.src_mem
  have hvs : s ≠ e.destination := fun h => by rw [h, hk] at hsk; exact absurd hsk (by simp)
  have hvu : u ≠ e.destination := fun h => by rw [h, hk] at huk; exact absurd huk (by simp)
  have hother : ∀ j, j ≠ e.destination →
      vertex (vs.set e.destination (improved (vertex vs e.destination)
        (wrapInt ((vertex vs u).distance + e.weight)) u)) j = vertex vs j := by
    intro j hj; rw [improved_vertex vs _ u _ hvl, if_neg hj]
  have hself : vertex (vs.set e.destination (improved (vertex vs e.destination)
        (wrapInt ((vertex vs u).distance + e.weight)) u)) e.destination =
      improved (vertex vs e.destination) (wrapInt ((vertex vs u).distance + e.weight)) u := by
    rw [improved_vertex vs _ u _ hvl, if_pos rfl]
  have hof_known : ∀ j, (vertex vs j).known = true → j ≠ e.destination := by
    intro j hj h; rw [h, hk] at hj; exact absurd hj (by simp)
  have hmax := hT.le_max e.destination
  refine ⟨?_, ?_, ?_, hT.src_lt, ?_, ?_, ?_, ?_, ?_, ?_⟩
  · rw [List.length_set]; exact hT.len
  · intro i
    by_cases hi : i = e.destination
    · rw [hi, hself, ← hT.ids]; rfl
    · rw [hother i hi, hT.ids]
  · intro i
    by_cases hi : i = e.destination
    · rw [hi, hself, ← hT.adj]; rfl
    · rw [hother i hi, hT.adj]
  · rw [hother s hvs]; exact hT.src_prev
  · rw [hother s hvs]; exact hT.src_dist
  · intro i
    by_cases hi : i = e.destination
    · rw [hi, hself]
      show wrapInt _ ≤ _
      omega
    · rw [hother i hi]; exact hT.le_max i
  · intro x y hxy
    by_cases hx : x = e.destination
    · rw [hx, hself] at hxy
      have hyu : y = u := (Option.some.inj hxy).symm
      rw [hx, hyu, hself, hother u hvu]
      refine ⟨hv, hu, huk, ?_, ⟨e, he, rfl, rfl⟩, pu, ?_, ?_, ?_⟩
      · show wrapInt _ < _
        omega
      · exact hcu.congr (fun z hz => by rw [hother z (hof_known z (hpk z hz))])
      · intro hmem
        exact hof_known _ (hpk _ hmem) rfl
      · intro z hz
        rw [hother z (hof_known z (hpk z hz))]
        exact hpk z hz
    · rw [hother x hx] at hxy
      obtain ⟨a1, a2, a3, a4, ⟨e', e1, e2, e3⟩, p, hc, hnot, hall⟩ := hT.prev x y hxy
      have hy : y ≠ e.destination := hof_known y a3
      rw [hother x hx, hother y hy]
      refine ⟨a1, a2, a3, a4, ⟨e', e1, e2, e3⟩, p, ?_, hnot, ?_⟩
      · exact hc.congr (fun z hz => by rw [hother z (hof_known z (hall z hz))])
      · intro z hz
        rw [hother z (hof_known z (hall z hz))]
        exact hall z hz
  · intro x hx
    by_cases hxe : x = e.destination
    · refine Or.inr ?_
      rw [hxe, hself]
      exact fun h => absurd h (by simp [improved])
    · rw [hother x hxe] at hx
      exact (hT.fin x hx).improve_other _ _ _ hvl
  · intro x hx
    by_cases hxe : x = e.destination
    · rw [hxe, hself] at hx
      have : (vertex vs e.destination).known = true := hx
      rw [hk] at this
      exact absurd this (by simp)
    · rw [hother x hxe] at hx
      exact (hT.known_linked x hx).improve_other _ _ _ hvl

end Graph

end ECE365

namespace ECE365

theorem heap.insert_size_le (h : heap) (id : Key) (key : Int) (pv : Ptr) :
    (h.insert id key pv).1.currentSize ≤ h.currentSize + 1 := by
  by_cases hf : h.currentSize ≥ h.capacity
  · rw [heap.insert_of_full id key pv hf]; exact Nat.le_succ _
  · by_cases hc : h.mapping.contains id = true
    · rw [heap.insert_of_dup id key pv hf hc]; exact Nat.le_succ _
    · by_cases hm : (h.mapping.insert id (some (h.currentSize + 1)) false).2 = 0
      · rw [heap.insert_of_ok id key pv hf hc hm]
        show ((h.appended id key pv).percolateUp _).currentSize ≤ _
        rw [(heap.percolateUp_frame _ _).currentSize]
        exact le_refl _
      · rw [heap.insert_of_fail id key pv hf hc hm]
        exact le_refl _

namespace Graph

/-! ### The main loop of `dijkstra` on every graph -/

theorem sum_map_set (f : Vertex → Nat) :
    ∀ (vs : List Vertex) (v : Nat) (x : Vertex), v < vs.length →
      ((vs.set v x).map f).sum + f (vertex vs v) = (vs.map f).sum + f x := by
  intro vs
  induction vs with
  | nil => intro v x hv; exact absurd hv (Nat.not_lt_zero _)
  | cons a t ih =>
    intro v x hv
    cases v with
    | zero =>
      show ((x :: t).map f).sum + f a = ((a :: t).map f).sum + f x
      simp only [List.map_cons, List.sum_cons]
      omega
    | succ k =>
      have := ih k x (Nat.lt_of_succ_lt_succ hv)
      show ((a :: t.set k x).map f).sum + f (vertex t k) = ((a :: t).map f).sum + f x
      simp only [List.map_cons, List.sum_cons]
      omega

theorem work_improve (vs : List Vertex) (v u : Nat) (d : Int) (hv : v < vs.length) :
    work (vs.set v (improved (vertex vs v) d u)) = work vs := by
  have h := sum_map_set (fun x => if x.known then 0 else x.adjList.length) vs v
    (improved (vertex vs v) d u) hv
  unfold work
  have e : (fun x : Vertex => if x.known then 0 else x.adjList.length)
      (improved (vertex vs v) d u) =
      (fun x : Vertex => if x.known then 0 else x.adjList.length) (vertex vs v) := rfl
  rw [e] at h
  omega

theorem work_mark (vs : List Vertex) (u : Nat) (hu : u < vs.length)
    (hk : (vertex vs u).known = false) :
    work (vs.set u { vertex vs u with known := true }) + (vertex vs u).adjList.length =
      work vs := by
  have h := sum_map_set (fun x => if x.known then 0 else x.adjList.length) vs u
    { vertex vs u with known := true } hu
  unfold work
  dsimp only at h ⊢
  simp only [hk, if_true, Bool.false_eq_true, if_false] at h
  omega

/-- The relaxation of an edge of the known vertex `u` keeps the invariant of the main loop,
adds at most one node to the heap and changes neither the flags `known` nor the adjacency
lists. -/
theorem LoopInv.relax_edge {g : Graph} {s u : Nat} {st : List Vertex × heap}
    (hd : ∀ i e, e ∈ (vertex g.vertexList i).adjList → e.destination < g.vertexList.length)
    (hL : LoopInv g s st) (hu : u < g.vertexList.length)
    (huk : (vertex st.1 u).known = true) (hul : Linked st.1 s u) {e : Edge}
    (he : e ∈ (vertex g.vertexList u).adjList) :
    LoopInv g s (relaxEdge u st e) ∧ (vertex (relaxEdge u st e).1 u).known = true ∧
    Linked (relaxEdge u st e).1 s u ∧
    (relaxEdge u st e).2.currentSize ≤ st.2.currentSize + 1 ∧
    work (relaxEdge u st e).1 = work st.1 := by
  obtain ⟨vs, hp⟩ := st
  by_cases hc : (vertex vs e.destination).known = false ∧
      wrapInt ((vertex vs u).distance + e.weight) < (vertex vs e.destination).distance
  swap
  · rw [relaxEdge_skip u vs hp e hc]
    exact ⟨hL, huk, hul, Nat.le_succ _, rfl⟩
  obtain ⟨hk, hlt⟩ := hc
  have hv := hd u e he
  have hvl : e.destination < vs.length := by rw [hL.tree.len]; exact hv
  rw [relaxEdge_go u vs hp e hvl hk hlt]
  have hT := hL.tree.improve he hu huk hul hv hk hlt
  have hvu : u ≠ e.destination := fun h => by
    rw [h] at huk; dsimp only at huk; rw [hk] at huk; exact absurd huk (by simp)
  have hm : hp.Marked (fun p => ∃ x, p = some x ∧ x < g.vertexList.length ∧
      Linked (vs.set e.destination (improved (vertex vs e.destination)
        (wrapInt ((vertex vs u).distance + e.weight)) u)) s x) := by
    intro i hi1 hi2
    obtain ⟨x, hx1, hx2, hx3⟩ := hL.marked i hi1 hi2
    exact ⟨x, hx1, hx2, hx3.improve_other _ _ _ hvl⟩
  have hnew : ∃ x, some e.destination = some x ∧ x < g.vertexList.length ∧
      Linked (vs.set e.destination (improved (vertex vs e.destination)
        (wrapInt ((vertex vs u).distance + e.weight)) u)) s x := by
    refine ⟨e.destination, rfl, hv, Or.inr ?_⟩
    rw [improved_vertex vs _ u _ hvl, if_pos rfl]
    exact fun h => absurd h (by simp [improved])
  have hS1 : (hp.insert (vertex vs e.destination).id
      (wrapInt ((vertex vs u).distance + e.weight)) (some e.destination)).1.Sane :=
    HeapCall.run_sane hL.sane (HeapCall.insert _ _ _)
  have hM1 := heap.insert_marked hL.sane.to_weak hm (vertex vs e.destination).id
    (wrapInt ((vertex vs u).distance + e.weight)) hnew
  have hsz := heap.insert_size_le hp (vertex vs e.destination).id
    (wrapInt ((vertex vs u).distance + e.weight)) (some e.destination)
  refine ⟨⟨hT, ?_, ?_⟩, ?_, hul.improve_other _ _ _ hvl, ?_, work_improve vs _ u _ hvl⟩
  · dsimp only
    split
    · exact HeapCall.run_sane hS1 (HeapCall.setKey _ _)
    · exact hS1
  · dsimp only
    split
    · exact heap.setKey_marked hS1.to_weak hM1 _ _
    · exact hM1
  · dsimp only
    rw [improved_vertex vs _ u _ hvl, if_neg hvu]
    exact huk
  · dsimp only
    split
    · rw [(heap.setKey_frame _ _ _).currentSize]; exact hsz
    · exact hsz

end Graph

end ECE365

namespace ECE365

namespace Graph

/-- The loop over the edges of the known vertex `u` keeps the invariant of the main loop,
adds at most one node to the heap for each edge and changes neither the flags `known` nor
the adjacency lists. -/
theorem LoopInv.fold_edges {g : Graph} {s u : Nat}
    (hd : ∀ i e, e ∈ (vertex g.vertexList i).adjList → e.destination < g.vertexList.length)
    (hu : u < g.vertexList.length) (es : List Edge) :
    ∀ (st : List Vertex × heap), LoopInv g s st → (vertex st.1 u).known = true →
      Linked st.1 s u → (∀ e, e ∈ es → e ∈ (vertex g.vertexList u).adjList) →
      LoopInv g s (es.foldl (relaxEdge u) st) ∧
      (es.foldl (relaxEdge u) st).2.currentSize ≤ st.2.currentSize + es.length ∧
      work (es.foldl (relaxEdge u) st).1 = work st.1 := by
  induction es with
  | nil => intro st hL _ _ _; exact ⟨hL, le_refl _, rfl⟩
  | cons e es ih =>
    intro st hL huk hul hes
    obtain ⟨a1, a2, a3, a4, a5⟩ := hL.relax_edge hd hu huk hul (hes e (List.mem_cons_self _ _))
    obtain ⟨b1, b2, b3⟩ := ih _ a1 a2 a3 (fun e' he' => hes e' (List.mem_cons_of_mem _ he'))
    rw [List.foldl_cons]
    refine ⟨b1, ?_, by rw [b3, a5]⟩
    rw [List.length_cons]
    omega

/-- The main loop of `dijkstra` ends on every graph when its fuel exceeds the size of the
heap plus the number of edges that leave the vertices not yet known, and `TreeInv` holds of
the vertices it returns. -/
theorem dijkstraLoop_tree {g : Graph} {s : Nat}
    (hd : ∀ i e, e ∈ (vertex g.vertexList i).adjList → e.destination < g.vertexList.length)
    (fuel : Nat) :
    ∀ (st : List Vertex × heap), LoopInv g s st → st.2.currentSize + work st.1 < fuel →
      ∃ vs, dijkstraLoop fuel st = some vs ∧ TreeInv g s vs := by
  induction fuel with
  | zero => intro st _ h; exact absurd h (Nat.not_lt_zero _)
  | succ fuel ih =>
    intro st hL hfuel
    obtain ⟨vs, hp⟩ := st
    unfold dijkstraLoop
    dsimp only
    by_cases hpos : hp.currentSize > 0
    swap
    · rw [if_neg hpos]
      exact ⟨vs, rfl, hL.tree⟩
    rw [if_pos hpos]
    have h0 : hp.currentSize ≠ 0 := by omega
    have p1 : (hp.deleteMin).2.1 = 0 := by rw [heap.deleteMin_of_pos h0]
    have p2 : (hp.deleteMin).2.2 = some (hp.slot 1) := by rw [heap.deleteMin_of_pos h0]
    have hsz := heap.deleteMin_size hp
    have hS : (hp.deleteMin).1.Sane := HeapCall.run_sane hL.sane HeapCall.deleteMin
    have hM := heap.deleteMin_marked hL.sane.to_weak hL.marked
    obtain ⟨x, hx1, hx2, hx3⟩ := hL.marked 1 (le_refl _) hpos
    rw [if_neg (by rw [p1]; simp), p2]
    dsimp only at hx1 hx3 hfuel ⊢
    rw [hx1]
    dsimp only
    by_cases hk : (vertex vs x).known = true
    · rw [if_pos hk]
      apply ih (vs, (hp.deleteMin).1) ⟨hL.tree, hS, hM⟩
      dsimp only
      omega
    · rw [if_neg hk]
      have hkf : (vertex vs x).known = false := by simpa using hk
      have hxl : x < vs.length := by rw [hL.tree.len]; exact hx2
      have hL1 : LoopInv g s (vs.set x { vertex vs x with known := true }, (hp.deleteMin).1) := by
        refine ⟨hL.tree.mark hxl hx3, hS, ?_⟩
        intro i hi1 hi2
        obtain ⟨y, hy1, hy2, hy3⟩ := hM i hi1 hi2
        exact ⟨y, hy1, hy2, hy3.mark_other hxl⟩
      have hk1 : (vertex (vs.set x { vertex vs x with known := true }) x).known = true := by
        rw [vertex_mark vs x x hxl, if_pos rfl]
      obtain ⟨f1, f2, f3⟩ := LoopInv.fold_edges hd hx2 (vertex vs x).adjList _ hL1 hk1 (hx3.mark_other hxl)
        (fun e he => by rw [← hL.tree.adj x]; exact he)
      apply ih _ f1
      have hw := work_mark vs x hxl hkf
      dsimp only at hw f2 f3 ⊢
      omega

theorem work_le (vs : List Vertex) : work vs ≤ (vs.map (fun v => v.adjList.length)).sum := by
  unfold work
  induction vs with
  | nil => exact le_refl _
  | cons a t ih =>
    simp only [List.map_cons, List.sum_cons]
    split <;> omega

theorem vertex_start (vl : List Vertex) (s j : Nat) (hs : s < vl.length) :
    vertex ((resetAll vl).set s { vertex (resetAll vl) s with distance := 0 }) j =
      if j = s then { vertex vl s with distance := 0, known := false, previous := none }
      else { vertex vl j with distance := INT32_MAX, known := false, previous := none } := by
  have hsr : s < (resetAll vl).length := by unfold resetAll; rw [List.length_map]; exact hs
  rw [vertex_set _ s j _ hsr]
  split
  · rw [vertex_resetAll]
  · rw [vertex_resetAll]

theorem edgeCount_start (vl : List Vertex) (s : Nat) (hs : s < vl.length) :
    work ((resetAll vl).set s { vertex (resetAll vl) s with distance := 0 }) ≤
      (vl.map (fun v => v.adjList.length)).sum := by
  have hsr : s < (resetAll vl).length := by unfold resetAll; rw [List.length_map]; exact hs
  have h1 := work_le ((resetAll vl).set s { vertex (resetAll vl) s with distance := 0 })
  have h2 := sum_map_set (fun v => v.adjList.length) (resetAll vl) s
    { vertex (resetAll vl) s with distance := 0 } hsr
  have h3 : ((resetAll vl).map (fun v => v.adjList.length)).sum =
      (vl.map (fun v => v.adjList.length)).sum := by
    unfold resetAll
    rw [List.map_map]
    rfl
  dsimp only at h1 h2 ⊢
  omega

end Graph

end ECE365

namespace ECE365

namespace Graph

/-- The state of `dijkstra` before the main loop satisfies `TreeInv`. -/
theorem TreeInv.initial {g : Graph} {s : Nat} (hs : s < g.vertexList.length) :
    TreeInv g s
      ((resetAll g.vertexList).set s { vertex (resetAll g.vertexList) s with distance := 0 }) := by
  have hv := fun j => vertex_start g.vertexList s j hs
  refine ⟨?_, ?_, ?_, hs, ?_, ?_, ?_, ?_, ?_, ?_⟩
  · rw [List.length_set]; unfold resetAll; rw [List.length_map]
  · intro i; rw [hv]; split
    · rename_i h; rw [h]
    · rfl
  · intro i; rw [hv]; split
    · rename_i h; rw [h]
    · rfl
  · rw [hv, if_pos rfl]
  · rw [hv, if_pos rfl]
  · intro v; rw [hv]; split
    · show (0 : Int) ≤ INT32_MAX; decide
    · exact le_refl _
  · intro v u h
    rw [hv] at h
    split at h <;> exact absurd h (by simp)
  · intro v h
    rw [hv] at h
    by_cases hvs : v = s
    · exact Or.inl hvs
    · rw [if_neg hvs] at h
      exact absurd rfl h
  · intro v h
    rw [hv] at h
    split at h <;> exact absurd h (by simp)

/-- The function `dijkstra` from the vertex at position `s`, on every graph whose edges lead
to vertices of the graph and whatever the weights: with more fuel than edges plus one it
returns, and `TreeInv` holds of the vertices it leaves. -/
theorem dijkstra_tree {g : Graph} {s : Nat}
    (hd : ∀ i e, e ∈ (vertex g.vertexList i).adjList → e.destination < g.vertexList.length)
    (hs : s < g.vertexList.length) (start : Key)
    (hptr : (g.vertices.getPointer start).1 = some s) (fuel : Nat)
    (hfuel : g.edgeCount + 1 < fuel) :
    ∃ vs, g.dijkstra start fuel = some { g with vertexList := vs } ∧ TreeInv g s vs := by
  have hT0 := TreeInv.initial hs (g := g)
  have hw0 := edgeCount_start g.vertexList s hs
  unfold dijkstra
  rw [hptr]
  dsimp only
  generalize (resetAll g.vertexList).set s
    { vertex (resetAll g.vertexList) s with distance := 0 } = vs0 at hT0 hw0 ⊢
  have hlen0 := hT0.len
  rw [if_neg (by rw [heap_init_insert _ (by omega)]; simp)]
  have hL : LoopInv g s (vs0, ((heap.init vs0.length).insert (vertex vs0 s).id
      (vertex vs0 s).distance (some s)).1) := by
    have hm0 : (heap.init vs0.length).Marked
        (fun p => ∃ u, p = some u ∧ u < g.vertexList.length ∧ Linked vs0 s u) := by
      intro i hi1 hi2
      have : i ≤ 0 := hi2
      omega
    exact ⟨hT0, HeapCall.run_sane (Or.inl (heap.init_inv _)) (HeapCall.insert _ _ _),
      heap.insert_marked (heap.init_inv _).weak hm0 _ _ ⟨s, rfl, hs, Or.inl rfl⟩⟩
  have hsz := heap.insert_size_le (heap.init vs0.length) (vertex vs0 s).id
    (vertex vs0 s).distance (some s)
  have hsz0 : (heap.init vs0.length).currentSize = 0 := rfl
  obtain ⟨vs, e1, e2⟩ := dijkstraLoop_tree hd fuel _ hL (by
    dsimp only
    unfold edgeCount at hfuel
    omega)
  rw [e1]
  exact ⟨vs, rfl, e2⟩

end Graph

end ECE365

namespace ECE365

namespace Graph

/-! ### What holds of every stored graph -/

theorem init_stored : Stored init := by
  refine ⟨hashTable.init_pinv _, ?_, ?_⟩
  · intro k p h
    have : (hashTable.init 100000).lookup k = none := hashTable.lookup_init _ k
    rw [show init.vertices = hashTable.init 100000 from rfl, this] at h
    exact absurd h (by simp)
  · intro i e he
    rw [vertex_default _ _ (Nat.zero_le _)] at he
    exact absurd he (List.not_mem_nil _)

/-- The function `getOrCreateVertex` on a stored graph, with or without room in the hash
table: it returns a vertex with the given name, and keeps the vertices of the graph. -/
theorem getOrCreateVertex_stored {g : Graph} (hS : Stored g) (name : Key) :
    Stored (g.getOrCreateVertex name).1 ∧
    g.vertexList.length ≤ (g.getOrCreateVertex name).1.vertexList.length ∧
    (∀ j, j < g.vertexList.length →
      vertex (g.getOrCreateVertex name).1.vertexList j = vertex g.vertexList j) ∧
    ∃ v, (g.getOrCreateVertex name).2 = some v ∧
      v < (g.getOrCreateVertex name).1.vertexList.length ∧
      (vertex (g.getOrCreateVertex name).1.vertexList v).id = name := by
  unfold getOrCreateVertex
  rw [hashTable.getPointer_eq_lookup]
  cases hl : g.vertices.lookup name with
  | some p =>
    obtain ⟨v, hv1, hv2, hv3⟩ := hS.ptr name p hl
    dsimp only
    rw [if_pos rfl]
    exact ⟨hS, le_refl _, fun _ _ => rfl, v, hv1, hv2, hv3⟩
  | none =>
    dsimp only
    rw [if_neg (by simp)]
    dsimp only
    have hlen : (g.vertexList ++ [({ id := name } : Vertex)]).length = g.vertexList.length + 1 := by
      rw [List.length_append, List.length_singleton]
    refine ⟨⟨hashTable.insert_pinv hS.table _ _, ?_, ?_⟩, by rw [hlen]; exact Nat.le_succ _,
      fun j hj => vertex_append_left _ _ j hj, g.vertexList.length, rfl,
      by rw [hlen]; exact Nat.lt_succ_self _, by rw [vertex_append_length]⟩
    · intro k p hk
      dsimp only at hk ⊢
      rw [hlen]
      have hold : g.vertices.lookup k = some p →
          ∃ v, p = some v ∧ v < g.vertexList.length + 1 ∧
            (vertex (g.vertexList ++ [({ id := name } : Vertex)]) v).id = k := by
        intro h
        obtain ⟨v, hv1, hv2, hv3⟩ := hS.ptr k p h
        exact ⟨v, hv1, Nat.lt_succ_of_lt hv2, by rw [vertex_append_left _ _ v hv2]; exact hv3⟩
      by_cases h0 : (g.vertices.insert name (some g.vertexList.length) false).2 = 0
      · rw [(hashTable.insert_ok hS.table name _ h0).2.2 k] at hk
        by_cases hkn : k = name
        · rw [if_pos hkn] at hk
          exact ⟨g.vertexList.length, (Option.some.inj hk).symm, Nat.lt_succ_self _,
            by rw [vertex_append_length, hkn]⟩
        · rw [if_neg hkn] at hk
          exact hold hk
      · rw [hashTable.insert_of_ne_zero h0] at hk
        exact hold hk
    · intro i e he
      dsimp only at he ⊢
      rw [hlen]
      by_cases hi : i < g.vertexList.length
      · rw [vertex_append_left _ _ i hi] at he
        exact Nat.lt_succ_of_lt (hS.dest_lt i e he)
      · by_cases hi2 : i = g.vertexList.length
        · rw [hi2, vertex_append_length] at he
          exact absurd he (List.not_mem_nil _)
        · rw [vertex_default _ _ (by rw [hlen]; omega)] at he
          exact absurd he (List.not_mem_nil _)

theorem addEdge_stored {g : Graph} (hS : Stored g) {v1 v2 : Nat}
    (h1 : v1 < g.vertexList.length) (h2 : v2 < g.vertexList.length) (weight : Int) :
    Stored (g.addEdge v1 v2 weight) := by
  obtain ⟨a1, a2, a3, a4⟩ := addEdge_edge g v1 h1 v2 weight
  refine ⟨by rw [a1]; exact hS.table, ?_, ?_⟩
  · intro k p hk
    rw [a1] at hk
    obtain ⟨v, hv1, hv2, hv3⟩ := hS.ptr k p hk
    exact ⟨v, hv1, by rw [a2]; exact hv2, by rw [a3]; exact hv3⟩
  · intro i e he
    rw [a2]
    have hedge : (g.addEdge v1 v2 weight).edge i e.weight e.destination := he
    rcases (a4 i e.weight e.destination).1 hedge with h | ⟨_, _, h⟩
    · exact hS.dest_lt i e h
    · rw [h]; exact h2

theorem insertEdge_stored {g : Graph} (hS : Stored g) (sourceId destId : Key) (weight : Int) :
    Stored (g.insertEdge sourceId destId weight) := by
  obtain ⟨b1, b2, b3, v1, hv1, hv1l, _⟩ := getOrCreateVertex_stored hS sourceId
  obtain ⟨c1, c2, c3, v2, hv2, hv2l, _⟩ := getOrCreateVertex_stored b1 destId
  rw [insertEdge_eq g sourceId destId weight v1 v2 hv1 hv2]
  exact addEdge_stored c1 (by omega) hv2l weight

/-- Every graph that the constructor builds is stored. -/
theorem build_stored (lines : List Triple) : Stored (build lines) := by
  induction lines using List.reverseRecOn with
  | nil => exact init_stored
  | append_singleton ls t ih =>
    unfold build at ih ⊢
    rw [loadGraph_append]
    exact insertEdge_stored ih _ _ _

/-- In a stored graph, the position that `dijkstra` finds for a valid start vertex. -/
theorem Stored.start_ptr {g : Graph} (hS : Stored g) {start : Key}
    (hstart : g.isValidVertex start = true) :
    (g.vertices.getPointer start).1 = some (g.indexOf start) ∧
    g.indexOf start < g.vertexList.length ∧ (vertex g.vertexList (g.indexOf start)).id = start := by
  unfold isValidVertex at hstart
  rw [hashTable.contains_eq_lookup] at hstart
  unfold indexOf
  rw [hashTable.getPointer_eq_lookup]
  cases hl : g.vertices.lookup start with
  | none => rw [hl] at hstart; exact absurd hstart (by simp)
  | some p =>
    obtain ⟨v, hv1, hv2, hv3⟩ := hS.ptr start p hl
    subst hv1
    exact ⟨rfl, hv2, hv3⟩

end Graph

end ECE365

namespace ECE365

namespace Graph

/-! ### The paths that `formatPath` lists -/

theorem Chain.eq_cons {vs : List Vertex} {s v : Nat} {p : List Nat} (h : Chain vs s v p) :
    ∃ t, p = v :: t := by
  cases h with
  | src => exact ⟨[], rfl⟩
  | link _ _ _ => exact ⟨_, rfl⟩

theorem TreeInv.chain_lt {g : Graph} {s : Nat} {vs : List Vertex} (hT : TreeInv g s vs)
    {v : Nat} {p : List Nat} (hc : Chain vs s v p) : ∀ x, x ∈ p → x < g.vertexList.length := by
  induction hc with
  | src => intro x hx; rw [List.mem_singleton.1 hx]; exact hT.src_lt
  | link _ hprev _ ih =>
    intro x hx
    rcases List.mem_cons.1 hx with e | hx
    · rw [e]; exact (hT.prev _ _ hprev).1
    · exact ih x hx

/-- A vertex that is the source or has a predecessor has a chain of predecessors back to
the source. -/
theorem TreeInv.chain_of {g : Graph} {s : Nat} {vs : List Vertex} (hT : TreeInv g s vs)
    {v : Nat} (hl : Linked vs s v) : ∃ p, Chain vs s v p := by
  rcases hl with e | hne
  · rw [e]; exact ⟨[s], Chain.src⟩
  · cases hp : (vertex vs v).previous with
    | none => exact absurd hp hne
    | some y =>
      obtain ⟨_, _, _, _, _, p, hc, hnot, _⟩ := hT.prev v y hp
      exact ⟨v :: p, Chain.link hc hp hnot⟩

/-- A chain of predecessors is, read backwards, a directed path from the source. -/
theorem TreeInv.walk_of_chain {g : Graph} {s : Nat} {vs : List Vertex} (hT : TreeInv g s vs)
    {v : Nat} {p : List Nat} (hc : Chain vs s v p) : ∃ w, Walk g.edge s v w p := by
  induction hc with
  | src => exact ⟨0, Walk.nil⟩
  | link _ hprev _ ih =>
    obtain ⟨w, hw⟩ := ih
    obtain ⟨_, _, _, _, ⟨e, e1, e2, _⟩, _⟩ := hT.prev _ _ hprev
    refine ⟨w + e.weight, Walk.snoc e.weight _ hw ?_⟩
    show ({ weight := e.weight, destination := _ } : Edge) ∈ _
    rw [← e2]
    exact e1

/-- When no addition overflowed, a chain of predecessors is, read backwards, a directed
path from the source whose weight is the distance of its last vertex, and the distance of
each of its vertices is the distance of its predecessor plus the weight of an edge between
them. -/
theorem TreeInv.walk_dist {g : Graph} {s : Nat} {vs : List Vertex} (hT : TreeInv g s vs)
    (hno : NoOverflow vs) {v : Nat} {p : List Nat} (hc : Chain vs s v p) :
    Walk g.edge s v (vertex vs v).distance p ∧
    List.Chain' (fun x y => ∃ w, g.edge y w x ∧
      (vertex vs x).distance = (vertex vs y).distance + w) p := by
  induction hc with
  | src =>
    rw [hT.src_dist]
    exact ⟨Walk.nil, List.chain'_singleton _⟩
  | @link u v p hcu hprev _ ih =>
    obtain ⟨hw, hch⟩ := ih
    obtain ⟨_, hu, huk, _, ⟨e, e1, e2, e3⟩, _⟩ := hT.prev _ _ hprev
    have hedge : g.edge u e.weight v := by
      show ({ weight := e.weight, destination := v } : Edge) ∈ _
      rw [← e2]
      exact e1
    have hd : (vertex vs v).distance = (vertex vs u).distance + e.weight := by
      rw [e3]
      exact hno u (by rw [hT.len]; exact hu) e (by rw [hT.adj]; exact e1) huk
    obtain ⟨t, ht⟩ := hcu.eq_cons
    refine ⟨by rw [hd]; exact Walk.snoc e.weight v hw hedge, ?_⟩
    rw [ht] at hch ⊢
    exact List.chain'_cons.2 ⟨⟨e.weight, hedge, hd⟩, hch⟩

theorem pathStackLoop_none (vs : List Vertex) (fuel : Nat) (pathStack : List Key) :
    pathStackLoop vs fuel none pathStack = some pathStack := by
  cases fuel <;> rfl

/-- The first loop of `formatPath` along a chain of predecessors to a source without
predecessor: it ends when its fuel is at least the length of the chain, and it pushes the
ids of the chain, so that the id of the source is on top. -/
theorem pathStackLoop_chain {vs : List Vertex} {s v : Nat} {p : List Nat}
    (hs : (vertex vs s).previous = none) (hc : Chain vs s v p) :
    ∀ (fuel : Nat) (pathStack : List Key), p.length ≤ fuel →
      pathStackLoop vs fuel (some v) pathStack =
        some ((p.reverse.map (fun x => (vertex vs x).id)) ++ pathStack) := by
  induction hc with
  | src =>
    intro fuel pathStack hf
    cases fuel with
    | zero => exact absurd hf (by simp)
    | succ fuel =>
      show pathStackLoop vs fuel (vertex vs s).previous _ = _
      rw [hs, pathStackLoop_none]
      rfl
  | @link u v p _ hprev _ ih =>
    intro fuel pathStack hf
    cases fuel with
    | zero => exact absurd hf (by simp)
    | succ fuel =>
      show pathStackLoop vs fuel (vertex vs v).previous _ = _
      rw [hprev, ih fuel _ (by rw [List.length_cons] at hf; omega)]
      simp

/-- A vertex that is not the source and has no predecessor is alone on its path. -/
theorem pathStackLoop_single {vs : List Vertex} {v : Nat} (hv : (vertex vs v).previous = none)
    (fuel : Nat) (pathStack : List Key) :
    pathStackLoop vs (fuel + 1) (some v) pathStack = some ((vertex vs v).id :: pathStack) := by
  show pathStackLoop vs fuel (vertex vs v).previous _ = _
  rw [hv, pathStackLoop_none]

theorem TreeInv.chain_length {g : Graph} {s : Nat} {vs : List Vertex} (hT : TreeInv g s vs)
    {v : Nat} {p : List Nat} (hc : Chain vs s v p) : p.length ≤ g.vertexList.length :=
  length_le_of_lt p hc.nodup (hT.chain_lt hc)

end Graph

end ECE365

namespace ECE365

namespace Graph

/-! ### The number of edges of a stored graph, and independent runs -/

theorem getOrCreateVertex_edgeCount (g : Graph) (name : Key) :
    (g.getOrCreateVertex name).1.edgeCount = g.edgeCount := by
  unfold getOrCreateVertex
  split
  · rfl
  · unfold edgeCount
    dsimp only
    rw [List.map_append, List.sum_append]
    rfl

theorem addEdge_edgeCount (g : Graph) {v1 : Nat} (h1 : v1 < g.vertexList.length) (v2 : Nat)
    (weight : Int) : (g.addEdge v1 v2 weight).edgeCount = g.edgeCount + 1 := by
  have h := sum_map_set (fun v => v.adjList.length) g.vertexList v1
    { vertex g.vertexList v1 with
      adjList := (vertex g.vertexList v1).adjList ++ [{ weight := weight, destination := v2 }] } h1
  unfold edgeCount addEdge
  dsimp only at h ⊢
  rw [List.length_append, List.length_singleton] at h
  omega

theorem insertEdge_edgeCount {g : Graph} (hS : Stored g) (sourceId destId : Key) (weight : Int) :
    (g.insertEdge sourceId destId weight).edgeCount = g.edgeCount + 1 := by
  obtain ⟨b1, b2, _, v1, hv1, hv1l, _⟩ := getOrCreateVertex_stored hS sourceId
  obtain ⟨_, c2, _, v2, hv2, _, _⟩ := getOrCreateVertex_stored b1 destId
  rw [insertEdge_eq g sourceId destId weight v1 v2 hv1 hv2, addEdge_edgeCount _ (by omega),
    getOrCreateVertex_edgeCount, getOrCreateVertex_edgeCount]

/-- The stored graph has one edge for each line of the file. -/
theorem build_edgeCount (lines : List Triple) : (build lines).edgeCount = lines.length := by
  induction lines using List.reverseRecOn with
  | nil => rfl
  | append_singleton ls t ih =>
    have hS := build_stored ls
    unfold build at ih hS ⊢
    rw [loadGraph_append, insertEdge_edgeCount hS, ih, List.length_append, List.length_singleton]

theorem resetAll_congr {vs vl : List Vertex} (hlen : vs.length = vl.length)
    (hid : ∀ i, (vertex vs i).id = (vertex vl i).id)
    (hadj : ∀ i, (vertex vs i).adjList = (vertex vl i).adjList) : resetAll vs = resetAll vl := by
  have hl1 : (resetAll vs).length = vs.length := by unfold resetAll; rw [List.length_map]
  have hl2 : (resetAll vl).length = vl.length := by unfold resetAll; rw [List.length_map]
  apply List.ext_getElem (by omega)
  intro i h1 h2
  rw [← vertex_eq_getElem _ i h1, ← vertex_eq_getElem _ i h2, vertex_resetAll, vertex_resetAll]
  dsimp only
  rw [hid i, hadj i]

/-- The function `dijkstra` reads of the graph the hash table, and of the vertices only
what `resetAll` keeps: the ids and the adjacency lists. -/
theorem dijkstra_congr {g g' : Graph} (hv : g'.vertices = g.vertices)
    (hr : resetAll g'.vertexList = resetAll g.vertexList) (start : Key) (fuel : Nat)
    (hptr : (g.vertices.getPointer start).1 ≠ none) :
    g'.dijkstra start fuel = g.dijkstra start fuel := by
  unfold dijkstra
  rw [hv, hr]
  cases hp : (g.vertices.getPointer start).1 with
  | none => exact absurd hp hptr
  | some s => rfl

theorem Chain.getLast {vs : List Vertex} {s v : Nat} {p : List Nat} (h : Chain vs s v p) :
    p.getLast? = some s := by
  induction h with
  | src => rfl
  | @link u v p hc _ _ ih =>
    obtain ⟨t, ht⟩ := hc.eq_cons
    rw [ht] at ih ⊢
    rw [List.getLast?_cons_cons]
    exact ih

theorem Chain.of_src {vs : List Vertex} {s : Nat} {p : List Nat}
    (hs : (vertex vs s).previous = none) (h : Chain vs s s p) : p = [s] := by
  cases h with
  | src => rfl
  | link _ hprev _ => rw [hs] at hprev; exact absurd hprev (by simp)

/-- After `dijkstra`, the first loop of `formatPath` ends for every vertex when its fuel is
at least the number of vertices, with a stack that is not empty. -/
theorem TreeInv.stack_of {g : Graph} {s : Nat} {vs : List Vertex} (hT : TreeInv g s vs)
    (v : Nat) (fuel : Nat) (hfuel : g.vertexList.length ≤ fuel) :
    ∃ ids, ids ≠ [] ∧ pathStackLoop vs fuel (some v) [] = some ids := by
  by_cases hl : Linked vs s v
  · obtain ⟨p, hc⟩ := hT.chain_of hl
    refine ⟨_, ?_, pathStackLoop_chain hT.src_prev hc fuel [] (le_trans (hT.chain_length hc) hfuel)⟩
    obtain ⟨t, ht⟩ := hc.eq_cons
    rw [ht]
    simp
  · have hp : (vertex vs v).previous = none := by
      by_contra h
      exact hl (Or.inr h)
    have hpos : 0 < fuel := lt_of_lt_of_le (Nat.zero_lt_of_lt hT.src_lt) hfuel
    obtain ⟨k, hk⟩ : ∃ k, fuel = k + 1 := ⟨fuel - 1, by omega⟩
    rw [hk]
    exact ⟨_, by simp, pathStackLoop_single hp k []⟩

end Graph

end ECE365

namespace ECE365

namespace Graph

/-- The function `dijkstra` on every graph that the constructor builds, for a start vertex
of the graph and whatever the weights: with more fuel than lines plus one it returns, it
changes the vertices only, and `TreeInv` holds of the vertices it leaves. -/
theorem dijkstra_built (lines : List Triple) (start : Key)
    (hstart : (build lines).isValidVertex start = true) (fuel : Nat)
    (hfuel : lines.length + 1 < fuel) :
    ∃ vs, (build lines).dijkstra start fuel = some { build lines with vertexList := vs } ∧
      TreeInv (build lines) ((build lines).indexOf start) vs := by
  have hS := build_stored lines
  obtain ⟨h1, h2, _⟩ := hS.start_ptr hstart
  exact dijkstra_tree hS.dest_lt h2 start h1 fuel (by rw [build_edgeCount]; exact hfuel)

/-- After `dijkstra`, a vertex that is not reachable from the source has the distance
`INT32_MAX`, is not known and has no predecessor. -/
theorem TreeInv.unreached {g : Graph} {s : Nat} {vs : List Vertex} (hT : TreeInv g s vs)
    {v : Nat} (hv : ¬ Reachable g.edge s v) :
    (vertex vs v).distance = INT32_MAX ∧ (vertex vs v).known = false ∧
      (vertex vs v).previous = none := by
  have hnl : ¬ Linked vs s v := by
    intro hl
    obtain ⟨p, hc⟩ := hT.chain_of hl
    obtain ⟨w, hw⟩ := hT.walk_of_chain hc
    exact hv ⟨w, p, hw⟩
  refine ⟨?_, ?_, ?_⟩
  · by_contra h
    exact hnl (hT.fin v h)
  · cases hk : (vertex vs v).known with
    | false => rfl
    | true => exact absurd (hT.known_linked v hk) hnl
  · by_contra h
    exact hnl (Or.inr h)

/-- The loop of `formatPath` that pops the ids appends to the path, for every id, the
separator and the id. -/
theorem foldl_join_sep (sep : Key) : ∀ (rest : List Key) (acc : Key),
    rest.foldl (fun path id => path ++ (sep ++ id)) acc =
      acc ++ (rest.map (fun id => sep ++ id)).flatten := by
  intro rest
  induction rest with
  | nil => intro acc; simp
  | cons a rest ih =>
    intro acc
    rw [List.foldl_cons, ih, List.map_cons, List.flatten_cons, List.append_assoc]

theorem intercalate_cons_eq (sep : Key) : ∀ (l : List Key) (a : Key),
    List.intercalate sep (a :: l) = a ++ (l.map (fun id => sep ++ id)).flatten := by
  intro l
  induction l with
  | nil => intro a; simp [List.intercalate]
  | cons b l ih =>
    intro a
    have h := ih b
    unfold List.intercalate at h ⊢
    rw [List.intersperse, List.flatten_cons, List.flatten_cons, h, List.map_cons,
      List.flatten_cons, List.append_assoc]
    simp

/-- The second part of `formatPath` writes the ids of the stack, from the top, with the two
characters `", "` between them. -/
theorem joinPath_eq_intercalate (l : List Key) : joinPath l = List.intercalate [44, 32] l := by
  cases l with
  | nil => rfl
  | cons top rest =>
    rw [intercalate_cons_eq]
    exact foldl_join_sep [44, 32] rest top

/-- The string that `formatPath` returns when its first loop ends with the stack `ids`: the
ids from the top of the stack, with `", "` between them. -/
theorem formatPath_of_stack {vs : List Vertex} {v fuel : Nat} {ids : List Key}
    (h : pathStackLoop vs fuel (some v) [] = some ids) :
    formatPath vs v fuel = some (List.intercalate [44, 32] ids) := by
  unfold formatPath
  rw [h, Option.map_some', joinPath_eq_intercalate]

/-- After `dijkstra`, what `formatPath` lists for a vertex whose distance is not
`INT32_MAX`: the ids of a sequence of vertices from the source to the vertex. -/
theorem TreeInv.path_of {g : Graph} {s : Nat} {vs : List Vertex} (hT : TreeInv g s vs)
    {v : Nat} (hv : (vertex vs v).distance ≠ INT32_MAX) :
    ∃ p, Chain vs s v p ∧ p.reverse.head? = some s ∧ p.reverse.getLast? = some v ∧
      ∀ fuel, g.vertexList.length ≤ fuel →
        pathStackLoop vs fuel (some v) [] = some (p.reverse.map (fun x => (vertex vs x).id)) ∧
        formatPath vs v fuel =
          some (joinPath (p.reverse.map (fun x => (vertex vs x).id))) := by
  obtain ⟨p, hc⟩ := hT.chain_of (hT.fin v hv)
  obtain ⟨t, ht⟩ := hc.eq_cons
  refine ⟨p, hc, by rw [List.head?_reverse]; exact hc.getLast,
    by rw [List.getLast?_reverse, ht]; rfl, ?_⟩
  intro fuel hfuel
  have h := pathStackLoop_chain hT.src_prev hc fuel [] (le_trans (hT.chain_length hc) hfuel)
  rw [List.append_nil] at h
  refine ⟨h, ?_⟩
  unfold formatPath
  rw [h]
  rfl

end Graph

end ECE365

namespace ECE365

namespace Graph

/-! ### The graph of a single line -/

theorem lineEdge_single {A B : Key} {w : Int} {a b : Key} {c : Int}
    (h : lineEdge [⟨A, B, w⟩] a c b) : a = A ∧ b = B ∧ c = w := by
  have h' : (⟨a, b, c⟩ : Triple) = ⟨A, B, w⟩ := List.mem_singleton.1 h
  injection h' with e1 e2 e3
  exact ⟨e1, e2, e3⟩

theorem walk_single {A B : Key} {w : Int} (hAB : A ≠ B) {v : Key} {x : Int} {p : List Key}
    (h : Walk (lineEdge [⟨A, B, w⟩]) A v x p) : (v = A ∧ x = 0) ∨ (v = B ∧ x = w) := by
  induction h with
  | nil => exact Or.inl ⟨rfl, rfl⟩
  | snoc c v _ he ih =>
    obtain ⟨e1, e2, e3⟩ := lineEdge_single he
    rcases ih with ⟨_, hx⟩ | ⟨hu, _⟩
    · exact Or.inr ⟨e2, by rw [hx, e3, zero_add]⟩
    · exact absurd (hu.symm.trans e1).symm hAB

theorem walk_single_dest {A B : Key} {w : Int} (hAB : A ≠ B) {v : Key} {x : Int} {p : List Key}
    (h : Walk (lineEdge [⟨A, B, w⟩]) B v x p) : v = B ∧ x = 0 := by
  induction h with
  | nil => exact ⟨rfl, rfl⟩
  | snoc c v _ he ih =>
    obtain ⟨e1, _, _⟩ := lineEdge_single he
    exact absurd (ih.1.symm.trans e1).symm hAB

theorem isName_single {A B : Key} {w : Int} {a : Key} (h : IsName [⟨A, B, w⟩] a) :
    a = A ∨ a = B := by
  obtain ⟨t, ht, h⟩ := h
  rw [List.mem_singleton.1 ht] at h
  rcases h with h | h
  · exact Or.inl h.symm
  · exact Or.inr h.symm

theorem count_single (A B : Key) (w : Int) (ns : List Key) (hnd : ns.Nodup)
    (hns : ∀ a, a ∈ ns → IsName [⟨A, B, w⟩] a) : ns.length ≤ 2 := by
  have hsub : ns ⊆ [A, B] := by
    intro a ha
    rcases isName_single (hns a ha) with e | e
    · rw [e]; exact List.mem_cons_self _ _
    · rw [e]; exact List.mem_cons_of_mem _ (List.mem_cons_self _ _)
  exact (List.subperm_of_subset hnd hsub).length_le

/-- The run of `dijkstra` from `A` on the graph of the single line `A B w`, with `A` and `B`
distinct and `0 ≤ w < INT32_MAX`: the distance of `A` is `0` and its path is `A` alone, the
distance of `B` is `w` and its path is `A, B`. -/
theorem single_edge_run (A B : Key) (w : Int) (hAB : A ≠ B) (h0 : 0 ≤ w) (h1 : w < INT32_MAX)
    (fuel : Nat) (hfuel : 2 < fuel) :
    ∃ vs, (build [⟨A, B, w⟩]).dijkstra A fuel =
        some { build [⟨A, B, w⟩] with vertexList := vs } ∧
      TreeInv (build [⟨A, B, w⟩]) ((build [⟨A, B, w⟩]).indexOf A) vs ∧
      (vertex vs ((build [⟨A, B, w⟩]).indexOf A)).id = A ∧
      (vertex vs ((build [⟨A, B, w⟩]).indexOf B)).id = B ∧
      (vertex vs ((build [⟨A, B, w⟩]).indexOf A)).distance = 0 ∧
      (vertex vs ((build [⟨A, B, w⟩]).indexOf B)).distance = w ∧
      Chain vs ((build [⟨A, B, w⟩]).indexOf A) ((build [⟨A, B, w⟩]).indexOf B)
        [(build [⟨A, B, w⟩]).indexOf B, (build [⟨A, B, w⟩]).indexOf A] := by
  have hcount : ∀ ns : List Key, ns.Nodup → (∀ a, a ∈ ns → IsName [⟨A, B, w⟩] a) →
      ns.length ≤ 805306370 := fun ns hnd hns =>
    le_trans (count_single A B w ns hnd hns) (by decide)
  have hB := build_binv [⟨A, B, w⟩] hcount
  have hnA : IsName [⟨A, B, w⟩] A := ⟨_, List.mem_singleton.2 rfl, Or.inl rfl⟩
  have hnB : IsName [⟨A, B, w⟩] B := ⟨_, List.mem_singleton.2 rfl, Or.inr rfl⟩
  obtain ⟨ha, hida⟩ := hB.indexOf_spec hnA
  obtain ⟨hb, hidb⟩ := hB.indexOf_spec hnB
  have hstart : (build [⟨A, B, w⟩]).isValidVertex A = true := by
    have hl := hB.wf.lookup_id _ ha
    rw [hida] at hl
    unfold isValidVertex
    rw [hashTable.contains_eq_lookup, hl]
    rfl
  have hn : (build [⟨A, B, w⟩]).vertexList.length ≤ 2 := by
    have := count_single A B w _ (names_nodup hB.wf) (by
      intro a ha
      obtain ⟨i, hi, hia⟩ := List.mem_map.1 ha
      rw [← hia]
      exact hB.names i (List.mem_range.1 hi))
    rw [List.length_map, List.length_range] at this
    exact this
  obtain ⟨vs, hrun, hT⟩ := dijkstra_built [⟨A, B, w⟩] A hstart fuel
    (by rw [List.length_singleton]; exact hfuel)
  obtain ⟨g, hg, _, hmin⟩ := dijkstra_of_few_names [⟨A, B, w⟩] A hcount
    (fun t ht => by rw [List.mem_singleton.1 ht]; exact h0)
    (fun b x p hw _ => by
      rcases walk_single hAB hw with ⟨_, hx⟩ | ⟨_, hx⟩
      · rw [hx]; decide
      · rw [hx]; exact h1)
    hstart fuel (by omega)
  have hgv : g.vertexList = vs := by
    rw [hrun] at hg
    exact (congrArg Graph.vertexList (Option.some.inj hg)).symm
  rw [hgv] at hmin
  have hidb' : (vertex vs ((build [⟨A, B, w⟩]).indexOf B)).id = B := by rw [hT.ids]; exact hidb
  have hdb : (vertex vs ((build [⟨A, B, w⟩]).indexOf B)).distance = w := by
    have hm := (hmin _ (by rw [hT.len]; exact hb)).1
    rw [hidb'] at hm
    obtain ⟨⟨p, hp, _⟩, _⟩ := hm ⟨_, _, Walk.snoc w B Walk.nil (List.mem_singleton.2 rfl)⟩
    rcases walk_single hAB hp with ⟨e, _⟩ | ⟨_, e⟩
    · exact absurd e.symm hAB
    · exact e
  have hne : (build [⟨A, B, w⟩]).indexOf B ≠ (build [⟨A, B, w⟩]).indexOf A := by
    intro e
    rw [e, hida] at hidb
    exact hAB hidb
  refine ⟨vs, hrun, hT, by rw [hT.ids]; exact hida, hidb', hT.src_dist, hdb, ?_⟩
  have hl : Linked vs ((build [⟨A, B, w⟩]).indexOf A) ((build [⟨A, B, w⟩]).indexOf B) :=
    hT.fin _ (by rw [hdb]; exact ne_of_lt h1)
  rcases hl with e | hp
  · exact absurd e hne
  · cases hprev : (vertex vs ((build [⟨A, B, w⟩]).indexOf B)).previous with
    | none => exact absurd hprev hp
    | some u =>
      obtain ⟨_, hu, _, _, ⟨e, e1, e2, _⟩, p, hc, hnot, _⟩ := hT.prev _ _ hprev
      have hedge : (build [⟨A, B, w⟩]).edge u e.weight e.destination := e1
      obtain ⟨_, _, hline⟩ := (hB.edges _ _ _).1 hedge
      have hua : u = (build [⟨A, B, w⟩]).indexOf A := by
        have hi := hB.indexOf_id hu
        rw [(lineEdge_single hline).1] at hi
        exact hi.symm
      rw [hua] at hc
      rw [Chain.of_src hT.src_prev hc] at hnot
      rw [hua] at hprev
      exact Chain.link Chain.src hprev hnot

end Graph

end ECE365

namespace ECE365

namespace Graph

/-! ### The edges of every stored graph are lines of the file -/

end Graph

end ECE365

namespace ECE365

/-! ### The ladder of capacities: `getPrime` and `rehash` -/

/-- The first element greater than `n` of an ascending list is the least one. -/
theorem find_gt_spec (n : Nat) :
    ∀ (l : List Nat), l.Pairwise (fun a b => a < b) →
      (∀ p, l.find? (fun p => decide (p > n)) = some p →
        p ∈ l ∧ n < p ∧ ∀ q, q ∈ l → n < q → p ≤ q) ∧
      (l.find? (fun p => decide (p > n)) = none → ∀ q, q ∈ l → q ≤ n) := by
  intro l
  induction l with
  | nil =>
    intro _
    exact ⟨fun p h => absurd h (by simp), fun _ q hq => absurd hq (List.not_mem_nil _)⟩
  | cons a t ih =>
    intro hs
    obtain ⟨hat, ht⟩ := List.pairwise_cons.1 hs
    obtain ⟨i1, i2⟩ := ih ht
    by_cases ha : a > n
    · have hf : (a :: t).find? (fun p => decide (p > n)) = some a := by
        rw [List.find?_cons]; simp [ha]
      rw [hf]
      refine ⟨?_, fun h => absurd h (by simp)⟩
      intro p hp
      have hpa : a = p := Option.some.inj hp
      rw [← hpa]
      refine ⟨List.mem_cons_self _ _, ha, ?_⟩
      intro q hq _
      rcases List.mem_cons.1 hq with e | hq
      · rw [e]
      · exact le_of_lt (hat q hq)
    · have hf : (a :: t).find? (fun p => decide (p > n)) = t.find? (fun p => decide (p > n)) := by
        rw [List.find?_cons]; simp [ha]
      rw [hf]
      refine ⟨?_, ?_⟩
      · intro p hp
        obtain ⟨j1, j2, j3⟩ := i1 p hp
        refine ⟨List.mem_cons_of_mem _ j1, j2, ?_⟩
        intro q hq hnq
        rcases List.mem_cons.1 hq with e | hq
        · rw [e] at hnq; exact absurd hnq ha
        · exact j3 q hq hnq
      · intro hnone q hq
        rcases List.mem_cons.1 hq with e | hq
        · rw [e]; omega
        · exact i2 hnone q hq

theorem primeNumbers_sorted : primeNumbers.Pairwise (fun a b => a < b) := by decide

/-- The function `getPrime` for a size `0 ≤ size ≤ INT_MAX`: the least prime of the table
that is greater than `size`, and the last prime of the table if there is none. -/
theorem getPrime_spec (size : Int) (h0 : 0 ≤ size) (h1 : size ≤ 2147483647) :
    getPrime size ∈ primeNumbers ∧
    ((∃ q, q ∈ primeNumbers ∧ size < (q : Int)) →
      size < (getPrime size : Int) ∧
      ∀ q, q ∈ primeNumbers → size < (q : Int) → getPrime size ≤ q) ∧
    ((∀ q, q ∈ primeNumbers → (q : Int) ≤ size) → getPrime size = 1610612741) := by
  have hu : toUnsigned size = size.toNat := by unfold toUnsigned; congr 1; omega
  obtain ⟨f1, f2⟩ := find_gt_spec size.toNat primeNumbers primeNumbers_sorted
  refine ⟨getPrime_mem size, ?_, ?_⟩
  · rintro ⟨q, hq, hlt⟩
    unfold getPrime
    rw [hu]
    cases hf : primeNumbers.find? (fun p => decide (p > size.toNat)) with
    | none =>
      have := f2 hf q hq
      omega
    | some p =>
      obtain ⟨_, g2, g3⟩ := f1 p hf
      dsimp only
      refine ⟨by omega, ?_⟩
      intro q' hq' hlt'
      exact g3 q' hq' (by omega)
  · intro hall
    unfold getPrime
    rw [hu]
    cases hf : primeNumbers.find? (fun p => decide (p > size.toNat)) with
    | none => rfl
    | some p =>
      obtain ⟨g1, g2, _⟩ := f1 p hf
      have := hall p g1
      omega

/-- The steps of the ladder: from a capacity `c` of the table of primes, `getPrime (2 * c)`
is the least prime greater than `2 * c` if there is one; it is the last prime `1610612741`
from `c = 805306457`, where no prime of the table is greater than `2 * c`; and it is not
greater than `c` for `c = 1610612741` only. -/
theorem primeNumbers_next : ∀ c ∈ primeNumbers,
    ((∃ q, q ∈ primeNumbers ∧ 2 * c < q) →
      c < getPrime (2 * (c : Int)) ∧ 2 * c < getPrime (2 * (c : Int)) ∧
      ∀ q, q ∈ primeNumbers → 2 * c < q → getPrime (2 * (c : Int)) ≤ q) ∧
    ((¬ ∃ q, q ∈ primeNumbers ∧ 2 * c < q) → c ≠ 1610612741 →
      c = 805306457 ∧ getPrime (2 * (c : Int)) = 1610612741) ∧
    (getPrime (2 * (c : Int)) ≤ c ↔ c = 1610612741) := by
  decide

end ECE365

namespace ECE365

/-! ### The rolling hash and the exact polynomial -/

theorem polynomial_append (key : Key) (b : Fin 256) :
    polynomial (key ++ [b]) = polynomial key * 37 + b.val := by
  unfold polynomial
  rw [List.length_append, List.length_singleton, List.range_succ, List.map_append,
    List.sum_append, List.map_singleton, List.sum_singleton, ← List.sum_map_mul_right]
  congr 1
  · congr 1
    apply List.map_congr_left
    intro i hi
    have hi' : i < key.length := List.mem_range.1 hi
    rw [List.getD_append _ _ _ _ hi', mul_assoc, ← pow_succ]
    congr 2
    omega
  · rw [List.getD_append_right _ _ _ _ (le_refl _)]
    simp

/-- The sum of the `b_i * 37 ^ (n - 1 - i)` is the value that Horner's rule computes. -/
theorem polynomial_eq_foldl (key : Key) :
    polynomial key = key.foldl (fun acc b => acc * 37 + b.val) 0 := by
  induction key using List.reverseRecOn with
  | nil => rfl
  | append_singleton k b ih =>
    rw [polynomial_append, List.foldl_append, ih]
    rfl

theorem hash_fold (cap : Nat) (hcap : (cap - 1) * 37 + 255 < 4294967296) (hpos : 0 < cap) :
    ∀ (key : Key) (hv x : Nat), hv = x % cap →
      key.foldl (fun hash_value c => ((hash_value * 37 + c.val) % 4294967296) % cap) hv =
        (key.foldl (fun acc b => acc * 37 + b.val) x) % cap := by
  intro key
  induction key with
  | nil => intro hv x h; exact h
  | cons b k ih =>
    intro hv x h
    rw [List.foldl_cons, List.foldl_cons]
    apply ih
    have hlt : hv < cap := by rw [h]; exact Nat.mod_lt _ hpos
    have hb := b.isLt
    have hmul : hv * 37 ≤ (cap - 1) * 37 := Nat.mul_le_mul_right 37 (by omega)
    have e1 : (hv * 37 + b.val) % 4294967296 = hv * 37 + b.val :=
      Nat.mod_eq_of_lt (by omega)
    rw [e1, h, Nat.add_mod, Nat.mul_mod, Nat.mod_mod, ← Nat.mul_mod, ← Nat.add_mod]

/-- The function `hash` for a capacity `c` with `37 * (c - 1) + 255 < 2 ^ 32`, for which the
arithmetic in `unsigned int` does not wrap around: the exact polynomial modulo `c`. -/
theorem hashTable.hash_eq_polynomial (t : hashTable) (hpos : 0 < t.capacity)
    (hcap : (t.capacity - 1) * 37 + 255 < 4294967296) (key : Key) :
    t.hash key = polynomial key % t.capacity := by
  rw [polynomial_eq_foldl]
  exact hash_fold t.capacity hcap hpos key 0 0 (Nat.zero_mod _).symm

end ECE365

namespace ECE365

namespace Merge

/-! ### Markings and paths -/

theorem pick_nil_left (b : Bool) (C : Key) : pick b [] C = [] := by
  cases C <;> rfl

theorem pick_nil_right (b : Bool) (sel : List Bool) : pick b sel [] = [] := by
  cases sel <;> rfl

theorem pick_cons (b s : Bool) (sel : List Bool) (c : Fin 256) (C : Key) :
    pick b (s :: sel) (c :: C) = if s = b then c :: pick b sel C else pick b sel C := rfl

/-- The two parts of a marked string have all its characters. -/
theorem pick_length : ∀ (sel : List Bool) (C : Key), sel.length = C.length →
    (pick true sel C).length + (pick false sel C).length = C.length := by
  intro sel
  induction sel with
  | nil => intro C h; rw [pick_nil_left, pick_nil_left, ← h]; rfl
  | cons s sel ih =>
    intro C h
    cases C with
    | nil => simp at h
    | cons c C =>
      have h' : sel.length = C.length := by simpa using h
      have := ih C h'
      cases s <;> simp [pick_cons] <;> omega

theorem IsInterleaving.sum_length {sel : List Bool} {A B C : Key}
    (h : IsInterleaving sel A B C) : A.length + B.length = C.length := by
  obtain ⟨h1, h2, h3⟩ := h
  rw [← h2, ← h3]
  exact pick_length sel C h1

theorem getD_eq_iff (A C : Key) {i k : Nat} (hi : i < A.length) (hk : k < C.length) :
    A.getD i 0 = C.getD k 0 ↔ A[i]? = C[k]? := by
  rw [List.getD_eq_getElem _ _ hi, List.getD_eq_getElem _ _ hk, List.getElem?_eq_getElem hi,
    List.getElem?_eq_getElem hk]
  constructor
  · intro h; rw [h]
  · intro h; exact Option.some.inj h

theorem lt_of_getElem?_eq (A C : Key) {i k : Nat} (hi : i < A.length) (h : A[i]? = C[k]?) :
    k < C.length := by
  rw [List.getElem?_eq_getElem hi] at h
  by_contra hk
  rw [List.getElem?_eq_none (by omega)] at h
  exact absurd h (by simp)

theorem validPath_nil (A B C : Key) (i j : Nat) :
    ValidPath A B C i j [] ↔ (i = A.length ∧ j = B.length) := Iff.rfl

theorem validPath_true (A B C : Key) (i j : Nat) (sel : List Bool) :
    ValidPath A B C i j (true :: sel) ↔
      (i < A.length ∧ A[i]? = C[i + j]? ∧ ValidPath A B C (i + 1) j sel) := Iff.rfl

theorem validPath_false (A B C : Key) (i j : Nat) (sel : List Bool) :
    ValidPath A B C i j (false :: sel) ↔
      (j < B.length ∧ B[j]? = C[i + j]? ∧ ValidPath A B C i (j + 1) sel) := Iff.rfl

/-- A merge from `(i, j)` is at the end of both strings or starts with a step in `A` or a
step in `B`. -/
theorem feasible_iff (A B C : Key) (i j : Nat) :
    Feasible A B C i j ↔
      ((i = A.length ∧ j = B.length) ∨
       (i < A.length ∧ A[i]? = C[i + j]? ∧ Feasible A B C (i + 1) j) ∨
       (j < B.length ∧ B[j]? = C[i + j]? ∧ Feasible A B C i (j + 1))) := by
  constructor
  · rintro ⟨sel, h⟩
    cases sel with
    | nil => exact Or.inl h
    | cons s sel =>
      cases s with
      | true => exact Or.inr (Or.inl ⟨h.1, h.2.1, sel, h.2.2⟩)
      | false => exact Or.inr (Or.inr ⟨h.1, h.2.1, sel, h.2.2⟩)
  · rintro (h | ⟨h1, h2, sel, h3⟩ | ⟨h1, h2, sel, h3⟩)
    · exact ⟨[], h⟩
    · exact ⟨true :: sel, h1, h2, h3⟩
    · exact ⟨false :: sel, h1, h2, h3⟩

theorem ValidPath.path_length {A B C : Key} : ∀ (sel : List Bool) (i j : Nat),
    ValidPath A B C i j sel → i + j + sel.length = A.length + B.length := by
  intro sel
  induction sel with
  | nil => intro i j h; obtain ⟨h1, h2⟩ := h; simp [h1, h2]
  | cons s sel ih =>
    intro i j h
    cases s with
    | true => have := ih _ _ h.2.2; simp only [List.length_cons]; omega
    | false => have := ih _ _ h.2.2; simp only [List.length_cons]; omega

/-- A path from `(i, j)` is a marking of the rest of `C` that spells the rests of `A` and
of `B`. -/
theorem validPath_iff {A B C : Key} (hlen : A.length + B.length = C.length) :
    ∀ (sel : List Bool) (i j : Nat), i ≤ A.length → j ≤ B.length →
      (ValidPath A B C i j sel ↔
        IsInterleaving sel (A.drop i) (B.drop j) (C.drop (i + j))) := by
  intro sel
  induction sel with
  | nil =>
    intro i j hi hj
    unfold IsInterleaving
    rw [validPath_nil, pick_nil_left, pick_nil_left, List.length_nil, List.length_drop]
    constructor
    · rintro ⟨h1, h2⟩
      subst h1 h2
      refine ⟨by omega, ?_, ?_⟩
      · rw [List.drop_length]
      · rw [List.drop_length]
    · rintro ⟨h1, h2, h3⟩
      have e2 := congrArg List.length h2
      have e3 := congrArg List.length h3
      rw [List.length_nil, List.length_drop] at e2 e3
      omega
  | cons s sel ih =>
    intro i j hi hj
    by_cases hk : i + j < C.length
    · rw [List.drop_eq_getElem_cons hk]
      cases s with
      | true =>
        rw [validPath_true]
        unfold IsInterleaving
        rw [pick_cons, pick_cons, if_pos rfl, if_neg (by decide), List.length_cons,
          List.length_cons]
        constructor
        · rintro ⟨h1, h2, h3⟩
          have e := (ih (i + 1) j h1 hj).1 h3
          unfold IsInterleaving at e
          rw [show i + 1 + j = i + j + 1 by omega] at e
          obtain ⟨e1, e2, e3⟩ := e
          refine ⟨by rw [e1], ?_, e3⟩
          rw [List.drop_eq_getElem_cons h1, e2]
          congr 1
          rw [List.getElem?_eq_getElem h1, List.getElem?_eq_getElem hk] at h2
          exact (Option.some.inj h2).symm
        · rintro ⟨h1, h2, h3⟩
          have hi' : i < A.length := by
            by_contra hn
            rw [List.drop_eq_nil_of_le (show A.length ≤ i by omega)] at h2
            exact List.cons_ne_nil _ _ h2
          rw [List.drop_eq_getElem_cons hi'] at h2
          obtain ⟨a1, a2⟩ := List.cons.inj h2
          refine ⟨hi', ?_, ?_⟩
          · rw [List.getElem?_eq_getElem hi', List.getElem?_eq_getElem hk, a1]
          · apply (ih (i + 1) j hi' hj).2
            unfold IsInterleaving
            rw [show i + 1 + j = i + j + 1 by omega]
            exact ⟨by omega, a2, h3⟩
      | false =>
        rw [validPath_false]
        unfold IsInterleaving
        rw [pick_cons, pick_cons, if_pos rfl, if_neg (by decide), List.length_cons,
          List.length_cons]
        constructor
        · rintro ⟨h1, h2, h3⟩
          have e := (ih i (j + 1) hi h1).1 h3
          unfold IsInterleaving at e
          rw [show i + (j + 1) = i + j + 1 by omega] at e
          obtain ⟨e1, e2, e3⟩ := e
          refine ⟨by rw [e1], e2, ?_⟩
          rw [List.drop_eq_getElem_cons h1, e3]
          congr 1
          rw [List.getElem?_eq_getElem h1, List.getElem?_eq_getElem hk] at h2
          exact (Option.some.inj h2).symm
        · rintro ⟨h1, h2, h3⟩
          have hj' : j < B.length := by
            by_contra hn
            rw [List.drop_eq_nil_of_le (show B.length ≤ j by omega)] at h3
            exact List.cons_ne_nil _ _ h3
          rw [List.drop_eq_getElem_cons hj'] at h3
          obtain ⟨a1, a2⟩ := List.cons.inj h3
          refine ⟨hj', ?_, ?_⟩
          · rw [List.getElem?_eq_getElem hj', List.getElem?_eq_getElem hk, a1]
          · apply (ih i (j + 1) hi hj').2
            unfold IsInterleaving
            rw [show i + (j + 1) = i + j + 1 by omega]
            exact ⟨by omega, h2, a2⟩
    · constructor
      · intro h
        have := ValidPath.path_length _ _ _ h
        simp only [List.length_cons] at this
        omega
      · intro h
        have := h.1
        rw [List.length_cons, List.length_drop] at this
        omega

/-- The merges of the whole strings are the paths from `(0, 0)`. -/
theorem validPath_zero {A B C : Key} (hlen : A.length + B.length = C.length)
    (sel : List Bool) : ValidPath A B C 0 0 sel ↔ IsInterleaving sel A B C := by
  have := validPath_iff hlen sel 0 0 (Nat.zero_le _) (Nat.zero_le _)
  simpa using this

end Merge

end ECE365

namespace ECE365

namespace Merge

/-! ### The function `recurse` -/

theorem TInv.feasible_of_one {A B C : Key} {T : Tables} (h : TInv A B C T) {i j : Nat}
    (hi : i ≤ A.length) (hj : j ≤ B.length) (h1 : T.memo_table i j = 1) :
    Feasible A B C i j := by
  rcases h i j hi hj with e | ⟨e, _⟩ | ⟨_, e, _⟩
  · rw [h1] at e; exact absurd e (by decide)
  · rw [h1] at e; exact absurd e (by decide)
  · exact e

theorem TInv.not_feasible_of_zero {A B C : Key} {T : Tables} (h : TInv A B C T) {i j : Nat}
    (hi : i ≤ A.length) (hj : j ≤ B.length) (h0 : T.memo_table i j = 0) :
    ¬ Feasible A B C i j := by
  rcases h i j hi hj with e | ⟨_, e⟩ | ⟨e, _⟩
  · rw [h0] at e; exact absurd e (by decide)
  · exact e
  · rw [h0] at e; exact absurd e (by decide)

theorem TInv.value {A B C : Key} {T : Tables} (h : TInv A B C T) {i j : Nat}
    (hi : i ≤ A.length) (hj : j ≤ B.length) (hne : T.memo_table i j ≠ -1) :
    T.memo_table i j = 0 ∨ T.memo_table i j = 1 := by
  rcases h i j hi hj with e | ⟨e, _⟩ | ⟨e, _⟩
  · exact absurd e hne
  · exact Or.inl e
  · exact Or.inr e

/-- Writing a correct record for `(i, j)` keeps the invariant of the arrays. -/
theorem TInv.table_update {A B C : Key} {T T' : Tables} (h : TInv A B C T) {i j : Nat}
    (hi : i ≤ A.length) (hj : j ≤ B.length)
    (hsame : ∀ a b, ¬ (a = i ∧ b = j) →
      T'.memo_table a b = T.memo_table a b ∧ T'.choice_table a b = T.choice_table a b)
    (hent : Entry A B C T' i j) (hne : T'.memo_table i j ≠ -1) : TInv A B C T' := by
  have hkeep : ∀ a b, a ≤ A.length → b ≤ B.length → T.memo_table a b = 1 →
      T'.memo_table a b = 1 := by
    intro a b ha hb h1
    by_cases hab : a = i ∧ b = j
    · obtain ⟨rfl, rfl⟩ := hab
      have hf := h.feasible_of_one hi hj h1
      rcases hent with e | ⟨_, e⟩ | ⟨e, _⟩
      · exact absurd e hne
      · exact absurd hf e
      · exact e
    · rw [(hsame a b hab).1, h1]
  intro a b ha hb
  by_cases hab : a = i ∧ b = j
  · obtain ⟨rfl, rfl⟩ := hab
    exact hent
  · obtain ⟨m, c⟩ := hsame a b hab
    unfold Entry
    rw [m, c]
    rcases h a b ha hb with e | e | ⟨e1, e2, e3⟩
    · exact Or.inl e
    · exact Or.inr (Or.inl e)
    · refine Or.inr (Or.inr ⟨e1, e2, ?_⟩)
      rcases e3 with e | ⟨c1, c2, c3, c4⟩ | ⟨c1, c2, c3, c4, c5⟩
      · exact Or.inl e
      · exact Or.inr (Or.inl ⟨c1, c2, c3, hkeep _ _ (by omega) hb c4⟩)
      · exact Or.inr (Or.inr ⟨c1, c2, c3, hkeep _ _ ha (by omega) c4, c5⟩)

theorem TInv.cleared (A B C : Key) : TInv A B C Tables.cleared :=
  fun _ _ _ _ => Or.inl rfl

theorem recurse_succ (A B C : Key) (fuel : Nat) (T : Tables) (i j : Nat) :
    recurse A B C (fuel + 1) T i j =
      if i > MAX_A ∨ j > MAX_B then none
      else if T.memo_table i j ≠ -1 then some (T, T.memo_table i j)
      else if i = A.length ∧ j = B.length then some (T.setMemo i j 1, 1)
      else if i + j ≥ C.length then some (T.setMemo i j 0, 0)
      else
        match (if i < A.length ∧ A.getD i 0 = C.getD (i + j) 0 then
          recurse A B C fuel T (i + 1) j else some (T, 0)) with
        | none => none
        | some (T1, r1) =>
          if r1 ≠ 0 then some ((T1.setChoice i j 65).setMemo i j 1, 1)
          else
            match (if j < B.length ∧ B.getD j 0 = C.getD (i + j) 0 then
              recurse A B C fuel T1 i (j + 1) else some (T1, 0)) with
            | none => none
            | some (T2, r2) =>
              if r2 ≠ 0 then some ((T2.setChoice i j 66).setMemo i j 1, 1)
              else some (T2.setMemo i j 0, 0) := rfl

theorem setMemo_same (T : Tables) (i j : Nat) (v : Int) :
    (T.setMemo i j v).memo_table i j = v := by
  simp [Tables.setMemo]

theorem setMemo_other (T : Tables) (i j : Nat) (v : Int) (a b : Nat) (h : ¬ (a = i ∧ b = j)) :
    (T.setMemo i j v).memo_table a b = T.memo_table a b := by
  simp only [Tables.setMemo, if_neg h]

theorem setChoice_same (T : Tables) (i j : Nat) (c : Fin 256) :
    (T.setChoice i j c).choice_table i j = c := by
  simp [Tables.setChoice]

theorem setChoice_other (T : Tables) (i j : Nat) (c : Fin 256) (a b : Nat)
    (h : ¬ (a = i ∧ b = j)) :
    (T.setChoice i j c).choice_table a b = T.choice_table a b := by
  simp only [Tables.setChoice, if_neg h]

/-- One attempt of `recurse`: the call for the next indices when the characters match. -/
theorem attempt_spec {A B C : Key} (fuel : Nat) (i2 j2 : Nat)
    (cond : Prop) [Decidable cond] (hb : cond → i2 ≤ A.length ∧ j2 ≤ B.length)
    (ih : cond → ∀ T, TInv A B C T → ∃ T1 r1, recurse A B C fuel T i2 j2 = some (T1, r1) ∧
      TInv A B C T1 ∧ T1.memo_table i2 j2 = r1 ∧ (r1 = 0 ∨ r1 = 1))
    (T : Tables) (hT : TInv A B C T) :
    ∃ T1 r1, (if cond then recurse A B C fuel T i2 j2 else some (T, 0)) = some (T1, r1) ∧
      TInv A B C T1 ∧ (r1 = 0 ∨ r1 = 1) ∧
      (r1 = 1 → cond ∧ T1.memo_table i2 j2 = 1 ∧ Feasible A B C i2 j2) ∧
      (r1 = 0 → ¬ (cond ∧ Feasible A B C i2 j2)) := by
  by_cases hc : cond
  · rw [if_pos hc]
    obtain ⟨T1, r1, e, hT1, hm, hr⟩ := ih hc T hT
    obtain ⟨hi, hj⟩ := hb hc
    refine ⟨T1, r1, e, hT1, hr, ?_, ?_⟩
    · intro h1
      rw [h1] at hm
      exact ⟨hc, hm, hT1.feasible_of_one hi hj hm⟩
    · intro h0
      rw [h0] at hm
      exact fun h => hT1.not_feasible_of_zero hi hj hm h.2
  · rw [if_neg hc]
    exact ⟨T, 0, rfl, hT, Or.inl rfl, fun h => absurd h (by decide), fun _ h => hc h.1⟩

/-- The function `recurse` returns, for strings of at most `1000` characters and with
enough fuel for the depth of the recursion, and it records a correct answer. -/
theorem recurse_spec {A B C : Key} (hlen : A.length + B.length = C.length)
    (hA : A.length ≤ 1000) (hB : B.length ≤ 1000) :
    ∀ (fuel : Nat) (i j : Nat), i ≤ A.length → j ≤ B.length →
      (A.length - i) + (B.length - j) < fuel →
      ∀ T, TInv A B C T → ∃ T1 r1, recurse A B C fuel T i j = some (T1, r1) ∧
        TInv A B C T1 ∧ T1.memo_table i j = r1 ∧ (r1 = 0 ∨ r1 = 1) := by
  intro fuel
  induction fuel with
  | zero => intro i j _ _ h; omega
  | succ fuel ih =>
    intro i j hi hj hfuel T hT
    rw [recurse_succ]
    have hmax : ¬ (i > MAX_A ∨ j > MAX_B) := by
      show ¬ (i > 1000 ∨ j > 1000)
      omega
    rw [if_neg hmax]
    by_cases hm : T.memo_table i j ≠ -1
    · rw [if_pos hm]
      exact ⟨T, _, rfl, hT, rfl, hT.value hi hj hm⟩
    rw [if_neg hm]
    by_cases hend : i = A.length ∧ j = B.length
    · rw [if_pos hend]
      refine ⟨_, 1, rfl, ?_, setMemo_same _ _ _ _, Or.inr rfl⟩
      refine hT.table_update hi hj (fun a b hab => ⟨setMemo_other _ _ _ _ _ _ hab, rfl⟩) ?_ ?_
      · exact Or.inr (Or.inr ⟨setMemo_same _ _ _ _, (feasible_iff _ _ _ _ _).2 (Or.inl hend),
          Or.inl hend⟩)
      · rw [setMemo_same]; decide
    rw [if_neg hend]
    have hk : i + j < C.length := by omega
    rw [if_neg (by omega)]
    -- the attempt in `A`
    obtain ⟨T1, r1, e1, hT1, hr1, a1, a0⟩ :=
      attempt_spec fuel (i + 1) j (i < A.length ∧ A.getD i 0 = C.getD (i + j) 0)
        (fun h => ⟨h.1, hj⟩)
        (fun h => ih (i + 1) j h.1 hj (by have := h.1; omega)) T hT
    rw [e1]
    dsimp only
    rcases hr1 with h0 | h1
    swap
    · -- the step in `A` leads to a merge
      obtain ⟨⟨c1, c2⟩, c3, c4⟩ := a1 h1
      rw [if_pos (by rw [h1]; decide)]
      have c2' := (getD_eq_iff A C c1 hk).1 c2
      refine ⟨_, 1, rfl, ?_, setMemo_same _ _ _ _, Or.inr rfl⟩
      refine hT1.table_update hi hj (fun a b hab => ⟨?_, ?_⟩) ?_ ?_
      · rw [setMemo_other _ _ _ _ _ _ hab]; rfl
      · exact setChoice_other _ _ _ _ _ _ hab
      · refine Or.inr (Or.inr ⟨setMemo_same _ _ _ _,
          (feasible_iff _ _ _ _ _).2 (Or.inr (Or.inl ⟨c1, c2', c4⟩)),
          Or.inr (Or.inl ⟨setChoice_same _ _ _ _, c1, c2', ?_⟩)⟩)
        rw [setMemo_other _ _ _ _ _ _ (by omega)]
        exact c3
      · rw [setMemo_same]; decide
    · -- no merge after a step in `A`
      have nA : ¬ (i < A.length ∧ A[i]? = C[i + j]? ∧ Feasible A B C (i + 1) j) := by
        rintro ⟨c1, c2, c3⟩
        exact a0 h0 ⟨⟨c1, (getD_eq_iff A C c1 hk).2 c2⟩, c3⟩
      rw [if_neg (by rw [h0]; decide)]
      obtain ⟨T2, r2, e2, hT2, hr2, b1, b0⟩ :=
        attempt_spec fuel i (j + 1) (j < B.length ∧ B.getD j 0 = C.getD (i + j) 0)
          (fun h => ⟨hi, h.1⟩)
          (fun h => ih i (j + 1) hi h.1 (by have := h.1; omega)) T1 hT1
      rw [e2]
      dsimp only
      rcases hr2 with g0 | g1
      swap
      · obtain ⟨⟨c1, c2⟩, c3, c4⟩ := b1 g1
        rw [if_pos (by rw [g1]; decide)]
        have c2' := (getD_eq_iff B C c1 hk).1 c2
        refine ⟨_, 1, rfl, ?_, setMemo_same _ _ _ _, Or.inr rfl⟩
        refine hT2.table_update hi hj (fun a b hab => ⟨?_, ?_⟩) ?_ ?_
        · rw [setMemo_other _ _ _ _ _ _ hab]; rfl
        · exact setChoice_other _ _ _ _ _ _ hab
        · refine Or.inr (Or.inr ⟨setMemo_same _ _ _ _,
            (feasible_iff _ _ _ _ _).2 (Or.inr (Or.inr ⟨c1, c2', c4⟩)),
            Or.inr (Or.inr ⟨setChoice_same _ _ _ _, c1, c2', ?_, nA⟩)⟩)
          rw [setMemo_other _ _ _ _ _ _ (by omega)]
          exact c3
        · rw [setMemo_same]; decide
      · rw [if_neg (by rw [g0]; decide)]
        have nB : ¬ (j < B.length ∧ B[j]? = C[i + j]? ∧ Feasible A B C i (j + 1)) := by
          rintro ⟨c1, c2, c3⟩
          exact b0 g0 ⟨⟨c1, (getD_eq_iff B C c1 hk).2 c2⟩, c3⟩
        refine ⟨_, 0, rfl, ?_, setMemo_same _ _ _ _, Or.inl rfl⟩
        refine hT2.table_update hi hj (fun a b hab => ⟨setMemo_other _ _ _ _ _ _ hab, rfl⟩) ?_ ?_
        · refine Or.inr (Or.inl ⟨setMemo_same _ _ _ _, ?_⟩)
          intro hf
          rcases (feasible_iff _ _ _ _ _).1 hf with h | h | h
          · exact hend h
          · exact nA h
          · exact nB h
        · rw [setMemo_same]; decide

end Merge

end ECE365

namespace ECE365

namespace Merge

/-! ### The loop that builds `merged` -/

theorem decorate_nil_left (C : Key) : decorate [] C = [] := by
  cases C <;> rfl

theorem decorate_cons (s : Bool) (sel : List Bool) (c : Fin 256) (C : Key) :
    decorate (s :: sel) (c :: C) = (if s then toupper c else c) :: decorate sel C := rfl

theorem decorate_length : ∀ (sel : List Bool) (C : Key), sel.length = C.length →
    (decorate sel C).length = C.length := by
  intro sel
  induction sel with
  | nil => intro C h; rw [decorate_nil_left, ← h]; rfl
  | cons s sel ih =>
    intro C h
    cases C with
    | nil => simp at h
    | cons c C =>
      rw [decorate_cons, List.length_cons, List.length_cons, ih C (by simpa using h)]

/-- The characters of `merged` at the positions taken from `A` are the characters of `C`
there in upper case. -/
theorem pick_true_decorate : ∀ (sel : List Bool) (C : Key),
    pick true sel (decorate sel C) = (pick true sel C).map toupper := by
  intro sel
  induction sel with
  | nil => intro C; rw [pick_nil_left, pick_nil_left]; rfl
  | cons s sel ih =>
    intro C
    cases C with
    | nil => rw [pick_nil_right]; rfl
    | cons c C =>
      rw [decorate_cons, pick_cons, pick_cons]
      cases s with
      | true => simp [ih C]
      | false => simp [ih C]

/-- The characters of `merged` at the other positions are the characters of `C` there. -/
theorem pick_false_decorate : ∀ (sel : List Bool) (C : Key),
    pick false sel (decorate sel C) = pick false sel C := by
  intro sel
  induction sel with
  | nil => intro C; rw [pick_nil_left, pick_nil_left]
  | cons s sel ih =>
    intro C
    cases C with
    | nil => rw [pick_nil_right]; rfl
    | cons c C =>
      rw [decorate_cons, pick_cons, pick_cons]
      cases s with
      | true => simp [ih C]
      | false => simp [ih C]

theorem GreedyPath.greedy_valid {A B C : Key} : ∀ (sel : List Bool) (i j : Nat),
    GreedyPath A B C i j sel → ValidPath A B C i j sel := by
  intro sel
  induction sel with
  | nil => intro i j h; exact h
  | cons s sel ih =>
    intro i j h
    cases s with
    | true => exact ⟨h.1, h.2.1, ih _ _ h.2.2⟩
    | false => exact ⟨h.1, h.2.1, ih _ _ h.2.2.2⟩

theorem mergeLoop_succ (A B : Key) (T : Tables) (fuel i j : Nat) (merged : Key)
    (taken : List Bool) :
    mergeLoop A B T (fuel + 1) i j merged taken =
      if i < A.length ∨ j < B.length then
        if i > MAX_A ∨ j > MAX_B then none
        else if i < A.length ∧ T.choice_table i j = 65 then
          mergeLoop A B T fuel (i + 1) j (merged ++ [toupper (A.getD i 0)]) (taken ++ [true])
        else if j < B.length ∧ T.choice_table i j = 66 then
          mergeLoop A B T fuel i (j + 1) (merged ++ [B.getD j 0]) (taken ++ [false])
        else some (merged, taken)
      else some (merged, taken) := rfl

theorem getD_of_getElem?_eq (A C : Key) {i k : Nat} (hi : i < A.length) (hk : k < C.length)
    (h : A[i]? = C[k]?) : A.getD i 0 = C[k] := by
  rw [List.getD_eq_getElem _ _ hi]
  rw [List.getElem?_eq_getElem hi, List.getElem?_eq_getElem hk] at h
  exact Option.some.inj h

/-- From indices with the record `1`, the loop follows the recorded choices to the end of
both strings: it appends to `merged` the rest of `C` with the characters taken from `A` in
upper case, along a path that takes the character of `A` wherever a merge can go on after
that. -/
theorem mergeLoop_spec {A B C : Key} (hlen : A.length + B.length = C.length)
    (hA : A.length ≤ 1000) (hB : B.length ≤ 1000) {T : Tables} (hT : TInv A B C T) :
    ∀ (fuel i j : Nat) (merged : Key) (taken : List Bool), i ≤ A.length → j ≤ B.length →
      T.memo_table i j = 1 → (A.length - i) + (B.length - j) < fuel →
      ∃ sel, mergeLoop A B T fuel i j merged taken =
          some (merged ++ decorate sel (C.drop (i + j)), taken ++ sel) ∧
        GreedyPath A B C i j sel := by
  intro fuel
  induction fuel with
  | zero => intro i j _ _ _ _ _ h; omega
  | succ fuel ih =>
    intro i j merged taken hi hj h1 hfuel
    rw [mergeLoop_succ]
    have hmax : ¬ (i > MAX_A ∨ j > MAX_B) := by
      show ¬ (i > 1000 ∨ j > 1000)
      omega
    rcases hT i j hi hj with e | ⟨e, _⟩ | ⟨_, _, e⟩
    · rw [h1] at e; exact absurd e (by decide)
    · rw [h1] at e; exact absurd e (by decide)
    rcases e with hend | ⟨c1, c2, c3, c4⟩ | ⟨c1, c2, c3, c4, c5⟩
    · rw [if_neg (by omega)]
      exact ⟨[], by rw [decorate_nil_left, List.append_nil, List.append_nil], hend⟩
    · have hk := lt_of_getElem?_eq A C c2 c3
      rw [if_pos (Or.inl c2), if_neg hmax, if_pos ⟨c2, c1⟩]
      obtain ⟨sel, e, hg⟩ := ih (i + 1) j (merged ++ [toupper (A.getD i 0)]) (taken ++ [true])
        c2 hj c4 (by omega)
      refine ⟨true :: sel, ?_, c2, c3, hg⟩
      rw [e, List.drop_eq_getElem_cons hk, decorate_cons, if_pos rfl,
        getD_of_getElem?_eq A C c2 hk c3, show i + 1 + j = i + j + 1 by omega]
      simp
    · have hk := lt_of_getElem?_eq B C c2 c3
      have hne : ¬ (i < A.length ∧ T.choice_table i j = 65) := by
        rw [c1]
        exact fun h => absurd h.2 (by decide)
      rw [if_pos (Or.inr c2), if_neg hmax, if_neg hne, if_pos ⟨c2, c1⟩]
      obtain ⟨sel, e, hg⟩ := ih i (j + 1) (merged ++ [B.getD j 0]) (taken ++ [false])
        hi c2 c4 (by omega)
      refine ⟨false :: sel, ?_, c2, c3, c5, hg⟩
      rw [e, List.drop_eq_getElem_cons hk, decorate_cons, if_neg (by decide),
        getD_of_getElem?_eq B C c2 hk c3, show i + (j + 1) = i + j + 1 by omega]
      simp

end Merge

end ECE365

namespace ECE365

namespace Merge

/-! ### The characters of `A` come as early as possible -/

theorem positionsFrom_ge : ∀ (sel : List Bool) (t x : Nat), x ∈ positionsFrom t sel → t ≤ x := by
  intro sel
  induction sel with
  | nil => intro t x h; exact absurd h (List.not_mem_nil _)
  | cons s sel ih =>
    intro t x h
    cases s with
    | true =>
      rcases List.mem_cons.1 h with e | h
      · omega
      · have := ih _ _ h; omega
    | false => have := ih _ _ h; omega

theorem positionsFrom_getElem?_ge (sel : List Bool) (t k x : Nat)
    (h : (positionsFrom t sel)[k]? = some x) : t ≤ x :=
  by
  obtain ⟨hk, e⟩ := List.getElem?_eq_some.1 h
  exact positionsFrom_ge sel t x (e ▸ List.getElem_mem hk)

theorem mem_positionsFrom : ∀ (sel : List Bool) (t x : Nat),
    x ∈ positionsFrom t sel ↔ (t ≤ x ∧ sel[x - t]? = some true) := by
  intro sel
  induction sel with
  | nil => intro t x; simp [positionsFrom]
  | cons s sel ih =>
    intro t x
    by_cases hx : x = t
    · subst hx
      cases s with
      | true => simp [positionsFrom]
      | false =>
        have : x ∉ positionsFrom (x + 1) sel := fun h => by
          have := positionsFrom_ge _ _ _ h; omega
        simp [positionsFrom, this]
    · have e : t ≤ x → x - t = (x - (t + 1)) + 1 := fun _ => by omega
      cases s with
      | true =>
        show x ∈ t :: positionsFrom (t + 1) sel ↔ _
        rw [List.mem_cons, ih]
        constructor
        · rintro (h | ⟨h1, h2⟩)
          · exact absurd h hx
          · refine ⟨by omega, ?_⟩
            rw [e (by omega), List.getElem?_cons_succ]; exact h2
        · rintro ⟨h1, h2⟩
          rw [e h1, List.getElem?_cons_succ] at h2
          exact Or.inr ⟨by omega, h2⟩
      | false =>
        show x ∈ positionsFrom (t + 1) sel ↔ _
        rw [ih]
        constructor
        · rintro ⟨h1, h2⟩
          refine ⟨by omega, ?_⟩
          rw [e (by omega), List.getElem?_cons_succ]; exact h2
        · rintro ⟨h1, h2⟩
          rw [e h1, List.getElem?_cons_succ] at h2
          exact ⟨by omega, h2⟩

theorem positionsFrom_sorted : ∀ (sel : List Bool) (t : Nat),
    (positionsFrom t sel).Pairwise (fun p q => p < q) := by
  intro sel
  induction sel with
  | nil => intro t; exact List.Pairwise.nil
  | cons s sel ih =>
    intro t
    cases s with
    | true =>
      refine List.Pairwise.cons ?_ (ih (t + 1))
      intro x hx
      have := positionsFrom_ge _ _ _ hx
      omega
    | false => exact ih (t + 1)

/-- A path has as many positions marked `true` as `A` has characters left. -/
theorem ValidPath.positions_length {A B C : Key} : ∀ (sel : List Bool) (i j t : Nat),
    ValidPath A B C i j sel → (positionsFrom t sel).length + i = A.length := by
  intro sel
  induction sel with
  | nil => intro i j t h; rw [h.1]; simp [positionsFrom]
  | cons s sel ih =>
    intro i j t h
    cases s with
    | true =>
      have := ih _ _ (t + 1) h.2.2
      show (positionsFrom (t + 1) sel).length + 1 + i = A.length
      omega
    | false => exact ih _ _ (t + 1) h.2.2

/-- A greedy path from `(i, j)` reaches every character of `A` no later than any path from
a point `(i2, j2)` of the same diagonal with `i2 ≤ i`. -/
theorem GreedyPath.earliest {A B C : Key} : ∀ (sel sel2 : List Bool) (i j i2 j2 t : Nat),
    GreedyPath A B C i j sel → ValidPath A B C i2 j2 sel2 → i + j = i2 + j2 → i2 ≤ i →
    ∀ m p q, i ≤ m → (positionsFrom t sel)[m - i]? = some p →
      (positionsFrom t sel2)[m - i2]? = some q → p ≤ q := by
  intro sel
  induction sel with
  | nil =>
    intro sel2 i j i2 j2 t _ _ _ _ m p q _ hp _
    exact absurd hp (by simp [positionsFrom])
  | cons s sel ih =>
    intro sel2 i j i2 j2 t hg hv hd hle m p q hm hp hq
    have hl1 := ValidPath.path_length _ _ _ (GreedyPath.greedy_valid _ _ _ hg)
    have hl2 := ValidPath.path_length _ _ _ hv
    cases sel2 with
    | nil =>
      exact absurd hq (by simp [positionsFrom])
    | cons s2 sel2 =>
      cases s with
      | true =>
        obtain ⟨g1, g2, g3⟩ := hg
        have hP : positionsFrom t (true :: sel) = t :: positionsFrom (t + 1) sel := rfl
        rw [hP] at hp
        by_cases hmi : m = i
        · -- the first character left of `A`
          rw [hmi, Nat.sub_self, List.getElem?_cons_zero] at hp
          have := positionsFrom_getElem?_ge _ _ _ _ hq
          have := Option.some.inj hp
          omega
        · rw [show m - i = (m - (i + 1)) + 1 by omega, List.getElem?_cons_succ] at hp
          cases s2 with
          | true =>
            obtain ⟨v1, v2, v3⟩ := hv
            have hQ : positionsFrom t (true :: sel2) = t :: positionsFrom (t + 1) sel2 := rfl
            rw [hQ, show m - i2 = (m - (i2 + 1)) + 1 by omega, List.getElem?_cons_succ] at hq
            exact ih sel2 (i + 1) j (i2 + 1) j2 (t + 1) g3 v3 (by omega) (by omega) m p q
              (by omega) hp hq
          | false =>
            obtain ⟨v1, v2, v3⟩ := hv
            have hQ : positionsFrom t (false :: sel2) = positionsFrom (t + 1) sel2 := rfl
            rw [hQ] at hq
            exact ih sel2 (i + 1) j i2 (j2 + 1) (t + 1) g3 v3 (by omega) (by omega) m p q
              (by omega) hp hq
      | false =>
        obtain ⟨g1, g2, g3, g4⟩ := hg
        have hP : positionsFrom t (false :: sel) = positionsFrom (t + 1) sel := rfl
        rw [hP] at hp
        cases s2 with
        | true =>
          obtain ⟨v1, v2, v3⟩ := hv
          have hQ : positionsFrom t (true :: sel2) = t :: positionsFrom (t + 1) sel2 := rfl
          by_cases hii : i2 = i
          · -- at the same point the greedy path would have taken the step in `A`
            subst hii
            have hjj : j2 = j := by omega
            subst hjj
            exact absurd ⟨v1, v2, sel2, v3⟩ g3
          · rw [hQ, show m - i2 = (m - (i2 + 1)) + 1 by omega, List.getElem?_cons_succ] at hq
            exact ih sel2 i (j + 1) (i2 + 1) j2 (t + 1) g4 v3 (by omega) (by omega) m p q
              hm hp hq
        | false =>
          obtain ⟨v1, v2, v3⟩ := hv
          have hQ : positionsFrom t (false :: sel2) = positionsFrom (t + 1) sel2 := rfl
          rw [hQ] at hq
          exact ih sel2 i (j + 1) i2 (j2 + 1) (t + 1) g4 v3 (by omega) (by omega) m p q
            hm hp hq

/-- The function `isValidMerge` with the record of its loop, for strings `A` and `B` of at
most `1000` characters and enough fuel: it returns whether `C` is a merge of `A` and `B`,
and for a merge the string built along the greedy path. -/
theorem isValidMergeTaken_spec (A B C merged : Key) (hA : A.length ≤ 1000)
    (hB : B.length ≤ 1000) (fuel : Nat) (hfuel : A.length + B.length < fuel) :
    (Feasible A B C 0 0 ∧ A.length + B.length = C.length ∧
      ∃ sel, isValidMergeTaken A B C merged fuel = some (true, decorate sel C, sel) ∧
        GreedyPath A B C 0 0 sel) ∨
    (¬ (∃ sel, IsInterleaving sel A B C) ∧
      isValidMergeTaken A B C merged fuel = some (false, merged, [])) := by
  unfold isValidMergeTaken
  by_cases hlen : A.length + B.length = C.length
  · rw [if_neg (by omega)]
    obtain ⟨T, r, e, hT, hm, hr⟩ := recurse_spec hlen hA hB fuel 0 0 (Nat.zero_le _)
      (Nat.zero_le _) (by omega) Tables.cleared (TInv.cleared A B C)
    rw [e]
    dsimp only
    rcases hr with h0 | h1
    · rw [if_neg (by rw [h0]; decide)]
      refine Or.inr ⟨?_, rfl⟩
      rintro ⟨sel, hs⟩
      rw [h0] at hm
      exact hT.not_feasible_of_zero (Nat.zero_le _) (Nat.zero_le _) hm
        ⟨sel, (validPath_zero hlen sel).2 hs⟩
    · rw [if_pos (by rw [h1]; decide)]
      rw [h1] at hm
      obtain ⟨sel, e2, hg⟩ := mergeLoop_spec hlen hA hB hT fuel 0 0 [] [] (Nat.zero_le _)
        (Nat.zero_le _) hm (by omega)
      rw [e2]
      refine Or.inl ⟨hT.feasible_of_one (Nat.zero_le _) (Nat.zero_le _) hm, hlen, sel, ?_, hg⟩
      simp
  · rw [if_pos hlen]
    refine Or.inr ⟨?_, rfl⟩
    rintro ⟨sel, hs⟩
    exact hlen hs.sum_length

end Merge

end ECE365

namespace ECE365

namespace Graph

/-! ### The graph of `longLines`: a name with two vertices -/

/-- In the graph built from the lines `longLines 805306370`, two vertices of `vertexList`
have the name `nameOf n`. -/
theorem longLines_duplicate (n : Nat) (hn : n = 805306370) :
    ∃ i j, i < j ∧ j < (build (longLines n)).vertexList.length ∧
      (vertex (build (longLines n)).vertexList i).id = nameOf n ∧
      (vertex (build (longLines n)).vertexList j).id = nameOf n := by
  obtain ⟨a0, n0, h, h2⟩ := build_longLines_twice n hn
  exact ⟨n0, n0 + 1, by omega, by rw [h.len]; omega, h.id_x, h2⟩

/-- In the graph built from the lines `longLines 805306370`, a vertex with the name
`nameOf n` has an empty adjacency list, although a line has the source `nameOf n`. -/
theorem longLines_lost_edge (n : Nat) (hn : n = 805306370) :
    ({ sourceId := nameOf n, destId := nameOf (n + 1), weight := 1 } : Triple) ∈ longLines n ∧
    ∃ u, u < (build (longLines n)).vertexList.length ∧
      (vertex (build (longLines n)).vertexList u).id = nameOf n ∧
      (vertex (build (longLines n)).vertexList u).adjList = [] := by
  obtain ⟨a0, n0, h⟩ := build_longLines n hn
  refine ⟨?_, n0, by rw [h.len]; omega, h.id_x, ?_⟩
  · unfold longLines
    exact List.mem_append_right _ (List.mem_cons_of_mem _ (List.mem_singleton_self _))
  · apply List.eq_nil_iff_forall_not_mem.2
    intro e he
    have hl := h.lt
    rcases h.edges n0 e.weight e.destination he with ⟨_, h1, _⟩ | ⟨h1, _⟩ | ⟨h1, _⟩ <;> omega

end Graph

end ECE365

namespace ECE365

namespace Graph

/-! ### The record of `dijkstra` -/

theorem relaxEdgeLog_fold (u : Nat) : ∀ (es : List Edge) (p : (List Vertex × heap) × List Event),
    (es.foldl (relaxEdgeLog u) p).1 = es.foldl (relaxEdge u) p.1 ∧
    ∃ l, (es.foldl (relaxEdgeLog u) p).2 = p.2 ++ l := by
  intro es
  induction es with
  | nil => intro p; exact ⟨rfl, [], (List.append_nil _).symm⟩
  | cons e es ih =>
    intro p
    rw [List.foldl_cons, List.foldl_cons]
    obtain ⟨h1, l, h2⟩ := ih (relaxEdgeLog u p e)
    refine ⟨h1, relaxEvents u p.1 e ++ l, ?_⟩
    rw [h2, ← List.append_assoc]
    rfl

theorem dijkstraLoopLog_succ (fuel : Nat) (p : (List Vertex × heap) × List Event) :
    dijkstraLoopLog (fuel + 1) p =
      if p.1.2.currentSize > 0 then
        if (p.1.2.deleteMin).2.1 ≠ 0 then some (p.1.1, p.2)
        else
          match (p.1.2.deleteMin).2.2 with
          | none => some (p.1.1, p.2)
          | some n =>
            match n.pData with
            | none => dijkstraLoopLog fuel ((p.1.1, (p.1.2.deleteMin).1), p.2)
            | some u =>
              if (vertex p.1.1 u).known then
                dijkstraLoopLog fuel ((p.1.1, (p.1.2.deleteMin).1), p.2 ++ [Event.skip u])
              else
                dijkstraLoopLog fuel
                  ((vertex p.1.1 u).adjList.foldl (relaxEdgeLog u)
                    ((p.1.1.set u { vertex p.1.1 u with known := true },
                      (p.1.2.deleteMin).1), p.2))
      else some (p.1.1, p.2) := rfl

theorem dijkstraLoop_succ (fuel : Nat) (st : List Vertex × heap) :
    dijkstraLoop (fuel + 1) st =
      if st.2.currentSize > 0 then
        if (st.2.deleteMin).2.1 ≠ 0 then some st.1
        else
          match (st.2.deleteMin).2.2 with
          | none => some st.1
          | some n =>
            match n.pData with
            | none => dijkstraLoop fuel (st.1, (st.2.deleteMin).1)
            | some u =>
              if (vertex st.1 u).known then dijkstraLoop fuel (st.1, (st.2.deleteMin).1)
              else
                dijkstraLoop fuel
                  ((vertex st.1 u).adjList.foldl (relaxEdge u)
                    (st.1.set u { vertex st.1 u with known := true }, (st.2.deleteMin).1))
      else some st.1 := rfl

/-- The main loop with the record computes the vertices of the main loop. -/
theorem dijkstraLoopLog_fst : ∀ (fuel : Nat) (p : (List Vertex × heap) × List Event),
    (dijkstraLoopLog fuel p).map Prod.fst = dijkstraLoop fuel p.1 := by
  intro fuel
  induction fuel with
  | zero => intro p; rfl
  | succ fuel ih =>
    intro p
    rw [dijkstraLoopLog_succ, dijkstraLoop_succ]
    split
    · split
      · rfl
      · cases (p.1.2.deleteMin).2.2 with
        | none => rfl
        | some n =>
          dsimp only
          cases n.pData with
          | none => exact ih _
          | some u =>
            dsimp only
            split
            · exact ih _
            · rw [ih, (relaxEdgeLog_fold u _ _).1]
    · rfl

/-- The record only grows during the main loop. -/
theorem dijkstraLoopLog_prefix : ∀ (fuel : Nat) (p : (List Vertex × heap) × List Event)
    (r : List Vertex × List Event), dijkstraLoopLog fuel p = some r → ∃ l, r.2 = p.2 ++ l := by
  intro fuel
  induction fuel with
  | zero => intro p r h; exact absurd h (by simp [dijkstraLoopLog])
  | succ fuel ih =>
    intro p r h
    rw [dijkstraLoopLog_succ] at h
    have hsame : some (p.1.1, p.2) = some r → ∃ l, r.2 = p.2 ++ l := by
      intro e
      have := Option.some.inj e
      exact ⟨[], by rw [← this, List.append_nil]⟩
    split at h
    · split at h
      · exact hsame h
      · cases hn : (p.1.2.deleteMin).2.2 with
        | none => rw [hn] at h; exact hsame h
        | some n =>
          rw [hn] at h
          dsimp only at h
          cases hd : n.pData with
          | none =>
            rw [hd] at h
            dsimp only at h
            exact ih ((p.1.1, (p.1.2.deleteMin).1), p.2) r h
          | some u =>
            rw [hd] at h
            dsimp only at h
            split at h
            · obtain ⟨l, hl⟩ := ih _ r h
              exact ⟨[Event.skip u] ++ l, by rw [hl, List.append_assoc]⟩
            · obtain ⟨l, hl⟩ := ih _ r h
              obtain ⟨_, l2, hl2⟩ := relaxEdgeLog_fold u (vertex p.1.1 u).adjList
                ((p.1.1.set u { vertex p.1.1 u with known := true }, (p.1.2.deleteMin).1), p.2)
              exact ⟨l2 ++ l, by rw [hl, hl2, List.append_assoc]⟩
    · exact hsame h

/-- The function `dijkstra` with the record computes the graph of `dijkstra`. -/
theorem dijkstraLog_fst (g : Graph) (startVertex : Key) (fuel : Nat) :
    (dijkstraLog g startVertex fuel).map Prod.fst = dijkstra g startVertex fuel := by
  unfold dijkstraLog dijkstra
  cases (g.vertices.getPointer startVertex).1 with
  | none => rfl
  | some source =>
    dsimp only
    split
    · rfl
    · rw [← dijkstraLoopLog_fst fuel (_, [Event.insert source _])]
      rw [Option.map_map, Option.map_map]
      rfl

/-- When `dijkstra` returns, `dijkstra` with the record returns the same graph. -/
theorem dijkstraLog_of_dijkstra {g g2 : Graph} {startVertex : Key} {fuel : Nat}
    (h : dijkstra g startVertex fuel = some g2) :
    ∃ log, dijkstraLog g startVertex fuel = some (g2, log) := by
  have e := dijkstraLog_fst g startVertex fuel
  rw [h] at e
  cases hl : dijkstraLog g startVertex fuel with
  | none => rw [hl] at e; exact absurd e (by simp)
  | some r =>
    rw [hl] at e
    have : r.1 = g2 := Option.some.inj e
    exact ⟨r.2, by rw [← this]⟩

end Graph

end ECE365

namespace ECE365

namespace Graph

/-! ### The heap of `dijkstra` for all weights -/

theorem CoreInv.queue {g : Graph} {s : Nat} {st : List Vertex × heap} (hC : CoreInv g s st) :
    QInv g st :=
  ⟨hC.len, hC.ids, hC.adj, hC.hinv, hC.hcap, hC.hsize, hC.hfill, hC.nodes, hC.le_max⟩

/-- The state of `dijkstra` before the main loop. -/
theorem QInv.queue_initial {g : Graph} {s : Nat} (hs : s < g.vertexList.length) :
    QInv g
      ((resetAll g.vertexList).set s { vertex (resetAll g.vertexList) s with distance := 0 },
        ((heap.init g.vertexList.length).insert (vertex g.vertexList s).id 0 (some s)).1) :=
  (DInv.start hs).core.queue

/-- An iteration of the main loop on a heap that is not empty: `deleteMin` returns the node
of a vertex `u` that is not known; after `u` is marked known, the nodes of the heap are
again the vertices that are not known and have a distance below the sentinel. -/
theorem QInv.queue_pop {g : Graph} {vs : List Vertex} {hp : heap}
    (hinj : ∀ i j, i < g.vertexList.length → j < g.vertexList.length →
      (vertex g.vertexList i).id = (vertex g.vertexList j).id → i = j)
    (hQ : QInv g (vs, hp)) (hpos : hp.currentSize ≠ 0) :
    (hp.deleteMin).2.1 = 0 ∧
    ∃ u, u < g.vertexList.length ∧ (vertex vs u).known = false ∧
      (hp.deleteMin).2.2 = some
        { id := (vertex vs u).id, key := (vertex vs u).distance, pData := some u } ∧
      QInv g (vs.set u { vertex vs u with known := true }, (hp.deleteMin).1) ∧
      (vertex (vs.set u { vertex vs u with known := true }) u).known = true := by
  have hlen : vs.length = g.vertexList.length := hQ.len
  obtain ⟨d1, d2, d3, d4, d5, d6⟩ := heap.deleteMin_spec hQ.hinv hpos
  have hroot : hp.slot 1 ∈ hp.nodes :=
    (heap.mem_nodes_iff hp _).2 ⟨1, le_refl _, by omega, rfl⟩
  obtain ⟨u, hu1, hu2, hu3, hu4⟩ := (hQ.nodes _).1 hroot
  dsimp only at d1 d2 d3 d4 d5 d6 hu2 hu3 hu4
  have hul : u < vs.length := by omega
  have hvx : ∀ j, vertex (vs.set u { vertex vs u with known := true }) j =
      if j = u then { vertex vs u with known := true } else vertex vs j :=
    fun j => vertex_set vs u j _ hul
  have hid : ∀ j, (vertex (vs.set u { vertex vs u with known := true }) j).id
      = (vertex vs j).id := by
    intro j; rw [hvx]; split
    · rename_i h; rw [h]
    · rfl
  have hdist : ∀ j, (vertex (vs.set u { vertex vs u with known := true }) j).distance
      = (vertex vs j).distance := by
    intro j; rw [hvx]; split
    · rename_i h; rw [h]
    · rfl
  have hadj : ∀ j, (vertex (vs.set u { vertex vs u with known := true }) j).adjList
      = (vertex vs j).adjList := by
    intro j; rw [hvx]; split
    · rename_i h; rw [h]
    · rfl
  have hknown : ∀ j, (vertex (vs.set u { vertex vs u with known := true }) j).known
      = if j = u then true else (vertex vs j).known := by
    intro j; rw [hvx]; split <;> rfl
  refine ⟨d1, u, hu1, hu2, by rw [d2, hu4], ⟨?_, ?_, ?_, d3, ?_, ?_, ?_, ?_, ?_⟩, ?_⟩
  · show (vs.set u _).length = _
    rw [List.length_set]; exact hlen
  · intro i; show (vertex (vs.set u _) i).id = _
    rw [hid]; exact hQ.ids i
  · intro i; show (vertex (vs.set u _) i).adjList = _
    rw [hadj]; exact hQ.adj i
  · show (hp.deleteMin).1.capacity = _
    rw [d5]; exact hQ.hcap
  · show (hp.deleteMin).1.currentSize = (vs.set u _).countP queued
    have := countP_set_vertex queued vs u { vertex vs u with known := true } hul
    have e1 : queued (vertex vs u) = true := by
      unfold queued; rw [hu2]; simpa using hu3
    have e2 : queued { vertex vs u with known := true } = false := rfl
    rw [e1, e2] at this
    have hs : hp.currentSize = vs.countP queued := hQ.hsize
    rw [d4]
    simp only [if_true, Bool.false_eq_true, if_false] at this
    dsimp only
    omega
  · show (hp.deleteMin).1.mapping.filled + (vs.set u _).countP unreached ≤ _
    have := countP_set_vertex unreached vs u { vertex vs u with known := true } hul
    have e1 : unreached (vertex vs u) = false := by
      unfold unreached
      simp only [decide_eq_false_iff_not]
      omega
    have e2 : unreached { vertex vs u with known := true } = false := e1
    rw [e1, e2] at this
    have hf : hp.mapping.filled + vs.countP unreached ≤ g.vertexList.length := hQ.hfill
    rw [heap.deleteMin_mfilled]
    simp only [Bool.false_eq_true, if_false] at this
    dsimp only
    omega
  · intro nd
    show nd ∈ (hp.deleteMin).1.nodes ↔ _
    rw [d6, hu4]
    constructor
    · rintro ⟨h1, h2⟩
      obtain ⟨v, hv1, hv2, hv3, hv4⟩ := (hQ.nodes nd).1 h1
      have hvu : v ≠ u := by
        intro e; subst e; rw [hv4] at h2; exact h2 rfl
      refine ⟨v, hv1, ?_, ?_, ?_⟩
      · show (vertex (vs.set u _) v).known = false
        rw [hknown, if_neg hvu]; exact hv2
      · show (vertex (vs.set u _) v).distance < _
        rw [hdist]; exact hv3
      · show nd = ⟨(vertex (vs.set u _) v).id, (vertex (vs.set u _) v).distance, some v⟩
        rw [hid, hdist]; exact hv4
    · rintro ⟨v, hv1, hv2, hv3, hv4⟩
      have hv2' : (vertex (vs.set u { vertex vs u with known := true }) v).known = false := hv2
      have hv3' : (vertex (vs.set u { vertex vs u with known := true }) v).distance
          < INT32_MAX := hv3
      have hv4' : nd = ⟨(vertex (vs.set u { vertex vs u with known := true }) v).id,
          (vertex (vs.set u { vertex vs u with known := true }) v).distance, some v⟩ := hv4
      have hvu : v ≠ u := by
        intro e; rw [hknown, if_pos e] at hv2'; exact absurd hv2' (by simp)
      rw [hknown, if_neg hvu] at hv2'
      rw [hdist] at hv3'
      rw [hid, hdist] at hv4'
      refine ⟨(hQ.nodes nd).2 ⟨v, hv1, hv2', hv3', hv4'⟩, ?_⟩
      rw [hv4']
      show (vertex vs v).id ≠ (vertex vs u).id
      intro e
      rw [hQ.ids, hQ.ids] at e
      exact hvu (hinj v u hv1 hu1 e)
  · intro v hv
    show (vertex (vs.set u _) v).distance ≤ _
    rw [hdist]; exact hQ.le_max v hv
  · rw [hknown, if_pos rfl]

end Graph

end ECE365

namespace ECE365

namespace Graph

/-! ### The relaxation of an edge, for all weights -/

theorem QInv.queue_node_of_id {g : Graph} {st : List Vertex × heap}
    (hinj : ∀ i j, i < g.vertexList.length → j < g.vertexList.length →
      (vertex g.vertexList i).id = (vertex g.vertexList j).id → i = j)
    (hQ : QInv g st) {nd : node} (hnd : nd ∈ st.2.nodes) {v : Nat}
    (hv : v < g.vertexList.length) (hid : nd.id = (vertex st.1 v).id) :
    (vertex st.1 v).known = false ∧ (vertex st.1 v).distance < INT32_MAX ∧
    nd = { id := (vertex st.1 v).id, key := (vertex st.1 v).distance, pData := some v } := by
  obtain ⟨v', h1, h2, h3, h4⟩ := (hQ.nodes nd).1 hnd
  have : v' = v := by
    apply hinj v' v h1 hv
    rw [← hQ.ids, ← hQ.ids, ← hid, h4]
  subst this
  exact ⟨h2, h3, h4⟩

theorem QInv.queue_contains_iff {g : Graph} {st : List Vertex × heap}
    (hinj : ∀ i j, i < g.vertexList.length → j < g.vertexList.length →
      (vertex g.vertexList i).id = (vertex g.vertexList j).id → i = j)
    (hQ : QInv g st) {v : Nat} (hv : v < g.vertexList.length) :
    st.2.mapping.contains (vertex st.1 v).id = true ↔
      ((vertex st.1 v).known = false ∧ (vertex st.1 v).distance < INT32_MAX) := by
  rw [hQ.hinv.contains_iff_mem_ids]
  unfold heap.ids
  rw [List.mem_map]
  constructor
  · rintro ⟨nd, hnd, hid⟩
    obtain ⟨h1, h2, _⟩ := hQ.queue_node_of_id hinj hnd hv hid
    exact ⟨h1, h2⟩
  · rintro ⟨h1, h2⟩
    exact ⟨_, (hQ.nodes _).2 ⟨v, hv, h1, h2, rfl⟩, rfl⟩

/-- The state after the distance of the vertex `v`, which is not known, is improved to `d`,
for any heap that holds the nodes of the new state. -/
theorem QInv.queue_improve {g : Graph} {vs : List Vertex} {hp : heap}
    (hinj : ∀ i j, i < g.vertexList.length → j < g.vertexList.length →
      (vertex g.vertexList i).id = (vertex g.vertexList j).id → i = j)
    (hQ : QInv g (vs, hp)) (u v : Nat) (d : Int) (hv : v < g.vertexList.length)
    (hk : (vertex vs v).known = false) (hlt : d < (vertex vs v).distance)
    (hq : heap) (hI : hq.Inv) (hcap : hq.capacity = hp.capacity)
    (hcs : hq.currentSize = hp.currentSize +
      (if (vertex vs v).distance < INT32_MAX then 0 else 1))
    (hfl : hq.mapping.filled ≤ hp.mapping.filled +
      (if (vertex vs v).distance < INT32_MAX then 0 else 1))
    (hnodes : ∀ nd, nd ∈ hq.nodes ↔
      (nd = ⟨(vertex vs v).id, d, some v⟩ ∨ (nd ∈ hp.nodes ∧ nd.id ≠ (vertex vs v).id))) :
    QInv g (vs.set v (improved (vertex vs v) d u), hq) := by
  have hlen : vs.length = g.vertexList.length := hQ.len
  have hvl : v < vs.length := by omega
  have hvx := improved_vertex vs v u d hvl
  generalize hvs : vs.set v (improved (vertex vs v) d u) = vs1 at hvx ⊢
  have hid : ∀ j, (vertex vs1 j).id = (vertex vs j).id := by
    intro j; rw [hvx]; split
    · rename_i h; rw [h]; rfl
    · rfl
  have hadj : ∀ j, (vertex vs1 j).adjList = (vertex vs j).adjList := by
    intro j; rw [hvx]; split
    · rename_i h; rw [h]; rfl
    · rfl
  have hknown : ∀ j, (vertex vs1 j).known = (vertex vs j).known := by
    intro j; rw [hvx]; split
    · rename_i h; rw [h]; rfl
    · rfl
  have hdist : ∀ j, (vertex vs1 j).distance = if j = v then d else (vertex vs j).distance := by
    intro j; rw [hvx]; split <;> rfl
  have hmax : (vertex vs v).distance ≤ INT32_MAX := hQ.le_max _ hv
  have hqueued : ∀ x, queued (vertex vs1 x) = if x = v then true else queued (vertex vs x) := by
    intro x
    unfold queued
    rw [hknown, hdist]
    split
    · rename_i h; rw [h, hk]
      simp only [Bool.not_false, Bool.true_and, decide_eq_true_eq]
      omega
    · rfl
  have hunreached : ∀ x, unreached (vertex vs1 x) =
      if x = v then false else unreached (vertex vs x) := by
    intro x
    unfold unreached
    rw [hdist]
    split
    · simp only [decide_eq_false_iff_not]
      omega
    · rfl
  have hcq := countP_set_vertex queued vs v (improved (vertex vs v) d u) hvl
  have hcu := countP_set_vertex unreached vs v (improved (vertex vs v) d u) hvl
  rw [hvs] at hcq hcu
  have hq1 := hqueued v
  have hu1 := hunreached v
  rw [hvx, if_pos rfl, if_pos rfl] at hq1 hu1
  rw [hq1] at hcq
  rw [hu1] at hcu
  have hsz : hp.currentSize = vs.countP queued := hQ.hsize
  have hfill : hp.mapping.filled + vs.countP unreached ≤ g.vertexList.length := hQ.hfill
  have hqv : queued (vertex vs v) = true ↔ (vertex vs v).distance < INT32_MAX := by
    unfold queued; rw [hk]; simp
  have huv : unreached (vertex vs v) = true ↔ ¬ (vertex vs v).distance < INT32_MAX := by
    unfold unreached; simp only [decide_eq_true_eq]; omega
  refine ⟨?_, ?_, ?_, hI, ?_, ?_, ?_, ?_, ?_⟩
  · show vs1.length = _
    rw [← hvs, List.length_set]; exact hlen
  · intro i; show (vertex vs1 i).id = _
    rw [hid]; exact hQ.ids i
  · intro i; show (vertex vs1 i).adjList = _
    rw [hadj]; exact hQ.adj i
  · show hq.capacity = _
    rw [hcap]; exact hQ.hcap
  · show hq.currentSize = vs1.countP queued
    rw [hcs]
    by_cases h : (vertex vs v).distance < INT32_MAX
    · rw [if_pos h]; rw [if_pos (hqv.2 h)] at hcq
      simp only [if_true] at hcq; omega
    · rw [if_neg h]; rw [if_neg (fun x => h (hqv.1 x))] at hcq
      simp only [if_true] at hcq; omega
  · show hq.mapping.filled + vs1.countP unreached ≤ _
    by_cases h : (vertex vs v).distance < INT32_MAX
    · rw [if_pos h] at hfl; rw [if_neg (fun x => huv.1 x h)] at hcu
      simp only [Bool.false_eq_true, if_false] at hcu; omega
    · rw [if_neg h] at hfl; rw [if_pos (huv.2 h)] at hcu
      simp only [Bool.false_eq_true, if_false] at hcu; omega
  · intro nd
    show nd ∈ hq.nodes ↔ ∃ x, x < g.vertexList.length ∧ (vertex vs1 x).known = false ∧
      (vertex vs1 x).distance < INT32_MAX ∧
      nd = ⟨(vertex vs1 x).id, (vertex vs1 x).distance, some x⟩
    rw [hnodes]
    constructor
    · rintro (h | ⟨h1, h2⟩)
      · refine ⟨v, hv, ?_, ?_, ?_⟩
        · rw [hknown]; exact hk
        · rw [hdist, if_pos rfl]; omega
        · rw [hid, hdist, if_pos rfl]; exact h
      · obtain ⟨x, hx1, hx2, hx3, hx4⟩ := (hQ.nodes nd).1 h1
        dsimp only at hx2 hx3 hx4
        have hxv : x ≠ v := by
          intro h; rw [hx4, h] at h2; exact h2 rfl
        refine ⟨x, hx1, ?_, ?_, ?_⟩
        · rw [hknown]; exact hx2
        · rw [hdist, if_neg hxv]; exact hx3
        · rw [hid, hdist, if_neg hxv]; exact hx4
    · rintro ⟨x, hx1, hx2, hx3, hx4⟩
      by_cases hxv : x = v
      · left
        rw [hx4, hid, hdist, if_pos hxv, hxv]
      · right
        rw [hknown] at hx2
        rw [hdist, if_neg hxv] at hx3
        rw [hid, hdist, if_neg hxv] at hx4
        refine ⟨(hQ.nodes nd).2 ⟨x, hx1, hx2, hx3, hx4⟩, ?_⟩
        rw [hx4]
        show (vertex vs x).id ≠ (vertex vs v).id
        intro h
        have h' := h
        rw [hQ.ids, hQ.ids] at h'
        exact hxv (hinj x v hx1 hv h')
  · intro x hx
    show (vertex vs1 x).distance ≤ INT32_MAX
    have := hQ.le_max x hx
    rw [hdist]
    split
    · omega
    · exact this

theorem relaxEvents_skip (u : Nat) (vs : List Vertex) (hp : heap) (e : Edge)
    (h : ¬ ((vertex vs e.destination).known = false ∧
      wrapInt ((vertex vs u).distance + e.weight) < (vertex vs e.destination).distance)) :
    relaxEvents u (vs, hp) e = [] := by
  unfold relaxEvents
  rw [if_neg]
  simpa using h

theorem relaxEvents_go (u : Nat) (vs : List Vertex) (hp : heap) (e : Edge)
    (hv : e.destination < vs.length) (hk : (vertex vs e.destination).known = false)
    (hlt : wrapInt ((vertex vs u).distance + e.weight) < (vertex vs e.destination).distance) :
    relaxEvents u (vs, hp) e =
      [Event.insert e.destination (hp.insert (vertex vs e.destination).id
        (wrapInt ((vertex vs u).distance + e.weight)) (some e.destination)).2] := by
  have hx := improved_vertex vs e.destination u (wrapInt ((vertex vs u).distance + e.weight)) hv
    e.destination
  rw [if_pos rfl] at hx
  unfold relaxEvents
  rw [if_pos (by simp [hk, hlt])]
  unfold improved at hx
  dsimp only at hx ⊢
  simp only [hx]

end Graph

end ECE365

namespace ECE365

namespace Graph

/-! ### Every `insert` of `dijkstra` returns `0` or `2`, in a graph of at most `805306370`
vertices -/

theorem calm_nil : Calm [] := fun _ h => absurd h (List.not_mem_nil _)

theorem Calm.append {l1 l2 : List Event} (h1 : Calm l1) (h2 : Calm l2) : Calm (l1 ++ l2) := by
  intro e h
  rcases List.mem_append.1 h with h | h
  · exact h1 e h
  · exact h2 e h

theorem calm_single (v st : Nat) (h : st = 0 ∨ st = 2) : Calm [Event.insert v st] := by
  intro e hm
  rw [List.mem_singleton] at hm
  rw [hm]
  rcases h with h | h
  · exact ⟨v, Or.inl (by rw [h])⟩
  · exact ⟨v, Or.inr (by rw [h])⟩

/-- In a calm record every call of `insert` returned `0` or `2`. -/
theorem Calm.insert_status {log : List Event} (h : Calm log) {v st : Nat}
    (hm : Event.insert v st ∈ log) : st = 0 ∨ st = 2 := by
  obtain ⟨w, e | e⟩ := h _ hm
  · injection e with _ e2; exact Or.inl e2
  · injection e with _ e2; exact Or.inr e2

/-- In a calm record no vertex is skipped. -/
theorem Calm.no_skip {log : List Event} (h : Calm log) (u : Nat) : Event.skip u ∉ log := by
  intro hm
  obtain ⟨w, e | e⟩ := h _ hm <;> exact absurd e (by simp)

/-- The relaxation of an edge of the known vertex `u`: the call of `insert`, if there is
one, returns `0` or `2`, and the invariant holds again. -/
theorem QInv.relax_ok {g : Graph} {u : Nat} {vs : List Vertex} {hp : heap}
    (hinj : ∀ i j, i < g.vertexList.length → j < g.vertexList.length →
      (vertex g.vertexList i).id = (vertex g.vertexList j).id → i = j)
    (hdest : ∀ i, i < g.vertexList.length → ∀ e, e ∈ (vertex g.vertexList i).adjList →
      e.destination < g.vertexList.length)
    (hV : g.vertexList.length ≤ 805306370)
    (hQ : QInv g (vs, hp)) (hu : u < g.vertexList.length) (huk : (vertex vs u).known = true)
    (e : Edge) (he : e ∈ (vertex g.vertexList u).adjList) :
    QInv g (relaxEdge u (vs, hp) e) ∧ (vertex (relaxEdge u (vs, hp) e).1 u).known = true ∧
    Calm (relaxEvents u (vs, hp) e) := by
  have hlen : vs.length = g.vertexList.length := hQ.len
  have hv : e.destination < g.vertexList.length := hdest u hu e he
  have hvl : e.destination < vs.length := by omega
  by_cases hgo : (vertex vs e.destination).known = false ∧
      wrapInt ((vertex vs u).distance + e.weight) < (vertex vs e.destination).distance
  swap
  · rw [relaxEdge_skip u vs hp e hgo, relaxEvents_skip u vs hp e hgo]
    exact ⟨hQ, huk, calm_nil⟩
  obtain ⟨hk', hlt⟩ := hgo
  have hvu : e.destination ≠ u := by
    intro h; rw [h, huk] at hk'; exact absurd hk' (by simp)
  rw [relaxEdge_go u vs hp e hvl hk' hlt, relaxEvents_go u vs hp e hvl hk' hlt]
  dsimp only
  have hmax : (vertex vs e.destination).distance ≤ INT32_MAX := hQ.le_max _ hv
  have hsz : hp.currentSize = vs.countP queued := hQ.hsize
  have hfill : hp.mapping.filled + vs.countP unreached ≤ g.vertexList.length := hQ.hfill
  have hcap : hp.capacity = g.vertexList.length := hQ.hcap
  have hI : hp.Inv := hQ.hinv
  have hnq : queued (vertex vs u) = false := by unfold queued; rw [huk]; rfl
  have hnf : ¬ hp.currentSize ≥ hp.capacity := by
    have := countP_lt_of_not queued vs u (by omega) hnq
    omega
  have hcont := hQ.queue_contains_iff hinj hv
  dsimp only at hcont
  have hroom : (vertex vs e.destination).distance = INT32_MAX → hp.mapping.filled < 805306370 := by
    intro h
    have hpos := countP_pos_of unreached vs e.destination hvl (by
      unfold unreached; simp only [decide_eq_true_eq]; exact h)
    omega
  have hknown : (vertex (vs.set e.destination (improved (vertex vs e.destination)
      (wrapInt ((vertex vs u).distance + e.weight)) u)) u).known = true := by
    rw [improved_vertex vs e.destination u _ hvl, if_neg (fun h => hvu h.symm)]
    exact huk
  by_cases hfin : (vertex vs e.destination).distance < INT32_MAX
  · -- the vertex is in the heap: `insert` returns `2`, and `setKey` lowers the key
    have hc1 := hcont.2 ⟨hk', hfin⟩
    rw [heap.insert_of_dup _ _ _ hnf hc1, if_pos rfl]
    dsimp only
    refine ⟨?_, hknown, calm_single _ _ (Or.inr rfl)⟩
    obtain ⟨i, hi1, hi2, hi3⟩ := (heap.mem_nodes_iff hp _).1
      ((hQ.nodes _).2 ⟨e.destination, hv, hk', hfin, rfl⟩)
    dsimp only at hi3
    have hid : (vertex vs e.destination).id = (hp.slot i).id := by rw [hi3]
    obtain ⟨_, k2, k3, k4⟩ := heap.setKey_spec hI hi1 hi2
      (wrapInt ((vertex vs u).distance + e.weight))
    apply hQ.queue_improve hinj u e.destination _ hv hk' hlt
    · rw [hid]; exact k2
    · rw [hid]; exact k3.capacity
    · rw [hid, if_pos hfin]; exact k3.currentSize
    · rw [hid, if_pos hfin]; exact le_of_eq k3.mfilled
    · intro nd
      rw [hid, k4 nd, hi3]
  · -- the vertex is reached for the first time: `insert` returns `0`
    have hc1 : hp.mapping.contains (vertex vs e.destination).id = false := by
      by_contra h
      exact hfin (hcont.1 (by simpa using h)).2
    have h0 := heap.insert_new_ok hI (vertex vs e.destination).id
      (wrapInt ((vertex vs u).distance + e.weight)) (some e.destination) (by omega) hc1
      (hroom (by omega))
    rw [if_neg (by rw [h0]; decide), h0]
    refine ⟨?_, hknown, calm_single _ _ (Or.inl rfl)⟩
    obtain ⟨s1, s2, s3, _, _, _, _, _, s9⟩ := heap.insert_success hI _ _ _ h0
    apply hQ.queue_improve hinj u e.destination _ hv hk' hlt
    · exact s1
    · exact s3
    · rw [if_neg hfin]; exact s2
    · rw [if_neg hfin]; exact heap.insert_mfilled_le hI _ _ _ h0
    · intro nd
      rw [s9 nd]
      constructor
      · rintro (h | h)
        · exact Or.inl h
        · refine Or.inr ⟨h, ?_⟩
          intro hidn
          exact hfin (hQ.queue_node_of_id hinj h hv hidn).2.1
      · rintro (h | ⟨h, _⟩)
        · exact Or.inl h
        · exact Or.inr h

/-- The loop over the edges of the known vertex `u`. -/
theorem QInv.fold_ok {g : Graph} {u : Nat}
    (hinj : ∀ i j, i < g.vertexList.length → j < g.vertexList.length →
      (vertex g.vertexList i).id = (vertex g.vertexList j).id → i = j)
    (hdest : ∀ i, i < g.vertexList.length → ∀ e, e ∈ (vertex g.vertexList i).adjList →
      e.destination < g.vertexList.length)
    (hV : g.vertexList.length ≤ 805306370) (hu : u < g.vertexList.length) :
    ∀ (es : List Edge), (∀ e, e ∈ es → e ∈ (vertex g.vertexList u).adjList) →
      ∀ (p : (List Vertex × heap) × List Event), QInv g p.1 → (vertex p.1.1 u).known = true →
        Calm p.2 →
        QInv g (es.foldl (relaxEdgeLog u) p).1 ∧ Calm (es.foldl (relaxEdgeLog u) p).2 := by
  intro es
  induction es with
  | nil => intro _ p hQ _ hl; exact ⟨hQ, hl⟩
  | cons e es ih =>
    intro hes p hQ hk hl
    rw [List.foldl_cons]
    obtain ⟨r1, r2, r3⟩ := @QInv.relax_ok _ _ p.1.1 p.1.2 hinj hdest hV hQ hu hk e
      (hes e (List.mem_cons_self _ _))
    exact ih (fun e' he' => hes e' (List.mem_cons_of_mem _ he')) (relaxEdgeLog u p e) r1 r2
      (hl.append r3)

/-- The main loop: every call of `insert` returns `0` or `2`, and no vertex is
skipped. -/
theorem dijkstraLoopLog_ok {g : Graph}
    (hinj : ∀ i j, i < g.vertexList.length → j < g.vertexList.length →
      (vertex g.vertexList i).id = (vertex g.vertexList j).id → i = j)
    (hdest : ∀ i, i < g.vertexList.length → ∀ e, e ∈ (vertex g.vertexList i).adjList →
      e.destination < g.vertexList.length)
    (hV : g.vertexList.length ≤ 805306370) :
    ∀ (fuel : Nat) (p : (List Vertex × heap) × List Event) (r : List Vertex × List Event),
      QInv g p.1 → Calm p.2 → dijkstraLoopLog fuel p = some r → Calm r.2 := by
  intro fuel
  induction fuel with
  | zero => intro p r _ _ h; exact absurd h (by simp [dijkstraLoopLog])
  | succ fuel ih =>
    intro p r hQ hl h
    rw [dijkstraLoopLog_succ] at h
    have hsame : some (p.1.1, p.2) = some r → Calm r.2 := by
      intro e
      rw [← Option.some.inj e]
      exact hl
    by_cases hpos : p.1.2.currentSize > 0
    swap
    · rw [if_neg hpos] at h; exact hsame h
    rw [if_pos hpos] at h
    obtain ⟨d1, u, hu1, hu2, hu3, hu4, hu5⟩ := @QInv.queue_pop _ p.1.1 p.1.2 hinj hQ
      (by omega)
    rw [if_neg (by rw [d1]; simp), hu3] at h
    dsimp only at h
    rw [if_neg (by rw [hu2]; simp)] at h
    have hadj : (vertex p.1.1 u).adjList = (vertex g.vertexList u).adjList := hQ.adj u
    obtain ⟨f1, f2⟩ := QInv.fold_ok hinj hdest hV hu1 (vertex p.1.1 u).adjList
      (fun e he => by rw [← hadj]; exact he)
      ((p.1.1.set u { vertex p.1.1 u with known := true }, (p.1.2.deleteMin).1), p.2)
      hu4 hu5 hl
    exact ih _ r f1 f2 h

/-- The function `dijkstra` with the record, for a start vertex with the pointer `source`,
in terms of the vertices `vs` before the insertion of the source. -/
theorem dijkstraLog_of_source (g : Graph) (startVertex : Key) (fuel : Nat) (source : Nat)
    (hp : (g.vertices.getPointer startVertex).1 = some source) (vs : List Vertex)
    (hvs : vs = (resetAll g.vertexList).set source
      { vertex (resetAll g.vertexList) source with distance := 0 }) :
    dijkstraLog g startVertex fuel =
      if ((heap.init vs.length).insert (vertex vs source).id (vertex vs source).distance
          (some source)).2 ≠ 0 then
        some ({ g with vertexList := vs },
          [Event.insert source ((heap.init vs.length).insert (vertex vs source).id
            (vertex vs source).distance (some source)).2])
      else
        (dijkstraLoopLog fuel
          ((vs, ((heap.init vs.length).insert (vertex vs source).id (vertex vs source).distance
            (some source)).1),
            [Event.insert source ((heap.init vs.length).insert (vertex vs source).id
              (vertex vs source).distance (some source)).2])).map
          (fun r => ({ g with vertexList := r.1 }, r.2)) := by
  subst hvs
  unfold dijkstraLog
  rw [hp]

/-- The function `dijkstra` on a graph with distinct ids and at most `805306370` vertices:
every call of `minHeap.insert` returns `0` or `2`. -/
theorem dijkstraLog_ok {g : Graph} (hg : g.WF) (hV : g.vertexList.length ≤ 805306370)
    (startVertex : Key) (fuel : Nat) (r : Graph × List Event)
    (h : dijkstraLog g startVertex fuel = some r) : Calm r.2 := by
  cases hp : (g.vertices.getPointer startVertex).1 with
  | none =>
    unfold dijkstraLog at h
    rw [hp] at h
    rw [← Option.some.inj h]
    exact calm_nil
  | some source =>
    have hlook : g.vertices.lookup startVertex = some (some source) := by
      rw [hashTable.getPointer_eq_lookup] at hp
      cases hl : g.vertices.lookup startVertex with
      | none => rw [hl] at hp; exact absurd hp (by simp)
      | some v => rw [hl] at hp; dsimp only at hp; rw [hp]
    obtain ⟨s, hs, hid⟩ := hg.lookup_onto startVertex (by rw [hlook]; simp)
    have hs2 : s = source := by
      have := hg.lookup_id s hs
      rw [hid, hlook] at this
      exact (Option.some.inj (Option.some.inj this)).symm
    subst hs2
    have hlenr : (resetAll g.vertexList).length = g.vertexList.length := by
      unfold resetAll; rw [List.length_map]
    have hQ0 := QInv.queue_initial hs
    have hd0 : (vertex ((resetAll g.vertexList).set s
        { vertex (resetAll g.vertexList) s with distance := 0 }) s).distance = 0 := by
      rw [vertex_set _ s s _ (by omega), if_pos rfl]
    have hi0 := hQ0.ids s
    have hl0 := hQ0.len
    rw [dijkstraLog_of_source g startVertex fuel s hp _ rfl] at h
    dsimp only at hi0 hl0
    generalize (resetAll g.vertexList).set s
      { vertex (resetAll g.vertexList) s with distance := 0 } = vs0 at h hQ0 hd0 hi0 hl0
    have h0 := heap_init_insert g.vertexList.length (by omega) (vertex g.vertexList s).id 0
      (some s)
    rw [hl0, hi0, hd0, if_neg (by rw [h0]; simp), h0] at h
    cases hl : dijkstraLoopLog fuel
        ((vs0, ((heap.init g.vertexList.length).insert (vertex g.vertexList s).id 0
          (some s)).1), [Event.insert s 0]) with
    | none => rw [hl] at h; exact absurd h (by simp)
    | some r2 =>
      rw [hl] at h
      rw [← Option.some.inj h]
      exact dijkstraLoopLog_ok hg.ids_inj hg.dest_lt hV fuel _ r2 hQ0
        (calm_single _ _ (Or.inl rfl)) hl

end Graph

end ECE365

namespace ECE365

namespace hashTable

/-! ### A key that is not in the hash table of the heap -/

theorem lookup_none_setPointer {t : hashTable} (hI : HInv t) (key : Key) (pv : Ptr) {x : Key}
    (hx : t.lookup x = none) : (t.setPointer key pv).1.lookup x = none := by
  rw [lookup_setPointer hI, if_neg]
  · exact hx
  · rintro ⟨e, h⟩
    rw [← e, hx] at h
    exact absurd h (by simp)

theorem lookup_none_remove {t : hashTable} (hI : HInv t) (key : Key) {x : Key}
    (hx : t.lookup x = none) : (t.remove key).1.lookup x = none := by
  rw [lookup_remove hI]
  split
  · rfl
  · exact hx

theorem lookup_none_insert {t : hashTable} (hP : PInv t) (key : Key) (pv : Ptr) {x : Key}
    (hne : x ≠ key) (hx : t.lookup x = none) : (t.insert key pv false).1.lookup x = none := by
  by_cases h0 : (t.insert key pv false).2 = 0
  · rw [(insert_ok hP key pv h0).2.2 x, if_neg hne]
    exact hx
  · rw [insert_of_ne_zero h0]
    exact hx

/-- A call of `insert` does not lower the capacity. -/
theorem insert_capacity_ge {t : hashTable} (hP : PInv t) (key : Key) (pv : Ptr) :
    t.capacity ≤ (t.insert key pv false).1.capacity := by
  unfold insert
  split
  · exact le_refl _
  · split
    · split
      · rename_i hok
        rw [place_capacity]
        exact le_of_lt (rehash_spec hP.inv hok).2.2.1
      · exact le_refl _
    · rw [place_capacity]

/-- A table of the largest capacity keeps it. -/
theorem insert_capacity_top {t : hashTable} (hP : PInv t) (key : Key) (pv : Ptr)
    (htop : t.capacity = 1610612741) : (t.insert key pv false).1.capacity = 1610612741 := by
  have h1 := insert_capacity_ge hP key pv
  have h2 := primeNumbers_le _ (insert_pinv hP key pv).prime
  omega

end hashTable

namespace heap

/-- The id `x` is not a key of the hash table of the heap, which is in a consistent
state. -/
theorem absent_move {h : heap} {x : Key} (hP : h.mapping.PInv) (hx : h.mapping.lookup x = none)
    (pos q : Nat) : (h.move pos q).mapping.PInv ∧ (h.move pos q).mapping.lookup x = none :=
  ⟨hashTable.setPointer_pinv hP _ _, hashTable.lookup_none_setPointer hP.inv _ _ hx⟩

theorem absent_fill {h : heap} {x : Key} (hP : h.mapping.PInv) (hx : h.mapping.lookup x = none)
    (pos : Nat) (tmp : node) :
    (h.fill pos tmp).mapping.PInv ∧ (h.fill pos tmp).mapping.lookup x = none :=
  ⟨hashTable.setPointer_pinv hP _ _, hashTable.lookup_none_setPointer hP.inv _ _ hx⟩

theorem percolateUpLoop_absent (tmp : node) (x : Key) :
    ∀ (fuel : Nat) (h : heap) (pos : Nat), h.mapping.PInv → h.mapping.lookup x = none →
      (percolateUpLoop tmp fuel h pos).1.mapping.PInv ∧
      (percolateUpLoop tmp fuel h pos).1.mapping.lookup x = none := by
  intro fuel
  induction fuel with
  | zero => intro h pos hP hx; exact ⟨hP, hx⟩
  | succ fuel ih =>
    intro h pos hP hx
    rw [percolateUpLoop_succ]
    split
    · obtain ⟨a, b⟩ := absent_move hP hx pos (pos / 2)
      exact ih _ _ a b
    · exact ⟨hP, hx⟩

theorem percolateDownLoop_absent (tmp : node) (x : Key) :
    ∀ (fuel : Nat) (h : heap) (pos : Nat), h.mapping.PInv → h.mapping.lookup x = none →
      (percolateDownLoop tmp fuel h pos).1.mapping.PInv ∧
      (percolateDownLoop tmp fuel h pos).1.mapping.lookup x = none := by
  intro fuel
  induction fuel with
  | zero => intro h pos hP hx; exact ⟨hP, hx⟩
  | succ fuel ih =>
    intro h pos hP hx
    rw [percolateDownLoop_succ]
    split
    · split
      · exact ⟨hP, hx⟩
      · obtain ⟨a, b⟩ := absent_move hP hx pos (h.minChild pos)
        exact ih _ _ a b
    · exact ⟨hP, hx⟩

theorem percolateUp_absent {h : heap} {x : Key} (hP : h.mapping.PInv)
    (hx : h.mapping.lookup x = none) (pos : Nat) :
    (h.percolateUp pos).mapping.lookup x = none := by
  rw [percolateUp_eq]
  obtain ⟨a, b⟩ := percolateUpLoop_absent (h.slot pos) x pos h pos hP hx
  exact (absent_fill a b _ _).2

theorem percolateDown_absent {h : heap} {x : Key} (hP : h.mapping.PInv)
    (hx : h.mapping.lookup x = none) (pos : Nat) :
    (h.percolateDown pos).mapping.lookup x = none := by
  rw [percolateDown_eq]
  obtain ⟨a, b⟩ := percolateDownLoop_absent (h.slot pos) x h.currentSize h pos hP hx
  exact (absent_fill a b _ _).2

/-- The function `deleteMin` adds no key to the hash table. -/
theorem deleteMin_absent {h : heap} {x : Key} (hP : h.mapping.PInv)
    (hx : h.mapping.lookup x = none) : (h.deleteMin).1.mapping.lookup x = none := by
  by_cases h0 : h.currentSize = 0
  · rw [deleteMin_of_empty h0]; exact hx
  · rw [deleteMin_of_pos h0]
    show (h.beheaded.percolateDown 1).mapping.lookup x = none
    have hr := hashTable.remove_pinv hP (h.slot 1).id
    have hrx := hashTable.lookup_none_remove hP.inv (h.slot 1).id hx
    by_cases h1 : h.currentSize > 1
    · apply percolateDown_absent
      · rw [beheaded_of_gt h1]
        exact hashTable.setPointer_pinv hr _ _
      · rw [beheaded_of_gt h1]
        exact hashTable.lookup_none_setPointer hr.inv _ _ hrx
    · apply percolateDown_absent
      · rw [beheaded_of_one h1]; exact hr
      · rw [beheaded_of_one h1]; exact hrx

/-- The function `insert` adds no other key than the new id to the hash table. -/
theorem insert_absent {h : heap} {x : Key} (hP : h.mapping.PInv)
    (hx : h.mapping.lookup x = none) (id : Key) (key : Int) (pv : Ptr) (hne : x ≠ id) :
    (h.insert id key pv).1.mapping.lookup x = none := by
  by_cases hf : h.currentSize ≥ h.capacity
  · rw [insert_of_full id key pv hf]; exact hx
  by_cases hc : h.mapping.contains id = true
  · rw [insert_of_dup id key pv hf hc]; exact hx
  have hax : (h.appended id key pv).mapping.lookup x = none :=
    hashTable.lookup_none_insert hP id _ hne hx
  by_cases hm : (h.mapping.insert id (some (h.currentSize + 1)) false).2 = 0
  · rw [insert_of_ok id key pv hf hc hm]
    exact percolateUp_absent (hashTable.insert_pinv hP id _) hax _
  · rw [insert_of_fail id key pv hf hc hm]
    exact hax

/-- The hash table of the heap keeps the largest capacity. -/
theorem insert_mcap_top {h : heap} (hP : h.mapping.PInv)
    (htop : h.mapping.capacity = 1610612741) (id : Key) (key : Int) (pv : Ptr) :
    (h.insert id key pv).1.mapping.capacity = 1610612741 := by
  by_cases hf : h.currentSize ≥ h.capacity
  · rw [insert_of_full id key pv hf]; exact htop
  by_cases hc : h.mapping.contains id = true
  · rw [insert_of_dup id key pv hf hc]; exact htop
  have hax : (h.appended id key pv).mapping.capacity = 1610612741 :=
    hashTable.insert_capacity_top hP id _ htop
  by_cases hm : (h.mapping.insert id (some (h.currentSize + 1)) false).2 = 0
  · rw [insert_of_ok id key pv hf hc hm, (percolateUp_frame _ _).mcap]
    exact hax
  · rw [insert_of_fail id key pv hf hc hm]
    exact hax

/-! ### Percolations that do not move the node -/

theorem percolateUp_stay (h : heap) (pos : Nat) (hlen : pos < h.data.length)
    (hstay : ¬ (pos > 1 ∧ (h.slot pos).key < (h.slot (pos / 2)).key)) (j : Nat) :
    (h.percolateUp pos).slot j = h.slot j := by
  rw [percolateUp_eq]
  have hl : percolateUpLoop (h.slot pos) pos h pos = (h, pos) := by
    cases pos with
    | zero => rfl
    | succ p => rw [percolateUpLoop_succ, if_neg hstay]
  rw [hl, fill_slot _ _ _ _ hlen]
  split
  · rename_i e; rw [e]
  · rfl

theorem percolateDown_stay (h : heap) (pos : Nat) (hlen : pos < h.data.length)
    (hstay : pos * 2 ≤ h.currentSize → (h.slot pos).key ≤ (h.slot (h.minChild pos)).key)
    (j : Nat) : (h.percolateDown pos).slot j = h.slot j := by
  rw [percolateDown_eq]
  have hl : percolateDownLoop (h.slot pos) h.currentSize h pos = (h, pos) := by
    cases hs : h.currentSize with
    | zero => rfl
    | succ p =>
      rw [percolateDownLoop_succ]
      split
      · rename_i hc
        rw [if_pos (hstay hc)]
      · rfl
  rw [hl, fill_slot _ _ _ _ hlen]
  split
  · rename_i e; rw [e]
  · rfl

/-- A call of `insert` of a new id into a heap that is not full, with a key that is not
below the key of the parent of the new slot: the node stays in the new slot, whether the
hash table takes the id or not. -/
theorem insert_stay {h : heap} (hW : WInv h) (id : Key) (key : Int) (pv : Ptr)
    (hf : h.currentSize < h.capacity) (hc : h.mapping.contains id = false)
    (hkey : h.currentSize ≥ 1 → (h.slot ((h.currentSize + 1) / 2)).key ≤ key) :
    ((h.insert id key pv).2 = 0 ∨ (h.insert id key pv).2 = 3) ∧
    (h.insert id key pv).1.currentSize = h.currentSize + 1 ∧
    ∀ j, (h.insert id key pv).1.slot j =
      if j = h.currentSize + 1 then { id := id, key := key, pData := pv } else h.slot j := by
  have hlt : h.currentSize + 1 < h.data.length := by
    have := hW.size; omega
  have hslot : ∀ j, (h.appended id key pv).slot j =
      if j = h.currentSize + 1 then { id := id, key := key, pData := pv } else h.slot j :=
    fun j => getD_set h.data _ j _ hlt
  have hf' : ¬ h.currentSize ≥ h.capacity := by omega
  have hc' : ¬ h.mapping.contains id = true := by rw [hc]; simp
  by_cases hm : (h.mapping.insert id (some (h.currentSize + 1)) false).2 = 0
  · rw [insert_of_ok id key pv hf' hc' hm]
    refine ⟨Or.inl rfl, (percolateUp_frame _ _).currentSize, ?_⟩
    intro j
    have hlt2 : h.currentSize + 1 < (h.appended id key pv).data.length := by
      show _ < (h.data.set _ _).length
      rw [List.length_set]
      exact hlt
    rw [percolateUp_stay _ _ hlt2]
    · exact hslot j
    · rintro ⟨h1, h2⟩
      rw [hslot, if_pos rfl, hslot, if_neg (by omega)] at h2
      have := hkey (by omega)
      dsimp only at h2
      omega
  · rw [insert_of_fail id key pv hf' hc' hm]
    exact ⟨Or.inr rfl, rfl, hslot⟩

/-- A call of `deleteMin` on a heap of at least four nodes whose last node has a key that
is not above the key of the node in slot `2`, which is not above the key of the node in
slot `3`: the last node is moved to the root and stays there. -/
theorem deleteMin_stay {h : heap} (hW : WInv h) (h4 : 4 ≤ h.currentSize)
    (h2 : (h.slot h.currentSize).key ≤ (h.slot 2).key)
    (h3 : ¬ (h.slot 3).key < (h.slot 2).key) :
    (h.deleteMin).2.1 = 0 ∧ (h.deleteMin).2.2 = some (h.slot 1) ∧
    (h.deleteMin).1.currentSize = h.currentSize - 1 ∧
    ∀ j, (h.deleteMin).1.slot j = if j = 1 then h.slot h.currentSize else h.slot j := by
  have hlen : 1 < h.data.length := by
    have := hW.size; have := hW.bound; omega
  have hB := beheaded_of_gt (h := h) (by omega)
  have hslot : ∀ j, h.beheaded.slot j = if j = 1 then h.slot h.currentSize else h.slot j := by
    intro j; rw [hB]; exact getD_set _ _ _ _ hlen
  rw [deleteMin_of_pos (by omega)]
  refine ⟨rfl, rfl, ?_, ?_⟩
  · show (h.beheaded.percolateDown 1).currentSize = _
    rw [(percolateDown_frame _ _).currentSize, beheaded_size]
  · intro j
    show (h.beheaded.percolateDown 1).slot j = _
    have hlen2 : 1 < h.beheaded.data.length := by
      rw [hB]
      show _ < (h.data.set _ _).length
      rw [List.length_set]
      exact hlen
    rw [percolateDown_stay _ _ hlen2]
    · exact hslot j
    · intro _
      have hmc : h.beheaded.minChild 1 = 2 := by
        unfold minChild
        rw [if_neg]
        rintro ⟨_, hh⟩
        rw [hslot, hslot, if_neg (by decide), if_neg (by decide)] at hh
        exact h3 hh
      rw [hmc, hslot, hslot, if_pos rfl, if_neg (by decide)]
      exact h2

end heap

end ECE365

namespace ECE365

namespace Graph

/-! ### The graph built from the lines `starLines` -/

theorem addEdge_vertex (g : Graph) (v1 v2 : Nat) (weight : Int) (h1 : v1 < g.vertexList.length)
    (j : Nat) :
    vertex (g.addEdge v1 v2 weight).vertexList j =
      if j = v1 then { vertex g.vertexList v1 with
        adjList := (vertex g.vertexList v1).adjList ++
          [{ weight := weight, destination := v2 }] }
      else vertex g.vertexList j := vertex_set _ v1 j _ h1

theorem getOrCreateVertex_of_lookup {g : Graph} {a : Key} {i : Nat}
    (h : g.vertices.lookup a = some (some i)) : g.getOrCreateVertex a = (g, some i) := by
  unfold getOrCreateVertex
  rw [hashTable.getPointer_eq_lookup, h]
  rfl

/-- The function `insertEdge` for a source that is found and a destination that is
appended to `vertexList`. -/
theorem insertEdge_append {g : Graph} {a b : Key} {i : Nat} (w : Int)
    (hsrc : g.getOrCreateVertex a = (g, some i)) (hi : i < g.vertexList.length)
    (hptr : (g.getOrCreateVertex b).2 = some g.vertexList.length)
    (hlist : (g.getOrCreateVertex b).1.vertexList = g.vertexList ++ [{ id := b }]) :
    g.insertEdge a b w = (g.getOrCreateVertex b).1.addEdge i g.vertexList.length w ∧
    (g.insertEdge a b w).vertexList.length = g.vertexList.length + 1 ∧
    (∀ j, j < g.vertexList.length → j ≠ i →
      vertex (g.insertEdge a b w).vertexList j = vertex g.vertexList j) ∧
    vertex (g.insertEdge a b w).vertexList i =
      { vertex g.vertexList i with
        adjList := (vertex g.vertexList i).adjList ++
          [{ weight := w, destination := g.vertexList.length }] } ∧
    vertex (g.insertEdge a b w).vertexList g.vertexList.length = { id := b } := by
  have e1 : (g.getOrCreateVertex a).1 = g := by rw [hsrc]
  have e := insertEdge_eq g a b w i g.vertexList.length (by rw [hsrc])
    (by rw [e1]; exact hptr)
  rw [e1] at e
  have hl1 : (g.getOrCreateVertex b).1.vertexList.length = g.vertexList.length + 1 := by
    rw [hlist, List.length_append, List.length_singleton]
  have hv := addEdge_vertex (g.getOrCreateVertex b).1 i g.vertexList.length w (by omega)
  rw [e]
  refine ⟨rfl, ?_, ?_, ?_, ?_⟩
  · show ((g.getOrCreateVertex b).1.vertexList.set _ _).length = _
    rw [List.length_set, hl1]
  · intro j hj hji
    rw [hv, if_neg hji, hlist, vertex_append_left _ _ j hj]
  · rw [hv, if_pos rfl, hlist, vertex_append_left _ _ i hi]
  · rw [hv, if_neg (by omega), hlist, vertex_append_length]

/-- The function `insertEdge` for a source and a destination that are found. -/
theorem insertEdge_found {g : Graph} {a b : Key} {i j : Nat} (w : Int)
    (hsrc : g.getOrCreateVertex a = (g, some i)) (hdst : g.getOrCreateVertex b = (g, some j)) :
    g.insertEdge a b w = g.addEdge i j w := by
  have e1 : (g.getOrCreateVertex a).1 = g := by rw [hsrc]
  have e := insertEdge_eq g a b w i j (by rw [hsrc]) (by rw [e1, hdst])
  rw [e1, hdst] at e
  exact e

theorem fillerEdges_succ (k : Nat) :
    fillerEdges (k + 1) = fillerEdges k ++ [{ weight := 100, destination := 3 + k }] := by
  unfold fillerEdges
  rw [List.range_succ, List.map_append]
  rfl

theorem fillerLines_succ (k : Nat) :
    fillerLines (k + 1) = fillerLines k ++
      [{ sourceId := nameOf 0, destId := nameOf (3 + k), weight := 100 }] := by
  unfold fillerLines
  rw [List.range_succ, List.map_append]
  rfl

/-- One more line of `fillerLines`. -/
theorem StarPart.next {k : Nat} {g : Graph} (hS : StarPart k g)
    (hsrc : g.getOrCreateVertex (nameOf 0) = (g, some 0))
    (hptr : (g.getOrCreateVertex (nameOf (3 + k))).2 = some g.vertexList.length)
    (hlist : (g.getOrCreateVertex (nameOf (3 + k))).1.vertexList =
      g.vertexList ++ [{ id := nameOf (3 + k) }]) :
    StarPart (k + 1) (g.insertEdge (nameOf 0) (nameOf (3 + k)) 100) := by
  have hlen := hS.len
  obtain ⟨_, a2, a3, a4, a5⟩ := insertEdge_append 100 hsrc (by omega) hptr hlist
  refine ⟨by rw [a2, hlen], ?_, ?_, ?_, ?_⟩
  · intro i hi
    by_cases h0 : i = 0
    · rw [h0, a4]
      exact hS.ids 0 (by omega)
    by_cases hl : i < k + 3
    · rw [a3 i (by omega) h0]
      exact hS.ids i hl
    · have hik : i = g.vertexList.length := by omega
      rw [hik, a5, hlen, Nat.add_comm k 3]
  · rw [a4, fillerEdges_succ, ← List.append_assoc, hS.adj_c, hlen, Nat.add_comm k 3]
  · rw [a3 1 (by omega) (by decide)]
    exact hS.adj_y
  · rw [a3 2 (by omega) (by decide)]
    exact hS.adj_v

/-- The graph after the first two lines. -/
theorem starRoom_zero :
    StarRoom 0 (init.loadGraph
      [{ sourceId := nameOf 0, destId := nameOf 1, weight := 1 },
       { sourceId := nameOf 1, destId := nameOf 2, weight := 1 }]) := by
  have hload : init.loadGraph
      [{ sourceId := nameOf 0, destId := nameOf 1, weight := 1 },
       { sourceId := nameOf 1, destId := nameOf 2, weight := 1 }] =
      (init.insertEdge (nameOf 0) (nameOf 1) 1).insertEdge (nameOf 1) (nameOf 2) 1 := by
    unfold loadGraph
    rw [List.foldl_cons, List.foldl_cons, List.foldl_nil]
  rw [hload]
  have hB := init_binv
  have hl0 : init.vertexList.length = 0 := rfl
  have hlist0 : init.vertexList = [] := rfl
  -- the first line: both names are new
  obtain ⟨a1, a2, a3, a4⟩ := getOrCreateVertex_new hB.wf hB.filled (by rw [hl0]; decide)
    (a := nameOf 0) (fun i hi => by rw [hl0] at hi; omega)
  rw [hl0] at a1 a4
  rw [hlist0, List.nil_append] at a2
  have hl1 : (init.getOrCreateVertex (nameOf 0)).1.vertexList.length = 1 := by rw [a2]; rfl
  have hne01 : nameOf 0 ≠ nameOf 1 := fun e => by
    have := nameOf_inj (by decide) (by decide) e; omega
  have hne02 : nameOf 0 ≠ nameOf 2 := fun e => by
    have := nameOf_inj (by decide) (by decide) e; omega
  have hne12 : nameOf 1 ≠ nameOf 2 := fun e => by
    have := nameOf_inj (by decide) (by decide) e; omega
  obtain ⟨b1, b2, b3, b4⟩ := getOrCreateVertex_new a3 (by rw [hl1]; omega) (by rw [hl1]; decide)
    (a := nameOf 1) (fun i hi => by
      rw [hl1] at hi
      have : i = 0 := by omega
      rw [this, a2]
      exact hne01)
  rw [hl1] at b1 b4
  rw [a2] at b2
  have e1 := insertEdge_eq init (nameOf 0) (nameOf 1) 1 0 1 a1 b1
  generalize ((init.getOrCreateVertex (nameOf 0)).1.getOrCreateVertex (nameOf 1)).1 = g2
    at b2 b3 b4 e1
  have hl2 : g2.vertexList.length = 2 := by rw [b2]; rfl
  obtain ⟨c1, c2, c3, c4, _⟩ := @addEdge_spec _ b3 0 1 (by omega) (by omega) 1
  have c5 := addEdge_vertex g2 0 1 1 (by omega)
  rw [← e1] at c1 c2 c3 c4 c5
  generalize init.insertEdge (nameOf 0) (nameOf 1) 1 = g3 at c1 c2 c3 c4 c5 ⊢
  have hl3 : g3.vertexList.length = 2 := by rw [c3, hl2]
  have hv0 : vertex g3.vertexList 0 =
      { id := nameOf 0, adjList := [{ weight := 1, destination := 1 }] } := by
    rw [c5, if_pos rfl, b2]; rfl
  have hv1 : vertex g3.vertexList 1 = { id := nameOf 1 } := by
    rw [c5, if_neg (by decide), b2]; rfl
  -- the second line: the source is found, the destination is new
  have hsrc : g3.getOrCreateVertex (nameOf 1) = (g3, some 1) := by
    have := getOrCreateVertex_found c1 (i := 1) (by omega)
    rw [hv1] at this
    exact this
  obtain ⟨d1, d2, d3, d4⟩ := getOrCreateVertex_new c1 (by rw [c2, hl3]; omega)
    (by rw [hl3]; decide) (a := nameOf 2) (fun i hi => by
      rw [hl3] at hi
      have : i = 0 ∨ i = 1 := by omega
      rcases this with h | h
      · rw [h, hv0]; exact hne02
      · rw [h, hv1]; exact hne12)
  obtain ⟨f1, f2, f3, f4, f5⟩ := insertEdge_append 1 hsrc (by omega) d1 d2
  have hl4 : (g3.getOrCreateVertex (nameOf 2)).1.vertexList.length = 3 := by
    rw [d2, List.length_append, hl3]; rfl
  obtain ⟨k1, k2, k3, _, _⟩ := @addEdge_spec _ d3 1 g3.vertexList.length
    (by omega) (by omega) 1
  rw [← f1] at k1 k2 k3
  refine ⟨⟨by rw [f2, hl3], ?_, ?_, ?_, ?_⟩, k1, by rw [k2, f2, hl3]; omega⟩
  · intro i hi
    have : i = 0 ∨ i = 1 ∨ i = 2 := by omega
    rcases this with h | h | h
    · rw [h, f3 0 (by omega) (by decide), hv0]
    · rw [h, f4, hv1]
    · rw [h]
      have := f5
      rw [hl3] at this
      rw [this]
  · rw [f3 0 (by omega) (by decide), hv0]
    rfl
  · rw [f4, hv1, hl3]
    rfl
  · have := f5
    rw [hl3] at this
    rw [this]

/-- The graph while the hash table of the graph has room: after `k` of the lines
`fillerLines`, for `k + 3 ≤ 805306370`. -/
theorem starRoom_fillers : ∀ k, k + 3 ≤ 805306370 →
    StarRoom k (init.loadGraph
      ([{ sourceId := nameOf 0, destId := nameOf 1, weight := 1 },
        { sourceId := nameOf 1, destId := nameOf 2, weight := 1 }] ++ fillerLines k)) := by
  intro k
  induction k with
  | zero =>
    intro _
    have : fillerLines 0 = [] := rfl
    rw [this, List.append_nil]
    exact starRoom_zero
  | succ k ih =>
    intro hk
    obtain ⟨hS, hwf, hfl⟩ := ih (by omega)
    rw [fillerLines_succ, ← List.append_assoc, loadGraph_append]
    generalize init.loadGraph
      ([{ sourceId := nameOf 0, destId := nameOf 1, weight := 1 },
        { sourceId := nameOf 1, destId := nameOf 2, weight := 1 }] ++ fillerLines k) = g
      at hS hwf hfl
    dsimp only
    have hlen := hS.len
    have hsrc : g.getOrCreateVertex (nameOf 0) = (g, some 0) := by
      have := getOrCreateVertex_found hwf (i := 0) (by omega)
      rw [hS.ids 0 (by omega)] at this
      exact this
    obtain ⟨d1, d2, d3, d4⟩ := getOrCreateVertex_new hwf hfl (by omega) (a := nameOf (3 + k))
      (fun i hi => by
        rw [hS.ids i (by omega)]
        intro e
        have := nameOf_inj (by omega) (by omega) e
        omega)
    refine ⟨hS.next hsrc d1 d2, ?_, ?_⟩
    · obtain ⟨f1, _⟩ := insertEdge_append 100 hsrc (by omega) d1 d2
      have hl1 : (g.getOrCreateVertex (nameOf (3 + k))).1.vertexList.length =
          g.vertexList.length + 1 := by
        rw [d2, List.length_append, List.length_singleton]
      rw [f1]
      exact (addEdge_spec d3 (by omega) (by omega) 100).1
    · obtain ⟨f1, f2, _⟩ := insertEdge_append 100 hsrc (by omega) d1 d2
      rw [f2, f1]
      exact d4

theorem StarRoom.full {g : Graph} (h : StarRoom 805306367 g) : StarFull 805306367 g := by
  obtain ⟨hS, hwf, _⟩ := h
  refine ⟨hS, hwf.table, ?_, ?_⟩
  · intro i hi
    have := hwf.lookup_id i (by rw [hS.len]; omega)
    rw [hS.ids i (by omega)] at this
    exact this
  · intro i h1 h2
    by_contra hne
    obtain ⟨j, hj1, hj2⟩ := hwf.lookup_onto _ hne
    rw [hS.len] at hj1
    rw [hS.ids j hj1] at hj2
    have := nameOf_inj (by omega) h2 hj2
    omega

/-- The graph after the hash table of the graph is full: the other names of `fillerLines`
get vertices that are not stored in the hash table. -/
theorem starFull_fillers : ∀ k, 805306367 ≤ k → k + 3 < 4294967296 →
    StarFull k (init.loadGraph
      ([{ sourceId := nameOf 0, destId := nameOf 1, weight := 1 },
        { sourceId := nameOf 1, destId := nameOf 2, weight := 1 }] ++ fillerLines k)) := by
  intro k hk
  induction k, hk using Nat.le_induction with
  | base => intro _; exact (starRoom_fillers 805306367 (by decide)).full
  | succ k hk ih =>
    intro hlt
    obtain ⟨hS, hP, hst, hot⟩ := ih (by omega)
    rw [fillerLines_succ, ← List.append_assoc, loadGraph_append]
    generalize init.loadGraph
      ([{ sourceId := nameOf 0, destId := nameOf 1, weight := 1 },
        { sourceId := nameOf 1, destId := nameOf 2, weight := 1 }] ++ fillerLines k) = g
      at hS hP hst hot
    dsimp only
    have hlen := hS.len
    have hsrc : g.getOrCreateVertex (nameOf 0) = (g, some 0) :=
      getOrCreateVertex_of_lookup (hst 0 (by decide))
    have hfull := getOrCreateVertex_full hP ((List.range 805306370).map nameOf)
      (nameOf_nodup 805306370 (by decide))
      (fun a ha => by
        obtain ⟨j, hj, rfl⟩ := List.mem_map.1 ha
        rw [hst j (List.mem_range.1 hj)]
        exact Option.some_ne_none _)
      (by rw [List.length_map, List.length_range])
      (nameOf (3 + k)) (hot (3 + k) (by omega) (by omega))
    have d1 : (g.getOrCreateVertex (nameOf (3 + k))).2 = some g.vertexList.length := by
      rw [hfull]
    have d2 : (g.getOrCreateVertex (nameOf (3 + k))).1.vertexList =
        g.vertexList ++ [{ id := nameOf (3 + k) }] := by
      rw [hfull]; rfl
    have hv : (g.insertEdge (nameOf 0) (nameOf (3 + k)) 100).vertices = g.vertices := by
      rw [(insertEdge_append 100 hsrc (by omega) d1 d2).1, hfull]
      rfl
    refine ⟨hS.next hsrc d1 d2, ?_, ?_, ?_⟩
    · rw [hv]; exact hP
    · rw [hv]; exact hst
    · rw [hv]; exact hot

/-- The graph built from the lines `starLines n`, for `805306367 ≤ n`: the vertex `i` has
the name `nameOf i`, and the adjacency list of the vertex `0` has the edge to the vertex
`1`, then the `n` edges of weight `100`, then the edge to the vertex `2`. -/
theorem build_starLines (n : Nat) (h1 : 805306367 ≤ n) (h2 : n + 3 < 4294967296) :
    StarGraph n (build (starLines n)) := by
  unfold build starLines
  rw [loadGraph_append]
  obtain ⟨hS, hP, hst, hot⟩ := starFull_fillers n h1 h2
  generalize init.loadGraph
    ([{ sourceId := nameOf 0, destId := nameOf 1, weight := 1 },
      { sourceId := nameOf 1, destId := nameOf 2, weight := 1 }] ++ fillerLines n) = g
    at hS hP hst hot
  dsimp only
  have hlen := hS.len
  rw [insertEdge_found 5 (getOrCreateVertex_of_lookup (hst 0 (by decide)))
    (getOrCreateVertex_of_lookup (hst 2 (by decide)))]
  have hv := addEdge_vertex g 0 2 5 (by omega)
  refine ⟨?_, ?_, ?_, ?_, ?_, ?_⟩
  · show (g.vertexList.set _ _).length = _
    rw [List.length_set, hlen]
  · show (g.vertices.getPointer (nameOf 0)).1 = some 0
    rw [hashTable.getPointer_eq_lookup, hst 0 (by decide)]
  · intro i hi
    rw [hv]
    split
    · rename_i e
      rw [e]
      exact hS.ids 0 (by omega)
    · exact hS.ids i hi
  · rw [hv, if_pos rfl, hS.adj_c]
  · rw [hv, if_neg (by decide)]
    exact hS.adj_y
  · rw [hv, if_neg (by decide)]
    exact hS.adj_v

end Graph

end ECE365

namespace ECE365

namespace Graph

/-! ### `dijkstra` on the graph of `starLines`: the hash table of the heap fills up -/

theorem relaxEdgeLog_go (u : Nat) (vs : List Vertex) (hp : heap) (log : List Event) (e : Edge)
    (hv : e.destination < vs.length) (hk : (vertex vs e.destination).known = false)
    (hlt : wrapInt ((vertex vs u).distance + e.weight) < (vertex vs e.destination).distance)
    (hne : (hp.insert (vertex vs e.destination).id
      (wrapInt ((vertex vs u).distance + e.weight)) (some e.destination)).2 ≠ 2) :
    relaxEdgeLog u ((vs, hp), log) e =
      ((vs.set e.destination (improved (vertex vs e.destination)
          (wrapInt ((vertex vs u).distance + e.weight)) u),
        (hp.insert (vertex vs e.destination).id
          (wrapInt ((vertex vs u).distance + e.weight)) (some e.destination)).1),
        log ++ [Event.insert e.destination (hp.insert (vertex vs e.destination).id
          (wrapInt ((vertex vs u).distance + e.weight)) (some e.destination)).2]) := by
  unfold relaxEdgeLog
  dsimp only
  rw [relaxEdge_go u vs hp e hv hk hlt, relaxEvents_go u vs hp e hv hk hlt, if_neg hne]

theorem starNode_id (i : Nat) (key : Int) : (starNode i key).id = nameOf i := rfl

theorem starNode_key (i : Nat) (key : Int) : (starNode i key).key = key := rfl

/-- The ids of the slots of the heap in a state `FillState`. -/
theorem FillState.slot_id {n k : Nat} {st : List Vertex × heap} (hF : FillState n k st)
    {i : Nat} (h1 : 1 ≤ i) (h2 : i ≤ st.2.currentSize) :
    ∃ m, m ≠ 2 ∧ m < k + 3 ∧ (st.2.slot i).id = nameOf m ∧ (st.2.slot i).key ≤ 100 := by
  have hs := hF.size
  by_cases hi : i = 1
  · rw [hi, hF.root]
    exact ⟨1, by decide, by omega, rfl, by rw [starNode_key]; decide⟩
  · have := hF.slots (i - 2) (by omega)
    rw [show i - 2 + 2 = i by omega] at this
    rw [this]
    exact ⟨3 + (i - 2), by omega, by omega, rfl, by rw [starNode_key]⟩

/-- The relaxation of the next edge of weight `100`. -/
theorem FillState.fill_step {n k : Nat} {vs : List Vertex} {hp : heap}
    (hF : FillState n k (vs, hp)) (hk : k < n) (hn : n + 3 < 4294967296) (log : List Event) :
    FillState n (k + 1)
      (relaxEdgeLog 0 ((vs, hp), log) { weight := 100, destination := 3 + k }).1 ∧
    ∃ l, (relaxEdgeLog 0 ((vs, hp), log) { weight := 100, destination := 3 + k }).2 =
      log ++ l := by
  have hlen : vs.length = n + 3 := hF.len
  have hsize : hp.currentSize = k + 1 := hF.size
  have hcap : hp.capacity = n + 3 := hF.cap
  obtain ⟨hkn, hdm⟩ := hF.fresh k (le_refl _) hk
  dsimp only at hkn hdm
  have hd : wrapInt ((vertex vs 0).distance + 100) = 100 := by
    have e : (vertex vs 0).distance = 0 := hF.dist_c
    rw [e]
    exact wrapInt_of_range (by decide) (by decide)
  have hid : (vertex vs (3 + k)).id = nameOf (3 + k) := hF.ids (3 + k) (by omega)
  have hW : hp.WInv := hF.sane.to_weak
  have hc : hp.mapping.contains (nameOf (3 + k)) = false := by
    cases hcc : hp.mapping.contains (nameOf (3 + k)) with
    | false => rfl
    | true =>
      rw [hashTable.contains_eq_lookup] at hcc
      obtain ⟨i, _, i1, i2, i3, _⟩ := hW.mapped (nameOf (3 + k)) (by
        intro h; rw [h] at hcc; exact absurd hcc (by simp))
      obtain ⟨m, _, m2, m3, _⟩ := hF.slot_id i1 i2
      dsimp only at m3
      rw [m3] at i3
      have := nameOf_inj (by omega) (by omega) i3
      omega
  have hkey : hp.currentSize ≥ 1 → (hp.slot ((hp.currentSize + 1) / 2)).key ≤ 100 := by
    intro _
    have hp1 : 1 ≤ (hp.currentSize + 1) / 2 := by omega
    have hp2 : (hp.currentSize + 1) / 2 ≤ hp.currentSize := by omega
    obtain ⟨_, _, _, _, m4⟩ := hF.slot_id hp1 hp2
    exact m4
  obtain ⟨s1, s2, s3⟩ := heap.insert_stay hW (nameOf (3 + k)) 100 (some (3 + k)) (by omega) hc hkey
  have hgo := relaxEdgeLog_go 0 vs hp log { weight := 100, destination := 3 + k }
    (by show 3 + k < vs.length; omega) hkn
    (by show wrapInt ((vertex vs 0).distance + 100) < (vertex vs (3 + k)).distance
        rw [hd, hdm]; decide)
    (by show (hp.insert (vertex vs (3 + k)).id (wrapInt ((vertex vs 0).distance + 100))
          (some (3 + k))).2 ≠ 2
        rw [hid, hd]
        rcases s1 with h | h <;> rw [h] <;> decide)
  dsimp only at hgo
  rw [hid, hd] at hgo
  rw [hgo]
  refine ⟨?_, _, rfl⟩
  have hvx := improved_vertex vs (3 + k) 0 100 (by omega)
  have hsane : (hp.insert (nameOf (3 + k)) 100 (some (3 + k))).1.Sane :=
    HeapCall.run_sane hF.sane (HeapCall.insert (nameOf (3 + k)) 100 (some (3 + k)))
  refine ⟨?_, ?_, ?_, ?_, ?_, ?_, ?_, ?_, ?_, ?_, hsane, ?_, ?_, ?_, ?_, ?_, ?_⟩
  · show (vs.set _ _).length = _
    rw [List.length_set]; exact hlen
  · intro i hi
    show (vertex (vs.set _ _) i).id = _
    rw [hvx]
    split
    · rename_i e; rw [e]; exact hid
    · exact hF.ids i hi
  · show (vertex (vs.set _ _) 0).distance = 0
    rw [hvx, if_neg (by omega)]; exact hF.dist_c
  · show (vertex (vs.set _ _) 1).known = false
    rw [hvx, if_neg (by omega)]; exact hF.known_y
  · show (vertex (vs.set _ _) 1).distance = 1
    rw [hvx, if_neg (by omega)]; exact hF.dist_y
  · show (vertex (vs.set _ _) 1).adjList = _
    rw [hvx, if_neg (by omega)]; exact hF.adj_y
  · show (vertex (vs.set _ _) 2).known = false
    rw [hvx, if_neg (by omega)]; exact hF.known_v
  · show (vertex (vs.set _ _) 2).distance = _
    rw [hvx, if_neg (by omega)]; exact hF.dist_v
  · show (vertex (vs.set _ _) 2).adjList = _
    rw [hvx, if_neg (by omega)]; exact hF.adj_v
  · intro j hj1 hj2
    show (vertex (vs.set _ _) (3 + j)).known = false ∧
      (vertex (vs.set _ _) (3 + j)).distance = INT32_MAX
    rw [hvx, if_neg (by omega)]
    exact hF.fresh j (by omega) hj2
  · show (hp.insert _ _ _).1.capacity = _
    rw [heap.insert_capacity]; exact hcap
  · show (hp.insert _ _ _).1.currentSize = _
    rw [s2, hsize]
  · exact heap.insert_mcap_top hW.pinv hF.mcap _ _ _
  · exact heap.insert_absent hW.pinv hF.absent _ _ _ (fun e => by
      have := nameOf_inj (by omega) (by omega) e; omega)
  · show (hp.insert _ _ _).1.slot 1 = _
    rw [s3, if_neg (by omega)]; exact hF.root
  · intro j hj
    show (hp.insert _ _ _).1.slot (j + 2) = _
    rw [s3]
    split
    · rename_i e
      have : j = k := by omega
      rw [this]; rfl
    · exact hF.slots j (by omega)

/-- The relaxation of the first `k` edges of weight `100`. -/
theorem FillState.fill_run {n : Nat} (hn : n + 3 < 4294967296) :
    ∀ k, k ≤ n → ∀ (p : (List Vertex × heap) × List Event), FillState n 0 p.1 →
      FillState n k ((fillerEdges k).foldl (relaxEdgeLog 0) p).1 ∧
      ∃ l, ((fillerEdges k).foldl (relaxEdgeLog 0) p).2 = p.2 ++ l := by
  intro k
  induction k with
  | zero => intro _ p hF; exact ⟨hF, [], (List.append_nil _).symm⟩
  | succ k ih =>
    intro hk p hF
    obtain ⟨h1, l, h2⟩ := ih (by omega) p hF
    rw [fillerEdges_succ, List.foldl_append, List.foldl_cons, List.foldl_nil]
    obtain ⟨a, l2, b⟩ := @FillState.fill_step _ _ ((fillerEdges k).foldl (relaxEdgeLog 0) p).1.1
      ((fillerEdges k).foldl (relaxEdgeLog 0) p).1.2 h1 (by omega) hn
      ((fillerEdges k).foldl (relaxEdgeLog 0) p).2
    refine ⟨a, l ++ l2, ?_⟩
    rw [← List.append_assoc, ← h2]
    exact b

end Graph

end ECE365

namespace ECE365

namespace heap

/-- A call of `insert` of a new id into a heap that is not full, when the hash table takes
no new key: the node is left in the new slot, and `insert` returns `3`. -/
theorem insert_full_new {h : heap} (hW : WInv h) (hF : Full h) (id : Key) (key : Int) (pv : Ptr)
    (hf : h.currentSize < h.capacity) (hx : h.mapping.lookup id = none) :
    (h.insert id key pv).2 = 3 ∧ WInv (h.insert id key pv).1 ∧ Full (h.insert id key pv).1 ∧
    (h.insert id key pv).1.currentSize = h.currentSize + 1 ∧
    (h.insert id key pv).1.capacity = h.capacity ∧
    (h.insert id key pv).1.mapping = h.mapping ∧
    ∀ j, (h.insert id key pv).1.slot j =
      if j = h.currentSize + 1 then { id := id, key := key, pData := pv } else h.slot j := by
  have habs : h.mapping.contains id = false := by
    rw [hashTable.contains_eq_lookup, hx]; rfl
  have htop := hashTable.insert_at_top (t := h.mapping) id (some (h.currentSize + 1))
    hF.1 habs hF.2
  have hlt : h.currentSize + 1 < h.data.length := by
    have := hW.size; omega
  obtain ⟨w1, w2⟩ := insert_of_full_table hW hF id key pv
  have e := insert_of_fail id key pv (h := h) (by omega) (by rw [habs]; simp)
    (by rw [htop]; simp)
  refine ⟨by rw [e], w1, w2, by rw [e]; rfl, by rw [e]; rfl, ?_, ?_⟩
  · rw [e]
    show (h.mapping.insert _ _ false).1 = _
    rw [htop]
  · intro j
    rw [e]
    exact getD_set h.data _ j _ hlt

end heap

namespace Graph

/-! ### `dijkstra` on the graph of `starLines`: the vertex `2` is inserted twice -/

/-- After the edges of weight `100`, the hash table of the heap takes no new key. -/
theorem FillState.full_table {n : Nat} {st : List Vertex × heap} (hF : FillState n n st)
    (hn1 : 805306369 ≤ n) (hn2 : n + 3 < 4294967296) : st.2.WInv ∧ st.2.Full := by
  rcases hF.sane with hI | ⟨hW, hFu⟩
  swap
  · exact ⟨hW, hFu⟩
  refine ⟨hI.weak, hF.mcap, ?_⟩
  have hsize := hF.size
  have hkeys := hI.pinv.inv.length_le_filled
    (nameOf 1 :: (List.range n).map (fun j => nameOf (3 + j)))
    (by
      refine List.nodup_cons.2 ⟨?_, ?_⟩
      · intro hm
        obtain ⟨j, hj, e⟩ := List.mem_map.1 hm
        have := List.mem_range.1 hj
        have := nameOf_inj (by omega) (by omega) e
        omega
      · apply List.Nodup.map_on _ (List.nodup_range _)
        intro i hi j hj e
        have := List.mem_range.1 hi
        have := List.mem_range.1 hj
        have := nameOf_inj (by omega) (by omega) e
        omega)
    (by
      intro x hx
      rcases List.mem_cons.1 hx with e | hm
      · have := hI.indexed 1 (le_refl _) (by omega)
        rw [hF.root] at this
        rw [e]
        show st.2.mapping.lookup (starNode 1 1).id ≠ none
        rw [this]
        exact Option.some_ne_none _
      · obtain ⟨j, hj, e⟩ := List.mem_map.1 hm
        have hjn := List.mem_range.1 hj
        have := hI.indexed (j + 2) (by omega) (by omega)
        rw [hF.slots j hjn] at this
        rw [← e]
        show st.2.mapping.lookup (starNode (3 + j) 100).id ≠ none
        rw [this]
        exact Option.some_ne_none _)
  rw [List.length_cons, List.length_map, List.length_range] at hkeys
  rw [hF.mcap]
  omega

/-- The relaxation of the edge of weight `5` to the vertex `2`: `insert` returns `3`. -/
theorem FillState.last_edge {n : Nat} {vs : List Vertex} {hp : heap}
    (hF : FillState n n (vs, hp)) (hn1 : 805306369 ≤ n) (hn2 : n + 3 < 4294967296)
    (log : List Event) :
    TailState n (n + 2) (starNode 1 1) (starNode 2 5) false false 1 5
      (relaxEdgeLog 0 ((vs, hp), log) { weight := 5, destination := 2 }).1 ∧
    (relaxEdgeLog 0 ((vs, hp), log) { weight := 5, destination := 2 }).2 =
      log ++ [Event.insert 2 3] := by
  have hlen : vs.length = n + 3 := hF.len
  have hsize : hp.currentSize = n + 1 := hF.size
  have hcap : hp.capacity = n + 3 := hF.cap
  obtain ⟨hW, hFu⟩ := hF.full_table hn1 hn2
  dsimp only at hW hFu
  have hkn : (vertex vs 2).known = false := hF.known_v
  have hdm : (vertex vs 2).distance = INT32_MAX := hF.dist_v
  have hd : wrapInt ((vertex vs 0).distance + 5) = 5 := by
    have e : (vertex vs 0).distance = 0 := hF.dist_c
    rw [e]
    exact wrapInt_of_range (by decide) (by decide)
  have hid : (vertex vs 2).id = nameOf 2 := hF.ids 2 (by omega)
  obtain ⟨s1, s2, s3, s4, s5, s6, s7⟩ := heap.insert_full_new hW hFu (nameOf 2) 5 (some 2)
    (by omega) hF.absent
  have hgo := relaxEdgeLog_go 0 vs hp log { weight := 5, destination := 2 }
    (by show 2 < vs.length; omega) hkn
    (by show wrapInt ((vertex vs 0).distance + 5) < (vertex vs 2).distance
        rw [hd, hdm]; decide)
    (by show (hp.insert (vertex vs 2).id (wrapInt ((vertex vs 0).distance + 5)) (some 2)).2 ≠ 2
        rw [hid, hd, s1]; decide)
  dsimp only at hgo
  rw [hid, hd] at hgo
  rw [hgo, s1]
  refine ⟨?_, rfl⟩
  have hvx := improved_vertex vs 2 0 5 (by omega)
  refine ⟨?_, ?_, ?_, ?_, ?_, ?_, ?_, ?_, s2, s3, ?_, ?_, ?_, ?_, ?_, ?_, ?_⟩
  · show (vs.set _ _).length = _
    rw [List.length_set]; exact hlen
  · show (vertex (vs.set _ _) 1).known = false
    rw [hvx, if_neg (by decide)]; exact hF.known_y
  · show (vertex (vs.set _ _) 1).distance = 1
    rw [hvx, if_neg (by decide)]; exact hF.dist_y
  · show (vertex (vs.set _ _) 1).adjList = _
    rw [hvx, if_neg (by decide)]; exact hF.adj_y
  · show (vertex (vs.set _ _) 2).id = _
    rw [hvx, if_pos rfl]; exact hid
  · show (vertex (vs.set _ _) 2).known = false
    rw [hvx, if_pos rfl]; exact hkn
  · show (vertex (vs.set _ _) 2).distance = 5
    rw [hvx, if_pos rfl]; rfl
  · show (vertex (vs.set _ _) 2).adjList = []
    rw [hvx, if_pos rfl]; exact hF.adj_v
  · show (hp.insert _ _ _).1.capacity = _
    rw [s5]; exact hcap
  · show (hp.insert _ _ _).1.currentSize = _
    rw [s4, hsize]
  · show (hp.insert _ _ _).1.mapping.lookup _ = none
    rw [s6]; exact hF.absent
  · show (hp.insert _ _ _).1.slot 1 = _
    rw [s7, if_neg (by omega)]; exact hF.root
  · show (hp.insert _ _ _).1.slot 2 = _
    rw [s7, if_neg (by omega)]; exact hF.slots 0 (by omega)
  · show (hp.insert _ _ _).1.slot 3 = _
    rw [s7, if_neg (by omega)]; exact hF.slots 1 (by omega)
  · show (hp.insert _ _ _).1.slot (n + 2) = _
    rw [s7, if_pos (by omega)]; rfl

end Graph

end ECE365

namespace ECE365

namespace Graph

/-! ### `dijkstra` on the graph of `starLines`: the iterations of the main loop -/

theorem dijkstraLoopLog_pop (fuel : Nat) (vs : List Vertex) (hp : heap) (log : List Event)
    (nd : node) (u : Nat) (hsz : hp.currentSize > 0) (h0 : (hp.deleteMin).2.1 = 0)
    (hn : (hp.deleteMin).2.2 = some nd) (hu : nd.pData = some u)
    (hk : (vertex vs u).known = false) :
    dijkstraLoopLog (fuel + 1) ((vs, hp), log) =
      dijkstraLoopLog fuel
        ((vertex vs u).adjList.foldl (relaxEdgeLog u)
          ((vs.set u { vertex vs u with known := true }, (hp.deleteMin).1), log)) := by
  rw [dijkstraLoopLog_succ]
  dsimp only
  rw [if_pos hsz, if_neg (by rw [h0]; simp), hn]
  dsimp only
  rw [hu]
  dsimp only
  rw [if_neg (by rw [hk]; simp)]

theorem dijkstraLoopLog_skip (fuel : Nat) (vs : List Vertex) (hp : heap) (log : List Event)
    (nd : node) (u : Nat) (hsz : hp.currentSize > 0) (h0 : (hp.deleteMin).2.1 = 0)
    (hn : (hp.deleteMin).2.2 = some nd) (hu : nd.pData = some u)
    (hk : (vertex vs u).known = true) :
    dijkstraLoopLog (fuel + 1) ((vs, hp), log) =
      dijkstraLoopLog fuel ((vs, (hp.deleteMin).1), log ++ [Event.skip u]) := by
  rw [dijkstraLoopLog_succ]
  dsimp only
  rw [if_pos hsz, if_neg (by rw [h0]; simp), hn]
  dsimp only
  rw [hu]
  dsimp only
  rw [if_pos hk]

/-- The state of `dijkstra` from the vertex `0` on the graph of `starLines n` before the main
loop. -/
theorem StarGraph.star_start {n : Nat} {g : Graph} (hG : StarGraph n g)
    (hc : getPrime (((n + 3 : Nat) : Int) * 2) = 1610612741) (fuel : Nat) :
    ∃ vs hp, StartState n (vs, hp) ∧
      dijkstraLog g (nameOf 0) fuel =
        (dijkstraLoopLog fuel ((vs, hp), [Event.insert 0 0])).map
          (fun r => ({ g with vertexList := r.1 }, r.2)) := by
  have hlen := hG.len
  have hs : 0 < g.vertexList.length := by omega
  have hvx := fun j => vertex_start g.vertexList 0 j hs
  have hl0 : ((resetAll g.vertexList).set 0
      { vertex (resetAll g.vertexList) 0 with distance := 0 }).length = n + 3 := by
    rw [List.length_set]; unfold resetAll; rw [List.length_map]; exact hlen
  have hi0 : (vertex ((resetAll g.vertexList).set 0
      { vertex (resetAll g.vertexList) 0 with distance := 0 }) 0).id = nameOf 0 := by
    rw [hvx, if_pos rfl]; exact hG.ids 0 (by omega)
  have hd0 : (vertex ((resetAll g.vertexList).set 0
      { vertex (resetAll g.vertexList) 0 with distance := 0 }) 0).distance = 0 := by
    rw [hvx, if_pos rfl]
  have e := dijkstraLog_of_source g (nameOf 0) fuel 0 hG.ptr _ rfl
  generalize (resetAll g.vertexList).set 0
    { vertex (resetAll g.vertexList) 0 with distance := 0 } = vs0 at e hvx hl0 hi0 hd0
  have h0 := heap_init_insert (n + 3) (by omega) (nameOf 0) 0 (some 0)
  rw [hl0, hi0, hd0, if_neg (by rw [h0]; simp), h0] at e
  refine ⟨vs0, ((heap.init (n + 3)).insert (nameOf 0) 0 (some 0)).1, ?_, e⟩
  have hI := heap.init_inv (n + 3)
  obtain ⟨i1, i2, i3, _⟩ := heap.insert_success hI (nameOf 0) 0 (some 0) h0
  obtain ⟨_, _, s3⟩ := heap.insert_stay hI.weak (nameOf 0) 0 (some 0)
    (show (heap.init (n + 3)).currentSize < (heap.init (n + 3)).capacity from by
      show 0 < n + 3; omega)
    (contains_init _ _) (fun h => absurd h (by show ¬ (0 ≥ 1); omega))
  have hlook : ∀ x, (heap.init (n + 3)).mapping.lookup x = none :=
    fun x => hashTable.lookup_init _ x
  refine ⟨hl0, ?_, ?_, ?_, ?_, ?_, hd0, ?_, i1, i3, i2, ?_, ?_, ?_, ?_⟩
  · intro i hi
    rw [hvx]
    split
    · rename_i e0; rw [e0]; exact hG.ids 0 (by omega)
    · exact hG.ids i hi
  · rw [hvx, if_pos rfl]; exact hG.adj_c
  · rw [hvx, if_neg (by decide)]; exact hG.adj_y
  · rw [hvx, if_neg (by decide)]; exact hG.adj_v
  · intro i
    rw [hvx]
    split <;> rfl
  · intro i hi
    rw [hvx, if_neg hi]
  · exact heap.insert_mcap_top hI.pinv hc _ _ _
  · exact heap.insert_absent hI.pinv (hlook _) _ _ _ (fun e0 => by
      have := nameOf_inj (by decide) (by decide) e0; omega)
  · show ((heap.init (n + 3)).insert (nameOf 0) 0 (some 0)).1.slot 1 = _
    rw [s3, if_pos (show 1 = (heap.init (n + 3)).currentSize + 1 from rfl)]
    rfl
  · show ((heap.init (n + 3)).insert (nameOf 0) 0 (some 0)).1.mapping.filled ≤ 1
    have := heap.insert_mfilled_le hI (nameOf 0) 0 (some 0) h0
    have h00 : (heap.init (n + 3)).mapping.filled = 0 := rfl
    omega

/-- The first iteration of the main loop, up to the relaxation of the edge from the
vertex `0` to the vertex `1`: the vertex `1` is inserted into the empty heap. -/
theorem StartState.first_edge {n : Nat} {vs : List Vertex} {hp : heap}
    (hS : StartState n (vs, hp)) (log : List Event) :
    FillState n 0
      (relaxEdgeLog 0 ((vs.set 0 { vertex vs 0 with known := true }, (hp.deleteMin).1), log)
        { weight := 1, destination := 1 }).1 ∧
    ∃ l, (relaxEdgeLog 0 ((vs.set 0 { vertex vs 0 with known := true }, (hp.deleteMin).1), log)
        { weight := 1, destination := 1 }).2 = log ++ l := by
  have hlen : vs.length = n + 3 := hS.len
  have hsize : hp.currentSize = 1 := hS.size
  obtain ⟨_, _, d3, d4, d5, _⟩ := heap.deleteMin_spec hS.inv (by rw [hsize]; decide)
  rw [hsize] at d4
  have hmc : (hp.deleteMin).1.mapping.capacity = 1610612741 := by
    rw [heap.deleteMin_mcap]; exact hS.mcap
  have hab : (hp.deleteMin).1.mapping.lookup (nameOf 2) = none :=
    heap.deleteMin_absent hS.inv.pinv hS.absent
  have hfl : (hp.deleteMin).1.mapping.filled < 805306370 := by
    rw [heap.deleteMin_mfilled]
    have : hp.mapping.filled ≤ 1 := hS.filled
    omega
  have hvm := fun j => vertex_mark vs 0 j (by omega)
  generalize hvs1 : vs.set 0 { vertex vs 0 with known := true } = vs1 at hvm ⊢
  have hlen1 : vs1.length = n + 3 := by rw [← hvs1, List.length_set]; exact hlen
  have hdc : (vertex vs1 0).distance = 0 := by
    rw [hvm, if_pos rfl]; exact hS.dist_c
  have hd : wrapInt ((vertex vs1 0).distance + 1) = 1 := by
    rw [hdc]
    exact wrapInt_of_range (by decide) (by decide)
  have hv1 : vertex vs1 1 = vertex vs 1 := by rw [hvm, if_neg (by decide)]
  have hid : (vertex vs1 1).id = nameOf 1 := by rw [hv1]; exact hS.ids 1 (by omega)
  have hkn : (vertex vs1 1).known = false := by rw [hv1]; exact hS.known 1
  have hdm : (vertex vs1 1).distance = INT32_MAX := by rw [hv1]; exact hS.dist 1 (by decide)
  have hc : (hp.deleteMin).1.mapping.contains (nameOf 1) = false := by
    cases hcc : (hp.deleteMin).1.mapping.contains (nameOf 1) with
    | false => rfl
    | true =>
      obtain ⟨i, i1, i2, _⟩ := (d3.contains_iff _).1 hcc
      omega
  have hcap1 : (hp.deleteMin).1.currentSize < (hp.deleteMin).1.capacity := by
    rw [d4, d5]
    have : hp.capacity = n + 3 := hS.cap
    show 1 - 1 < hp.capacity
    omega
  have h0 := heap.insert_new_ok d3 (nameOf 1) 1 (some 1) hcap1 hc hfl
  obtain ⟨s1, s2, s3, _⟩ := heap.insert_success d3 (nameOf 1) 1 (some 1) h0
  obtain ⟨_, _, t3⟩ := heap.insert_stay d3.weak (nameOf 1) 1 (some 1) hcap1 hc
    (fun h => absurd h (by rw [d4]; decide))
  have hgo := relaxEdgeLog_go 0 vs1 (hp.deleteMin).1 log { weight := 1, destination := 1 }
    (by show 1 < vs1.length; omega) hkn
    (by show wrapInt ((vertex vs1 0).distance + 1) < (vertex vs1 1).distance
        rw [hd, hdm]; decide)
    (by show ((hp.deleteMin).1.insert (vertex vs1 1).id (wrapInt ((vertex vs1 0).distance + 1))
          (some 1)).2 ≠ 2
        rw [hid, hd, h0]; decide)
  dsimp only at hgo
  rw [hid, hd] at hgo
  rw [hgo]
  refine ⟨?_, _, rfl⟩
  have hvx := improved_vertex vs1 1 0 1 (by omega)
  have hother : ∀ j, j ≠ 0 → j ≠ 1 →
      vertex (vs1.set 1 (improved (vertex vs1 1) 1 0)) j = vertex vs j := by
    intro j h0 h1
    rw [hvx, if_neg h1, hvm, if_neg h0]
  refine ⟨?_, ?_, ?_, ?_, ?_, ?_, ?_, ?_, ?_, ?_, Or.inl s1, ?_, ?_, ?_, ?_, ?_, ?_⟩
  · show (vs1.set _ _).length = _
    rw [List.length_set]; exact hlen1
  · intro i hi
    show (vertex (vs1.set _ _) i).id = _
    rw [hvx]
    split
    · rename_i e; rw [e]; exact hid
    · rw [hvm]
      split
      · rename_i e; rw [e]; exact hS.ids 0 (by omega)
      · exact hS.ids i hi
  · show (vertex (vs1.set _ _) 0).distance = 0
    rw [hvx, if_neg (by decide)]; exact hdc
  · show (vertex (vs1.set _ _) 1).known = false
    rw [hvx, if_pos rfl]; exact hkn
  · show (vertex (vs1.set _ _) 1).distance = 1
    rw [hvx, if_pos rfl]; rfl
  · show (vertex (vs1.set _ _) 1).adjList = _
    rw [hvx, if_pos rfl]
    show (vertex vs1 1).adjList = _
    rw [hv1]; exact hS.adj_y
  · show (vertex (vs1.set _ _) 2).known = false
    rw [hother 2 (by decide) (by decide)]; exact hS.known 2
  · show (vertex (vs1.set _ _) 2).distance = _
    rw [hother 2 (by decide) (by decide)]; exact hS.dist 2 (by decide)
  · show (vertex (vs1.set _ _) 2).adjList = _
    rw [hother 2 (by decide) (by decide)]; exact hS.adj_v
  · intro j _ _
    show (vertex (vs1.set _ _) (3 + j)).known = false ∧
      (vertex (vs1.set _ _) (3 + j)).distance = INT32_MAX
    rw [hother (3 + j) (by omega) (by omega)]
    exact ⟨hS.known _, hS.dist _ (by omega)⟩
  · show ((hp.deleteMin).1.insert _ _ _).1.capacity = _
    rw [s3, d5]; exact hS.cap
  · show ((hp.deleteMin).1.insert _ _ _).1.currentSize = _
    rw [s2, d4]
  · exact heap.insert_mcap_top d3.pinv hmc _ _ _
  · exact heap.insert_absent d3.pinv hab _ _ _ (fun e => by
      have := nameOf_inj (by decide) (by decide) e; omega)
  · show ((hp.deleteMin).1.insert _ _ _).1.slot 1 = _
    rw [t3, if_pos (by rw [d4])]
    rfl
  · intro j hj
    omega

/-- The first iteration of the main loop: the vertex `0` is taken from the heap, and the
loop over its edges leaves the vertex `1` in the root of the heap and the vertex `2` in the
last slot, after an `insert` that returned `3`. -/
theorem StartState.first {n : Nat} {vs : List Vertex} {hp : heap} (hS : StartState n (vs, hp))
    (hn1 : 805306369 ≤ n) (hn2 : n + 3 < 4294967296) (fuel : Nat) (log : List Event) :
    ∃ p pre, dijkstraLoopLog (fuel + 1) ((vs, hp), log) = dijkstraLoopLog fuel p ∧
      TailState n (n + 2) (starNode 1 1) (starNode 2 5) false false 1 5 p.1 ∧
      p.2 = log ++ pre ++ [Event.insert 2 3] := by
  have hsize : hp.currentSize = 1 := hS.size
  obtain ⟨d1, d2, _⟩ := heap.deleteMin_spec hS.inv (by rw [hsize]; decide)
  have hroot : hp.slot 1 = starNode 0 0 := hS.root
  rw [hroot] at d2
  have e := dijkstraLoopLog_pop fuel vs hp log (starNode 0 0) 0 (by omega) d1 d2 rfl (hS.known 0)
  have hadj : (vertex vs 0).adjList =
      [{ weight := 1, destination := 1 }] ++ fillerEdges n ++ [{ weight := 5, destination := 2 }] :=
    hS.adj_c
  rw [hadj, List.foldl_append, List.foldl_append, List.foldl_cons, List.foldl_nil,
    List.foldl_cons, List.foldl_nil] at e
  obtain ⟨f0, l0, g0⟩ := hS.first_edge log
  obtain ⟨f1, l1, g1⟩ := FillState.fill_run hn2 n (le_refl _) _ f0
  obtain ⟨f2, g2⟩ := @FillState.last_edge _
    ((fillerEdges n).foldl (relaxEdgeLog 0)
      (relaxEdgeLog 0 ((vs.set 0 { vertex vs 0 with known := true }, (hp.deleteMin).1), log)
        { weight := 1, destination := 1 })).1.1
    ((fillerEdges n).foldl (relaxEdgeLog 0)
      (relaxEdgeLog 0 ((vs.set 0 { vertex vs 0 with known := true }, (hp.deleteMin).1), log)
        { weight := 1, destination := 1 })).1.2 f1 hn1 hn2
    ((fillerEdges n).foldl (relaxEdgeLog 0)
      (relaxEdgeLog 0 ((vs.set 0 { vertex vs 0 with known := true }, (hp.deleteMin).1), log)
        { weight := 1, destination := 1 })).2
  refine ⟨_, l0 ++ l1, e, f2, ?_⟩
  rw [g2, g1, g0, List.append_assoc log]

end Graph

end ECE365

namespace ECE365

namespace Graph

/-! ### `dijkstra` on the graph of `starLines`: the vertex `2` is taken twice -/

/-- The second iteration of the main loop: the vertex `1` is taken from the heap, the
distance of the vertex `2` is improved from `5` to `2`, and `insert` returns `3` again: the
heap has two nodes of the vertex `2`. -/
theorem TailState.second {n : Nat} {vs : List Vertex} {hp : heap}
    (hT : TailState n (n + 2) (starNode 1 1) (starNode 2 5) false false 1 5 (vs, hp))
    (hn : 2 ≤ n) (fuel : Nat) (log : List Event) :
    ∃ p, dijkstraLoopLog (fuel + 1) ((vs, hp), log) = dijkstraLoopLog fuel p ∧
      TailState n (n + 2) (starNode 2 5) (starNode 2 2) true false 1 2 p.1 ∧
      p.2 = log ++ [Event.insert 2 3] := by
  have hlen : vs.length = n + 3 := hT.len
  have hsize : hp.currentSize = n + 2 := hT.size
  have hW : hp.WInv := hT.weak
  have hroot : hp.slot 1 = starNode 1 1 := hT.root
  have hs2 : hp.slot 2 = starNode 3 100 := hT.slot2
  have hs3 : hp.slot 3 = starNode 4 100 := hT.slot3
  have hlast : hp.slot (n + 2) = starNode 2 5 := hT.last
  obtain ⟨d1, d2, d3, d4⟩ := heap.deleteMin_stay hW (by omega)
    (by rw [hsize, hlast, hs2]; decide) (by rw [hs2, hs3]; decide)
  rw [hroot] at d2
  rw [hsize] at d3 d4
  have e := dijkstraLoopLog_pop fuel vs hp log (starNode 1 1) 1 (by omega) d1 d2 rfl hT.known_y
  have hadj : (vertex vs 1).adjList = [{ weight := 1, destination := 2 }] := hT.adj_y
  rw [hadj, List.foldl_cons, List.foldl_nil] at e
  have hW1 : (hp.deleteMin).1.WInv := heap.deleteMin_weak hW
  have hF1 : (hp.deleteMin).1.Full := hT.full.deleteMin
  have hc1 : (hp.deleteMin).1.capacity = n + 3 := by
    rw [heap.deleteMin_capacity]; exact hT.cap
  have hab : (hp.deleteMin).1.mapping.lookup (nameOf 2) = none :=
    heap.deleteMin_absent hW.pinv hT.absent
  have hvm := fun j => vertex_mark vs 1 j (by omega)
  generalize hvs1 : vs.set 1 { vertex vs 1 with known := true } = vs1 at hvm e
  have hlen1 : vs1.length = n + 3 := by rw [← hvs1, List.length_set]; exact hlen
  have hv2 : vertex vs1 2 = vertex vs 2 := by rw [hvm, if_neg (by decide)]
  have hdy : (vertex vs1 1).distance = 1 := by
    rw [hvm, if_pos rfl]; exact hT.dist_y
  have hd : wrapInt ((vertex vs1 1).distance + 1) = 2 := by
    rw [hdy]
    exact wrapInt_of_range (by decide) (by decide)
  have hid : (vertex vs1 2).id = nameOf 2 := by rw [hv2]; exact hT.id_v
  have hkn : (vertex vs1 2).known = false := by rw [hv2]; exact hT.known_v
  have hdv : (vertex vs1 2).distance = 5 := by rw [hv2]; exact hT.dist_v
  obtain ⟨s1, s2, s3, s4, s5, s6, s7⟩ := heap.insert_full_new hW1 hF1 (nameOf 2) 2 (some 2)
    (by rw [d3, hc1]; omega) hab
  rw [d3] at s4 s7
  have hgo := relaxEdgeLog_go 1 vs1 (hp.deleteMin).1 log { weight := 1, destination := 2 }
    (by show 2 < vs1.length; omega) hkn
    (by show wrapInt ((vertex vs1 1).distance + 1) < (vertex vs1 2).distance
        rw [hd, hdv]; decide)
    (by show ((hp.deleteMin).1.insert (vertex vs1 2).id (wrapInt ((vertex vs1 1).distance + 1))
          (some 2)).2 ≠ 2
        rw [hid, hd, s1]; decide)
  dsimp only at hgo
  rw [hid, hd] at hgo
  rw [hgo, s1] at e
  refine ⟨_, e, ?_, rfl⟩
  have hvx := improved_vertex vs1 2 1 2 (by omega)
  refine ⟨?_, ?_, ?_, ?_, ?_, ?_, ?_, ?_, s2, s3, ?_, ?_, ?_, ?_, ?_, ?_, ?_⟩
  · show (vs1.set _ _).length = _
    rw [List.length_set]; exact hlen1
  · show (vertex (vs1.set _ _) 1).known = true
    rw [hvx, if_neg (by decide), hvm, if_pos rfl]
  · show (vertex (vs1.set _ _) 1).distance = 1
    rw [hvx, if_neg (by decide)]; exact hdy
  · show (vertex (vs1.set _ _) 1).adjList = _
    rw [hvx, if_neg (by decide), hvm, if_pos rfl]; exact hadj
  · show (vertex (vs1.set _ _) 2).id = _
    rw [hvx, if_pos rfl]; exact hid
  · show (vertex (vs1.set _ _) 2).known = false
    rw [hvx, if_pos rfl]; exact hkn
  · show (vertex (vs1.set _ _) 2).distance = 2
    rw [hvx, if_pos rfl]; rfl
  · show (vertex (vs1.set _ _) 2).adjList = []
    rw [hvx, if_pos rfl]
    show (vertex vs1 2).adjList = []
    rw [hv2]; exact hT.adj_v
  · show ((hp.deleteMin).1.insert _ _ _).1.capacity = _
    rw [s5]; exact hc1
  · show ((hp.deleteMin).1.insert _ _ _).1.currentSize = _
    rw [s4]; omega
  · show ((hp.deleteMin).1.insert _ _ _).1.mapping.lookup _ = none
    rw [s6]; exact hab
  · show ((hp.deleteMin).1.insert _ _ _).1.slot 1 = _
    rw [s7, if_neg (by omega), d4, if_pos rfl]; exact hlast
  · show ((hp.deleteMin).1.insert _ _ _).1.slot 2 = _
    rw [s7, if_neg (by omega), d4, if_neg (by decide)]; exact hs2
  · show ((hp.deleteMin).1.insert _ _ _).1.slot 3 = _
    rw [s7, if_neg (by omega), d4, if_neg (by decide)]; exact hs3
  · show ((hp.deleteMin).1.insert _ _ _).1.slot (n + 2) = _
    rw [s7, if_pos (by omega)]; rfl

/-- The third and the fourth iteration of the main loop: `deleteMin` returns the vertex `2`,
which is marked as known, and then the vertex `2` again: the branch of the known vertices is
taken. -/
theorem TailState.third {n : Nat} {vs : List Vertex} {hp : heap}
    (hT : TailState n (n + 2) (starNode 2 5) (starNode 2 2) true false 1 2 (vs, hp))
    (hn : 2 ≤ n) (fuel : Nat) (log : List Event) :
    ∃ p, dijkstraLoopLog (fuel + 2) ((vs, hp), log) = dijkstraLoopLog fuel p ∧
      p.2 = log ++ [Event.skip 2] := by
  have hlen : vs.length = n + 3 := hT.len
  have hsize : hp.currentSize = n + 2 := hT.size
  have hW : hp.WInv := hT.weak
  have hroot : hp.slot 1 = starNode 2 5 := hT.root
  have hs2 : hp.slot 2 = starNode 3 100 := hT.slot2
  have hs3 : hp.slot 3 = starNode 4 100 := hT.slot3
  have hlast : hp.slot (n + 2) = starNode 2 2 := hT.last
  obtain ⟨d1, d2, d3, d4⟩ := heap.deleteMin_stay hW (by omega)
    (by rw [hsize, hlast, hs2]; decide) (by rw [hs2, hs3]; decide)
  rw [hroot] at d2
  rw [hsize] at d3 d4
  have e := dijkstraLoopLog_pop (fuel + 1) vs hp log (starNode 2 5) 2 (by omega) d1 d2 rfl
    hT.known_v
  have hadj : (vertex vs 2).adjList = [] := hT.adj_v
  rw [hadj, List.foldl_nil] at e
  have hk : (vertex (vs.set 2 { vertex vs 2 with known := true }) 2).known = true := by
    rw [vertex_mark vs 2 2 (by omega), if_pos rfl]
  have hsz : (hp.deleteMin).1.currentSize ≠ 0 := by rw [d3]; omega
  have hdm := heap.deleteMin_of_pos hsz
  have hr1 : (hp.deleteMin).1.slot 1 = starNode 2 2 := by
    rw [d4, if_pos rfl]; exact hlast
  have e2 := dijkstraLoopLog_skip fuel (vs.set 2 { vertex vs 2 with known := true })
    (hp.deleteMin).1 log (starNode 2 2) 2 (by omega) (by rw [hdm])
    (by rw [hdm, hr1]) rfl hk
  exact ⟨_, e.trans e2, rfl⟩

/-- The function `dijkstra` from the vertex `0` on the graph of `starLines n`: after four
iterations of the main loop, the record ends with two calls of `insert` for the vertex `2`
that returned `3` and with the vertex `2` skipped. -/
theorem StarGraph.star_run {n : Nat} {g : Graph} (hG : StarGraph n g) (hn1 : 805306369 ≤ n)
    (hn2 : n + 3 < 4294967296) (hc : getPrime (((n + 3 : Nat) : Int) * 2) = 1610612741)
    (fuel : Nat) :
    ∃ p pre, dijkstraLog g (nameOf 0) (fuel + 4) =
        (dijkstraLoopLog fuel p).map (fun r => ({ g with vertexList := r.1 }, r.2)) ∧
      p.2 = pre ++ [Event.insert 2 3, Event.insert 2 3, Event.skip 2] := by
  obtain ⟨vs, hp, hS, e0⟩ := hG.star_start hc (fuel + 4)
  obtain ⟨p1, pre, e1, hT1, l1⟩ := hS.first hn1 hn2 (fuel + 3) [Event.insert 0 0]
  obtain ⟨p2, e2, hT2, l2⟩ := @TailState.second _ p1.1.1 p1.1.2 hT1 (by omega)
    (fuel + 2) p1.2
  obtain ⟨p3, e3, l3⟩ := @TailState.third _ p2.1.1 p2.1.2 hT2 (by omega) fuel p2.2
  refine ⟨p3, [Event.insert 0 0] ++ pre, ?_, ?_⟩
  · rw [e0, e1]
    show Option.map _ (dijkstraLoopLog (fuel + 2 + 1) ((p1.1.1, p1.1.2), p1.2)) = _
    rw [e2]
    show Option.map _ (dijkstraLoopLog (fuel + 2) ((p2.1.1, p2.1.2), p2.2)) = _
    rw [e3]
  · rw [l3, l2, l1]
    simp

end Graph

end ECE365

namespace ECE365

namespace Graph

/-! ### The record of `dijkstra` on built graphs -/

/-- Lines have at most twice as many distinct names as there are lines. -/
theorem names_le_lines (lines : List Triple) (ns : List Key) (hnd : ns.Nodup)
    (hns : ∀ a, a ∈ ns → IsName lines a) : ns.length ≤ 2 * lines.length := by
  have hsub : ns ⊆ lines.map (fun t => t.sourceId) ++ lines.map (fun t => t.destId) := by
    intro a ha
    obtain ⟨t, ht, h | h⟩ := hns a ha
    · exact List.mem_append_left _ (List.mem_map.2 ⟨t, ht, h⟩)
    · exact List.mem_append_right _ (List.mem_map.2 ⟨t, ht, h⟩)
  have := (List.subperm_of_subset hnd hsub).length_le
  rw [List.length_append, List.length_map, List.length_map] at this
  omega

/-- The run of `dijkstra` on the graph built from lines with at most `805306370` distinct
names, from a start vertex of the graph: with more fuel than lines plus one it ends, and
its record is calm. -/
theorem dijkstraLog_built (lines : List Triple) (start : Key)
    (hroom : ∀ ns : List Key, ns.Nodup → (∀ a, a ∈ ns → IsName lines a) →
      ns.length ≤ 805306370)
    (hstart : (build lines).isValidVertex start = true)
    (fuel : Nat) (hfuel : lines.length + 1 < fuel) :
    ∃ g log, (build lines).dijkstraLog start fuel = some (g, log) ∧
      (build lines).dijkstra start fuel = some g ∧ Calm log := by
  have hB := build_binv lines hroom
  have hn : (build lines).vertexList.length ≤ 805306370 := by
    have := hroom _ (names_nodup hB.wf) (by
      intro a ha
      obtain ⟨i, hi, hia⟩ := List.mem_map.1 ha
      rw [← hia]
      exact hB.names i (List.mem_range.1 hi))
    rw [List.length_map, List.length_range] at this
    exact this
  obtain ⟨vs, hd, _⟩ := dijkstra_built lines start hstart fuel hfuel
  obtain ⟨log, hl⟩ := dijkstraLog_of_dijkstra hd
  exact ⟨_, log, hl, hd, dijkstraLog_ok hB.wf hn start fuel _ hl⟩

theorem starLines_length (n : Nat) : (starLines n).length = n + 3 := by
  unfold starLines fillerLines
  rw [List.length_append, List.length_append, List.length_map, List.length_range]
  simp only [List.length_cons, List.length_nil]
  omega

theorem StarGraph.star_valid {n : Nat} {g : Graph} (hG : StarGraph n g) :
    g.isValidVertex (nameOf 0) = true := by
  have h := hG.ptr
  unfold isValidVertex hashTable.contains
  unfold hashTable.getPointer at h
  cases hf : g.vertices.findPos (nameOf 0) with
  | none => rw [hf] at h; exact absurd h (by simp)
  | some p => rfl

/-- The run of `dijkstra` from `nameOf 0` on the graph built from the lines `starLines n`,
for `n` of at least `805306369`: the record of the run holds two calls of `insert` for the
vertex `2` that returned `3`, followed by the skip of the vertex `2`. -/
theorem starLines_log (n : Nat) (h1 : 805306369 ≤ n) (h2 : n + 3 < 4294967296)
    (hc : getPrime (((n + 3 : Nat) : Int) * 2) = 1610612741) (fuel : Nat)
    (hfuel : n + 4 < fuel) :
    (build (starLines n)).isValidVertex (nameOf 0) = true ∧
    ∃ g log pre post, (build (starLines n)).dijkstraLog (nameOf 0) fuel = some (g, log) ∧
      (build (starLines n)).dijkstra (nameOf 0) fuel = some g ∧
      log = pre ++ [Event.insert 2 3, Event.insert 2 3, Event.skip 2] ++ post := by
  have hG := build_starLines n (by omega) h2
  have hv := hG.star_valid
  refine ⟨hv, ?_⟩
  obtain ⟨vs, hd, _⟩ := dijkstra_built (starLines n) (nameOf 0) hv fuel
    (by rw [starLines_length]; omega)
  obtain ⟨log, hl⟩ := dijkstraLog_of_dijkstra hd
  obtain ⟨f, rfl⟩ : ∃ f, fuel = f + 4 := ⟨fuel - 4, by omega⟩
  obtain ⟨p, pre, hrun, hp⟩ := hG.star_run h1 h2 hc f
  rw [hrun] at hl
  cases hr : dijkstraLoopLog f p with
  | none => rw [hr] at hl; exact absurd hl (by simp)
  | some r =>
    obtain ⟨post, hpost⟩ := dijkstraLoopLog_prefix f p r hr
    rw [hr] at hl
    have e : r.2 = log := congrArg Prod.snd (Option.some.inj hl)
    refine ⟨_, log, pre, post, ?_, hd, ?_⟩
    · rw [hrun, hr]; exact hl
    · rw [← e, hpost, hp]

end Graph

end ECE365

namespace ECE365

theorem mem_addName (seen : List Key) (a b : Key) :
    b ∈ addName seen a ↔ b ∈ seen ∨ b = a := by
  unfold addName
  by_cases h : a ∈ seen
  · rw [if_pos h]
    exact ⟨Or.inl, fun h' => h'.elim id (fun e => e ▸ h)⟩
  · rw [if_neg h, List.mem_append, List.mem_singleton]

theorem addName_nodup {seen : List Key} (h : seen.Nodup) (a : Key) : (addName seen a).Nodup := by
  unfold addName
  by_cases ha : a ∈ seen
  · rw [if_pos ha]; exact h
  · rw [if_neg ha]
    exact List.Nodup.append h (List.nodup_singleton a)
      (fun x hx hx' => ha (by rw [List.mem_singleton] at hx'; rw [← hx']; exact hx))

theorem foldl_addName_nodup : ∀ (names seen : List Key), seen.Nodup →
    (names.foldl addName seen).Nodup := by
  intro names
  induction names with
  | nil => intro seen h; exact h
  | cons a names ih => intro seen h; exact ih _ (addName_nodup h a)

theorem mem_foldl_addName : ∀ (names seen : List Key) (b : Key),
    b ∈ names.foldl addName seen ↔ b ∈ seen ∨ b ∈ names := by
  intro names
  induction names with
  | nil => intro seen b; simp
  | cons a names ih =>
    intro seen b
    rw [List.foldl_cons, ih, mem_addName, List.mem_cons]
    tauto

/-- The sequence `firstOccurrences names` has no name twice. -/
theorem firstOccurrences_nodup (names : List Key) : (firstOccurrences names).Nodup :=
  foldl_addName_nodup names [] List.nodup_nil

/-- The sequence `firstOccurrences names` holds the names of `names`. -/
theorem mem_firstOccurrences (names : List Key) (b : Key) :
    b ∈ firstOccurrences names ↔ b ∈ names := by
  unfold firstOccurrences
  rw [mem_foldl_addName]
  simp

theorem flatNames_append (ls : List Triple) (t : Triple) :
    flatNames (ls ++ [t]) = flatNames ls ++ [t.sourceId, t.destId] := by
  unfold flatNames
  rw [List.flatMap_append]
  simp

theorem firstOccurrences_append (ls : List Triple) (t : Triple) :
    firstOccurrences (flatNames (ls ++ [t])) =
      addName (addName (firstOccurrences (flatNames ls)) t.sourceId) t.destId := by
  unfold firstOccurrences
  rw [flatNames_append, List.foldl_append]
  rfl

theorem linesFrom_append (ls : List Triple) (t : Triple) (a : Key) :
    linesFrom (ls ++ [t]) a =
      linesFrom ls a ++ (if t.sourceId = a then [(t.destId, t.weight)] else []) := by
  unfold linesFrom
  rw [List.filter_append, List.map_append]
  by_cases h : t.sourceId = a
  · rw [if_pos h]; simp [List.filter, h]
  · rw [if_neg h]; simp [List.filter, h]

theorem linesFrom_of_not_name {ls : List Triple} {a : Key} (h : ¬ IsName ls a) :
    linesFrom ls a = [] := by
  unfold linesFrom
  rw [List.map_eq_nil_iff, List.filter_eq_nil_iff]
  intro t ht hs
  exact h ⟨t, ht, Or.inl (of_decide_eq_true hs)⟩

namespace Graph

theorem mem_graph_ids (g : Graph) (a : Key) :
    a ∈ g.ids ↔ ∃ i, i < g.vertexList.length ∧ (vertex g.vertexList i).id = a := by
  unfold ids
  rw [List.mem_map]
  constructor
  · rintro ⟨v, hv, e⟩
    obtain ⟨i, hi, hiv⟩ := List.getElem_of_mem hv
    exact ⟨i, hi, by rw [vertex_eq_getElem _ _ hi, hiv]; exact e⟩
  · rintro ⟨i, hi, e⟩
    exact ⟨g.vertexList[i], List.getElem_mem hi, by rw [← vertex_eq_getElem _ _ hi]; exact e⟩

theorem ids_congr {g1 g2 : Graph} (hl : g1.vertexList.length = g2.vertexList.length)
    (h : ∀ j, (vertex g1.vertexList j).id = (vertex g2.vertexList j).id) : g1.ids = g2.ids := by
  unfold ids
  apply List.ext_getElem
  · rw [List.length_map, List.length_map, hl]
  · intro i h1 h2
    rw [List.length_map] at h1 h2
    rw [List.getElem_map, List.getElem_map, ← vertex_eq_getElem _ _ h1,
      ← vertex_eq_getElem _ _ h2]
    exact h i

/-- The function `getOrCreateVertex` appends the name to the names of `vertexList` if it is
new, when the lines have at most `805306370` distinct names. -/
theorem ids_getOrCreateVertex {g : Graph} {L : List Triple}
    (hroom : ∀ ns : List Key, ns.Nodup → (∀ a, a ∈ ns → IsName L a) → ns.length ≤ 805306370)
    (hg : g.WF) (hf : g.vertices.filled ≤ g.vertexList.length)
    (hnames : ∀ i, i < g.vertexList.length → IsName L (vertex g.vertexList i).id)
    {a : Key} (ha : IsName L a) :
    (g.getOrCreateVertex a).1.ids = addName g.ids a := by
  unfold addName
  by_cases h : ∃ i, i < g.vertexList.length ∧ (vertex g.vertexList i).id = a
  · rw [if_pos ((mem_graph_ids g a).2 h)]
    obtain ⟨i, hi1, hi2⟩ := h
    rw [← hi2, getOrCreateVertex_found hg hi1]
  · rw [if_neg (fun hm => h ((mem_graph_ids g a).1 hm))]
    have hnew : ∀ i, i < g.vertexList.length → (vertex g.vertexList i).id ≠ a :=
      fun i hi e => h ⟨i, hi, e⟩
    obtain ⟨_, k2, _, _⟩ := getOrCreateVertex_new hg hf (room_of_new hg hroom hnames ha hnew) hnew
    unfold ids
    rw [k2, List.map_append]
    rfl

/-- The function `insertEdge` keeps the invariant of the order of the vertices and of the
adjacency lists, when the lines have at most `805306370` distinct names. -/
theorem OInv.insert_edge {ls : List Triple} {g : Graph} (hO : OInv ls g) (t : Triple)
    (hroom : ∀ ns : List Key, ns.Nodup → (∀ a, a ∈ ns → IsName (ls ++ [t]) a) →
      ns.length ≤ 805306370) :
    OInv (ls ++ [t]) (g.insertEdge t.sourceId t.destId t.weight) := by
  have hB := hO.binv
  have hB3 := hB.step t hroom
  have hnamesL : ∀ i, i < g.vertexList.length → IsName (ls ++ [t]) (vertex g.vertexList i).id :=
    fun i hi => (isName_append ls t _).2 (Or.inl (hB.names i hi))
  have hs : IsName (ls ++ [t]) t.sourceId := (isName_append ls t _).2 (Or.inr (Or.inl rfl))
  have hd : IsName (ls ++ [t]) t.destId := (isName_append ls t _).2 (Or.inr (Or.inr rfl))
  have i1 := ids_getOrCreateVertex hroom hB.wf hB.filled hnamesL hs
  obtain ⟨v1, a1, a2, a3, a4, a5, a6, a7, a8, a9⟩ :=
    getOrCreateVertex_spec hroom hB.wf hB.filled hnamesL hs
  have i2 := ids_getOrCreateVertex hroom a4 a5 a6 hd
  obtain ⟨v2, b1, b2, b3, b4, b5, b6, b7, b8, b9⟩ := getOrCreateVertex_spec hroom a4 a5 a6 hd
  rw [insertEdge_eq g _ _ _ _ _ a1 b1] at hB3 ⊢
  generalize (g.getOrCreateVertex t.sourceId).1 = g1 at *
  generalize (g1.getOrCreateVertex t.destId).1 = g2 at *
  have hv1 : v1 < g2.vertexList.length := by omega
  have hidv1 : (vertex g2.vertexList v1).id = t.sourceId := by rw [b8 v1 a2]; exact a3
  obtain ⟨c1, c2, c3, c4, _⟩ := addEdge_spec b4 hv1 b2 t.weight
  have c5 := addEdge_vertex g2 v1 v2 t.weight hv1
  generalize g2.addEdge v1 v2 t.weight = g3 at *
  have hold : ∀ j, j < g.vertexList.length → vertex g2.vertexList j = vertex g.vertexList j := by
    intro j hj
    rw [b8 j (by omega), a8 j hj]
  have hid3 : ∀ j, j < g.vertexList.length →
      (vertex g3.vertexList j).id = (vertex g.vertexList j).id := by
    intro j hj
    rw [c4, hold j hj]
  have hadj2 : ∀ j, (vertex g2.vertexList j).adjList = (vertex g.vertexList j).adjList := by
    intro j
    by_cases hj : j < g.vertexList.length
    · rw [hold j hj]
    · have e1 : (vertex g.vertexList j).adjList = [] := by
        rw [vertex_default _ _ (by omega)]; rfl
      have e2 : (vertex g2.vertexList j).adjList = [] := by
        by_cases hj1 : j < g1.vertexList.length
        · rw [b8 j hj1]; exact a9 j (by omega)
        · exact b9 j (by omega)
      rw [e1, e2]
  have hlt : ∀ j, j < g3.vertexList.length → IsName ls (vertex g3.vertexList j).id →
      j < g.vertexList.length := by
    intro j hj hn
    obtain ⟨i, hi1, hi2⟩ := hB.all_names _ hn
    have : i = j := c1.ids_inj i j (by omega) hj (by rw [hid3 i hi1]; exact hi2)
    omega
  refine ⟨hB3, ?_, ?_⟩
  · rw [firstOccurrences_append, ← hO.order, ← i1, ← i2]
    exact ids_congr c3 c4
  · intro u hu
    have hmap : (vertex g.vertexList u).adjList.map
          (fun e => ((vertex g3.vertexList e.destination).id, e.weight)) =
        linesFrom ls (vertex g3.vertexList u).id := by
      by_cases hug : u < g.vertexList.length
      · rw [hid3 u hug, ← hO.adj u hug]
        unfold adjNames
        apply List.map_congr_left
        intro e he
        rw [hid3 _ (hB.wf.dest_lt u hug e he)]
      · rw [linesFrom_of_not_name (fun hn => hug (hlt u hu hn)),
          vertex_default _ _ (by omega)]
        rfl
    have hadj3 : (vertex g3.vertexList u).adjList = (vertex g.vertexList u).adjList ++
        (if u = v1 then [{ weight := t.weight, destination := v2 }] else []) := by
      rw [c5 u]
      by_cases huv : u = v1
      · rw [if_pos huv, if_pos huv, ← hadj2, huv]
      · rw [if_neg huv, if_neg huv, List.append_nil, hadj2]
    rw [linesFrom_append, ← hmap]
    unfold adjNames
    rw [hadj3, List.map_append]
    congr 1
    by_cases huv : u = v1
    · rw [if_pos huv, if_pos (by rw [c4, huv, hidv1]), List.map_singleton, c4 v2, b3]
    · rw [if_neg huv, if_neg, List.map_nil]
      intro e
      exact huv (c1.ids_inj u v1 hu (by omega) (by rw [← e, c4 v1, hidv1]))

theorem init_oinv : OInv [] init :=
  ⟨init_binv, rfl, fun u hu => absurd hu (Nat.not_lt_zero u)⟩

/-- The graph built from lines with at most `805306370` distinct names: the names of
`vertexList` are the distinct names of the lines in the order of their first occurrences,
and the adjacency list of a vertex holds the lines of which the vertex is the source, in the
order of the lines. -/
theorem build_oinv (lines : List Triple) :
    (∀ ns : List Key, ns.Nodup → (∀ a, a ∈ ns → IsName lines a) → ns.length ≤ 805306370) →
    OInv lines (build lines) := by
  induction lines using List.reverseRecOn with
  | nil => intro _; exact init_oinv
  | append_singleton ls t ih =>
    intro hroom
    unfold build
    rw [loadGraph_append]
    apply OInv.insert_edge _ t hroom
    apply ih
    intro ns h1 h2
    exact hroom ns h1 (fun a ha => (isName_append ls t a).2 (Or.inl (h2 a ha)))

/-- For lines with at most `805306370` distinct names, `vertexList` holds each distinct name
of the lines once, in the order of the first occurrences in `s_1, d_1, s_2, d_2, ...`. -/
theorem build_order (lines : List Triple)
    (hroom : ∀ ns : List Key, ns.Nodup → (∀ a, a ∈ ns → IsName lines a) →
      ns.length ≤ 805306370) :
    (build lines).ids = firstOccurrences (flatNames lines) ∧ (build lines).ids.Nodup ∧
    ∀ a, a ∈ (build lines).ids ↔ a ∈ flatNames lines := by
  have h := (build_oinv lines hroom).order
  rw [h]
  exact ⟨rfl, firstOccurrences_nodup _, mem_firstOccurrences _⟩

/-- For lines with at most `805306370` distinct names, the adjacency list of every vertex
holds the pairs (destination, weight) of the lines whose source is the vertex, in the order
of the lines, and every destination is a vertex of `vertexList`. -/
theorem build_adjacency (lines : List Triple)
    (hroom : ∀ ns : List Key, ns.Nodup → (∀ a, a ∈ ns → IsName lines a) →
      ns.length ≤ 805306370)
    (u : Nat) (hu : u < (build lines).vertexList.length) :
    (build lines).adjNames u = linesFrom lines (vertex (build lines).vertexList u).id ∧
    ∀ e, e ∈ (vertex (build lines).vertexList u).adjList →
      e.destination < (build lines).vertexList.length :=
  ⟨(build_oinv lines hroom).adj u hu, (build_oinv lines hroom).binv.wf.dest_lt u hu⟩

end Graph

end ECE365

namespace ECE365

namespace hashTable

/-! ### The field `filled`, the live items and the deleted slots -/

theorem countP_occupied_split (l : List hashItem)
    (h : ∀ it, it ∈ l → it.isDeleted = true → it.isOccupied = true) :
    l.countP (fun it => it.isOccupied) =
      l.countP (fun it => it.isOccupied && !it.isDeleted) + l.countP (fun it => it.isDeleted) := by
  induction l with
  | nil => rfl
  | cons a l ih =>
    have ih' := ih (fun it hit => h it (List.mem_cons_of_mem _ hit))
    have ha := h a (List.mem_cons_self _ _)
    rw [List.countP_cons, List.countP_cons, List.countP_cons, ih']
    cases ho : a.isOccupied <;> cases hd : a.isDeleted
    · simp
    · rw [hd, ho] at ha; exact absurd (ha rfl) (by decide)
    · simp; omega
    · simp; omega

theorem HInv.mem_data {t : hashTable} (hI : HInv t) {it : hashItem} (h : it ∈ t.data) :
    ∃ i, i < t.capacity ∧ t.slot i = it := by
  obtain ⟨n, hn, e⟩ := List.getElem_of_mem h
  refine ⟨n, by rw [← hI.size]; exact hn, ?_⟩
  unfold slot
  rw [List.getD_eq_getElem _ _ hn]
  exact e

/-- The field `filled` counts the live items and the deleted slots. -/
theorem HInv.filled_split {t : hashTable} (hI : HInv t) :
    t.filled = t.liveCount + t.data.countP (fun it => it.isDeleted) := by
  rw [hI.filled_eq]
  unfold liveCount
  apply countP_occupied_split
  intro it hit hd
  obtain ⟨i, _, e⟩ := hI.mem_data hit
  rw [← e] at hd ⊢
  exact hI.del_occ i hd

/-- In a table without deleted slot, `filled` is the number of live items. -/
theorem HInv.filled_of_no_deleted {t : hashTable} (hI : HInv t)
    (hnd : ∀ i, (t.slot i).isDeleted = false) : t.filled = t.liveCount := by
  rw [hI.filled_split]
  have : t.data.countP (fun it => it.isDeleted) = 0 := by
    rw [List.countP_eq_zero]
    intro it hit
    obtain ⟨i, _, e⟩ := hI.mem_data hit
    rw [← e, hnd i]
    decide
  omega

/-- In every table state reached from `hashTable(size)` by `insert`, `setPointer` and
`remove` calls, the field `filled` is the number of occupied slots, deleted or not: the
number of live items plus the number of deleted slots. -/
theorem filled_counts_occupied (size : Int) (cs : List TableCall) :
    (runCalls (init size) cs).filled =
      (runCalls (init size) cs).data.countP (fun it => it.isOccupied) ∧
    (runCalls (init size) cs).filled =
      (runCalls (init size) cs).liveCount +
        (runCalls (init size) cs).data.countP (fun it => it.isDeleted) ∧
    (runCalls (init size) cs).liveCount ≤ (runCalls (init size) cs).filled := by
  have hP := runCalls_pinv cs _ (init_pinv size)
  exact ⟨hP.inv.filled_eq, hP.inv.filled_split, hP.inv.liveCount_le⟩

/-- The live items of the storage have distinct keys. -/
theorem HInv.live_pairwise {t : hashTable} (hI : HInv t) :
    t.data.Pairwise (fun a b => (a.isOccupied && !a.isDeleted) = true →
      (b.isOccupied && !b.isDeleted) = true → a.key ≠ b.key) := by
  rw [List.pairwise_iff_getElem]
  intro i j hi hj hij ha hb hk
  have si : t.slot i = t.data[i] := by unfold slot; exact List.getD_eq_getElem _ _ hi
  have sj : t.slot j = t.data[j] := by unfold slot; exact List.getD_eq_getElem _ _ hj
  rw [← si] at ha hk
  rw [← sj] at hb hk
  simp only [Bool.and_eq_true, Bool.not_eq_true'] at ha hb
  have := hI.uniq i j (by rw [← hI.size]; exact hi) (by rw [← hI.size]; exact hj)
    ha.1 ha.2 hb.1 hb.2 hk
  omega

/-- The call `insert(key, pv, true)` of `rehash` for a key that the new table does not hold,
in a table without deleted slot: the entry takes a slot that was never occupied, and
`filled` grows by one. -/
theorem insertDuringRehash_filled {t : hashTable} (hI : HInv t) (hlt : t.filled < t.capacity)
    (hnd : ∀ i, (t.slot i).isDeleted = false) (key : Key) (pv : Ptr)
    (habs : t.lookup key = none) :
    (t.insertDuringRehash key pv).1.filled = t.filled + 1 := by
  have hf : t.findPos key = none := by
    unfold lookup at habs
    cases h : t.findPos key with
    | none => rfl
    | some p => rw [h] at habs; exact absurd habs (by simp)
  unfold insertDuringRehash
  rw [hf, Option.isSome_none, if_neg (by decide)]
  obtain ⟨_, h2, h3⟩ := insertIndex_spec hI hlt key pv
  rw [h2]
  cases ho : (t.slot (t.insertIndex key)).isOccupied with
  | false => rfl
  | true =>
    have := h3 ho
    rw [hnd] at this
    exact absurd this (by decide)

/-- The loop of `rehash` stores every live entry of the old storage in a slot of its own:
`filled` grows by the number of live entries. -/
theorem rehash_fold_filled (l : List hashItem) :
    ∀ (acc : hashTable), HInv acc →
      acc.filled + l.countP (fun it => it.isOccupied && !it.isDeleted) < acc.capacity →
      (∀ i, (acc.slot i).isDeleted = false) →
      (∀ it, it ∈ l → (it.isOccupied && !it.isDeleted) = true → acc.lookup it.key = none) →
      l.Pairwise (fun a b => (a.isOccupied && !a.isDeleted) = true →
        (b.isOccupied && !b.isDeleted) = true → a.key ≠ b.key) →
      (l.foldl rehashStep acc).filled =
        acc.filled + l.countP (fun it => it.isOccupied && !it.isDeleted) := by
  induction l with
  | nil => intro acc _ _ _ _ _; rfl
  | cons item l ih =>
    intro acc hI hlt hnd habs hpw
    obtain ⟨hp1, hp2⟩ := List.pairwise_cons.1 hpw
    simp only [List.foldl_cons]
    by_cases hlive : (item.isOccupied && !item.isDeleted) = true
    · have hc : (item :: l).countP (fun it => it.isOccupied && !it.isDeleted)
          = l.countP (fun it => it.isOccupied && !it.isDeleted) + 1 := by
        rw [List.countP_cons]; simp [hlive]
      rw [hc] at hlt ⊢
      have hstep : rehashStep acc item = (acc.insertDuringRehash item.key item.pv).1 := by
        unfold rehashStep; rw [if_pos hlive]
      rw [hstep]
      have ha := habs item (List.mem_cons_self _ _) hlive
      obtain ⟨s1, s2, _, s4, s5⟩ := insertDuringRehash_spec hI (by omega) item.key item.pv
      have s3 := insertDuringRehash_filled hI (by omega) hnd item.key item.pv ha
      rw [ih _ s1 (by rw [s2, s3]; omega) (s5 hnd) ?_ hp2, s3]
      · omega
      · intro it hit hl
        rw [s4, if_neg (fun hh => hp1 it hit hlive hl hh.1.symm)]
        exact habs it (List.mem_cons_of_mem _ hit) hl
    · have hc : (item :: l).countP (fun it => it.isOccupied && !it.isDeleted)
          = l.countP (fun it => it.isOccupied && !it.isDeleted) := by
        rw [List.countP_cons]; simp [hlive]
      rw [hc] at hlt ⊢
      have hstep : rehashStep acc item = acc := by
        unfold rehashStep; rw [if_neg hlive]
      rw [hstep]
      exact ih acc hI hlt hnd (fun it hit => habs it (List.mem_cons_of_mem _ hit)) hp2

/-- A successful `rehash` carries over the live items and nothing else: the new table has
no deleted slot, and its field `filled` is the number of its live items, which is the
number of live items of the old table. -/
theorem rehash_live {t : hashTable} (hI : HInv t) (hok : (t.rehash).2 = true) :
    (t.rehash).1.filled = (t.rehash).1.liveCount ∧ (t.rehash).1.liveCount = t.liveCount := by
  obtain ⟨r1, _, _, _, _, r6⟩ := rehash_spec hI hok
  have h1 := r1.filled_of_no_deleted r6
  refine ⟨h1, ?_⟩
  rw [← h1]
  rw [rehash_eq] at hok ⊢
  by_cases hle : getPrime (2 * (t.capacity : Int)) ≤ t.capacity
  · rw [if_pos hle] at hok
    exact absurd hok (by simp)
  · rw [if_neg hle]
    have hcnt : t.data.countP (fun it => it.isOccupied && !it.isDeleted) ≤ t.filled := by
      rw [hI.filled_eq]; exact countP_live_le _
    have hfl : t.filled ≤ t.capacity := by
      rw [hI.filled_eq, ← hI.size]; exact List.countP_le_length _
    have := rehash_fold_filled t.data (fresh (getPrime (2 * (t.capacity : Int))))
      (fresh_inv _ (by omega)) (by show 0 + _ < getPrime _; omega)
      (fun i => by rw [fresh_slot]; rfl)
      (fun it _ _ => lookup_fresh _ (by omega) _) hI.live_pairwise
    simp only at this ⊢
    rw [this]
    show 0 + _ = _
    rw [Nat.zero_add]
    rfl

end hashTable

end ECE365

namespace ECE365

namespace hashTable

/-! ### The indices that the probes use -/

theorem findPosLog_fst (t : hashTable) (key : Key) (s : Nat) :
    ∀ (fuel idx : Nat), (t.findPosLog key s fuel idx).1 = t.findPosLoop key s fuel idx := by
  intro fuel
  induction fuel with
  | zero => intro idx; rfl
  | succ fuel ih =>
    intro idx
    unfold findPosLog findPosLoop
    split
    · split
      · rfl
      · split
        · rfl
        · exact ih _
    · rfl

theorem findPosLog_reads (t : hashTable) (hc : 0 < t.capacity) (key : Key) (s : Nat) :
    ∀ (fuel idx : Nat), idx < t.capacity →
      ∀ i, i ∈ (t.findPosLog key s fuel idx).2 → i < t.capacity := by
  intro fuel
  induction fuel with
  | zero => intro idx _ i hi; exact absurd hi (List.not_mem_nil _)
  | succ fuel ih =>
    intro idx hidx i hi
    unfold findPosLog at hi
    split at hi
    · split at hi
      · rw [List.mem_singleton.1 hi]; exact hidx
      · split at hi
        · rw [List.mem_singleton.1 hi]; exact hidx
        · rcases List.mem_cons.1 hi with e | hi
          · rw [e]; exact hidx
          · exact ih _ (Nat.mod_lt _ hc) i hi
    · rw [List.mem_singleton.1 hi]; exact hidx

/-- The loop of `findPos` ends within `capacity` iterations: with more fuel the run is the
same. -/
theorem findPosLog_fuel (t : hashTable) (key : Key) (s : Nat) (hs : s < t.capacity) :
    ∀ (fuel j extra : Nat), j < t.capacity → t.capacity - j ≤ fuel →
      t.findPosLog key s (fuel + extra) ((s + j) % t.capacity) =
        t.findPosLog key s fuel ((s + j) % t.capacity) := by
  intro fuel
  induction fuel with
  | zero => intro j extra hj hf; omega
  | succ fuel ih =>
    intro j extra hj hf
    rw [show fuel + 1 + extra = (fuel + extra) + 1 by omega]
    unfold findPosLog
    split
    · split
      · rfl
      · split
        · rfl
        · rename_i hne
          rw [succ_mod] at hne ⊢
          have hj1 : j + 1 < t.capacity := by
            by_contra hge
            have : j + 1 = t.capacity := by omega
            apply hne
            rw [this, Nat.add_mod_right, Nat.mod_eq_of_lt hs]
            exact beq_self_eq_true _
          rw [ih (j + 1) extra hj1 (by omega)]
    · rfl

theorem probeLog_fst (t : hashTable) (key : Key) :
    ∀ (fuel idx : Nat) (fd : Option Nat),
      (t.probeLog key fuel idx fd).1 = t.probeLoop key fuel idx fd := by
  intro fuel
  induction fuel with
  | zero => intro idx fd; rfl
  | succ fuel ih =>
    intro idx fd
    unfold probeLog probeLoop
    split
    · dsimp only
      split
      · rfl
      · exact ih _ _
    · rfl

theorem probeLog_reads (t : hashTable) (hc : 0 < t.capacity) (key : Key) :
    ∀ (fuel idx : Nat) (fd : Option Nat), idx < t.capacity →
      ∀ i, i ∈ (t.probeLog key fuel idx fd).2.1 → i < t.capacity := by
  intro fuel
  induction fuel with
  | zero => intro idx fd _ i hi; exact absurd hi (List.not_mem_nil _)
  | succ fuel ih =>
    intro idx fd hidx i hi
    unfold probeLog at hi
    split at hi
    · dsimp only at hi
      split at hi
      · rw [List.mem_singleton.1 hi]; exact hidx
      · rcases List.mem_cons.1 hi with e | hi
        · rw [e]; exact hidx
        · exact ih _ _ (Nat.mod_lt _ hc) i hi
    · rw [List.mem_singleton.1 hi]; exact hidx

/-- The probe loop of `insert` in a table with a slot that is not occupied: the loop is not
left by its `break`, and it ends within `capacity` iterations (with more fuel the run is
the same). -/
theorem probeLog_free (t : hashTable) (key : Key) (hh : t.hash key < t.capacity) :
    ∀ (fuel j : Nat) (fd : Option Nat) (f : Nat), j ≤ f → f < t.capacity → f - j < fuel →
      (t.slot ((t.hash key + f) % t.capacity)).isOccupied = false →
      (t.probeLog key fuel ((t.hash key + j) % t.capacity) fd).2.2 = false ∧
      ∀ extra, t.probeLog key (fuel + extra) ((t.hash key + j) % t.capacity) fd =
        t.probeLog key fuel ((t.hash key + j) % t.capacity) fd := by
  intro fuel
  induction fuel with
  | zero => intro j fd f _ _ h; omega
  | succ fuel ih =>
    intro j fd f hjf hf hfuel hfree
    by_cases hocc : (t.slot ((t.hash key + j) % t.capacity)).isOccupied = true
    · have hjne : j ≠ f := by
        intro e; subst e; rw [hocc] at hfree; exact absurd hfree (by simp)
      have hne : ¬ (((t.hash key + j) % t.capacity + 1) % t.capacity == t.hash key) = true := by
        rw [succ_mod, beq_iff_eq]
        exact add_mod_ne hh (by omega) (by omega)
      constructor
      · unfold probeLog
        simp only [hocc, if_true, if_neg hne]
        rw [succ_mod]
        exact (ih (j + 1) _ f (by omega) hf (by omega) hfree).1
      · intro extra
        rw [show fuel + 1 + extra = (fuel + extra) + 1 by omega]
        unfold probeLog
        simp only [hocc, if_true, if_neg hne]
        rw [succ_mod, (ih (j + 1) _ f (by omega) hf (by omega) hfree).2 extra]
    · constructor
      · unfold probeLog
        rw [if_neg hocc]
      · intro extra
        rw [show fuel + 1 + extra = (fuel + extra) + 1 by omega]
        unfold probeLog
        rw [if_neg hocc, if_neg hocc]

/-- The probe loop of `insert` from the offset `j`, when the first slot that is not
occupied is at the offset `f`: the loop stops there, and the deleted slot it has is the one
it came with or the first deleted slot between the offsets `j` and `f`. -/
theorem probeLoop_first (t : hashTable) (key : Key) (hh : t.hash key < t.capacity) :
    ∀ (fuel j : Nat) (fd : Option Nat) (f : Nat), j ≤ f → f < t.capacity → f - j < fuel →
      (t.slot ((t.hash key + f) % t.capacity)).isOccupied = false →
      (∀ e, j ≤ e → e < f → (t.slot ((t.hash key + e) % t.capacity)).isOccupied = true) →
      (t.probeLoop key fuel ((t.hash key + j) % t.capacity) fd).1 =
        (t.hash key + f) % t.capacity ∧
      (∀ x, fd = some x →
        (t.probeLoop key fuel ((t.hash key + j) % t.capacity) fd).2 = some x) ∧
      (fd = none →
        (∀ e, j ≤ e → e < f → (t.slot ((t.hash key + e) % t.capacity)).isDeleted = false) →
        (t.probeLoop key fuel ((t.hash key + j) % t.capacity) fd).2 = none) ∧
      (fd = none → ∀ e, j ≤ e → e < f →
        (t.slot ((t.hash key + e) % t.capacity)).isDeleted = true →
        (∀ e', j ≤ e' → e' < e →
          (t.slot ((t.hash key + e') % t.capacity)).isDeleted = false) →
        (t.probeLoop key fuel ((t.hash key + j) % t.capacity) fd).2 =
          some ((t.hash key + e) % t.capacity)) := by
  intro fuel
  induction fuel with
  | zero => intro j fd f _ _ h; omega
  | succ fuel ih =>
    intro j fd f hjf hf hfuel hfree hpath
    by_cases hjf' : j = f
    · subst hjf'
      have hocc : ¬ (t.slot ((t.hash key + j) % t.capacity)).isOccupied = true := by
        rw [hfree]; decide
      unfold probeLoop
      rw [if_neg hocc]
      refine ⟨rfl, fun x hx => hx, fun h _ => h, ?_⟩
      intro _ e he1 he2
      omega
    · have hocc := hpath j (le_refl _) (by omega)
      have hne : ¬ (((t.hash key + j) % t.capacity + 1) % t.capacity == t.hash key) = true := by
        rw [succ_mod, beq_iff_eq]
        exact add_mod_ne hh (by omega) (by omega)
      unfold probeLoop
      simp only [hocc, if_true, if_neg hne]
      rw [succ_mod]
      generalize hfd' : (if ((t.slot ((t.hash key + j) % t.capacity)).isDeleted && fd.isNone) = true
        then some ((t.hash key + j) % t.capacity) else fd) = fd'
      obtain ⟨i1, i2, i3, i4⟩ := ih (j + 1) fd' f (by omega) hf (by omega) hfree
        (fun e he1 he2 => hpath e (by omega) he2)
      refine ⟨i1, ?_, ?_, ?_⟩
      · intro x hx
        subst hx
        rw [Option.isNone_some, Bool.and_false, if_neg (by decide)] at hfd'
        exact i2 x hfd'.symm
      · intro hfd hnd
        subst hfd
        have hdj := hnd j (le_refl _) (by omega)
        rw [hdj, Bool.false_and, if_neg (by decide)] at hfd'
        exact i3 hfd'.symm (fun e he1 he2 => hnd e (by omega) he2)
      · intro hfd e he1 he2 hde hbefore
        subst hfd
        by_cases hej : e = j
        · subst hej
          rw [hde, Option.isNone_none, Bool.and_self, if_pos rfl] at hfd'
          exact i2 _ hfd'.symm
        · have hdj := hbefore j (le_refl _) (by omega)
          rw [hdj, Bool.false_and, if_neg (by decide)] at hfd'
          exact i4 hfd'.symm e (by omega) he2 hde (fun e' h1 h2 => hbefore e' (by omega) h2)

/-- The first offset from the hash index at which the slot is not occupied. -/
theorem first_free {t : hashTable} (hI : HInv t) (hlt : t.filled < t.capacity) (key : Key) :
    ∃ d, d < t.capacity ∧
      (t.slot ((t.hash key + d) % t.capacity)).isOccupied = false ∧
      ∀ e, e < d → (t.slot ((t.hash key + e) % t.capacity)).isOccupied = true := by
  have hh := hash_lt t hI.cap_pos key
  obtain ⟨i, hi, hfree⟩ := exists_free hI hlt
  obtain ⟨f, hf, hfi⟩ := offset_exists hh hi
  have hex : ∃ d, d < t.capacity ∧
      (t.slot ((t.hash key + d) % t.capacity)).isOccupied = false :=
    ⟨f, hf, by rw [hfi]; exact hfree⟩
  classical
  refine ⟨Nat.find hex, (Nat.find_spec hex).1, (Nat.find_spec hex).2, ?_⟩
  intro e he
  have := Nat.find_min hex he
  cases ho : (t.slot ((t.hash key + e) % t.capacity)).isOccupied with
  | true => rfl
  | false => exact absurd ⟨by have := (Nat.find_spec hex).1; omega, ho⟩ this

/-- Where `place` stores the entry: the probe from the hash index stops at the first slot
that is not occupied, and the entry goes to the first deleted slot that the probe went
through, or to the slot at which the probe stopped if it went through none. -/
theorem insertIndex_first {t : hashTable} (hI : HInv t) (hlt : t.filled < t.capacity)
    (key : Key) :
    ∃ d, d < t.capacity ∧
      (t.slot ((t.hash key + d) % t.capacity)).isOccupied = false ∧
      (∀ e, e < d → (t.slot ((t.hash key + e) % t.capacity)).isOccupied = true) ∧
      (t.probeLoop key t.capacity (t.hash key) none).1 = (t.hash key + d) % t.capacity ∧
      ((∀ e, e < d → (t.slot ((t.hash key + e) % t.capacity)).isDeleted = false) →
        t.insertIndex key = (t.hash key + d) % t.capacity) ∧
      (∀ e, e < d → (t.slot ((t.hash key + e) % t.capacity)).isDeleted = true →
        (∀ e', e' < e → (t.slot ((t.hash key + e') % t.capacity)).isDeleted = false) →
        t.insertIndex key = (t.hash key + e) % t.capacity) := by
  have hh := hash_lt t hI.cap_pos key
  obtain ⟨d, hd, hfree, hpath⟩ := first_free hI hlt key
  obtain ⟨p1, _, p3, p4⟩ := probeLoop_first t key hh t.capacity 0 none d (Nat.zero_le _) hd
    (by omega) hfree (fun e _ he => hpath e he)
  simp only [Nat.add_zero, Nat.mod_eq_of_lt hh] at p1 p3 p4
  refine ⟨d, hd, hfree, hpath, p1, ?_, ?_⟩
  · intro hnd
    unfold insertIndex
    rw [p3 trivial (fun e _ he => hnd e he)]
    exact p1
  · intro e he hde hbefore
    unfold insertIndex
    rw [p4 trivial e (Nat.zero_le _) he hde (fun e' _ h2 => hbefore e' h2)]

/-- The probe of `findPos` on a table that satisfies the invariant. -/
theorem safeFind_of_inv {t : hashTable} (hI : HInv t) (key : Key) : t.SafeFind key := by
  have hh := hash_lt t hI.cap_pos key
  refine ⟨findPosLog_fst t key _ _ _, ?_, ?_, ?_⟩
  · intro extra
    have := findPosLog_fuel t key (t.hash key) hh t.capacity 0 extra hI.cap_pos (by omega)
    simpa only [Nat.add_zero, Nat.mod_eq_of_lt hh] using this
  · intro i hi
    rw [hI.size]
    exact findPosLog_reads t hI.cap_pos key _ _ _ hh i hi
  · intro pos hpos
    rw [hI.size]
    exact ((findPos_eq_some_iff hI key pos).1 hpos).1

/-- The probe of `insert` on a table that satisfies the invariant and has fewer occupied
slots than slots. -/
theorem safeProbe_of_inv {t : hashTable} (hI : HInv t) (hlt : t.filled < t.capacity)
    (key : Key) : t.SafeProbe key := by
  have hh := hash_lt t hI.cap_pos key
  obtain ⟨d, hd, hfree, hpath, p1, _, _⟩ := insertIndex_first hI hlt key
  obtain ⟨q1, q2⟩ := probeLog_free t key hh t.capacity 0 none d (Nat.zero_le _) hd (by omega)
    hfree
  simp only [Nat.add_zero, Nat.mod_eq_of_lt hh] at q1 q2
  refine ⟨probeLog_fst t key _ _ _, q2, ?_, q1, ?_, ?_⟩
  · intro i hi
    rw [hI.size]
    exact probeLog_reads t hI.cap_pos key _ _ _ hh i hi
  · rw [p1]
    refine ⟨hfree, ?_⟩
    cases hdel : (t.slot ((t.hash key + d) % t.capacity)).isDeleted with
    | false => rfl
    | true =>
      have := hI.del_occ _ hdel
      rw [hfree] at this
      exact absurd this (by decide)
  · rw [hI.size]
    exact (insertIndex_spec hI hlt key none).1.lt

/-- The function `insert` with `duringRehash = false`, when it returns `0`: the entry is
stored by the probe on the table after the rehash check, which satisfies the invariant and
has fewer occupied slots than slots. -/
theorem insert_eq_place {t : hashTable} (hP : PInv t) (key : Key) (pv : Ptr)
    (h : (t.insert key pv false).2 = 0) :
    (t.insert key pv false).1 = t.afterRehashCheck.place key pv ∧
    HInv t.afterRehashCheck ∧ t.afterRehashCheck.filled < t.afterRehashCheck.capacity := by
  unfold insert at h ⊢
  unfold afterRehashCheck
  by_cases h1 : (t.findPos key).isSome = true
  · rw [if_pos h1] at h
    exact absurd h (by simp)
  · rw [if_neg h1] at h ⊢
    by_cases h2 : t.filled ≥ t.capacity / 2
    · have h2' : (!false && decide (t.filled ≥ t.capacity / 2)) = true := by simp [h2]
      rw [if_pos h2'] at h ⊢
      rw [if_pos h2]
      cases hr : (t.rehash).2 with
      | false => rw [hr] at h; exact absurd h (by simp)
      | true =>
        rw [if_pos rfl]
        obtain ⟨r1, _, r3, r4, _, _⟩ := rehash_spec hP.inv hr
        have := hP.filled_lt
        exact ⟨rfl, r1, by omega⟩
    · have h2' : ¬ (!false && decide (t.filled ≥ t.capacity / 2)) = true := by simp [h2]
      rw [if_neg h2', if_neg h2]
      exact ⟨rfl, hP.inv, hP.filled_lt⟩

/-- The new table during a successful `rehash` satisfies the invariant and has fewer
occupied slots than slots. -/
theorem rehashState_inv {t : hashTable} (hI : HInv t) (hok : (t.rehash).2 = true) (n : Nat) :
    HInv (t.rehashState n) ∧ (t.rehashState n).filled < (t.rehashState n).capacity := by
  rw [rehash_eq] at hok
  by_cases hle : getPrime (2 * (t.capacity : Int)) ≤ t.capacity
  · rw [if_pos hle] at hok
    exact absurd hok (by simp)
  · have hcnt : t.data.countP (fun it => it.isOccupied && !it.isDeleted) ≤ t.filled := by
      rw [hI.filled_eq]; exact countP_live_le _
    have hfl : t.filled ≤ t.capacity := by
      rw [hI.filled_eq, ← hI.size]; exact List.countP_le_length _
    have htake : (t.data.take n).countP (fun it => it.isOccupied && !it.isDeleted) ≤
        t.data.countP (fun it => it.isOccupied && !it.isDeleted) :=
      (List.take_sublist n t.data).countP_le _
    have h0 : (fresh (getPrime (2 * (t.capacity : Int)))).filled = 0 := rfl
    have hc : (fresh (getPrime (2 * (t.capacity : Int)))).capacity =
        getPrime (2 * (t.capacity : Int)) := rfl
    obtain ⟨r1, r2, r3, _, _⟩ := rehash_fold_spec (t.data.take n)
      (fresh (getPrime (2 * (t.capacity : Int)))) (fresh_inv _ (by omega))
      (by rw [h0, hc]; omega)
    unfold rehashState
    refine ⟨r1, ?_⟩
    rw [r2, hc]
    rw [h0] at r3
    omega

/-- After the loop of a successful `rehash` went through the whole old storage, the new
table is the result of `rehash`. -/
theorem rehashState_length {t : hashTable} (hok : (t.rehash).2 = true) :
    t.rehashState t.data.length = (t.rehash).1 := by
  rw [rehash_eq] at hok ⊢
  by_cases hle : getPrime (2 * (t.capacity : Int)) ≤ t.capacity
  · rw [if_pos hle] at hok
    exact absurd hok (by simp)
  · rw [if_neg hle]
    unfold rehashState
    rw [List.take_length]

end hashTable

end ECE365

namespace ECE365

namespace Graph

/-! ### The chains of `previous` pointers after `dijkstra` -/

theorem PrevChain.no_repeat {vs : List Vertex} {v : Nat} {p : List Nat} (h : PrevChain vs v p) :
    p.Nodup := by
  induction h with
  | last _ => exact List.nodup_singleton _
  | link _ _ hnot ih => exact List.nodup_cons.2 ⟨hnot, ih⟩

/-- A chain of predecessors ends at a vertex without predecessor. -/
theorem PrevChain.end_none {vs : List Vertex} {v : Nat} {p : List Nat} (h : PrevChain vs v p) :
    ∃ z, p.getLast? = some z ∧ (vertex vs z).previous = none := by
  induction h with
  | last hv => exact ⟨_, rfl, hv⟩
  | @link u v p hc _ _ ih =>
    obtain ⟨z, hz1, hz2⟩ := ih
    refine ⟨z, ?_, hz2⟩
    cases p with
    | nil => exact absurd hz1 (by simp)
    | cons a p => rw [List.getLast?_cons_cons]; exact hz1

/-- A chain of predecessors back to a source without predecessor is a chain that ends at a
vertex without predecessor. -/
theorem Chain.to_prevChain {vs : List Vertex} {s v : Nat} {p : List Nat}
    (hs : (vertex vs s).previous = none) (h : Chain vs s v p) : PrevChain vs v p := by
  induction h with
  | src => exact PrevChain.last hs
  | link _ hp hnot ih => exact PrevChain.link ih hp hnot

/-- After `dijkstra`, every vertex has a chain of predecessors, in which no vertex comes
twice, to a vertex without predecessor. -/
theorem TreeInv.prevChain_of {g : Graph} {s : Nat} {vs : List Vertex} (hT : TreeInv g s vs)
    (v : Nat) : ∃ p, PrevChain vs v p := by
  by_cases hl : Linked vs s v
  · obtain ⟨p, hc⟩ := hT.chain_of hl
    exact ⟨p, hc.to_prevChain hT.src_prev⟩
  · have hp : (vertex vs v).previous = none := by
      by_contra h
      exact hl (Or.inr h)
    exact ⟨[v], PrevChain.last hp⟩

/-- The run of `dijkstra` on a graph that the constructor builds, for any lines and any
weights, from a start vertex of the graph: it ends, the start vertex has no predecessor,
every vertex has a chain of predecessors without repetition to a vertex without
predecessor, and `formatPath` ends for every vertex. -/
theorem dijkstra_chains (lines : List Triple) (start : Key)
    (hstart : (build lines).isValidVertex start = true) (fuel : Nat)
    (hfuel : lines.length + 1 < fuel) :
    ∃ g, (build lines).dijkstra start fuel = some g ∧
      (build lines).indexOf start < g.vertexList.length ∧
      (vertex g.vertexList ((build lines).indexOf start)).id = start ∧
      (vertex g.vertexList ((build lines).indexOf start)).previous = none ∧
      ∀ v, (∃ p, PrevChain g.vertexList v p ∧ p.Nodup ∧
          ∃ z, p.getLast? = some z ∧ (vertex g.vertexList z).previous = none) ∧
        ∀ pfuel, g.vertexList.length ≤ pfuel →
          ∃ path, formatPath g.vertexList v pfuel = some path := by
  obtain ⟨vs, hrun, hT⟩ := dijkstra_built lines start hstart fuel hfuel
  obtain ⟨_, s2, s3⟩ := (build_stored lines).start_ptr hstart
  refine ⟨_, hrun, by show _ < vs.length; rw [hT.len]; exact s2, ?_, hT.src_prev, ?_⟩
  · show (vertex vs _).id = start
    rw [hT.ids]
    exact s3
  · intro v
    constructor
    · obtain ⟨p, hp⟩ := hT.prevChain_of v
      exact ⟨p, hp, hp.no_repeat, hp.end_none⟩
    · intro pfuel hpf
      obtain ⟨ids, _, hids⟩ := hT.stack_of v pfuel (by rw [← hT.len]; exact hpf)
      unfold formatPath
      show ∃ path, (pathStackLoop vs pfuel (some v) []).map joinPath = some path
      rw [hids]
      exact ⟨_, rfl⟩

end Graph

end ECE365

namespace ECE365

/-! ## The claims -/

/-- C1 (the code at the failing input): for the `805306372` lines `longLines 805306370`
(a loop at each of `805306370` names, then a path of two edges of weight `1` from the first
name through two new names), whose weights are not negative, whose walks all weigh less than
`INT32_MAX` and whose first name is a valid start vertex, `dijkstra` from the first name
returns and leaves a vertex that is reachable from the start with the distance `INT32_MAX`,
which is not the minimum weight of the paths to it. -/
theorem C1_dijkstra_misses_reachable_vertex :
    (∀ t, t ∈ longLines 805306370 → 0 ≤ t.weight) ∧
    (∀ a b w p, Walk (lineEdge (longLines 805306370)) a b w p → w < INT32_MAX) ∧
    (Graph.build (longLines 805306370)).isValidVertex (nameOf 0) = true ∧
    ∃ g, (Graph.build (longLines 805306370)).dijkstra (nameOf 0) 805306374 = some g ∧
      ∃ v, v < g.vertexList.length ∧ (Graph.vertex g.vertexList v).id = nameOf (805306370 + 1) ∧
        Reachable (lineEdge (longLines 805306370)) (nameOf 0) (Graph.vertex g.vertexList v).id ∧
        (Graph.vertex g.vertexList v).distance = INT32_MAX ∧
        ¬ IsMinDist (lineEdge (longLines 805306370)) (nameOf 0) (Graph.vertex g.vertexList v).id
          (Graph.vertex g.vertexList v).distance :=
  Graph.dijkstra_longLines 805306370 rfl 805306374 (by decide)

end ECE365

namespace ECE365

/-- C2: after a sequence of `insert` and `remove` calls (with `duringRehash = false`) on a
table made by the constructor, none of which returns `2`, `contains(k)` is true if and only
if the last call of the sequence that names `k` is an `insert`. -/
theorem C2_contains_iff_last_call_is_insert (size : Int) (cs : List TableCall) (k : Key)
    (hcalls : ∀ c ∈ cs, c.isSetPointer = false)
    (hnone2 : noneReturns2 (hashTable.init size) cs = true) :
    (runCalls (hashTable.init size) cs).contains k = true ↔
      ∃ pv, lastNaming k cs = some (TableCall.insert k pv) := by
  rw [runCalls_contains k cs _ (hashTable.init_pinv size) hcalls hnone2]
  cases hl : lastNaming k cs with
  | none => simp [contains_init]
  | some c =>
    have hk := lastNaming_key hl
    cases c with
    | insert key pv =>
      have : key = k := hk
      subst this
      simp [TableCall.isInsert]
    | setPointer key pv => simp [TableCall.isInsert]
    | remove key => simp [TableCall.isInsert]

/-- Witness of C2: `insert a`, `remove a`, `insert a` on `hashTable(0)`. -/
theorem C2_witness :
    (∀ c ∈ [TableCall.insert [97] none, TableCall.remove [97], TableCall.insert [97] (some 1)],
      c.isSetPointer = false) ∧
    noneReturns2 (hashTable.init 0)
      [TableCall.insert [97] none, TableCall.remove [97], TableCall.insert [97] (some 1)] = true ∧
    ((runCalls (hashTable.init 0)
        [TableCall.insert [97] none, TableCall.remove [97],
          TableCall.insert [97] (some 1)]).contains [97] = true ↔
      ∃ pv, lastNaming [97]
        [TableCall.insert [97] none, TableCall.remove [97], TableCall.insert [97] (some 1)]
          = some (TableCall.insert [97] pv)) :=
  ⟨by decide, by decide,
    C2_contains_iff_last_call_is_insert 0 _ [97] (by decide) (by decide)⟩

/-- C3: after a sequence of `insert`, `setPointer` and `remove` calls (with
`duringRehash = false`) on a table made by the constructor, none of which returns `2`,
`getPointer(k, &b)` sets `b` to true and returns the value of the most recent successful
`insert` or `setPointer` of `k` since `k` was last absent if `k` is in the table, and sets
`b` to false and returns `nullptr` otherwise. -/
theorem C3_getPointer_most_recent_value (size : Int) (cs : List TableCall) (k : Key)
    (_hnone2 : noneReturns2 (hashTable.init size) cs = true) :
    ((runCalls (hashTable.init size) cs).contains k =
      (expected k (trace (hashTable.init size) cs)).isSome) ∧
    (runCalls (hashTable.init size) cs).getPointer k =
      match expected k (trace (hashTable.init size) cs) with
      | some pv => (pv, true)
      | none => (none, false) := by
  have h := (runCalls_lookup k cs _ (hashTable.init_pinv size)).2
  rw [hashTable.lookup_init] at h
  rw [hashTable.contains_eq_lookup, hashTable.getPointer_eq_lookup, h]
  exact ⟨rfl, rfl⟩

/-- Witness of C3: `insert a`, `setPointer a`, `remove b`, `insert a` on `hashTable(0)`. -/
theorem C3_witness :
    noneReturns2 (hashTable.init 0)
      [TableCall.insert [97] (some 1), TableCall.setPointer [97] (some 2),
        TableCall.remove [98], TableCall.insert [97] (some 3)] = true ∧
    (runCalls (hashTable.init 0)
      [TableCall.insert [97] (some 1), TableCall.setPointer [97] (some 2),
        TableCall.remove [98], TableCall.insert [97] (some 3)]).getPointer [97]
      = (some 2, true) :=
  ⟨by decide,
    (C3_getPointer_most_recent_value 0
      [TableCall.insert [97] (some 1), TableCall.setPointer [97] (some 2),
        TableCall.remove [98], TableCall.insert [97] (some 3)] [97] (by decide)).2⟩

end ECE365

namespace ECE365

/-- C4: in a heap reached from `heap(capacity)` by `insert`, `setKey`, `deleteMin` and
`remove` calls with no `insert` returning `3`, calling `deleteMin` until it returns `1`
succeeds exactly `currentSize` times, returns keys in non-decreasing order, and returns
exactly the nodes of the slots `1 .. currentSize`, each once. -/
theorem C4_deleteMin_drains_sorted (capacity : Nat) (cs : List HeapCall) (fuel : Nat)
    (hnone3 : noneReturns3 (heap.init capacity) cs = true)
    (hfuel : (runHeapCalls (heap.init capacity) cs).currentSize < fuel) :
    ∃ l, heap.drain fuel (runHeapCalls (heap.init capacity) cs) = some l ∧
      l.length = (runHeapCalls (heap.init capacity) cs).currentSize ∧
      (l.map (fun n => n.key)).Sorted (fun a b => a ≤ b) ∧
      l.Perm (runHeapCalls (heap.init capacity) cs).nodes :=
  heap.drain_spec _ _ (runHeapCalls_inv cs _ (heap.init_inv capacity) hnone3) rfl fuel hfuel

/-- Witness of C4: three inserts into `heap(3)`, then four calls of `deleteMin`. -/
theorem C4_witness :
    noneReturns3 (heap.init 3)
      [HeapCall.insert [97] 5 none, HeapCall.insert [98] 3 (some 7),
        HeapCall.insert [99] 1 none] = true ∧
    (runHeapCalls (heap.init 3)
      [HeapCall.insert [97] 5 none, HeapCall.insert [98] 3 (some 7),
        HeapCall.insert [99] 1 none]).currentSize < 4 ∧
    ∃ l, heap.drain 4 (runHeapCalls (heap.init 3)
        [HeapCall.insert [97] 5 none, HeapCall.insert [98] 3 (some 7),
          HeapCall.insert [99] 1 none]) = some l ∧
      l.length = (runHeapCalls (heap.init 3)
        [HeapCall.insert [97] 5 none, HeapCall.insert [98] 3 (some 7),
          HeapCall.insert [99] 1 none]).currentSize ∧
      (l.map (fun n => n.key)).Sorted (fun a b => a ≤ b) ∧
      l.Perm (runHeapCalls (heap.init 3)
        [HeapCall.insert [97] 5 none, HeapCall.insert [98] 3 (some 7),
          HeapCall.insert [99] 1 none]).nodes :=
  ⟨by decide, by decide,
    C4_deleteMin_drains_sorted 3
      [HeapCall.insert [97] 5 none, HeapCall.insert [98] 3 (some 7),
        HeapCall.insert [99] 1 none] 4 (by decide) (by decide)⟩

/-- C6: in a heap reached from `heap(capacity)` by `insert`, `setKey`, `deleteMin` and
`remove` calls with no `insert` returning `3`, the hash table maps the id of every slot
`1 .. currentSize` to that slot, these ids are pairwise distinct, and the hash table
contains no other string. -/
theorem C6_index_consistency (capacity : Nat) (cs : List HeapCall)
    (hnone3 : noneReturns3 (heap.init capacity) cs = true) :
    (∀ i, 1 ≤ i → i ≤ (runHeapCalls (heap.init capacity) cs).currentSize →
      ((runHeapCalls (heap.init capacity) cs).mapping.getPointer
        ((runHeapCalls (heap.init capacity) cs).slot i).id).1.map heap.getPos = some i) ∧
    (runHeapCalls (heap.init capacity) cs).ids.Nodup ∧
    (∀ x, x ∉ (runHeapCalls (heap.init capacity) cs).ids →
      (runHeapCalls (heap.init capacity) cs).mapping.contains x = false) := by
  have hI := runHeapCalls_inv cs _ (heap.init_inv capacity) hnone3
  refine ⟨?_, hI.ids_nodup, ?_⟩
  · intro i hi1 hi2
    rw [hI.getPointer hi1 hi2]
    rfl
  · intro x hx
    cases hc : (runHeapCalls (heap.init capacity) cs).mapping.contains x with
    | false => rfl
    | true => exact absurd ((hI.contains_iff_mem_ids x).1 hc) hx

/-- Witness of C6: two inserts and a `deleteMin` on `heap(2)`. -/
theorem C6_witness :
    noneReturns3 (heap.init 2)
      [HeapCall.insert [97] 5 none, HeapCall.insert [98] 3 none, HeapCall.deleteMin] = true ∧
    (runHeapCalls (heap.init 2)
      [HeapCall.insert [97] 5 none, HeapCall.insert [98] 3 none,
        HeapCall.deleteMin]).ids.Nodup :=
  ⟨by decide,
    (C6_index_consistency 2
      [HeapCall.insert [97] 5 none, HeapCall.insert [98] 3 none, HeapCall.deleteMin]
      (by decide)).2.1⟩

/-- C7 (the code at the failing input): in `heap(2)` with the nodes `a` of key `INT_MIN`
and `b` of key `5`, the call `remove(b)` returns `0` but removes `a`; `b` stays in the heap,
with the key `INT_MIN`. -/
theorem C7_remove_deletes_other_node :
    noneReturns3 (heap.init 2)
      [HeapCall.insert [97] INT_MIN none, HeapCall.insert [98] 5 none] = true ∧
    (runHeapCalls (heap.init 2)
      [HeapCall.insert [97] INT_MIN none, HeapCall.insert [98] 5 none]).ids = [[97], [98]] ∧
    ((runHeapCalls (heap.init 2)
      [HeapCall.insert [97] INT_MIN none, HeapCall.insert [98] 5 none]).remove [98]).2.1 = 0 ∧
    ((runHeapCalls (heap.init 2)
      [HeapCall.insert [97] INT_MIN none, HeapCall.insert [98] 5 none]).remove [98]).1.nodes
      = [{ id := [98], key := INT_MIN, pData := none }] := by
  decide

/-- In a heap reached from `heap(capacity)` by any public operations, for an id that the
hash table of the heap contains (so that `remove` finds it) and whose node has the key `p`
and the payload `r`, `remove(id, &k, &d)` returns `0` and writes `k = p` and `d = r`, the
key and the payload that the node had before the call. -/
theorem heap.remove_of_contained (capacity : Nat) (cs : List HeapCall) (id : Key)
    (p : Int) (r : Ptr)
    (hfound : (runHeapCalls (heap.init capacity) cs).mapping.contains id = true)
    (hnode : ({ id := id, key := p, pData := r } : node) ∈
      (runHeapCalls (heap.init capacity) cs).nodes) :
    ((runHeapCalls (heap.init capacity) cs).remove id).2 = (0, some (p, r)) :=
  heap.remove_outputs (reached_weak capacity cs) hfound hnode

/-- In a heap reached from `heap(capacity)` by public operations with no `insert`
returning `3`, for every node of the heap, with the id `id`, the key `p` and the payload
`r`, `remove(id, &k, &d)` returns `0` and writes `k = p` and `d = r`. -/
theorem heap.remove_of_reachable (capacity : Nat) (cs : List HeapCall)
    (h3 : noneReturns3 (heap.init capacity) cs = true) (id : Key) (p : Int) (r : Ptr)
    (hnode : ({ id := id, key := p, pData := r } : node) ∈
      (runHeapCalls (heap.init capacity) cs).nodes) :
    ((runHeapCalls (heap.init capacity) cs).remove id).2 = (0, some (p, r)) := by
  have hI := runHeapCalls_inv cs _ (heap.init_inv capacity) h3
  have hid : id ∈ (runHeapCalls (heap.init capacity) cs).ids := by
    unfold heap.ids
    exact List.mem_map.2 ⟨_, hnode, rfl⟩
  exact heap.remove_outputs hI.weak ((hI.contains_iff_mem_ids id).2 hid) hnode

/-- C8 (the code at the failing input): after the calls `failingCalls 805306370` on
`heap(805306371)`, the last of which is `insert(idOf 805306370, -1, nullptr)` and returned
`3`, the node with the id `idOf 805306370`, the key `-1` and the null payload is in the
slots `1 .. currentSize` of the heap, but `remove(idOf 805306370, &k, &d)` returns `1` and
writes neither `k` nor `d`. -/
theorem C8_remove_misses_node_after_insert_3 :
    ({ id := idOf 805306370, key := -1, pData := none } : node) ∈
      (runHeapCalls (heap.init 805306371) (failingCalls 805306370)).nodes ∧
    idOf 805306370 ∈ (runHeapCalls (heap.init 805306371) (failingCalls 805306370)).ids ∧
    ((runHeapCalls (heap.init 805306371) (failingCalls 805306370)).remove
      (idOf 805306370)).2 = (1, none) :=
  failingCalls_remove 805306371 805306370 (by decide) rfl (by omega)

/-- In a heap reached by public operations with no `insert` returning `3`, `setKey(id, p)`
for an id of the heap returns `0`; afterwards the slot that the hash table gives for `id` holds `id` with the key
`p`, every other node is in the heap as before and no node is added, the ids are the same,
and the heap-order property holds. -/
theorem heap.setKey_of_reachable (h : heap) (id : Key) (p : Int) (hreach : h.Reachable)
    (hid : id ∈ h.ids) :
    (h.setKey id p).2 = 0 ∧
    (∃ i, ((h.setKey id p).1.mapping.getPointer id).1.map heap.getPos = some i ∧
      1 ≤ i ∧ i ≤ (h.setKey id p).1.currentSize ∧
      ((h.setKey id p).1.slot i).id = id ∧ ((h.setKey id p).1.slot i).key = p) ∧
    (∀ n, n.id ≠ id → (n ∈ (h.setKey id p).1.nodes ↔ n ∈ h.nodes)) ∧
    (h.setKey id p).1.ids.Perm h.ids ∧
    (h.setKey id p).1.Ordered := by
  have hI := hreach.inv
  obtain ⟨i, hi1, hi2, rfl⟩ := (heap.mem_ids_iff h id).1 hid
  obtain ⟨s1, s2, s3, s4⟩ := heap.setKey_spec hI hi1 hi2 p
  have hnew : ({ h.slot i with key := p } : node) ∈ (h.setKey (h.slot i).id p).1.nodes :=
    (s4 _).2 (Or.inl rfl)
  obtain ⟨j, hj1, hj2, hj3⟩ := (heap.mem_nodes_iff _ _).1 hnew
  refine ⟨s1, ⟨j, ?_, hj1, hj2, by rw [hj3], by rw [hj3]⟩, ?_, ?_, s2.ordered⟩
  · have := s2.getPointer hj1 hj2
    rw [hj3] at this
    rw [this]
    rfl
  · intro n hn
    rw [s4]
    constructor
    · rintro (h1 | h1)
      · rw [h1] at hn; exact absurd rfl hn
      · exact h1.1
    · intro h1
      exact Or.inr ⟨h1, hn⟩
  · rw [List.perm_ext_iff_of_nodup s2.ids_nodup hI.ids_nodup]
    intro x
    unfold heap.ids
    rw [List.mem_map, List.mem_map]
    constructor
    · rintro ⟨n, hn, rfl⟩
      rcases (s4 n).1 hn with h1 | h1
      · exact ⟨h.slot i, (heap.mem_nodes_iff h _).2 ⟨i, hi1, hi2, rfl⟩, by rw [h1]⟩
      · exact ⟨n, h1.1, rfl⟩
    · rintro ⟨n, hn, rfl⟩
      by_cases hni : n.id = (h.slot i).id
      · exact ⟨_, hnew, hni.symm⟩
      · exact ⟨n, (s4 n).2 (Or.inr ⟨hn, hni⟩), rfl⟩

/-- C10 (counterexample): in the full heap `heap(1)` that holds `a`, the call `insert(a)`
returns `1`, not `2`. -/
theorem C10_counterexample :
    (runHeapCalls (heap.init 1) [HeapCall.insert [97] 1 none]).mapping.contains [97] = true ∧
    [97] ∈ (runHeapCalls (heap.init 1) [HeapCall.insert [97] 1 none]).ids ∧
    ((runHeapCalls (heap.init 1) [HeapCall.insert [97] 1 none]).insert [97] 1 none).2 = 1 :=
  ⟨by decide, by decide, by decide⟩

/-- C10 (amended): in a heap reached from `heap(capacity)` by any public operations,
`insert(id, key, pv)` for an id of the heap (an id that the hash table of the heap
contains) leaves the heap unchanged and returns `2` if the heap is not full
(`currentSize < capacity`) and `1` if it is full. -/
theorem C10_insert_existing_id (capacity : Nat) (cs : List HeapCall) (id : Key) (key : Int)
    (pv : Ptr)
    (hfound : (runHeapCalls (heap.init capacity) cs).mapping.contains id = true) :
    (runHeapCalls (heap.init capacity) cs).insert id key pv =
      (runHeapCalls (heap.init capacity) cs,
        if (runHeapCalls (heap.init capacity) cs).currentSize <
          (runHeapCalls (heap.init capacity) cs).capacity then 2 else 1) := by
  by_cases hf : (runHeapCalls (heap.init capacity) cs).currentSize ≥
      (runHeapCalls (heap.init capacity) cs).capacity
  · rw [heap.insert_of_full id key pv hf, if_neg (by omega)]
  · rw [heap.insert_of_dup id key pv hf hfound, if_pos (by omega)]

/-- Witness of C10 (amended): `insert(a)` in `heap(2)` that holds `a`. -/
theorem C10_witness :
    (runHeapCalls (heap.init 2) [HeapCall.insert [97] 1 none]).mapping.contains [97] = true ∧
    ((runHeapCalls (heap.init 2) [HeapCall.insert [97] 1 none]).insert [97] 7 (some 3)).2 = 2 :=
  ⟨by decide,
    by rw [C10_insert_existing_id 2 [HeapCall.insert [97] 1 none] [97] 7 (some 3) (by decide)]
       decide⟩

end ECE365

namespace ECE365

/-- C5 (the code at the failing input): in `heap(805306371)`, whose hash table has the
largest capacity `1610612741`, the first `805306370` calls of `insert`, with key `0` and
distinct ids, return `0`; the next call of `insert`, with key `-1`, returns `3` because the
hash table cannot rehash, and leaves the new node in the slot `currentSize` without
percolating it up: the heap-order property does not hold after that call. -/
theorem C5_heap_order_lost_when_insert_returns_3 :
    noneReturns3 (heap.init 805306371) (manyInserts 805306370) = true ∧
    (runHeapCalls (heap.init 805306371) (manyInserts 805306370)).currentSize = 805306370 ∧
    ((runHeapCalls (heap.init 805306371) (manyInserts 805306370)).insert
      (idOf 805306370) (-1) none).2 = 3 ∧
    ¬ (runHeapCalls (heap.init 805306371) (failingCalls 805306370)).Ordered :=
  failingCalls_spec 805306371 805306370 (by decide) rfl (by omega)

/-- C9 (the code at the failing input): after the calls `failingCalls 805306370` on
`heap(805306371)`, the last of which returned `3`, the call `setKey(id, 0)` for the id of
the root returns `0`, and the heap-order property does not hold afterwards. -/
theorem C9_setKey_after_insert_3 :
    ((runHeapCalls (heap.init 805306371) (failingCalls 805306370)).slot 1).id ∈
      (runHeapCalls (heap.init 805306371) (failingCalls 805306370)).ids ∧
    ((runHeapCalls (heap.init 805306371) (failingCalls 805306370)).setKey
      ((runHeapCalls (heap.init 805306371) (failingCalls 805306370)).slot 1).id 0).2 = 0 ∧
    ¬ ((runHeapCalls (heap.init 805306371) (failingCalls 805306370)).setKey
      ((runHeapCalls (heap.init 805306371) (failingCalls 805306370)).slot 1).id 0).1.Ordered :=
  failingCalls_setKey 805306371 805306370 (by decide) rfl (by omega)

end ECE365

namespace ECE365

/-- C11: in every heap reached from `heap(capacity)` by `insert`, `setKey`, `deleteMin` and
`remove` calls, the capacity and the length of the node array are those of the
construction, `currentSize` does not exceed the capacity, `insert` returns `1` if and only
if `currentSize` equals the capacity, and an `insert` that returns `1` leaves the heap as it
is. -/
theorem C11_full_heap_fails_closed (capacity : Nat) (cs : List HeapCall) (id : Key) (key : Int)
    (pv : Ptr) :
    (runHeapCalls (heap.init capacity) cs).capacity = capacity ∧
    (runHeapCalls (heap.init capacity) cs).data.length = capacity + 1 ∧
    (runHeapCalls (heap.init capacity) cs).currentSize ≤ capacity ∧
    (((runHeapCalls (heap.init capacity) cs).insert id key pv).2 = 1 ↔
      (runHeapCalls (heap.init capacity) cs).currentSize = capacity) ∧
    (((runHeapCalls (heap.init capacity) cs).insert id key pv).2 = 1 →
      ((runHeapCalls (heap.init capacity) cs).insert id key pv).1 =
        runHeapCalls (heap.init capacity) cs) := by
  have hW := reached_weak capacity cs
  have hcap : (runHeapCalls (heap.init capacity) cs).capacity = capacity :=
    runHeapCalls_capacity cs _
  have hb := hW.bound
  have hs := hW.size
  have h1 := heap.insert_eq_one (runHeapCalls (heap.init capacity) cs) id key pv
  rw [hcap] at hb hs
  refine ⟨hcap, hs, hb, ?_, h1.2⟩
  rw [h1.1, hcap]
  omega

/-- C12: in every heap reached from `heap(capacity)` by public operations, for an id that
is not in the heap (the hash table of the heap does not contain it, or no node of the slots
`1 .. currentSize` has it), `setKey` and `remove` return `1`, leave the heap as it is and
write no output; and `deleteMin` on a heap with `currentSize = 0` returns `1`, leaves the
heap as it is and writes no output. -/
theorem C12_not_found_fails_closed (capacity : Nat) (cs : List HeapCall) (id : Key) (key : Int)
    (hid : (runHeapCalls (heap.init capacity) cs).mapping.contains id = false ∨
      id ∉ (runHeapCalls (heap.init capacity) cs).ids) :
    (runHeapCalls (heap.init capacity) cs).setKey id key =
      (runHeapCalls (heap.init capacity) cs, 1) ∧
    (runHeapCalls (heap.init capacity) cs).remove id =
      (runHeapCalls (heap.init capacity) cs, 1, none) ∧
    ((runHeapCalls (heap.init capacity) cs).currentSize = 0 →
      (runHeapCalls (heap.init capacity) cs).deleteMin =
        (runHeapCalls (heap.init capacity) cs, 1, none)) := by
  have hc : (runHeapCalls (heap.init capacity) cs).mapping.contains id = false := by
    rcases hid with h | h
    · exact h
    · cases hc : (runHeapCalls (heap.init capacity) cs).mapping.contains id with
      | false => rfl
      | true => exact absurd ((reached_weak capacity cs).mem_ids_of_contains hc) h
  exact ⟨heap.setKey_of_absent id key hc, heap.remove_of_absent id hc,
    fun h0 => heap.deleteMin_of_empty h0⟩

/-- Witness of C12: in `heap(2)` after `insert("a", 5)` and `deleteMin`, the id `"a"` is not
in the heap and the heap is empty. -/
theorem C12_witness :
    ((runHeapCalls (heap.init 2)
      [HeapCall.insert [97] 5 none, HeapCall.deleteMin]).mapping.contains [97] = false ∨
      [97] ∉ (runHeapCalls (heap.init 2) [HeapCall.insert [97] 5 none, HeapCall.deleteMin]).ids) ∧
    (runHeapCalls (heap.init 2) [HeapCall.insert [97] 5 none, HeapCall.deleteMin]).currentSize
      = 0 ∧
    (runHeapCalls (heap.init 2) [HeapCall.insert [97] 5 none, HeapCall.deleteMin]).setKey [97] 7
      = (runHeapCalls (heap.init 2) [HeapCall.insert [97] 5 none, HeapCall.deleteMin], 1) ∧
    (runHeapCalls (heap.init 2) [HeapCall.insert [97] 5 none, HeapCall.deleteMin]).remove [97]
      = (runHeapCalls (heap.init 2) [HeapCall.insert [97] 5 none, HeapCall.deleteMin], 1, none) :=
  ⟨Or.inl (by decide), by decide,
    (C12_not_found_fails_closed 2 [HeapCall.insert [97] 5 none, HeapCall.deleteMin] [97] 7
      (Or.inl (by decide))).1,
    (C12_not_found_fails_closed 2 [HeapCall.insert [97] 5 none, HeapCall.deleteMin] [97] 7
      (Or.inl (by decide))).2.1⟩

/-- C13: in every table reached from `hashTable(size)` by `insert`, `setPointer` and
`remove` calls, `insert(k, v)` for a key `k` that the table contains returns `1` and leaves
the whole table as it is (capacity, filled and every slot), so that `getPointer(k)` returns
what it returned before the call. -/
theorem C13_insert_existing_key (size : Int) (cs : List TableCall) (k : Key) (v : Ptr)
    (hk : (runCalls (hashTable.init size) cs).contains k = true) :
    (runCalls (hashTable.init size) cs).insert k v false =
      (runCalls (hashTable.init size) cs, 1) ∧
    ((runCalls (hashTable.init size) cs).insert k v false).1.getPointer k =
      (runCalls (hashTable.init size) cs).getPointer k := by
  have h : (runCalls (hashTable.init size) cs).insert k v false =
      (runCalls (hashTable.init size) cs, 1) := hashTable.insert_of_present v false hk
  exact ⟨h, by rw [h]⟩

/-- Witness of C13: after `insert("a", 1)` the call `insert("a", 2)` returns `1` and
`getPointer("a")` still gives `1`. -/
theorem C13_witness :
    (runCalls (hashTable.init 0) [TableCall.insert [97] (some 1)]).contains [97] = true ∧
    ((runCalls (hashTable.init 0) [TableCall.insert [97] (some 1)]).insert [97] (some 2) false).2
      = 1 ∧
    ((runCalls (hashTable.init 0) [TableCall.insert [97] (some 1)]).insert [97] (some 2)
      false).1.getPointer [97] = (some 1, true) :=
  ⟨by decide,
    congrArg Prod.snd (C13_insert_existing_key 0 [TableCall.insert [97] (some 1)] [97] (some 2)
      (by decide)).1,
    (C13_insert_existing_key 0 [TableCall.insert [97] (some 1)] [97] (some 2)
      (by decide)).2.trans (by decide)⟩

/-- C20: in every table reached from `hashTable(size)` by `insert`, `setPointer` and
`remove` calls with `duringRehash = false`, after an `insert` that returns `0` the field
`filled` is at most `capacity / 2` (rounded down), and so is the number of live items. -/
theorem C20_load_after_insert (size : Int) (cs : List TableCall) (key : Key) (pv : Ptr)
    (h0 : ((runCalls (hashTable.init size) cs).insert key pv false).2 = 0) :
    ((runCalls (hashTable.init size) cs).insert key pv false).1.filled ≤
      ((runCalls (hashTable.init size) cs).insert key pv false).1.capacity / 2 ∧
    ((runCalls (hashTable.init size) cs).insert key pv false).1.liveCount ≤
      ((runCalls (hashTable.init size) cs).insert key pv false).1.capacity / 2 := by
  have hP := runCalls_pinv cs _ (hashTable.init_pinv size)
  have hQ := (hashTable.insert_ok hP key pv h0).1
  exact ⟨hQ.load, le_trans hQ.inv.liveCount_le hQ.load⟩

/-- Witness of C20: the third insert into `hashTable(0)`, after a `remove`. -/
theorem C20_witness :
    ((runCalls (hashTable.init 0)
      [TableCall.insert [97] none, TableCall.insert [98] none, TableCall.remove [97]]).insert
        [99] none false).2 = 0 ∧
    ((runCalls (hashTable.init 0)
      [TableCall.insert [97] none, TableCall.insert [98] none, TableCall.remove [97]]).insert
        [99] none false).1.filled ≤
      ((runCalls (hashTable.init 0)
        [TableCall.insert [97] none, TableCall.insert [98] none, TableCall.remove [97]]).insert
          [99] none false).1.capacity / 2 :=
  ⟨by decide,
    (C20_load_after_insert 0
      [TableCall.insert [97] none, TableCall.insert [98] none, TableCall.remove [97]] [99] none
      (by decide)).1⟩

end ECE365

namespace ECE365

open Graph

/-- C14: on every graph that the constructor builds (any lines, any weights) and for every
start vertex of the graph, `dijkstra` returns; and if no addition `u.distance + weight` of
the run overflowed, then for every vertex `v` whose distance is not `INT32_MAX` there is a
sequence `q` of vertices from the start vertex to `v` whose ids are what `formatPath(v)`
lists (the string that `formatPath(v)` returns is the ids of `q`, in the order of `q`, with
the two characters `", "` between them), in which every vertex is joined to the next by an
edge of the graph with a weight `w` such that the distance of the next is the distance of
the vertex plus `w`, and which is a directed path from the start to `v` of total weight the
distance of `v`. -/
theorem C14_formatPath_lists_a_path (lines : List Triple) (start : Key)
    (hstart : (build lines).isValidVertex start = true) (fuel : Nat)
    (hfuel : lines.length + 1 < fuel) :
    ∃ g, (build lines).dijkstra start fuel = some g ∧
      (vertex g.vertexList ((build lines).indexOf start)).id = start ∧
      (NoOverflow g.vertexList →
        ∀ v, v < g.vertexList.length → (vertex g.vertexList v).distance ≠ INT32_MAX →
          ∃ q : List Nat, q.head? = some ((build lines).indexOf start) ∧ q.getLast? = some v ∧
            (∀ pfuel, g.vertexList.length ≤ pfuel →
              pathStackLoop g.vertexList pfuel (some v) [] =
                some (q.map (fun x => (vertex g.vertexList x).id)) ∧
              formatPath g.vertexList v pfuel =
                some (List.intercalate [44, 32]
                  (q.map (fun x => (vertex g.vertexList x).id)))) ∧
            List.Chain' (fun a b => ∃ w, (build lines).edge a w b ∧
              (vertex g.vertexList b).distance = (vertex g.vertexList a).distance + w) q ∧
            Walk (build lines).edge ((build lines).indexOf start) v
              (vertex g.vertexList v).distance q.reverse) := by
  obtain ⟨vs, hrun, hT⟩ := dijkstra_built lines start hstart fuel hfuel
  refine ⟨_, hrun, ?_, ?_⟩
  · show (vertex vs _).id = start
    rw [hT.ids]
    exact ((build_stored lines).start_ptr hstart).2.2
  · intro hno v _ hv
    obtain ⟨p, hc, h1, h2, h3⟩ := hT.path_of hv
    obtain ⟨hw, hch⟩ := hT.walk_dist hno hc
    refine ⟨p.reverse, h1, h2, ?_, List.chain'_reverse.2 hch, by rw [List.reverse_reverse]; exact hw⟩
    intro pfuel hp
    have hs := (h3 pfuel (by rw [← hT.len]; exact hp)).1
    exact ⟨hs, formatPath_of_stack hs⟩

/-- Witness of C14: the single line `A B 5` and the start vertex `A`; no addition overflows,
the distance of `B` (at position `1`) is not `INT32_MAX`, and `formatPath` returns `"A, B"`
for `B`. -/
theorem C14_witness :
    (build [⟨[65], [66], 5⟩]).isValidVertex [65] = true ∧
    ∃ g, (build [⟨[65], [66], 5⟩]).dijkstra [65] 3 = some g ∧ NoOverflow g.vertexList ∧
      1 < g.vertexList.length ∧ (vertex g.vertexList 1).distance ≠ INT32_MAX ∧
      ∃ q : List Nat, q.head? = some ((build [⟨[65], [66], 5⟩]).indexOf [65]) ∧
        q.getLast? = some 1 ∧
        formatPath g.vertexList 1 2 = some [65, 44, 32, 66] ∧
        formatPath g.vertexList 1 2 =
          some (List.intercalate [44, 32] (q.map (fun x => (vertex g.vertexList x).id))) := by
  refine ⟨by decide, ?_⟩
  obtain ⟨g, hg, _, hall⟩ :=
    C14_formatPath_lists_a_path [⟨[65], [66], 5⟩] [65] (by decide) 3 (by decide)
  have hvl : g.vertexList =
      [{ id := [65], distance := 0, known := true, adjList := [⟨5, 1⟩] },
        { id := [66], distance := 5, known := true, previous := some 0 }] :=
    Option.some.inj ((congrArg (Option.map Graph.vertexList) hg).symm.trans (by decide))
  have hno : NoOverflow g.vertexList := by rw [hvl]; decide
  have h1 : 1 < g.vertexList.length := by rw [hvl]; decide
  have h2 : (vertex g.vertexList 1).distance ≠ INT32_MAX := by rw [hvl]; decide
  obtain ⟨q, q1, q2, q3, _, _⟩ := hall hno 1 h1 h2
  have h3 : formatPath g.vertexList 1 2 = some [65, 44, 32, 66] := by rw [hvl]; decide
  exact ⟨g, hg, hno, h1, h2, q, q1, q2, h3, (q3 2 (by rw [hvl]; decide)).2⟩

/-- C19: on every graph that the constructor builds and for every two vertices `s1` and
`s2` of the graph, `dijkstra(s1)` followed by `dijkstra(s2)` leaves the same graph (the
same distance, flag `known` and predecessor of every vertex) as `dijkstra(s2)` alone on the
graph as built. -/
theorem C19_runs_independent (lines : List Triple) (s1 s2 : Key)
    (h1 : (build lines).isValidVertex s1 = true) (h2 : (build lines).isValidVertex s2 = true)
    (fuel1 fuel2 : Nat) (hf1 : lines.length + 1 < fuel1) (hf2 : lines.length + 1 < fuel2) :
    ∃ g1 g2, (build lines).dijkstra s1 fuel1 = some g1 ∧ g1.dijkstra s2 fuel2 = some g2 ∧
      (build lines).dijkstra s2 fuel2 = some g2 := by
  obtain ⟨vs1, hrun1, hT1⟩ := dijkstra_built lines s1 h1 fuel1 hf1
  obtain ⟨vs2, hrun2, _⟩ := dijkstra_built lines s2 h2 fuel2 hf2
  refine ⟨_, _, hrun1, ?_, hrun2⟩
  rw [← hrun2]
  refine @dijkstra_congr (build lines) { build lines with vertexList := vs1 } rfl
    (resetAll_congr hT1.len hT1.ids hT1.adj) s2 fuel2 ?_
  rw [((build_stored lines).start_ptr h2).1]
  exact fun h => absurd h (by simp)

/-- Witness of C19: the single line `A B 5`, with `dijkstra(A)` followed by `dijkstra(B)`. -/
theorem C19_witness :
    (build [⟨[65], [66], 5⟩]).isValidVertex [65] = true ∧
    (build [⟨[65], [66], 5⟩]).isValidVertex [66] = true ∧
    ∃ g1 g2, (build [⟨[65], [66], 5⟩]).dijkstra [65] 3 = some g1 ∧
      g1.dijkstra [66] 3 = some g2 ∧ (build [⟨[65], [66], 5⟩]).dijkstra [66] 3 = some g2 :=
  ⟨by decide, by decide,
    C19_runs_independent [⟨[65], [66], 5⟩] [65] [66] (by decide) (by decide) 3 3 (by decide)
      (by decide)⟩

end ECE365

namespace ECE365

open Graph

/-- C16 (the claim fails): the single line `A B 2147483647` has a weight that is a
non-negative 32-bit integer, and `B` is reachable from `A`, but after `dijkstra(A)` the
distance of `B` is still `INT32_MAX`. -/
theorem C16_counterexample :
    (∀ t, t ∈ [(⟨[65], [66], 2147483647⟩ : Triple)] → 0 ≤ t.weight ∧ t.weight ≤ INT32_MAX) ∧
    (build [⟨[65], [66], 2147483647⟩]).isValidVertex [65] = true ∧
    ((build [⟨[65], [66], 2147483647⟩]).dijkstra [65] 3).map
      (fun g => g.vertexList.map (fun v => (v.id, v.distance))) =
        some [([65], 0), ([66], INT32_MAX)] ∧
    Reachable (lineEdge [⟨[65], [66], 2147483647⟩]) [65] [66] :=
  ⟨by decide, by decide, by decide,
    ⟨_, _, Walk.snoc 2147483647 [66] Walk.nil (List.mem_singleton.2 rfl)⟩⟩

/-- C16 (amended): on the graph built from lines with at most `805306370` distinct names,
weights that are not negative and every path from the start without repeated vertex lighter
than `INT32_MAX`, for a start vertex of the graph, `dijkstra` returns, and a vertex whose
distance is still `INT32_MAX` is not reachable from the start by any directed path. -/
theorem C16_sentinel_means_unreachable (lines : List Triple) (start : Key)
    (hcount : ∀ ns : List Key, ns.Nodup → (∀ a, a ∈ ns → IsName lines a) →
      ns.length ≤ 805306370)
    (hnonneg : ∀ t, t ∈ lines → 0 ≤ t.weight)
    (hbound : ∀ b w p, Walk (lineEdge lines) start b w p → p.Nodup → w < INT32_MAX)
    (hstart : (build lines).isValidVertex start = true)
    (fuel : Nat) (hfuel : (build lines).vertexList.length < fuel) :
    ∃ g, (build lines).dijkstra start fuel = some g ∧
      ∀ v, v < g.vertexList.length → (vertex g.vertexList v).distance = INT32_MAX →
        ¬ Reachable (lineEdge lines) start (vertex g.vertexList v).id := by
  obtain ⟨g, hg, _, hmin⟩ :=
    dijkstra_of_few_names lines start hcount hnonneg hbound hstart fuel hfuel
  refine ⟨g, hg, ?_⟩
  intro v hv hd hr
  obtain ⟨⟨p, hw, hnd⟩, _⟩ := (hmin v hv).1 hr
  have := hbound _ _ _ hw hnd
  rw [hd] at this
  exact absurd this (lt_irrefl _)

/-- Witness of C16 (amended): the single line `A B 5` and the start vertex `B`; the distance
of `A` (at position `0`) is `INT32_MAX`. -/
theorem C16_witness :
    (∀ ns : List Key, ns.Nodup → (∀ a, a ∈ ns → IsName [⟨[65], [66], 5⟩] a) →
      ns.length ≤ 805306370) ∧
    (∀ t, t ∈ [(⟨[65], [66], 5⟩ : Triple)] → 0 ≤ t.weight) ∧
    (∀ b w p, Walk (lineEdge [⟨[65], [66], 5⟩]) [66] b w p → p.Nodup → w < INT32_MAX) ∧
    (build [⟨[65], [66], 5⟩]).isValidVertex [66] = true ∧
    ∃ g, (build [⟨[65], [66], 5⟩]).dijkstra [66] 3 = some g ∧
      (vertex g.vertexList 0).distance = INT32_MAX ∧
      ¬ Reachable (lineEdge [⟨[65], [66], 5⟩]) [66] (vertex g.vertexList 0).id := by
  have hcount : ∀ ns : List Key, ns.Nodup → (∀ a, a ∈ ns → IsName [⟨[65], [66], 5⟩] a) →
      ns.length ≤ 805306370 := fun ns hnd hns =>
    le_trans (count_single [65] [66] 5 ns hnd hns) (by decide)
  have hnonneg : ∀ t, t ∈ [(⟨[65], [66], 5⟩ : Triple)] → 0 ≤ t.weight := by decide
  have hbound : ∀ b w p, Walk (lineEdge [⟨[65], [66], 5⟩]) [66] b w p → p.Nodup →
      w < INT32_MAX := fun b w p hw _ => by
    rw [(walk_single_dest (by decide) hw).2]; decide
  refine ⟨hcount, hnonneg, hbound, by decide, ?_⟩
  obtain ⟨g, hg, hall⟩ := C16_sentinel_means_unreachable [⟨[65], [66], 5⟩] [66] hcount hnonneg
    hbound (by decide) 3 (by decide)
  have hvl : g.vertexList.map (fun v => v.distance) = [INT32_MAX, 0] := by
    have h := congrArg (Option.map (fun x : Graph => x.vertexList.map (fun v => v.distance))) hg
    have h2 : Option.map (fun x : Graph => x.vertexList.map (fun v => v.distance))
        ((build [⟨[65], [66], 5⟩]).dijkstra [66] 3) = some [INT32_MAX, 0] := by decide
    rw [h2] at h
    exact (Option.some.inj h).symm
  have hlen : g.vertexList.length = 2 := by
    have := congrArg List.length hvl
    rw [List.length_map] at this
    exact this
  have hd : (vertex g.vertexList 0).distance = INT32_MAX := by
    have h0 : (g.vertexList.map (fun v => v.distance))[0]? = some INT32_MAX := by rw [hvl]; rfl
    rw [List.getElem?_map] at h0
    unfold vertex
    rw [List.getD_eq_getElem?_getD]
    cases hx : g.vertexList[0]? with
    | none => rw [hx] at h0; exact absurd h0 (by simp)
    | some x => rw [hx] at h0; exact Option.some.inj h0
  exact ⟨g, hg, hd, hall 0 (by rw [hlen]; decide) hd⟩

/-- C17: for distinct names `A` and `B` and a weight `0 ≤ w < INT32_MAX`, on the graph built
from the single line `A B w`, `dijkstra(A)` returns, the distance of `A` is `0` and
`formatPath` lists `A` alone for it, the distance of `B` is `w` and `formatPath` gives
`"A, B"` for it. -/
theorem C17_single_edge (A B : Key) (w : Int) (hAB : A ≠ B) (h0 : 0 ≤ w) (h1 : w < INT32_MAX)
    (fuel : Nat) (hfuel : 2 < fuel) (pfuel : Nat) (hp : 2 ≤ pfuel) :
    ∃ g, (build [⟨A, B, w⟩]).dijkstra A fuel = some g ∧
      (vertex g.vertexList (g.indexOf A)).id = A ∧
      (vertex g.vertexList (g.indexOf A)).distance = 0 ∧
      pathStackLoop g.vertexList pfuel (some (g.indexOf A)) [] = some [A] ∧
      formatPath g.vertexList (g.indexOf A) pfuel = some A ∧
      (vertex g.vertexList (g.indexOf B)).id = B ∧
      (vertex g.vertexList (g.indexOf B)).distance = w ∧
      pathStackLoop g.vertexList pfuel (some (g.indexOf B)) [] = some [A, B] ∧
      formatPath g.vertexList (g.indexOf B) pfuel = some (A ++ [44, 32] ++ B) := by
  obtain ⟨vs, hrun, hT, ida, idb, da, db, hc⟩ := single_edge_run A B w hAB h0 h1 fuel hfuel
  have sa := pathStackLoop_chain hT.src_prev Chain.src pfuel []
    (by rw [List.length_singleton]; omega)
  have sb := pathStackLoop_chain hT.src_prev hc pfuel [] (by
    rw [List.length_cons, List.length_singleton]; exact hp)
  simp only [List.reverse_cons, List.reverse_nil, List.nil_append, List.map_cons, List.map_nil,
    List.append_nil, List.cons_append, List.singleton_append] at sa sb
  rw [ida] at sa
  rw [ida, idb] at sb
  refine ⟨_, hrun, ida, da, sa, ?_, idb, db, sb, ?_⟩
  · show Option.map joinPath
      (pathStackLoop vs pfuel (some ((build [⟨A, B, w⟩]).indexOf A)) []) = _
    rw [sa]; rfl
  · show Option.map joinPath
      (pathStackLoop vs pfuel (some ((build [⟨A, B, w⟩]).indexOf B)) []) = _
    rw [sb, List.append_assoc]; rfl

/-- Witness of C17: the line `A B 5` of the specification. -/
theorem C17_witness :
    ([65] : Key) ≠ [66] ∧ (0 : Int) ≤ 5 ∧ (5 : Int) < INT32_MAX ∧
    ∃ g, (build [⟨[65], [66], 5⟩]).dijkstra [65] 3 = some g ∧
      (vertex g.vertexList (g.indexOf [65])).id = [65] ∧
      (vertex g.vertexList (g.indexOf [65])).distance = 0 ∧
      pathStackLoop g.vertexList 2 (some (g.indexOf [65])) [] = some [[65]] ∧
      formatPath g.vertexList (g.indexOf [65]) 2 = some [65] ∧
      (vertex g.vertexList (g.indexOf [66])).id = [66] ∧
      (vertex g.vertexList (g.indexOf [66])).distance = 5 ∧
      pathStackLoop g.vertexList 2 (some (g.indexOf [66])) [] = some [[65], [66]] ∧
      formatPath g.vertexList (g.indexOf [66]) 2 = some ([65] ++ [44, 32] ++ [66]) :=
  ⟨by decide, by decide, by decide,
    C17_single_edge [65] [66] 5 (by decide) (by decide) (by decide) 3 (by decide) 2 (by decide)⟩

/-- C18 (the claim fails): on the graph built from the lines `A B 1`, `A C 2`, `C B -2`,
after `dijkstra(A)` the distance of `B` is `1`, but the directed path `A, C, B` has the
total weight `0`.  And with weights that are not negative: on the graph built from the lines
`A B 2147483647`, `B C 1`, after `dijkstra(A)` the distance of `C` is `2147483647`, but every
directed path from `A` to `C` has the total weight `2147483648`, and there is one. -/
theorem C18_counterexample :
    ((build [⟨[65], [66], 1⟩, ⟨[65], [67], 2⟩, ⟨[67], [66], -2⟩]).isValidVertex [65] = true ∧
      ((build [⟨[65], [66], 1⟩, ⟨[65], [67], 2⟩, ⟨[67], [66], -2⟩]).dijkstra [65] 5).map
        (fun g => g.vertexList.map (fun v => (v.id, v.distance))) =
          some [([65], 0), ([66], 1), ([67], 2)] ∧
      Walk (lineEdge [⟨[65], [66], 1⟩, ⟨[65], [67], 2⟩, ⟨[67], [66], -2⟩]) [65] [66] (0 + 2 + -2)
        [[66], [67], [65]] ∧
      (0 + 2 + -2 : Int) < 1) ∧
    ((build [⟨[65], [66], 2147483647⟩, ⟨[66], [67], 1⟩]).isValidVertex [65] = true ∧
      ((build [⟨[65], [66], 2147483647⟩, ⟨[66], [67], 1⟩]).dijkstra [65] 4).map
        (fun g => g.vertexList.map (fun v => (v.id, v.distance))) =
          some [([65], 0), ([66], 2147483647), ([67], 2147483647)] ∧
      Walk (lineEdge [⟨[65], [66], 2147483647⟩, ⟨[66], [67], 1⟩]) [65] [67]
        (0 + 2147483647 + 1) [[67], [66], [65]] ∧
      ∀ w p, Walk (lineEdge [⟨[65], [66], 2147483647⟩, ⟨[66], [67], 1⟩]) [65] [67] w p →
        w = 2147483648) := by
  refine ⟨⟨by decide, by decide, ?_, by decide⟩, by decide, by decide, ?_, ?_⟩
  · exact Walk.snoc (-2) [66]
      (Walk.snoc 2 [67] Walk.nil
        (show (⟨[65], [67], 2⟩ : Triple) ∈
          [(⟨[65], [66], 1⟩ : Triple), ⟨[65], [67], 2⟩, ⟨[67], [66], -2⟩] by decide))
      (show (⟨[67], [66], -2⟩ : Triple) ∈
        [(⟨[65], [66], 1⟩ : Triple), ⟨[65], [67], 2⟩, ⟨[67], [66], -2⟩] by decide)
  · exact Walk.snoc 1 [67]
      (Walk.snoc 2147483647 [66] Walk.nil
        (show (⟨[65], [66], 2147483647⟩ : Triple) ∈
          [(⟨[65], [66], 2147483647⟩ : Triple), ⟨[66], [67], 1⟩] by decide))
      (show (⟨[66], [67], 1⟩ : Triple) ∈
        [(⟨[65], [66], 2147483647⟩ : Triple), ⟨[66], [67], 1⟩] by decide)
  · have key : ∀ (v : Key) (w : Int) (p : List Key),
        Walk (lineEdge [⟨[65], [66], 2147483647⟩, ⟨[66], [67], 1⟩]) [65] v w p →
        (v = [65] ∧ w = 0) ∨ (v = [66] ∧ w = 2147483647) ∨ (v = [67] ∧ w = 2147483648) := by
      intro v w p h
      induction h with
      | nil => exact Or.inl ⟨rfl, rfl⟩
      | @snoc u x q c v _ he ih =>
        have hmem : (⟨u, v, c⟩ : Triple) ∈
            [(⟨[65], [66], 2147483647⟩ : Triple), ⟨[66], [67], 1⟩] := he
        rcases List.mem_cons.1 hmem with e | e
        · injection e with e1 e2 e3
          rcases ih with ⟨_, hx⟩ | ⟨hu, _⟩ | ⟨hu, _⟩
          · exact Or.inr (Or.inl ⟨e2, by rw [hx, e3]; rfl⟩)
          · rw [hu] at e1; exact absurd e1 (by decide)
          · rw [hu] at e1; exact absurd e1 (by decide)
        · have e' := List.mem_singleton.1 e
          injection e' with e1 e2 e3
          rcases ih with ⟨hu, _⟩ | ⟨_, hx⟩ | ⟨hu, _⟩
          · rw [hu] at e1; exact absurd e1 (by decide)
          · exact Or.inr (Or.inr ⟨e2, by rw [hx, e3]; rfl⟩)
          · rw [hu] at e1; exact absurd e1 (by decide)
    intro w p h
    rcases key _ _ _ h with ⟨hv, _⟩ | ⟨hv, _⟩ | ⟨_, hw⟩
    · exact absurd hv (by decide)
    · exact absurd hv (by decide)
    · exact hw

/-- C18 (amended): on the graph built from lines with at most `805306370` distinct names,
weights that are not negative and every path from the start without repeated vertex lighter
than `INT32_MAX`, for a start vertex of the graph, `dijkstra` returns, every name of the
lines has a vertex, and the distance of every vertex that is reachable from the start is
the minimum total weight of the directed paths from the start to it. -/
theorem C18_minimum_distance (lines : List Triple) (start : Key)
    (hcount : ∀ ns : List Key, ns.Nodup → (∀ a, a ∈ ns → IsName lines a) →
      ns.length ≤ 805306370)
    (hnonneg : ∀ t, t ∈ lines → 0 ≤ t.weight)
    (hbound : ∀ b w p, Walk (lineEdge lines) start b w p → p.Nodup → w < INT32_MAX)
    (hstart : (build lines).isValidVertex start = true)
    (fuel : Nat) (hfuel : (build lines).vertexList.length < fuel) :
    ∃ g, (build lines).dijkstra start fuel = some g ∧
      (∀ a, IsName lines a → ∃ v, v < g.vertexList.length ∧ (vertex g.vertexList v).id = a) ∧
      ∀ v, v < g.vertexList.length →
        Reachable (lineEdge lines) start (vertex g.vertexList v).id →
        IsMinDist (lineEdge lines) start (vertex g.vertexList v).id
          (vertex g.vertexList v).distance := by
  obtain ⟨g, hg, hnames, hmin⟩ :=
    dijkstra_of_few_names lines start hcount hnonneg hbound hstart fuel hfuel
  exact ⟨g, hg, hnames, fun v hv => (hmin v hv).1⟩

/-- Witness of C18 (amended): the single line `A B 5` and the start vertex `A`. -/
theorem C18_witness :
    (∀ ns : List Key, ns.Nodup → (∀ a, a ∈ ns → IsName [⟨[65], [66], 5⟩] a) →
      ns.length ≤ 805306370) ∧
    (∀ t, t ∈ [(⟨[65], [66], 5⟩ : Triple)] → 0 ≤ t.weight) ∧
    (∀ b w p, Walk (lineEdge [⟨[65], [66], 5⟩]) [65] b w p → p.Nodup → w < INT32_MAX) ∧
    (build [⟨[65], [66], 5⟩]).isValidVertex [65] = true ∧
    ∃ g, (build [⟨[65], [66], 5⟩]).dijkstra [65] 3 = some g ∧
      (∀ a, IsName [⟨[65], [66], 5⟩] a →
        ∃ v, v < g.vertexList.length ∧ (vertex g.vertexList v).id = a) ∧
      ∀ v, v < g.vertexList.length →
        Reachable (lineEdge [⟨[65], [66], 5⟩]) [65] (vertex g.vertexList v).id →
        IsMinDist (lineEdge [⟨[65], [66], 5⟩]) [65] (vertex g.vertexList v).id
          (vertex g.vertexList v).distance :=
  ⟨fun ns hnd hns => le_trans (count_single [65] [66] 5 ns hnd hns) (by decide), by decide,
    fun b w p hw _ => by
      rcases walk_single (by decide) hw with ⟨_, hx⟩ | ⟨_, hx⟩ <;> rw [hx] <;> decide,
    by decide,
    C18_minimum_distance [⟨[65], [66], 5⟩] [65]
      (fun ns hnd hns => le_trans (count_single [65] [66] 5 ns hnd hns) (by decide)) (by decide)
      (fun b w p hw _ => by
        rcases walk_single (by decide) hw with ⟨_, hx⟩ | ⟨_, hx⟩ <;> rw [hx] <;> decide)
      (by decide) 3 (by decide)⟩

end ECE365

namespace ECE365

/-- C21: in every table reached from `hashTable(size)` by `insert`, `setPointer` and
`remove` calls, `insert(k, v)` with `duringRehash = false` returns `2` if and only if `k` is
absent, `filled` is at least `capacity / 2` (rounded down) and the capacity is the largest
prime `1610612741` of the table of primes; and when it returns `2` the table is the one
before the call and `k` is still absent. -/
theorem C21_insert_returns_two (size : Int) (cs : List TableCall) (k : Key) (v : Ptr) :
    (((runCalls (hashTable.init size) cs).insert k v false).2 = 2 ↔
      ((runCalls (hashTable.init size) cs).contains k = false ∧
        (runCalls (hashTable.init size) cs).filled ≥
          (runCalls (hashTable.init size) cs).capacity / 2 ∧
        (runCalls (hashTable.init size) cs).capacity = 1610612741)) ∧
    (((runCalls (hashTable.init size) cs).insert k v false).2 = 2 →
      ((runCalls (hashTable.init size) cs).insert k v false).1 =
          runCalls (hashTable.init size) cs ∧
        ((runCalls (hashTable.init size) cs).insert k v false).1.contains k = false) := by
  have hP := runCalls_pinv cs _ (hashTable.init_pinv size)
  have habs : ((runCalls (hashTable.init size) cs).insert k v false).2 = 2 →
      (runCalls (hashTable.init size) cs).contains k = false := by
    intro h2
    cases hc : (runCalls (hashTable.init size) cs).contains k with
    | false => rfl
    | true =>
      have h1 := (hashTable.insert_eq_one_iff _ k v false).2 hc
      rw [h1] at h2
      exact absurd h2 (by decide)
  refine ⟨⟨?_, ?_⟩, ?_⟩
  · intro h2
    obtain ⟨hcap, hfull⟩ := hashTable.insert_eq_two hP h2
    exact ⟨habs h2, hfull, hcap⟩
  · rintro ⟨hc, hfull, hcap⟩
    rw [hashTable.insert_at_top k v hcap hc hfull]
  · intro h2
    have hne : ((runCalls (hashTable.init size) cs).insert k v false).2 ≠ 0 := by
      rw [h2]; decide
    have he := hashTable.insert_of_ne_zero hne
    refine ⟨he, ?_⟩
    rw [he]
    exact habs h2

/-- Counterexample to C22 as stated: the size hint `53` is an entry of the table of primes,
and `hashTable(53)` has capacity `97`, not `53`. -/
theorem C22_counterexample :
    (53 : Nat) ∈ primeNumbers ∧ (hashTable.init 53).capacity = 97 ∧
    ¬ (∀ p, p ∈ primeNumbers → (53 : Int) ≤ (p : Int) → (hashTable.init 53).capacity ≤ p) := by
  refine ⟨by decide, by decide, ?_⟩
  intro h
  have := h 53 (by decide) (by decide)
  have e : (hashTable.init 53).capacity = 97 := by decide
  rw [e] at this
  omega

/-- C22, amended: for every size hint `0 ≤ h ≤ INT_MAX`, `hashTable(h)` is an empty table
of `capacity` slots whose capacity is the smallest entry of the table of primes that is
strictly greater than `h`, and `1610612741` when no entry is greater than `h`. -/
theorem C22_capacity_of_hint (h : Int) (h0 : 0 ≤ h) (h1 : h ≤ 2147483647) :
    (hashTable.init h).capacity ∈ primeNumbers ∧
    (hashTable.init h).data.length = (hashTable.init h).capacity ∧
    (hashTable.init h).filled = 0 ∧
    ((∃ q, q ∈ primeNumbers ∧ h < (q : Int)) →
      h < ((hashTable.init h).capacity : Int) ∧
      ∀ q, q ∈ primeNumbers → h < (q : Int) → (hashTable.init h).capacity ≤ q) ∧
    ((∀ q, q ∈ primeNumbers → (q : Int) ≤ h) → (hashTable.init h).capacity = 1610612741) := by
  obtain ⟨g1, g2, g3⟩ := getPrime_spec h h0 h1
  exact ⟨g1, List.length_replicate _ _, rfl, g2, g3⟩

/-- Witness of C22: the size hint `100000`, for which the capacity is `196613`. -/
theorem C22_witness :
    (0 : Int) ≤ 100000 ∧ (100000 : Int) ≤ 2147483647 ∧
    (hashTable.init 100000).capacity = 196613 ∧
    (100000 : Int) < ((hashTable.init 100000).capacity : Int) :=
  ⟨by decide, by decide, by decide,
    ((C22_capacity_of_hint 100000 (by decide) (by decide)).2.2.2.1
      ⟨196613, by decide, by decide⟩).1⟩

/-- Counterexample to C23 as stated: the capacity of `hashTable(805306456)` is the prime
`805306457`, no prime of the table is greater than `2 * 805306457`, and yet `rehash` returns
`true` and sets the capacity to `1610612741`. -/
theorem C23_counterexample :
    (hashTable.init 805306456).capacity = 805306457 ∧
    (805306457 : Nat) ∈ primeNumbers ∧
    (¬ ∃ q, q ∈ primeNumbers ∧ 2 * 805306457 < q) ∧
    ((hashTable.init 805306456).rehash).2 = true ∧
    ((hashTable.init 805306456).rehash).1.capacity = 1610612741 := by
  have hc : (hashTable.init 805306456).capacity = 805306457 := by decide
  have hg : getPrime (2 * ((805306457 : Nat) : Int)) = 1610612741 := by decide
  have hok : ((hashTable.init 805306456).rehash).2 = true := by
    rw [hashTable.rehash_eq, hc, hg, if_neg (by decide)]
  refine ⟨hc, by decide, by decide, hok, ?_⟩
  rw [(hashTable.rehash_spec (hashTable.init_pinv 805306456).inv hok).2.1, hc, hg]

/-- C23, amended: for a table in a consistent state whose capacity `c` is a prime of the
table of primes, `rehash` returns `true` and sets the capacity to the smallest prime of the
table strictly greater than `2 * c` when there is one, returns `true` and sets the capacity
to the last prime `1610612741` when there is none and `c < 1610612741` (which is the case
`c = 805306457`), and returns `false`, leaving the table as it is, exactly when
`c = 1610612741`. -/
theorem C23_rehash_capacity (t : hashTable) (hI : t.HInv) (hc : t.capacity ∈ primeNumbers) :
    ((∃ q, q ∈ primeNumbers ∧ 2 * t.capacity < q) →
      (t.rehash).2 = true ∧ 2 * t.capacity < (t.rehash).1.capacity ∧
      (t.rehash).1.capacity ∈ primeNumbers ∧
      ∀ q, q ∈ primeNumbers → 2 * t.capacity < q → (t.rehash).1.capacity ≤ q) ∧
    ((¬ ∃ q, q ∈ primeNumbers ∧ 2 * t.capacity < q) → t.capacity ≠ 1610612741 →
      t.capacity = 805306457 ∧ (t.rehash).2 = true ∧ (t.rehash).1.capacity = 1610612741) ∧
    ((t.rehash).2 = false ↔ t.capacity = 1610612741) ∧
    ((t.rehash).2 = false → (t.rehash).1 = t) := by
  obtain ⟨n1, n2, n3⟩ := primeNumbers_next t.capacity hc
  have hiff : (t.rehash).2 = false ↔ t.capacity = 1610612741 := by
    rw [← n3, hashTable.rehash_eq]
    by_cases hle : getPrime (2 * (t.capacity : Int)) ≤ t.capacity
    · rw [if_pos hle]; exact ⟨fun _ => hle, fun _ => rfl⟩
    · rw [if_neg hle]; exact ⟨fun h => absurd h (by simp), fun h => absurd h hle⟩
  have htrue : t.capacity ≠ 1610612741 → (t.rehash).2 = true := by
    intro hne
    cases hr : (t.rehash).2 with
    | true => rfl
    | false => exact absurd (hiff.1 hr) hne
  refine ⟨?_, ?_, hiff, fun h => hashTable.rehash_of_fail h⟩
  · intro hex
    obtain ⟨m1, m2, m3⟩ := n1 hex
    have hne : t.capacity ≠ 1610612741 := fun e => absurd (n3.2 e) (by omega)
    have hok := htrue hne
    have hcap := (hashTable.rehash_spec hI hok).2.1
    rw [hcap]
    exact ⟨hok, m2, getPrime_mem _, m3⟩
  · intro hnex hne
    obtain ⟨m1, m2⟩ := n2 hnex hne
    have hok := htrue hne
    exact ⟨m1, hok, by rw [(hashTable.rehash_spec hI hok).2.1, m2]⟩

/-- Witness of C23: the empty table `hashTable(0)` of capacity `53`, which `rehash` takes to
capacity `193`. -/
theorem C23_witness :
    (hashTable.init 0).HInv ∧ (hashTable.init 0).capacity ∈ primeNumbers ∧
    (hashTable.init 0).capacity = 53 ∧
    ((hashTable.init 0).rehash).2 = true ∧
    2 * (hashTable.init 0).capacity < ((hashTable.init 0).rehash).1.capacity :=
  ⟨(hashTable.init_pinv 0).inv, by decide, by decide,
    ((C23_rehash_capacity (hashTable.init 0) (hashTable.init_pinv 0).inv (by decide)).1
      ⟨193, by decide, by decide⟩).1,
    ((C23_rehash_capacity (hashTable.init 0) (hashTable.init_pinv 0).inv (by decide)).1
      ⟨193, by decide, by decide⟩).2.1⟩

/-- Counterexample to C24 as stated: for each of the four largest capacities of the table
of primes there is a key of six letters whose hash, computed in `unsigned int`, is not the
exact polynomial modulo the capacity (the product `hash_value * 37` wraps around
`2 ^ 32`). -/
theorem C24_counterexample :
    ((hashTable.init 201326610).capacity = 201326611 ∧
      (hashTable.init 201326610).hash [103, 98, 120, 116, 111, 111] = 17470270 ∧
      polynomial [103, 98, 120, 116, 111, 111] % 201326611 = 84578735) ∧
    ((hashTable.init 402653188).capacity = 402653189 ∧
      (hashTable.init 402653188).hash [122, 122, 122, 122, 122, 122] = 105027124 ∧
      polynomial [122, 122, 122, 122, 122, 122] % 402653189 = 239244747) ∧
    ((hashTable.init 805306456).capacity = 805306457 ∧
      (hashTable.init 805306456).hash [122, 122, 122, 122, 122, 122] = 105027124 ∧
      polynomial [122, 122, 122, 122, 122, 122] % 805306457 = 641897146) ∧
    ((hashTable.init 1610612740).capacity = 1610612741 ∧
      (hashTable.init 1610612740).hash [122, 122, 122, 122, 122, 122] = 105027124 ∧
      polynomial [122, 122, 122, 122, 122, 122] % 1610612741 = 641898011) := by
  refine ⟨⟨by decide, by decide, by decide⟩, ⟨by decide, by decide, by decide⟩,
    ⟨by decide, by decide, by decide⟩, ⟨by decide, by decide, by decide⟩⟩

/-- C24, amended: for every table whose capacity `c` is a prime of the table of primes up
to `100663319` (every entry but the last four) and every key with bytes `b_0 ... b_{n-1}`,
`hash(key)` equals `(sum over i of b_i * 37 ^ (n - 1 - i)) mod c`: the arithmetic in
`unsigned int` does not wrap around, and reducing modulo `c` at every step gives the exact
polynomial reduced once at the end. -/
theorem C24_hash_is_polynomial (t : hashTable) (hc : t.capacity ∈ primeNumbers)
    (hle : t.capacity ≤ 100663319) (key : Key) :
    t.hash key = polynomial key % t.capacity ∧ t.hash key < t.capacity := by
  have hpos := primeNumbers_pos _ hc
  have h := hashTable.hash_eq_polynomial t hpos (by omega) key
  exact ⟨h, by rw [h]; exact Nat.mod_lt _ hpos⟩

/-- Witness of C24: the key `"ab"` in `hashTable(0)`, of capacity `53`:
`(97 * 37 + 98) mod 53 = 30`. -/
theorem C24_witness :
    (hashTable.init 0).capacity ∈ primeNumbers ∧ (hashTable.init 0).capacity ≤ 100663319 ∧
    polynomial [97, 98] = 97 * 37 + 98 ∧
    (hashTable.init 0).hash [97, 98] = polynomial [97, 98] % (hashTable.init 0).capacity :=
  ⟨by decide, by decide, by decide,
    (C24_hash_is_polynomial (hashTable.init 0) (by decide) (by decide) [97, 98]).1⟩

end ECE365

namespace ECE365

open Merge

/-- C28: for all strings `A` and `B` of at most `1000` characters and every string `C`,
`isValidMerge(A, B, C, merged)` returns (with fuel for the recursion of depth
`|A| + |B| + 1`), and it returns `true` if and only if `C` is an interleaving of `A` and
`B`: there is a marking of the positions of `C` such that the positions marked `true` spell
`A` and the other positions spell `B`. -/
theorem C28_isValidMerge_iff_interleaving (A B C merged : Key) (hA : A.length ≤ 1000)
    (hB : B.length ≤ 1000) (fuel : Nat) (hfuel : A.length + B.length < fuel) :
    ∃ r m, isValidMerge A B C merged fuel = some (r, m) ∧
      (r = true ↔ ∃ sel, IsInterleaving sel A B C) := by
  unfold isValidMerge
  rcases isValidMergeTaken_spec A B C merged hA hB fuel hfuel with
    ⟨⟨sel0, h0⟩, hlen, sel, e, _⟩ | ⟨hno, e⟩
  · rw [e]
    exact ⟨true, _, rfl, fun _ => ⟨sel0, (validPath_zero hlen sel0).1 h0⟩, fun _ => rfl⟩
  · rw [e]
    exact ⟨false, _, rfl, fun h => absurd h (by decide), fun h => absurd h hno⟩

/-- Witness of C28: `"acbd"` is an interleaving of `"ab"` and `"cd"`. -/
theorem C28_witness :
    ([97, 98] : Key).length ≤ 1000 ∧ ([99, 100] : Key).length ≤ 1000 ∧
    isValidMerge [97, 98] [99, 100] [97, 99, 98, 100] [] 5 = some (true, [65, 99, 66, 100]) ∧
    ∃ r m, isValidMerge [97, 98] [99, 100] [97, 99, 98, 100] [] 5 = some (r, m) ∧
      (r = true ↔ ∃ sel, IsInterleaving sel [97, 98] [99, 100] [97, 99, 98, 100]) :=
  ⟨by decide, by decide, by decide,
    C28_isValidMerge_iff_interleaving [97, 98] [99, 100] [97, 99, 98, 100] [] (by decide)
      (by decide) 5 (by decide)⟩

/-- C29: for all strings `A` and `B` of at most `1000` characters and every interleaving
`C` of `A` and `B`, `isValidMerge` returns `true` with a string `merged` of length `|C|`; the
marking `taken` of the positions whose character the loop took from `A` is an interleaving
of `A` and `B` into `C`, it has `|A|` positions `p_1 < ... < p_|A|`, `merged` has `toupper`
of the characters of `A` at these positions and the characters of `B` at the other
positions, and for every interleaving of `A` and `B` into `C` with `A`-positions
`q_1 < ... < q_|A|`, `p_k ≤ q_k` for every `k`. -/
theorem C29_merged_takes_A_earliest (A B C merged : Key) (hA : A.length ≤ 1000)
    (hB : B.length ≤ 1000) (fuel : Nat) (hfuel : A.length + B.length < fuel)
    (hC : ∃ sel, IsInterleaving sel A B C) :
    ∃ m taken, isValidMergeTaken A B C merged fuel = some (true, m, taken) ∧
      isValidMerge A B C merged fuel = some (true, m) ∧
      m.length = C.length ∧
      IsInterleaving taken A B C ∧
      (positions taken).length = A.length ∧
      (positions taken).Pairwise (fun p q => p < q) ∧
      (∀ p, p ∈ positions taken ↔ taken[p]? = some true) ∧
      pick true taken m = A.map toupper ∧
      pick false taken m = B ∧
      ∀ sel, IsInterleaving sel A B C → ∀ (k p q : Nat), (positions taken)[k]? = some p →
        (positions sel)[k]? = some q → p ≤ q := by
  rcases isValidMergeTaken_spec A B C merged hA hB fuel hfuel with
    ⟨_, hlen, sel, e, hg⟩ | ⟨hno, _⟩
  swap
  · exact absurd hC hno
  have hv := GreedyPath.greedy_valid _ _ _ hg
  have hI := (validPath_zero hlen sel).1 hv
  refine ⟨decorate sel C, sel, e, ?_, decorate_length sel C hI.1, hI, ?_,
    positionsFrom_sorted sel 0, ?_, ?_, ?_, ?_⟩
  · unfold isValidMerge; rw [e]; rfl
  · have := ValidPath.positions_length sel 0 0 0 hv
    simpa using this
  · intro p
    have := mem_positionsFrom sel 0 p
    simpa using this
  · rw [pick_true_decorate, hI.2.1]
  · rw [pick_false_decorate, hI.2.2]
  · intro sel2 h2 k p q hp hq
    exact GreedyPath.earliest sel sel2 0 0 0 0 0 hg ((validPath_zero hlen sel2).2 h2) rfl
      (le_refl _) k p q (Nat.zero_le _) hp hq

/-- Witness of C29: `"abab"` is an interleaving of `"ab"` and `"ab"` in several ways, and
`merged` is `"ABab"`: the characters of `A` are taken at the positions `0` and `1`. -/
theorem C29_witness :
    ([97, 98] : Key).length ≤ 1000 ∧
    IsInterleaving [false, false, true, true] [97, 98] [97, 98] [97, 98, 97, 98] ∧
    isValidMergeTaken [97, 98] [97, 98] [97, 98, 97, 98] [] 5 =
      some (true, [65, 66, 97, 98], [true, true, false, false]) ∧
    ∃ m taken, isValidMergeTaken [97, 98] [97, 98] [97, 98, 97, 98] [] 5 =
        some (true, m, taken) ∧
      isValidMerge [97, 98] [97, 98] [97, 98, 97, 98] [] 5 = some (true, m) ∧
      m.length = ([97, 98, 97, 98] : Key).length ∧
      IsInterleaving taken [97, 98] [97, 98] [97, 98, 97, 98] ∧
      (positions taken).length = ([97, 98] : Key).length ∧
      (positions taken).Pairwise (fun p q => p < q) ∧
      (∀ p, p ∈ positions taken ↔ taken[p]? = some true) ∧
      pick true taken m = ([97, 98] : Key).map toupper ∧
      pick false taken m = [97, 98] ∧
      ∀ sel, IsInterleaving sel [97, 98] [97, 98] [97, 98, 97, 98] → ∀ (k p q : Nat),
        (positions taken)[k]? = some p → (positions sel)[k]? = some q → p ≤ q :=
  ⟨by decide, by decide, by decide,
    C29_merged_takes_A_earliest [97, 98] [97, 98] [97, 98, 97, 98] [] (by decide) (by decide)
      5 (by decide) ⟨[false, false, true, true], by decide⟩⟩

end ECE365

namespace ECE365

/-- C25 (the code at the failing input): in the graph stored after the `805306372` lines
`longLines 805306370` went through `insertEdge` in order, `vertexList` holds the name
`nameOf 805306370` at two positions `i < j`: the hash table of the graph is full when the
name first occurs, `getOrCreateVertex` ignores the result of `vertices.insert`, and the next
occurrence of the name creates a second vertex. -/
theorem C25_name_stored_twice :
    ∃ i j, i < j ∧ j < (Graph.build (longLines 805306370)).vertexList.length ∧
      (Graph.vertex (Graph.build (longLines 805306370)).vertexList i).id = nameOf 805306370 ∧
      (Graph.vertex (Graph.build (longLines 805306370)).vertexList j).id = nameOf 805306370 :=
  Graph.longLines_duplicate 805306370 rfl

/-- C26 (the code at the failing input): the lines `longLines 805306370` hold the triple
with the source `nameOf 805306370`, the destination `nameOf 805306371` and the weight `1`,
and in the graph stored after they went through `insertEdge` in order a vertex `u` with the
name `nameOf 805306370` has an empty adjacency list: the edge of the triple is stored at a
second vertex of the same name. -/
theorem C26_source_without_edge :
    ({ sourceId := nameOf 805306370, destId := nameOf (805306370 + 1), weight := 1 } : Triple) ∈
      longLines 805306370 ∧
    ∃ u, u < (Graph.build (longLines 805306370)).vertexList.length ∧
      (Graph.vertex (Graph.build (longLines 805306370)).vertexList u).id = nameOf 805306370 ∧
      (Graph.vertex (Graph.build (longLines 805306370)).vertexList u).adjList = [] :=
  Graph.longLines_lost_edge 805306370 rfl

/-- Counterexample of C27: on the graph built from the `805306373` lines
`starLines 805306370`, which has `805306373` vertices, `dijkstra` from the valid start
vertex `nameOf 0` returns, and a call of `insert` (for the vertex `2`) of the run returned
`3`: the hash table of the heap took no new key. -/
theorem C27_counterexample :
    (Graph.build (starLines 805306370)).isValidVertex (nameOf 0) = true ∧
    ∃ g log, (Graph.build (starLines 805306370)).dijkstraLog (nameOf 0) 805306375 =
        some (g, log) ∧
      Event.insert 2 3 ∈ log ∧
      ¬ ∀ v status, Event.insert v status ∈ log → status = 0 ∨ status = 2 := by
  obtain ⟨hv, g, log, pre, post, h1, _, h3⟩ :=
    Graph.starLines_log 805306370 (by decide) (by decide) (by decide) 805306375 (by decide)
  have hm : Event.insert 2 3 ∈ log := by rw [h3]; simp
  refine ⟨hv, g, log, h1, hm, fun h => ?_⟩
  rcases h 2 3 hm with h | h <;> exact absurd h (by decide)

/-- C27 (amended): for every graph built by `insertEdge` from lines with at most `805306370`
distinct names and every start vertex of the graph, `dijkstra` returns (with more fuel than
lines plus one), every call of `insert` on the heap during the run returns `0` or `2`, and
no vertex taken from the heap is skipped. -/
theorem C27_insert_returns_0_or_2 (lines : List Triple) (start : Key)
    (hroom : ∀ ns : List Key, ns.Nodup → (∀ a, a ∈ ns → IsName lines a) →
      ns.length ≤ 805306370)
    (hstart : (Graph.build lines).isValidVertex start = true)
    (fuel : Nat) (hfuel : lines.length + 1 < fuel) :
    ∃ g log, (Graph.build lines).dijkstraLog start fuel = some (g, log) ∧
      (Graph.build lines).dijkstra start fuel = some g ∧
      (∀ v status, Event.insert v status ∈ log → status = 0 ∨ status = 2) ∧
      ∀ u, Event.skip u ∉ log := by
  obtain ⟨g, log, h1, h2, h3⟩ := Graph.dijkstraLog_built lines start hroom hstart fuel hfuel
  exact ⟨g, log, h1, h2, fun v status hm => h3.insert_status hm, h3.no_skip⟩

/-- Witness of C27: the lines `a b 1`, `b c 1`, `a c 5` and the start vertex `a`; the
vertex of `c` is relaxed twice, and the calls of `insert` return `0`, `0`, `0` and `2`. -/
theorem C27_witness :
    (Graph.build [⟨[97], [98], 1⟩, ⟨[98], [99], 1⟩, ⟨[97], [99], 5⟩]).isValidVertex [97] = true ∧
    ((Graph.build [⟨[97], [98], 1⟩, ⟨[98], [99], 1⟩, ⟨[97], [99], 5⟩]).dijkstraLog [97] 5).map
        Prod.snd =
      some [Event.insert 0 0, Event.insert 1 0, Event.insert 2 0, Event.insert 2 2] ∧
    ∃ g log, (Graph.build [⟨[97], [98], 1⟩, ⟨[98], [99], 1⟩, ⟨[97], [99], 5⟩]).dijkstraLog
        [97] 5 = some (g, log) ∧
      (Graph.build [⟨[97], [98], 1⟩, ⟨[98], [99], 1⟩, ⟨[97], [99], 5⟩]).dijkstra [97] 5 =
        some g ∧
      (∀ v status, Event.insert v status ∈ log → status = 0 ∨ status = 2) ∧
      ∀ u, Event.skip u ∉ log :=
  ⟨by decide, by decide,
    C27_insert_returns_0_or_2 [⟨[97], [98], 1⟩, ⟨[98], [99], 1⟩, ⟨[97], [99], 5⟩] [97]
      (fun ns hnd hns => le_trans (Graph.names_le_lines _ ns hnd hns) (by decide))
      (by decide) 5 (by decide)⟩

/-- C30: there are a graph and a start vertex for which `dijkstra` takes a vertex that is
already known from the heap and skips it. On the graph built from the lines
`starLines 805306370`, from the valid start vertex `nameOf 0`, `dijkstra` returns, and the
record of the run holds two calls of `insert` for the vertex `2` (the vertex is relaxed
twice, and each call returned `3` and left an entry of the vertex in the heap) followed by
the skip of the vertex `2`. -/
theorem C30_skip_branch_is_taken :
    (Graph.build (starLines 805306370)).isValidVertex (nameOf 0) = true ∧
    ∃ g log pre post,
      (Graph.build (starLines 805306370)).dijkstraLog (nameOf 0) 805306375 = some (g, log) ∧
      (Graph.build (starLines 805306370)).dijkstra (nameOf 0) 805306375 = some g ∧
      log = pre ++ [Event.insert 2 3, Event.insert 2 3, Event.skip 2] ++ post :=
  Graph.starLines_log 805306370 (by decide) (by decide) (by decide) 805306375 (by decide)

end ECE365

namespace ECE365

/-- C31: for every table `t` reached from `hashTable(size)` by `insert`, `setPointer` and
`remove` calls on which `rehash` returns `true`: for every key `k`, `contains(k)` and
`getPointer(k)` give the same result on the table after the rehash as on `t`, no slot of the
new storage is marked deleted, and `filled` is the number of live items of the new table,
which is the number of live items of `t`. -/
theorem C31_rehash_keeps_live_pairs (size : Int) (cs : List TableCall) (t : hashTable)
    (ht : t = runCalls (hashTable.init size) cs) (hok : (t.rehash).2 = true) :
    (∀ k, (t.rehash).1.contains k = t.contains k ∧
      (t.rehash).1.getPointer k = t.getPointer k) ∧
    (∀ i, ((t.rehash).1.slot i).isDeleted = false) ∧
    (t.rehash).1.filled = (t.rehash).1.liveCount ∧
    (t.rehash).1.liveCount = t.liveCount := by
  have hP : t.PInv := by rw [ht]; exact runCalls_pinv cs _ (hashTable.init_pinv size)
  obtain ⟨_, _, _, _, r5, r6⟩ := hashTable.rehash_spec hP.inv hok
  obtain ⟨l1, l2⟩ := hashTable.rehash_live hP.inv hok
  refine ⟨fun k => ⟨?_, ?_⟩, r6, l1, l2⟩
  · rw [hashTable.contains_eq_lookup, hashTable.contains_eq_lookup, r5]
  · rw [hashTable.getPointer_eq_lookup, hashTable.getPointer_eq_lookup, r5]

/-- Witness of C31: the table after `insert("a", 1)`, `insert("b", 2)`, `remove("a")` on
`hashTable(0)`, with `filled = 2` and one live item; `rehash` returns `true`, the new table
has the capacity `193` and `filled = 1`, and it holds `"b"` with the value `2` and not
`"a"`. -/
theorem C31_witness :
    ((runCalls (hashTable.init 0) [TableCall.insert [97] (some 1),
      TableCall.insert [98] (some 2), TableCall.remove [97]]).rehash).2 = true ∧
    (runCalls (hashTable.init 0) [TableCall.insert [97] (some 1),
      TableCall.insert [98] (some 2), TableCall.remove [97]]).filled = 2 ∧
    ((runCalls (hashTable.init 0) [TableCall.insert [97] (some 1),
      TableCall.insert [98] (some 2), TableCall.remove [97]]).rehash).1.capacity = 193 ∧
    ((runCalls (hashTable.init 0) [TableCall.insert [97] (some 1),
      TableCall.insert [98] (some 2), TableCall.remove [97]]).rehash).1.filled = 1 ∧
    ((runCalls (hashTable.init 0) [TableCall.insert [97] (some 1),
      TableCall.insert [98] (some 2), TableCall.remove [97]]).rehash).1.getPointer [98] =
        (some 2, true) ∧
    ((runCalls (hashTable.init 0) [TableCall.insert [97] (some 1),
      TableCall.insert [98] (some 2), TableCall.remove [97]]).rehash).1.contains [97] = false ∧
    ((runCalls (hashTable.init 0) [TableCall.insert [97] (some 1),
      TableCall.insert [98] (some 2), TableCall.remove [97]]).rehash).1.filled =
      ((runCalls (hashTable.init 0) [TableCall.insert [97] (some 1),
        TableCall.insert [98] (some 2), TableCall.remove [97]]).rehash).1.liveCount :=
  ⟨by decide, by decide, by decide, by decide, by decide, by decide,
    (C31_rehash_keeps_live_pairs 0 [TableCall.insert [97] (some 1),
      TableCall.insert [98] (some 2), TableCall.remove [97]] _ rfl (by decide)).2.2.1⟩

/-- Counterexample to C32 as stated: in the table after `insert("a")` and `remove("a")` on
`hashTable(0)`, the key of the single byte `150` is absent and has the hash index `44` of
`"a"`, no rehash is due, and the probe of `insert` goes through the deleted slot `44` and
reaches the free slot `45` without a full cycle; yet the key is stored in the deleted slot
`44`, and the slot `45` stays free. -/
theorem C32_counterexample :
    (runCalls (hashTable.init 0) [TableCall.insert [97] none, TableCall.remove [97]]).contains
      [150] = false ∧
    (runCalls (hashTable.init 0) [TableCall.insert [97] none,
      TableCall.remove [97]]).afterRehashCheck =
      runCalls (hashTable.init 0) [TableCall.insert [97] none, TableCall.remove [97]] ∧
    (runCalls (hashTable.init 0) [TableCall.insert [97] none, TableCall.remove [97]]).hash
      [150] = 44 ∧
    ((runCalls (hashTable.init 0) [TableCall.insert [97] none, TableCall.remove [97]]).slot
      44).isDeleted = true ∧
    ((runCalls (hashTable.init 0) [TableCall.insert [97] none, TableCall.remove [97]]).slot
      45).isOccupied = false ∧
    (runCalls (hashTable.init 0) [TableCall.insert [97] none, TableCall.remove [97]]).probeLoop
      [150] 53 44 none = (45, some 44) ∧
    ((runCalls (hashTable.init 0) [TableCall.insert [97] none, TableCall.remove [97]]).insert
      [150] (some 7) false).2 = 0 ∧
    ((runCalls (hashTable.init 0) [TableCall.insert [97] none, TableCall.remove [97]]).insert
      [150] (some 7) false).1.slot 44 =
      { key := [150], isOccupied := true, isDeleted := false, pv := some 7 } ∧
    (((runCalls (hashTable.init 0) [TableCall.insert [97] none, TableCall.remove [97]]).insert
      [150] (some 7) false).1.slot 45).isOccupied = false := by
  refine ⟨by decide, by decide, by decide, by decide, by decide, by decide, by decide,
    by decide, by decide⟩

/-- C32, amended: for every table `t` reached from `hashTable(size)` by `insert`,
`setPointer` and `remove` calls and every key for which `insert(key, pv)` returns `0` (the
key is absent and the rehash check does not fail), the entry is written into the table `u`
after the rehash check at the index `insertIndex`. The probe from `hash(key)` on `u` reaches
a slot that is not occupied after `d < capacity` steps, through occupied slots only (no full
cycle). If none of the slots it went through is deleted, the entry is stored in that free
slot; otherwise it is stored in the first deleted slot that the probe went through. -/
theorem C32_insert_slot (size : Int) (cs : List TableCall) (t u : hashTable)
    (ht : t = runCalls (hashTable.init size) cs) (hu : u = t.afterRehashCheck)
    (key : Key) (pv : Ptr) (h0 : (t.insert key pv false).2 = 0) :
    t.contains key = false ∧
    (t.insert key pv false).1.data = u.data.set (u.insertIndex key)
      { key := key, isOccupied := true, isDeleted := false, pv := pv } ∧
    ∃ d, d < u.capacity ∧
      (u.slot ((u.hash key + d) % u.capacity)).isOccupied = false ∧
      (∀ e, e < d → (u.slot ((u.hash key + e) % u.capacity)).isOccupied = true) ∧
      ((∀ e, e < d → (u.slot ((u.hash key + e) % u.capacity)).isDeleted = false) →
        u.insertIndex key = (u.hash key + d) % u.capacity) ∧
      (∀ e, e < d → (u.slot ((u.hash key + e) % u.capacity)).isDeleted = true →
        (∀ e', e' < e → (u.slot ((u.hash key + e') % u.capacity)).isDeleted = false) →
        u.insertIndex key = (u.hash key + e) % u.capacity) := by
  have hP : t.PInv := by rw [ht]; exact runCalls_pinv cs _ (hashTable.init_pinv size)
  obtain ⟨e1, e2, e3⟩ := hashTable.insert_eq_place hP key pv h0
  rw [← hu] at e1 e2 e3
  obtain ⟨d, d1, d2, d3, _, d5, d6⟩ := hashTable.insertIndex_first e2 e3 key
  refine ⟨?_, by rw [e1]; rfl, d, d1, d2, d3, d5, d6⟩
  cases hc : t.contains key with
  | false => rfl
  | true =>
    have := (hashTable.insert_eq_one_iff t key pv false).2 hc
    rw [this] at h0
    exact absurd h0 (by decide)

/-- Witness of C32: the table after `insert("a")` and `remove("a")` on `hashTable(0)` and
the key of the single byte `150`; the entry is stored at the index `44`. -/
theorem C32_witness :
    ((runCalls (hashTable.init 0) [TableCall.insert [97] none, TableCall.remove [97]]).insert
      [150] (some 7) false).2 = 0 ∧
    (runCalls (hashTable.init 0) [TableCall.insert [97] none,
      TableCall.remove [97]]).afterRehashCheck.insertIndex [150] = 44 ∧
    ((runCalls (hashTable.init 0) [TableCall.insert [97] none, TableCall.remove [97]]).insert
      [150] (some 7) false).1.data =
      (runCalls (hashTable.init 0) [TableCall.insert [97] none,
        TableCall.remove [97]]).afterRehashCheck.data.set
        ((runCalls (hashTable.init 0) [TableCall.insert [97] none,
          TableCall.remove [97]]).afterRehashCheck.insertIndex [150])
        { key := [150], isOccupied := true, isDeleted := false, pv := some 7 } :=
  ⟨by decide, by decide,
    (C32_insert_slot 0 [TableCall.insert [97] none, TableCall.remove [97]] _ _ rfl rfl
      [150] (some 7) (by decide)).2.1⟩

/-- C33 (the code at the failing input): after `insert("a")` and `remove("a")` on
`hashTable(0)`, both of which succeed, the field `filled` is `1`, while the number of slots
that are occupied and not deleted is `0`: `remove` marked the slot `44` deleted and left
`filled` as it was. -/
theorem C33_filled_counts_deleted_slot :
    ((hashTable.init 0).insert [97] none false).2 = 0 ∧
    ((runCalls (hashTable.init 0) [TableCall.insert [97] none]).remove [97]).2 = true ∧
    (runCalls (hashTable.init 0) [TableCall.insert [97] none]).filled = 1 ∧
    (runCalls (hashTable.init 0) [TableCall.insert [97] none]).liveCount = 1 ∧
    (runCalls (hashTable.init 0) [TableCall.insert [97] none, TableCall.remove [97]]).filled
      = 1 ∧
    (runCalls (hashTable.init 0) [TableCall.insert [97] none, TableCall.remove [97]]).liveCount
      = 0 ∧
    ((runCalls (hashTable.init 0) [TableCall.insert [97] none, TableCall.remove [97]]).slot
      44).isDeleted = true := by
  refine ⟨by decide, by decide, by decide, by decide, by decide, by decide, by decide⟩

/-- C34: on every graph that the constructor builds (any lines, any integer weights,
self-loops and cycles included) and for every start vertex of the graph, `dijkstra` returns
(with more fuel than lines plus one), and afterwards the start vertex has no predecessor,
the chain of `previous` pointers from every vertex holds no vertex twice and ends at a
vertex whose `previous` is the null pointer, and `formatPath(v)` returns for every vertex
`v` (with fuel for as many iterations as there are vertices). -/
theorem C34_previous_chains_end (lines : List Triple) (start : Key)
    (hstart : (Graph.build lines).isValidVertex start = true) (fuel : Nat)
    (hfuel : lines.length + 1 < fuel) :
    ∃ g, (Graph.build lines).dijkstra start fuel = some g ∧
      (Graph.build lines).indexOf start < g.vertexList.length ∧
      (Graph.vertex g.vertexList ((Graph.build lines).indexOf start)).id = start ∧
      (Graph.vertex g.vertexList ((Graph.build lines).indexOf start)).previous = none ∧
      ∀ v, (∃ p, Graph.PrevChain g.vertexList v p ∧ p.Nodup ∧
          ∃ z, p.getLast? = some z ∧ (Graph.vertex g.vertexList z).previous = none) ∧
        ∀ pfuel, g.vertexList.length ≤ pfuel →
          ∃ path, Graph.formatPath g.vertexList v pfuel = some path :=
  Graph.dijkstra_chains lines start hstart fuel hfuel

/-- Witness of C34: the lines `a b -1`, `b a -1`, `a a 0` (a cycle of negative weight and a
self-loop of weight zero) and the start vertex `a`. -/
theorem C34_witness :
    (Graph.build [⟨[97], [98], -1⟩, ⟨[98], [97], -1⟩, ⟨[97], [97], 0⟩]).isValidVertex [97]
      = true ∧
    ∃ g, (Graph.build [⟨[97], [98], -1⟩, ⟨[98], [97], -1⟩, ⟨[97], [97], 0⟩]).dijkstra
        [97] 5 = some g ∧
      (Graph.vertex g.vertexList ((Graph.build [⟨[97], [98], -1⟩, ⟨[98], [97], -1⟩,
        ⟨[97], [97], 0⟩]).indexOf [97])).previous = none ∧
      ∀ v, ∃ p, Graph.PrevChain g.vertexList v p := by
  refine ⟨by decide, ?_⟩
  obtain ⟨g, h1, _, _, h4, h5⟩ :=
    C34_previous_chains_end [⟨[97], [98], -1⟩, ⟨[98], [97], -1⟩, ⟨[97], [97], 0⟩] [97]
      (by decide) 5 (by decide)
  exact ⟨g, h1, h4, fun v => (h5 v).1.imp (fun p hp => hp.1)⟩

/-- C35: for every table `t` reached from `hashTable(size)` by `insert`, `setPointer` and
`remove` calls and every key: the capacity is positive and is the size of `data`, the hash
of the key is below the capacity, and the probe of `findPos` reads and returns indices of
`data` only. When `insert(key, pv)` returns `0`, its probe runs on the table after the
rehash check, reads and writes at indices of `data` only, is not left by the `break` after
a full cycle, and stops at a slot that is neither occupied nor deleted. The same holds of
the calls `insert(k, pv, true)` that a successful `rehash` makes on the new table. -/
theorem C35_probes_stay_in_range (size : Int) (cs : List TableCall) (t : hashTable)
    (ht : t = runCalls (hashTable.init size) cs) (key : Key) (pv : Ptr) :
    0 < t.capacity ∧ t.capacity = t.data.length ∧ t.hash key < t.capacity ∧
    t.SafeFind key ∧
    ((t.insert key pv false).2 = 0 →
      (t.insert key pv false).1 = t.afterRehashCheck.place key pv ∧
      t.afterRehashCheck.capacity = t.afterRehashCheck.data.length ∧
      t.afterRehashCheck.SafeProbe key) ∧
    ((t.rehash).2 = true →
      t.rehashState t.data.length = (t.rehash).1 ∧
      ∀ n k, (t.rehashState n).capacity = (t.rehashState n).data.length ∧
        (t.rehashState n).SafeFind k ∧ (t.rehashState n).SafeProbe k) := by
  have hP : t.PInv := by rw [ht]; exact runCalls_pinv cs _ (hashTable.init_pinv size)
  refine ⟨hP.inv.cap_pos, hP.inv.size.symm, hashTable.hash_lt t hP.inv.cap_pos key,
    hashTable.safeFind_of_inv hP.inv key, ?_, ?_⟩
  · intro h0
    obtain ⟨e1, e2, e3⟩ := hashTable.insert_eq_place hP key pv h0
    exact ⟨e1, e2.size.symm, hashTable.safeProbe_of_inv e2 e3 key⟩
  · intro hok
    refine ⟨hashTable.rehashState_length hok, fun n k => ?_⟩
    obtain ⟨r1, r2⟩ := hashTable.rehashState_inv hP.inv hok n
    exact ⟨r1.size.symm, hashTable.safeFind_of_inv r1 k, hashTable.safeProbe_of_inv r1 r2 k⟩

/-- Witness of C35: the table after `insert("a")` and `remove("a")` on `hashTable(0)` and
the key of the single byte `150`: the probe of `insert` reads the indices `44` and `45` and
is not left by its `break`. -/
theorem C35_witness :
    (runCalls (hashTable.init 0) [TableCall.insert [97] none, TableCall.remove [97]]).probeLog
      [150] 53 44 none = ((45, some 44), [44, 45], false) ∧
    (runCalls (hashTable.init 0) [TableCall.insert [97] none, TableCall.remove [97]]).SafeFind
      [150] :=
  ⟨by decide,
    (C35_probes_stay_in_range 0 [TableCall.insert [97] none, TableCall.remove [97]] _ rfl
      [150] none).2.2.2.1⟩

end ECE365

